import Mathlib

/-! # ikd-Tree (Qt port): shallow embedding of `ikd_Tree_qt.hpp`

The incremental k-d tree of `KD_TREE<PointType>` is embedded as pure functions on an
inductive tree.  Conventions of the embedding:

* `double` coordinates are elements of an arbitrary linearly ordered field `K`
  (exact arithmetic; concrete runs use `ℚ`).  The two places where the source uses
  `±infinity` are modelled with `Option` (`none` is the infinite value).
* The quotients of `criterionCheck` and of the voxel computation of `addPoints`, whose
  rounding decides a branch, are not computed in `K`: the division of two `double` values is
  a parameter (`Env.fdiv`), and so is the conversion `qFloor` (`Env.qFloor`).  The square
  root `qSqrt` is a parameter of `searchByRadius`.
* `int` counters are `Int`.  The capacity `2 * kNearest` of the heap of `nearestSearch` is
  reduced to 32 bits (`heapCapacity`).
* A node pointer is a value of `KD_TREE_NODE`; `nullptr` is `KD_TREE_NODE.nil`.  Functions
  that mutate the tree in place return the new tree.
* `m_rebuildPtr` is never assigned a non-null value anywhere in the source, so every
  `m_rebuildPtr == nullptr || ...` test takes its first branch; the locking branches, the
  operation log and `working_flag`, `father_ptr`, `push_down_mutex`, `alpha_del`,
  `alpha_bal` (which no operation modelled here reads) are left out of the tree
  operations.  The queue `MANUAL_Q` of the operation log, `runOperation` and the block of
  `update` that writes `alpha_del` and `alpha_bal` are embedded on their own.
* In `search` the call `pushDown(root)` stands behind `pushLocker.mutex()->tryLock()`, where
  `pushLocker` is a `QMutexLocker` that holds `push_down_mutex` already; the mutex is not
  recursive, so `tryLock` fails and the call is never made.  `search` therefore reads the
  fields as they are stored and leaves the tree as it is.
* Recursive descents take a `fuel` argument bounding the recursion depth; the public
  operations supply the height of the tree, which is always enough.
* `std::nth_element` is a parameter (`Env.nth_element`).
-/

namespace IkdTree

/-! ## Data model -/

/-- The point type `ikdTree_PointType<int>`: three coordinates and a payload. -/
structure PointType (K : Type) where
  x : K
  y : K
  z : K
  data : Int
deriving DecidableEq

/-- The axis-aligned box `BoxPointType`: `vertex_min[3]` and `vertex_max[3]`. -/
structure BoxPointType (K : Type) where
  vertex_min : K × K × K
  vertex_max : K × K × K
deriving DecidableEq

/-- The data members of `KD_TREE_NODE` other than the son pointers. -/
structure NodeFields (K : Type) where
  point : PointType K
  division_axis : Nat
  TreeSize : Int
  invalid_point_num : Int
  down_del_num : Int
  point_deleted : Bool
  tree_deleted : Bool
  point_downsample_deleted : Bool
  tree_downsample_deleted : Bool
  need_push_down_to_left : Bool
  need_push_down_to_right : Bool
  radius_sq : K
  node_range_x : K × K
  node_range_y : K × K
  node_range_z : K × K
deriving DecidableEq

/-- A (possibly null) pointer to a `KD_TREE_NODE` together with the subtree it owns. -/
inductive KD_TREE_NODE (K : Type) where
  | nil : KD_TREE_NODE K
  | node (d : NodeFields K) (left_son_ptr right_son_ptr : KD_TREE_NODE K) : KD_TREE_NODE K
deriving DecidableEq

/-- The entry type `PointType_CMP` of the k-nearest-neighbour heap. -/
structure PointType_CMP (K : Type) where
  point : PointType K
  dist : K
deriving DecidableEq

/-- The bounded heap `MANUAL_HEAP`: `m_heap` lists the first `m_heapSize` slots of the
backing vector, so `m_heapSize` is its length. -/
structure MANUAL_HEAP (K : Type) where
  m_cap : Nat
  m_heap : List (PointType_CMP K)

/-- The members of `KD_TREE` that the operations read, and the routines they call:
`nth_element` is `std::nth_element`, `fdiv` is the operator `/` on two `double` values (the
quotient as the machine rounds it), and `qFloor` is the conversion `qFloor` of a `double` to
an `int`. -/
structure Env (K : Type) where
  m_deleteCriterionParam : K
  m_balanceCriterionParam : K
  m_downsampleSize : K
  nth_element : (PointType K → PointType K → Bool) → Nat → List (PointType K) → List (PointType K)
  fdiv : K → K → K
  qFloor : K → Int

variable {K : Type} [LinearOrderedField K]

/-- The macro `EPSS`, `1e-6`. -/
def EPSS : K := 1 / 1000000

/-- The macro `Minimal_Unbalanced_Tree_Size`. -/
def Minimal_Unbalanced_Tree_Size : Int := 10

namespace KD_TREE_NODE

/-- Test `ptr == nullptr`. -/
def isNull : KD_TREE_NODE K → Bool
  | nil => true
  | node _ _ _ => false

/-- The fields behind a non-null pointer. -/
def fields? : KD_TREE_NODE K → Option (NodeFields K)
  | nil => none
  | node d _ _ => some d

/-- Longest root-to-null path; the recursion depth of every descent. -/
def height : KD_TREE_NODE K → Nat
  | nil => 0
  | node _ l r => max l.height r.height + 1

end KD_TREE_NODE

open KD_TREE_NODE

/-! ## Geometry helpers -/

/-- Squared Euclidean distance, `calcDist`. -/
def calcDist (a b : PointType K) : K :=
  (a.x - b.x) * (a.x - b.x) + (a.y - b.y) * (a.y - b.y) + (a.z - b.z) * (a.z - b.z)

/-- Coordinate equality within `EPSS`, `samePoint`. -/
def samePoint (a b : PointType K) : Bool :=
  decide (|a.x - b.x| < EPSS) && decide (|a.y - b.y| < EPSS) && decide (|a.z - b.z| < EPSS)

/-- The comparators `pointCmpX`, `pointCmpY`, `pointCmpZ`. -/
def pointCmpX (a b : PointType K) : Bool := decide (a.x < b.x)

/-- See `pointCmpX`. -/
def pointCmpY (a b : PointType K) : Bool := decide (a.y < b.y)

/-- See `pointCmpX`. -/
def pointCmpZ (a b : PointType K) : Bool := decide (a.z < b.z)

/-- The point test shared by the range operations:
`vertex_min[i] <= p[i] && vertex_max[i] > p[i]` on the three axes. -/
def pointInBox (b : BoxPointType K) (p : PointType K) : Bool :=
  decide (b.vertex_min.1 ≤ p.x) && decide (b.vertex_max.1 > p.x) &&
  decide (b.vertex_min.2.1 ≤ p.y) && decide (b.vertex_max.2.1 > p.y) &&
  decide (b.vertex_min.2.2 ≤ p.z) && decide (b.vertex_max.2.2 > p.z)

/-- The three early-return tests of the range operations: the box misses the node range. -/
def boxMisses (b : BoxPointType K) (d : NodeFields K) : Bool :=
  (decide (b.vertex_max.1 ≤ d.node_range_x.1) || decide (b.vertex_min.1 > d.node_range_x.2)) ||
  (decide (b.vertex_max.2.1 ≤ d.node_range_y.1) || decide (b.vertex_min.2.1 > d.node_range_y.2)) ||
  (decide (b.vertex_max.2.2 ≤ d.node_range_z.1) || decide (b.vertex_min.2.2 > d.node_range_z.2))

/-- The containment test of the range operations: the box covers the node range. -/
def boxCovers (b : BoxPointType K) (d : NodeFields K) : Bool :=
  decide (b.vertex_min.1 ≤ d.node_range_x.1) && decide (b.vertex_max.1 > d.node_range_x.2) &&
  decide (b.vertex_min.2.1 ≤ d.node_range_y.1) && decide (b.vertex_max.2.1 > d.node_range_y.2) &&
  decide (b.vertex_min.2.2 ≤ d.node_range_z.1) && decide (b.vertex_max.2.2 > d.node_range_z.2)

/-- Squared distance from a point to the node range, `calcBoxDist`; `none` is the
`infinity` returned for a null node. -/
def calcBoxDist (root : KD_TREE_NODE K) (point : PointType K) : Option K :=
  match root with
  | nil => none
  | node d _ _ =>
    let m0 : K := 0
    let m1 := if point.x < d.node_range_x.1 then
      m0 + (point.x - d.node_range_x.1) * (point.x - d.node_range_x.1) else m0
    let m2 := if point.x > d.node_range_x.2 then
      m1 + (point.x - d.node_range_x.2) * (point.x - d.node_range_x.2) else m1
    let m3 := if point.y < d.node_range_y.1 then
      m2 + (point.y - d.node_range_y.1) * (point.y - d.node_range_y.1) else m2
    let m4 := if point.y > d.node_range_y.2 then
      m3 + (point.y - d.node_range_y.2) * (point.y - d.node_range_y.2) else m3
    let m5 := if point.z < d.node_range_z.1 then
      m4 + (point.z - d.node_range_z.1) * (point.z - d.node_range_z.1) else m4
    let m6 := if point.z > d.node_range_z.2 then
      m5 + (point.z - d.node_range_z.2) * (point.z - d.node_range_z.2) else m5
    some m6

/-! ## `initTreeNode`, `pushDown`, `update` -/

/-- The fields written by `initTreeNode` (`radius_sq` and the range are overwritten by
`update` before they are read). -/
def initTreeNode : NodeFields K :=
  { point := ⟨0, 0, 0, 0⟩, division_axis := 0, TreeSize := 0, invalid_point_num := 0,
    down_del_num := 0, point_deleted := false, tree_deleted := false,
    point_downsample_deleted := false, tree_downsample_deleted := false,
    need_push_down_to_left := false, need_push_down_to_right := false, radius_sq := 0,
    node_range_x := (0, 0), node_range_y := (0, 0), node_range_z := (0, 0) }

/-- The assignments `pushDown` makes to the fields `s` of a son of `root`. -/
def pushFields (root s : NodeFields K) : NodeFields K :=
  let tdd := s.tree_downsample_deleted || root.tree_downsample_deleted
  let pdd := s.point_downsample_deleted || root.tree_downsample_deleted
  let td := root.tree_deleted || tdd
  let pd := td || pdd
  let ddn := if root.tree_downsample_deleted then s.TreeSize else s.down_del_num
  let inv := if root.tree_deleted then s.TreeSize else ddn
  { s with
    tree_downsample_deleted := tdd, point_downsample_deleted := pdd, tree_deleted := td,
    point_deleted := pd, down_del_num := ddn, invalid_point_num := inv,
    need_push_down_to_left := true, need_push_down_to_right := true }

/-- One guarded block of `pushDown`: the son after the push when `flag` is raised. -/
def pushSon (flag : Bool) (root : NodeFields K) : KD_TREE_NODE K → KD_TREE_NODE K
  | nil => nil
  | node s l r => if flag then node (pushFields root s) l r else node s l r

/-- The body of `pushDown` on a non-null node: new fields, left son, right son. -/
def pushDownNode (d : NodeFields K) (l r : KD_TREE_NODE K) :
    NodeFields K × KD_TREE_NODE K × KD_TREE_NODE K :=
  let l1 := pushSon d.need_push_down_to_left d l
  let d1 := if d.need_push_down_to_left && !l.isNull then
    { d with need_push_down_to_left := false } else d
  let r1 := pushSon d1.need_push_down_to_right d1 r
  let d2 := if d1.need_push_down_to_right && !r.isNull then
    { d1 with need_push_down_to_right := false } else d1
  (d2, l1, r1)

/-- The operation `pushDown`. -/
def pushDown : KD_TREE_NODE K → KD_TREE_NODE K
  | nil => nil
  | node d l r => node (pushDownNode d l r).1 (pushDownNode d l r).2.1 (pushDownNode d l r).2.2

/-- One `qMin`/`qMax` block of `update` on a `tmpRange` accumulator; `none` is the initial
`{+infinity, -infinity}`. -/
def accRange (acc : Option (K × K)) (active : Bool) (lo hi : K) : Option (K × K) :=
  if active then
    some (match acc with
      | none => (lo, hi)
      | some a => (min a.1 lo, max a.2 hi))
  else acc

/-- The `memcpy` of an accumulator into the node range.  The accumulator is never infinite
there (see `accRange_isSome`); `(0, 0)` stands for the unreachable case. -/
def accGet (acc : Option (K × K)) : K × K := acc.getD (0, 0)

/-- One axis of the range computed by `update`: `full` is the first branch (sons and point
all merged), otherwise only the sons that are not `tree_deleted` and the point if it is not
`point_deleted` are merged.  A son is given as `(tree_deleted, range)`. -/
def updateRange (full : Bool) (ls rs : Option (Bool × (K × K))) (pd : Bool) (c : K) : K × K :=
  match ls, rs with
  | some (ltd, lr), some (rtd, rr) =>
    if full then (min (min lr.1 rr.1) c, max (max lr.2 rr.2) c)
    else accGet (accRange (accRange (accRange none (!ltd) lr.1 lr.2) (!rtd) rr.1 rr.2) (!pd) c c)
  | some (ltd, lr), none =>
    if full then (min lr.1 c, max lr.2 c)
    else accGet (accRange (accRange none (!ltd) lr.1 lr.2) (!pd) c c)
  | none, some (rtd, rr) =>
    if full then (min rr.1 c, max rr.2 c)
    else accGet (accRange (accRange none (!rtd) rr.1 rr.2) (!pd) c c)
  | none, none => (c, c)

/-- The fields `update` stores in `root`, from the fields of its sons (`none` for a null
son). -/
def updateFields (d : NodeFields K) (ls rs : Option (NodeFields K)) : NodeFields K :=
  let b2i : Bool → Int := fun b => if b then 1 else 0
  let size : Int := (ls.elim 0 fun s => s.TreeSize) + (rs.elim 0 fun s => s.TreeSize) + 1
  let inv : Int := (ls.elim 0 fun s => s.invalid_point_num) +
    (rs.elim 0 fun s => s.invalid_point_num) + b2i d.point_deleted
  let dd : Int := (ls.elim 0 fun s => s.down_del_num) +
    (rs.elim 0 fun s => s.down_del_num) + b2i d.point_downsample_deleted
  let tdd := (ls.elim true fun s => s.tree_downsample_deleted) &&
    (rs.elim true fun s => s.tree_downsample_deleted) && d.point_downsample_deleted
  let td := (ls.elim true fun s => s.tree_deleted) &&
    (rs.elim true fun s => s.tree_deleted) && d.point_deleted
  let full := td || ((ls.elim true fun s => !s.tree_deleted) &&
    (rs.elim true fun s => !s.tree_deleted) && !d.point_deleted)
  let rx := updateRange full (ls.map fun s => (s.tree_deleted, s.node_range_x))
    (rs.map fun s => (s.tree_deleted, s.node_range_x)) d.point_deleted d.point.x
  let ry := updateRange full (ls.map fun s => (s.tree_deleted, s.node_range_y))
    (rs.map fun s => (s.tree_deleted, s.node_range_y)) d.point_deleted d.point.y
  let rz := updateRange full (ls.map fun s => (s.tree_deleted, s.node_range_z))
    (rs.map fun s => (s.tree_deleted, s.node_range_z)) d.point_deleted d.point.z
  let xL := (rx.2 - rx.1) * (1 / 2)
  let yL := (ry.2 - ry.1) * (1 / 2)
  let zL := (rz.2 - rz.1) * (1 / 2)
  { d with
    TreeSize := size, invalid_point_num := inv, down_del_num := dd,
    tree_downsample_deleted := tdd, tree_deleted := td,
    node_range_x := rx, node_range_y := ry, node_range_z := rz,
    radius_sq := xL * xL + yL * yL + zL * zL }

/-- The operation `update`. -/
def update : KD_TREE_NODE K → KD_TREE_NODE K
  | nil => nil
  | node d l r => node (updateFields d l.fields? r.fields?) l r

/-! ## `flatten`, `buildTree`, `build` -/

/-- The operation `flatten` with `storageType == NOT_RECORD` (the only storage type passed by
the searches and by `rebuild`): returns the tree after its push-downs and the storage with the
undeleted points appended. -/
def flatten : Nat → KD_TREE_NODE K → List (PointType K) → KD_TREE_NODE K × List (PointType K)
  | _, nil, storage => (nil, storage)
  | 0, node d l r, storage => (node d l r, storage)
  | fuel + 1, node d l r, storage =>
    let pd := pushDownNode d l r
    let st1 := if !pd.1.point_deleted then storage ++ [pd.1.point] else storage
    let fl := flatten fuel pd.2.1 st1
    let fr := flatten fuel pd.2.2 fl.2
    (node pd.1 fl.1 fr.1, fr.2)

/-- The operation `deleteTreeNodes`: every node is freed and the pointer set to null. -/
def deleteTreeNodes : KD_TREE_NODE K → KD_TREE_NODE K
  | nil => nil
  | node _ _ _ => nil

/-- The split axis chosen by `buildTree` for a non-empty slice `p0 :: ps`: the axis of the
widest coordinate range, the smallest index on ties. -/
def divAxis (p0 : PointType K) (ps : List (PointType K)) : Nat :=
  let minValue0 := ps.foldl (fun m p => min m p.x) p0.x
  let minValue1 := ps.foldl (fun m p => min m p.y) p0.y
  let minValue2 := ps.foldl (fun m p => min m p.z) p0.z
  let maxValue0 := ps.foldl (fun m p => max m p.x) p0.x
  let maxValue1 := ps.foldl (fun m p => max m p.y) p0.y
  let maxValue2 := ps.foldl (fun m p => max m p.z) p0.z
  let dimRange0 := maxValue0 - minValue0
  let dimRange1 := maxValue1 - minValue1
  let dimRange2 := maxValue2 - minValue2
  let a1 : Nat := if dimRange1 > dimRange0 then 1 else 0
  if dimRange2 > (if a1 = 1 then dimRange1 else dimRange0) then 2 else a1

/-- The operation `buildTree` on the slice `storage[l..r]`, given as a list; the index `mid`
is taken relative to `l`. -/
def buildTree (env : Env K) : Nat → List (PointType K) → KD_TREE_NODE K
  | _, [] => nil
  | 0, _ :: _ => nil
  | fuel + 1, p0 :: ps =>
    let mid := ((p0 :: ps).length - 1) / 2
    let axis := divAxis p0 ps
    let cmp := if axis = 0 then pointCmpX else if axis = 1 then pointCmpY else pointCmpZ
    let storage := env.nth_element cmp mid (p0 :: ps)
    let leftSon := buildTree env fuel (storage.take mid)
    let rightSon := buildTree env fuel (storage.drop (mid + 1))
    update (node { (initTreeNode : NodeFields K) with
      division_axis := axis, point := storage.getD mid p0 } leftSon rightSon)

/-- The operation `build`: the old tree is deleted, and the new root is the tree built from
`pointCloud` (null for an empty cloud). -/
def build (env : Env K) (m_rootNode : KD_TREE_NODE K) (pointCloud : List (PointType K)) :
    KD_TREE_NODE K :=
  let root0 := if m_rootNode.isNull then m_rootNode else deleteTreeNodes m_rootNode
  if pointCloud.length = 0 then root0
  else buildTree env pointCloud.length pointCloud

/-- The accessor `size()`. -/
def size : KD_TREE_NODE K → Int
  | nil => 0
  | node d _ _ => d.TreeSize

/-- The accessor `validnum()`. -/
def validnum : KD_TREE_NODE K → Int
  | nil => 0
  | node d _ _ => d.TreeSize - d.invalid_point_num

/-! ## Range and radius search -/

/-- The operation `searchByRange`: the tree after its push-downs and the extended storage. -/
def searchByRange : Nat → KD_TREE_NODE K → BoxPointType K → List (PointType K) →
    KD_TREE_NODE K × List (PointType K)
  | _, nil, _, storage => (nil, storage)
  | 0, node d l r, _, storage => (node d l r, storage)
  | fuel + 1, node d l r, boxpoint, storage =>
    let pd := pushDownNode d l r
    if boxMisses boxpoint pd.1 then (node pd.1 pd.2.1 pd.2.2, storage)
    else if boxCovers boxpoint pd.1 then flatten (fuel + 1) (node pd.1 pd.2.1 pd.2.2) storage
    else
      let st1 := if pointInBox boxpoint pd.1.point && !pd.1.point_deleted then
        storage ++ [pd.1.point] else storage
      let sl := searchByRange fuel pd.2.1 boxpoint st1
      let sr := searchByRange fuel pd.2.2 boxpoint sl.2
      (node pd.1 sl.1 sr.1, sr.2)

/-- The operation `boxSearch`. -/
def boxSearch (m_rootNode : KD_TREE_NODE K) (boxOfPoint : BoxPointType K) :
    KD_TREE_NODE K × List (PointType K) :=
  searchByRange m_rootNode.height m_rootNode boxOfPoint []

/-- The point `rangeCenter` of `searchByRadius`: the centre of the node range. -/
def rangeCenter (d : NodeFields K) : PointType K :=
  ⟨(d.node_range_x.1 + d.node_range_x.2) * (1 / 2),
   (d.node_range_y.1 + d.node_range_y.2) * (1 / 2),
   (d.node_range_z.1 + d.node_range_z.2) * (1 / 2), 0⟩

/-- The operation `searchByRadius`; `qSqrt` is passed as `sqrt`. -/
def searchByRadius (sqrt : K → K) : Nat → KD_TREE_NODE K → PointType K → K →
    List (PointType K) → KD_TREE_NODE K × List (PointType K)
  | _, nil, _, _, storage => (nil, storage)
  | 0, node d l r, _, _, storage => (node d l r, storage)
  | fuel + 1, node d l r, point, radius, storage =>
    let pd := pushDownNode d l r
    let dist := sqrt (calcDist (rangeCenter pd.1) point)
    if dist > radius + sqrt pd.1.radius_sq then (node pd.1 pd.2.1 pd.2.2, storage)
    else if dist ≤ radius - sqrt pd.1.radius_sq then
      flatten (fuel + 1) (node pd.1 pd.2.1 pd.2.2) storage
    else
      let st1 := if !pd.1.point_deleted && decide (calcDist pd.1.point point ≤ radius * radius)
        then storage ++ [pd.1.point] else storage
      let sl := searchByRadius sqrt fuel pd.2.1 point radius st1
      let sr := searchByRadius sqrt fuel pd.2.2 point radius sl.2
      (node pd.1 sl.1 sr.1, sr.2)

/-- The operation `radiusSearch`. -/
def radiusSearch (sqrt : K → K) (m_rootNode : KD_TREE_NODE K) (point : PointType K) (radius : K) :
    KD_TREE_NODE K × List (PointType K) :=
  searchByRadius sqrt m_rootNode.height m_rootNode point radius []

/-! ## The bounded heap of the k-nearest-neighbour search -/

/-- The comparison `PointType_CMP::operator<`: distances closer than `1e-10` are ordered by
the `x` coordinate of the points. -/
def PointType_CMP.lt (a b : PointType_CMP K) : Bool :=
  if |a.dist - b.dist| < 1 / 10000000000 then decide (a.point.x < b.point.x)
  else decide (a.dist < b.dist)

namespace MANUAL_HEAP

/-- The constructor `MANUAL_HEAP(max_capacity)` followed by `clear()`. -/
def empty (max_capacity : Nat) : MANUAL_HEAP K := ⟨max_capacity, []⟩

/-- The accessor `size()`. -/
def size (q : MANUAL_HEAP K) : Nat := q.m_heap.length

/-- The accessor `top()`, `m_heap[0]`; `none` on an empty heap, where the source reads a
slot that holds no entry. -/
def top (q : MANUAL_HEAP K) : Option (PointType_CMP K) := q.m_heap.head?

/-- The `while` loop of `floatUp`: returns the vector and the final `heap_index`. -/
def floatUpLoop : Nat → List (PointType_CMP K) → Nat → PointType_CMP K →
    List (PointType_CMP K) × Nat
  | 0, h, heap_index, _ => (h, heap_index)
  | fuel + 1, h, heap_index, tmp =>
    if 0 < heap_index then
      let ancestor := (heap_index - 1) / 2
      if (h.getD ancestor tmp).lt tmp then
        floatUpLoop fuel (h.set heap_index (h.getD ancestor tmp)) ancestor tmp
      else (h, heap_index)
    else (h, heap_index)

/-- The operation `floatUp`. -/
def floatUp (h : List (PointType_CMP K)) (heap_index : Nat) : List (PointType_CMP K) :=
  match h.get? heap_index with
  | none => h
  | some tmp =>
    let res := floatUpLoop heap_index h heap_index tmp
    res.1.set res.2 tmp

/-- The `while` loop of `moveDown`: returns the vector and the final `heap_index`. -/
def moveDownLoop : Nat → List (PointType_CMP K) → Nat → Nat → PointType_CMP K →
    List (PointType_CMP K) × Nat
  | 0, h, heap_index, _, _ => (h, heap_index)
  | fuel + 1, h, heap_index, l, tmp =>
    if l < h.length then
      let l1 := if l + 1 < h.length && (h.getD l tmp).lt (h.getD (l + 1) tmp) then l + 1 else l
      if tmp.lt (h.getD l1 tmp) then
        moveDownLoop fuel (h.set heap_index (h.getD l1 tmp)) l1 (l1 * 2 + 1) tmp
      else (h, heap_index)
    else (h, heap_index)

/-- The operation `moveDown`. -/
def moveDown (h : List (PointType_CMP K)) (heap_index : Nat) : List (PointType_CMP K) :=
  match h.get? heap_index with
  | none => h
  | some tmp =>
    let res := moveDownLoop h.length h heap_index (heap_index * 2 + 1) tmp
    res.1.set res.2 tmp

/-- The operation `push`. -/
def push (q : MANUAL_HEAP K) (point : PointType_CMP K) : MANUAL_HEAP K :=
  if q.size ≥ q.m_cap then q
  else { q with m_heap := floatUp (q.m_heap ++ [point]) q.size }

/-- The operation `pop`. -/
def pop (q : MANUAL_HEAP K) : MANUAL_HEAP K :=
  match q.m_heap.getLast? with
  | none => q
  | some last => { q with m_heap := moveDown (q.m_heap.set 0 last).dropLast 0 }

end MANUAL_HEAP

/-- The test `a < q.top().dist` where `a` may be `infinity` (`none`); on an empty heap
(reached only with `kNearest = 0`) the test is taken to fail. -/
def ltTop (a : Option K) (q : MANUAL_HEAP K) : Bool :=
  match a, q.top with
  | some x, some t => decide (x < t.dist)
  | _, _ => false

/-- The test `a <= b` on distances that may be `infinity` (`none`). -/
def optLe (a b : Option K) : Bool :=
  match a, b with
  | _, none => true
  | none, some _ => false
  | some x, some y => decide (x ≤ y)

/-- The test `a > b` of a finite `a` against a bound that may be `infinity` (`none`). -/
def gtOpt (a : K) (b : Option K) : Bool :=
  match b with
  | none => false
  | some y => decide (a > y)

/-- The operation `search` of the k-nearest-neighbour query; `maxDist = none` is the default
`infinity`.  The block between the test of `curDist` and the test of `point_deleted` changes
nothing: its `tryLock` is called on a mutex that the `QMutexLocker` of the line before
holds, so it fails and `pushDown(root)` is not executed.  The fields are read as they are
stored, and the tree is returned as it was. -/
def search : Nat → KD_TREE_NODE K → Nat → PointType K → MANUAL_HEAP K → Option K →
    KD_TREE_NODE K × MANUAL_HEAP K
  | _, nil, _, _, q, _ => (nil, q)
  | 0, node d l r, _, _, q, _ => (node d l r, q)
  | fuel + 1, node d l r, kNearest, point, q, maxDist =>
    if d.tree_deleted then (node d l r, q)
    else
      let maxDistSqr := maxDist.map fun m => m * m
      if (calcBoxDist (node d l r) point).elim false (fun c => gtOpt c maxDistSqr) then
        (node d l r, q)
      else
        let dist := calcDist point d.point
        let q1 := if !d.point_deleted && (!gtOpt dist maxDistSqr &&
            (decide (q.size < kNearest) || ltTop (some dist) q)) then
          (if q.size ≥ kNearest then q.pop else q).push ⟨d.point, dist⟩ else q
        let distLeftNode := calcBoxDist l point
        let distRightNode := calcBoxDist r point
        if decide (q1.size < kNearest) || (ltTop distLeftNode q1 && ltTop distRightNode q1) then
          if optLe distLeftNode distRightNode then
            let sl := search fuel l kNearest point q1 maxDist
            if decide (sl.2.size < kNearest) || ltTop distRightNode sl.2 then
              let sr := search fuel r kNearest point sl.2 maxDist
              (node d sl.1 sr.1, sr.2)
            else (node d sl.1 r, sl.2)
          else
            let sr := search fuel r kNearest point q1 maxDist
            if decide (sr.2.size < kNearest) || ltTop distLeftNode sr.2 then
              let sl := search fuel l kNearest point sr.2 maxDist
              (node d sl.1 sr.1, sl.2)
            else (node d l sr.1, sr.2)
        else
          let sl := if ltTop distLeftNode q1 then search fuel l kNearest point q1 maxDist
            else (l, q1)
          let sr := if ltTop distRightNode sl.2 then search fuel r kNearest point sl.2 maxDist
            else (r, sl.2)
          (node d sl.1 sr.1, sr.2)

/-- The final loop of `nearestSearch`: `kFound` times, prepend the top entry and pop it. -/
def drainHeap : Nat → MANUAL_HEAP K → List (PointType K) × List K → List (PointType K) × List K
  | 0, _, out => out
  | n + 1, q, out =>
    match q.top with
    | none => out
    | some t => drainHeap n q.pop (t.point :: out.1, t.dist :: out.2)

/-- The capacity that `MANUAL_HEAP q(2 * kNearest)` gives the heap.  The product
`2 * kNearest` is an `int`: its 32 bits are read in two's complement, so it is negative from
`kNearest = 2^30` on.  The member `m_cap` is read by `push` only, in the test
`m_heapSize >= m_cap`, which a negative capacity makes true as the capacity `0` does; so a
negative capacity is counted as `0`. -/
def heapCapacity (kNearest : Nat) : Nat :=
  if 2 * kNearest % 4294967296 < 2147483648 then 2 * kNearest % 4294967296 else 0

/-- The operation `nearestSearch`: the tree, `nearestPoints` and `pointDistance`.  The
parameter `kNearest` is an `int` that is not negative. -/
def nearestSearch (m_rootNode : KD_TREE_NODE K) (point : PointType K) (kNearest : Nat)
    (maxDist : Option K) : KD_TREE_NODE K × List (PointType K) × List K :=
  let res := search m_rootNode.height m_rootNode kNearest point
    (MANUAL_HEAP.empty (heapCapacity kNearest)) maxDist
  let kFound := min kNearest res.2.size
  (res.1, drainHeap kFound res.2 ([], []))

/-! ## Balance criterion and rebuild -/

/-- The operation `criterionCheck` on a non-null node; the two quotients are `double`
divisions, `Env.fdiv`.  The difference `1 - m_balanceCriterionParam` is taken in `K`: in
`double` it is exact for a parameter between `0.5` and `2`, and for any other parameter the
result does not depend on it (above `2` the last test fails, the quotient being at least `0`;
below `0.5` one of the last two tests holds).  (With both sons null and `TreeSize > 10` the
source dereferences a null son; the model reads size `0` there.) -/
def criterionCheck (env : Env K) : KD_TREE_NODE K → Bool
  | nil => false
  | node d l r =>
    if d.TreeSize ≤ Minimal_Unbalanced_Tree_Size then false
    else
      let sonSize : Int := match l, r with
        | node ld _ _, _ => ld.TreeSize
        | nil, node rd _ _ => rd.TreeSize
        | nil, nil => 0
      let deleteEvaluation : K := env.fdiv (d.invalid_point_num : K) (d.TreeSize : K)
      let balanceEvaluation : K := env.fdiv (sonSize : K) ((d.TreeSize - 1 : Int) : K)
      if deleteEvaluation > env.m_deleteCriterionParam then true
      else if balanceEvaluation > env.m_balanceCriterionParam ||
          balanceEvaluation < 1 - env.m_balanceCriterionParam then true
      else false

/-- The operation `rebuild`. -/
def rebuild (env : Env K) : KD_TREE_NODE K → KD_TREE_NODE K
  | nil => nil
  | node d l r =>
    if d.TreeSize < Minimal_Unbalanced_Tree_Size then node d l r
    else
      let storage := (flatten (node d l r).height (node d l r) []).2
      if storage.isEmpty then deleteTreeNodes (node d l r)
      else update (buildTree env storage.length storage)

/-- The tail shared by the four mutators: `update`, then `criterionCheck` and `rebuild` when
`allowRebuild` is set. -/
def updateAndRebuild (env : Env K) (allowRebuild : Bool) (root : KD_TREE_NODE K) :
    KD_TREE_NODE K :=
  let root1 := update root
  if allowRebuild && criterionCheck env root1 then rebuild env root1 else root1

/-- The descent test of `addByPoint` and `deleteByPoint`: strict `<` on the split axis. -/
def goLeft (d : NodeFields K) (point : PointType K) : Bool :=
  if d.division_axis = 0 then decide (point.x < d.point.x)
  else if d.division_axis = 1 then decide (point.y < d.point.y)
  else decide (point.z < d.point.z)

/-! ## Mutators -/

/-- The operation `addByPoint`. -/
def addByPoint (env : Env K) : Nat → KD_TREE_NODE K → PointType K → Bool → Nat → KD_TREE_NODE K
  | _, nil, point, _, fatherAxis =>
    update (node { (initTreeNode : NodeFields K) with
      point := point, division_axis := (fatherAxis + 1) % 3 } nil nil)
  | 0, node d l r, _, _, _ => node d l r
  | fuel + 1, node d l r, point, allowRebuild, _ =>
    let pd := pushDownNode d l r
    if goLeft pd.1 point then
      updateAndRebuild env allowRebuild
        (node pd.1 (addByPoint env fuel pd.2.1 point allowRebuild pd.1.division_axis) pd.2.2)
    else
      updateAndRebuild env allowRebuild
        (node pd.1 pd.2.1 (addByPoint env fuel pd.2.2 point allowRebuild pd.1.division_axis))

/-- The operation `deleteByPoint`. -/
def deleteByPoint (env : Env K) : Nat → KD_TREE_NODE K → PointType K → Bool → KD_TREE_NODE K
  | _, nil, _, _ => nil
  | 0, node d l r, _, _ => node d l r
  | fuel + 1, node d l r, point, allowRebuild =>
    if d.tree_deleted then node d l r
    else
      let pd := pushDownNode d l r
      if samePoint pd.1.point point && !pd.1.point_deleted then
        node { pd.1 with
          point_deleted := true
          invalid_point_num := pd.1.invalid_point_num + 1
          tree_deleted := if pd.1.invalid_point_num + 1 = pd.1.TreeSize then true
            else pd.1.tree_deleted } pd.2.1 pd.2.2
      else if goLeft pd.1 point then
        updateAndRebuild env allowRebuild
          (node pd.1 (deleteByPoint env fuel pd.2.1 point allowRebuild) pd.2.2)
      else
        updateAndRebuild env allowRebuild
          (node pd.1 pd.2.1 (deleteByPoint env fuel pd.2.2 point allowRebuild))

/-- The operation `deleteByRange`: the new tree and the returned counter. -/
def deleteByRange (env : Env K) : Nat → KD_TREE_NODE K → BoxPointType K → Bool → Bool →
    KD_TREE_NODE K × Int
  | _, nil, _, _, _ => (nil, 0)
  | 0, node d l r, _, _, _ => (node d l r, 0)
  | fuel + 1, node d l r, boxpoint, allowRebuild, isDownsample =>
    if d.tree_deleted then (node d l r, 0)
    else
      let pd := pushDownNode d l r
      if boxMisses boxpoint pd.1 then (node pd.1 pd.2.1 pd.2.2, 0)
      else if boxCovers boxpoint pd.1 then
        let d1 : NodeFields K := { pd.1 with
          tree_deleted := true, point_deleted := true,
          need_push_down_to_left := true, need_push_down_to_right := true,
          invalid_point_num := pd.1.TreeSize }
        let d2 : NodeFields K := if isDownsample then { d1 with
          tree_downsample_deleted := true, point_downsample_deleted := true,
          down_del_num := d1.TreeSize } else d1
        (node d2 pd.2.1 pd.2.2, pd.1.TreeSize - pd.1.invalid_point_num)
      else
        let hit := !pd.1.point_deleted && pointInBox boxpoint pd.1.point
        let d1 : NodeFields K := if hit then { pd.1 with
          point_deleted := true
          point_downsample_deleted :=
            if isDownsample then true else pd.1.point_downsample_deleted } else pd.1
        let dl := deleteByRange env fuel pd.2.1 boxpoint allowRebuild isDownsample
        let dr := deleteByRange env fuel pd.2.2 boxpoint allowRebuild isDownsample
        (updateAndRebuild env allowRebuild (node d1 dl.1 dr.1),
          (if hit then 1 else 0) + dl.2 + dr.2)

/-- The operation `addByRange`. -/
def addByRange (env : Env K) : Nat → KD_TREE_NODE K → BoxPointType K → Bool → KD_TREE_NODE K
  | _, nil, _, _ => nil
  | 0, node d l r, _, _ => node d l r
  | fuel + 1, node d l r, boxpoint, allowRebuild =>
    let pd := pushDownNode d l r
    if boxMisses boxpoint pd.1 then node pd.1 pd.2.1 pd.2.2
    else if boxCovers boxpoint pd.1 then
      node { pd.1 with
        tree_deleted := false || pd.1.tree_downsample_deleted
        point_deleted := false || pd.1.point_downsample_deleted
        need_push_down_to_left := true, need_push_down_to_right := true
        invalid_point_num := pd.1.down_del_num } pd.2.1 pd.2.2
    else
      let d1 : NodeFields K := if pointInBox boxpoint pd.1.point then
        { pd.1 with point_deleted := pd.1.point_downsample_deleted } else pd.1
      updateAndRebuild env allowRebuild
        (node d1 (addByRange env fuel pd.2.1 boxpoint allowRebuild)
          (addByRange env fuel pd.2.2 boxpoint allowRebuild))

/-! ## Public operations -/

/-- The operation `deletePoints`. -/
def deletePoints (env : Env K) (m_rootNode : KD_TREE_NODE K) :
    List (PointType K) → KD_TREE_NODE K
  | [] => m_rootNode
  | p :: ps => deletePoints env (deleteByPoint env m_rootNode.height m_rootNode p true) ps

/-- The operation `addPointBoxes`. -/
def addPointBoxes (env : Env K) (m_rootNode : KD_TREE_NODE K) :
    List (BoxPointType K) → KD_TREE_NODE K
  | [] => m_rootNode
  | b :: bs => addPointBoxes env (addByRange env m_rootNode.height m_rootNode b true) bs

/-- The operation `deletePointBoxes`, with `tmpCounter` as an accumulator. -/
def deletePointBoxesLoop (env : Env K) (m_rootNode : KD_TREE_NODE K) (tmpCounter : Int) :
    List (BoxPointType K) → KD_TREE_NODE K × Int
  | [] => (m_rootNode, tmpCounter)
  | b :: bs =>
    let res := deleteByRange env m_rootNode.height m_rootNode b true false
    deletePointBoxesLoop env res.1 (tmpCounter + res.2) bs

/-- The operation `deletePointBoxes`. -/
def deletePointBoxes (env : Env K) (m_rootNode : KD_TREE_NODE K)
    (boxPoints : List (BoxPointType K)) : KD_TREE_NODE K × Int :=
  deletePointBoxesLoop env m_rootNode 0 boxPoints

/-- The inner loop of the downsampling branch of `addPoints`: the stored point nearest to
`midPoint`, starting from the candidate `downsampleResult` at distance `minDist`. -/
def nearestToMid (midPoint : PointType K) :
    List (PointType K) → K → PointType K → PointType K
  | [], _, downsampleResult => downsampleResult
  | s :: rest, minDist, downsampleResult =>
    if calcDist s midPoint < minDist then nearestToMid midPoint rest (calcDist s midPoint) s
    else nearestToMid midPoint rest minDist downsampleResult

/-- The voxel of `addPoints` that holds `p`: `qFloor(p / m_downsampleSize) * m_downsampleSize`
and that plus `m_downsampleSize` on each axis; the quotient is a `double` division and
`qFloor` returns an `int`. -/
def voxelOf (env : Env K) (p : PointType K) : BoxPointType K :=
  let x0 : K := (env.qFloor (env.fdiv p.x env.m_downsampleSize) : K) * env.m_downsampleSize
  let y0 : K := (env.qFloor (env.fdiv p.y env.m_downsampleSize) : K) * env.m_downsampleSize
  let z0 : K := (env.qFloor (env.fdiv p.z env.m_downsampleSize) : K) * env.m_downsampleSize
  ⟨(x0, y0, z0), (x0 + env.m_downsampleSize, y0 + env.m_downsampleSize,
    z0 + env.m_downsampleSize)⟩

/-- The centre `midPoint` of a voxel. -/
def voxelMid (b : BoxPointType K) : PointType K :=
  ⟨b.vertex_min.1 + (b.vertex_max.1 - b.vertex_min.1) / 2,
   b.vertex_min.2.1 + (b.vertex_max.2.1 - b.vertex_min.2.1) / 2,
   b.vertex_min.2.2 + (b.vertex_max.2.2 - b.vertex_min.2.2) / 2, 0⟩

/-- One iteration of the loop of `addPoints`: the new root and the increment of `tmpCounter`,
or `none` when the iteration evaluates `m_rootNode->division_axis` on a null root. -/
def addPointsStep (env : Env K) (m_rootNode : KD_TREE_NODE K) (p : PointType K)
    (downsampleOn : Bool) : Option (KD_TREE_NODE K × Int) :=
  if downsampleOn then
    let boxOfPoint := voxelOf env p
    let midPoint := voxelMid boxOfPoint
    let found := searchByRange m_rootNode.height m_rootNode boxOfPoint []
    let downsampleResult := nearestToMid midPoint found.2 (calcDist p midPoint) p
    if decide (found.2.length > 1) || samePoint p downsampleResult then
      let root1 := if found.2.length > 0 then
        (deleteByRange env found.1.height found.1 boxOfPoint true true).1 else found.1
      match root1 with
      | nil => none
      | node d l r =>
        some (addByPoint env (node d l r).height (node d l r) downsampleResult true
          d.division_axis, 1)
    else some (found.1, 0)
  else
    match m_rootNode with
    | nil => none
    | node d l r =>
      some (addByPoint env (node d l r).height (node d l r) p true d.division_axis, 0)

/-- The operation `addPoints`, with `tmpCounter` as an accumulator. -/
def addPointsLoop (env : Env K) (downsampleOn : Bool) :
    List (PointType K) → KD_TREE_NODE K → Int → Option (KD_TREE_NODE K × Int)
  | [], m_rootNode, tmpCounter => some (m_rootNode, tmpCounter)
  | p :: ps, m_rootNode, tmpCounter =>
    match addPointsStep env m_rootNode p downsampleOn with
    | none => none
    | some res => addPointsLoop env downsampleOn ps res.1 (tmpCounter + res.2)

/-- The operation `addPoints`: the new root and the returned counter, or `none` when the
call dereferences a null root. -/
def addPoints (env : Env K) (m_rootNode : KD_TREE_NODE K)
    (pointToAdd : List (PointType K)) (downsampleOn : Bool) : Option (KD_TREE_NODE K × Int) :=
  addPointsLoop env downsampleOn pointToAdd m_rootNode 0

/-! ## A concrete environment -/

/-- Insertion step of a stable insertion sort: `a` is placed before the first element that
is not smaller than it. -/
def insertSorted (cmp : PointType K → PointType K → Bool) (a : PointType K) :
    List (PointType K) → List (PointType K)
  | [] => [a]
  | b :: l => if cmp b a then b :: insertSorted cmp a l else a :: b :: l

/-- Stable insertion sort. -/
def sortBy (cmp : PointType K → PointType K → Bool) : List (PointType K) → List (PointType K)
  | [] => []
  | a :: l => insertSorted cmp a (sortBy cmp l)

/-- Modelled from the spec: `std::nth_element` is a library routine outside the repository
("partition the slice around its median index using an in-place nth-element selection");
fully sorting the slice is one admissible behaviour, and it is what libstdc++ and libc++ do
on slices of at most three elements. -/
def nthElementBySort (cmp : PointType K → PointType K → Bool) (_n : Nat)
    (l : List (PointType K)) : List (PointType K) :=
  sortBy cmp l

/-- The environment of `KD_TREE(0.5, 0.6, 0.2)`, the constructor defaults, over `ℚ`, with the
sorting `nth_element`, the exact quotient and the exact floor. -/
def defaultEnv : Env ℚ :=
  ⟨1 / 2, 3 / 5, 1 / 5, nthElementBySort, fun a b => a / b, fun x => ⌊x⌋⟩

/-! ## Specification-level notions -/

/-- The fields with both push flags cleared. -/
def clearPush (d : NodeFields K) : NodeFields K :=
  { d with need_push_down_to_left := false, need_push_down_to_right := false }

/-- The tree obtained by carrying out every pending push-down, top-down (the push flags are
cleared in the result); `f` is the push pending on the root from its father. -/
def pushAllFrom (f : NodeFields K → NodeFields K) : KD_TREE_NODE K → KD_TREE_NODE K
  | nil => nil
  | node s l r =>
    node (clearPush (f s))
      (pushAllFrom (if (f s).need_push_down_to_left then pushFields (f s) else id) l)
      (pushAllFrom (if (f s).need_push_down_to_right then pushFields (f s) else id) r)

/-- The tree with all pending push-downs applied. -/
def pushAll (t : KD_TREE_NODE K) : KD_TREE_NODE K := pushAllFrom id t

/-- The points of the nodes that are not `point_deleted`, in pre-order. -/
def undeleted : KD_TREE_NODE K → List (PointType K)
  | nil => []
  | node d l r => (if d.point_deleted then [] else [d.point]) ++ undeleted l ++ undeleted r

/-- The live points of a tree: the points of the nodes that are not deleted once the pending
push-down flags of their ancestors are applied. -/
def livePoints (t : KD_TREE_NODE K) : List (PointType K) := undeleted (pushAll t)

/-- Point `p` lies in the closed range box stored in `d`. -/
def inRange (d : NodeFields K) (p : PointType K) : Prop :=
  d.node_range_x.1 ≤ p.x ∧ p.x ≤ d.node_range_x.2 ∧
  d.node_range_y.1 ≤ p.y ∧ p.y ≤ d.node_range_y.2 ∧
  d.node_range_z.1 ≤ p.z ∧ p.z ≤ d.node_range_z.2

/-- A property of every node of a tree, given its fields and its two sons. -/
def AllNodes (P : NodeFields K → KD_TREE_NODE K → KD_TREE_NODE K → Prop) :
    KD_TREE_NODE K → Prop
  | nil => True
  | node d l r => P d l r ∧ AllNodes P l ∧ AllNodes P r

/-- Invariant 3 of the data model: once pending push-downs are applied, the range box of
every node contains every live point of its subtree. -/
def RangeInv (t : KD_TREE_NODE K) : Prop :=
  AllNodes (fun d l r => ∀ p ∈ undeleted (node d l r), inRange d p) (pushAll t)

/-- The field `invalid_point_num` of a possibly-null son, `0` for null. -/
def invalidNum : KD_TREE_NODE K → Int
  | nil => 0
  | node d _ _ => d.invalid_point_num

/-- The field `down_del_num` of a possibly-null son, `0` for null. -/
def downDelNum : KD_TREE_NODE K → Int
  | nil => 0
  | node d _ _ => d.down_del_num

/-- The flag `tree_deleted` of a possibly-null son, `true` for null. -/
def treeDeleted : KD_TREE_NODE K → Bool
  | nil => true
  | node d _ _ => d.tree_deleted

/-- The flag `tree_downsample_deleted` of a possibly-null son, `true` for null. -/
def treeDownDeleted : KD_TREE_NODE K → Bool
  | nil => true
  | node d _ _ => d.tree_downsample_deleted

/-- The points of all nodes, in pre-order. -/
def points : KD_TREE_NODE K → List (PointType K)
  | nil => []
  | node d l r => d.point :: (points l ++ points r)

/-- The aggregate fields of a node agree with its sons (invariant 2 of the data model, and
the flag relations of invariants 4 and 5). -/
def Agg (d : NodeFields K) (l r : KD_TREE_NODE K) : Prop :=
  d.TreeSize = size l + size r + 1 ∧
  d.invalid_point_num = invalidNum l + invalidNum r + (if d.point_deleted then 1 else 0) ∧
  d.down_del_num = downDelNum l + downDelNum r + (if d.point_downsample_deleted then 1 else 0) ∧
  d.tree_deleted = (treeDeleted l && treeDeleted r && d.point_deleted) ∧
  d.tree_downsample_deleted =
    (treeDownDeleted l && treeDownDeleted r && d.point_downsample_deleted) ∧
  (d.point_downsample_deleted = true → d.point_deleted = true)

/-- Invariant 2 of the data model, once pending push-downs are applied. -/
def CountInv (t : KD_TREE_NODE K) : Prop := AllNodes Agg (pushAll t)

/-- A tree as the builder leaves it: no flag set, counters and range boxes exact. -/
def Fresh : KD_TREE_NODE K → Prop :=
  AllNodes fun d l r =>
    d.point_deleted = false ∧ d.tree_deleted = false ∧ d.point_downsample_deleted = false ∧
    d.tree_downsample_deleted = false ∧ d.need_push_down_to_left = false ∧
    d.need_push_down_to_right = false ∧ d.TreeSize = size l + size r + 1 ∧
    d.invalid_point_num = 0 ∧ d.down_del_num = 0 ∧
    ∀ p ∈ points (node d l r), inRange d p

/-- The contract of `std::nth_element` used here: it rearranges the slice. -/
def NthPermutes (env : Env K) : Prop :=
  ∀ (cmp : PointType K → PointType K → Bool) (n : Nat) (l : List (PointType K)),
    (env.nth_element cmp n l).Perm l

/-- The squared half-diagonal of the range box stored in `d`. -/
def halfDiagSq (d : NodeFields K) : K :=
  (d.node_range_x.2 - d.node_range_x.1) * (1 / 2) * ((d.node_range_x.2 - d.node_range_x.1) * (1 / 2)) +
  (d.node_range_y.2 - d.node_range_y.1) * (1 / 2) * ((d.node_range_y.2 - d.node_range_y.1) * (1 / 2)) +
  (d.node_range_z.2 - d.node_range_z.1) * (1 / 2) * ((d.node_range_z.2 - d.node_range_z.1) * (1 / 2))

/-- The attribute `radius_sq` of the data model: at every node it is the squared
half-diagonal of the range box. -/
def RadiusInv (t : KD_TREE_NODE K) : Prop :=
  AllNodes (fun d _ _ => d.radius_sq = halfDiagSq d) (pushAll t)

/-- The function passed for `qSqrt` is an exact square root (the rounded square root of
`double` arithmetic is not). -/
def SqrtExact (sqrt : K → K) : Prop :=
  ∀ x : K, 0 ≤ x → 0 ≤ sqrt x ∧ sqrt x * sqrt x = x

/-- The fields of a node once a subtree deletion (a downsampling one when `ds`) has been
pushed down to it. -/
def markFields (ds : Bool) (d : NodeFields K) : NodeFields K :=
  { d with
    tree_deleted := true, point_deleted := true, invalid_point_num := d.TreeSize
    tree_downsample_deleted := d.tree_downsample_deleted || ds
    point_downsample_deleted := d.point_downsample_deleted || ds
    down_del_num := if ds then d.TreeSize else d.down_del_num }

/-- A pushed tree with every node marked deleted. -/
def markDeleted (ds : Bool) : KD_TREE_NODE K → KD_TREE_NODE K
  | nil => nil
  | node d l r => node (markFields ds d) (markDeleted ds l) (markDeleted ds r)

/-- Two field records agree on the members that no push-down writes. -/
def SameStatic (a b : NodeFields K) : Prop :=
  a.point = b.point ∧ a.division_axis = b.division_axis ∧ a.TreeSize = b.TreeSize ∧
  a.radius_sq = b.radius_sq ∧ a.node_range_x = b.node_range_x ∧
  a.node_range_y = b.node_range_y ∧ a.node_range_z = b.node_range_z

/-- The three equations that relate the fields a deleting push gives a node to its fields
before the push, given its raw fields `g` and its pushed fields `go`. -/
def PushRel (ds : Bool) (e g go : NodeFields K) : Prop :=
  (g.tree_downsample_deleted || e.tree_downsample_deleted) = (go.tree_downsample_deleted || ds) ∧
  (g.point_downsample_deleted || e.tree_downsample_deleted) =
    (go.point_downsample_deleted || ds) ∧
  (if e.tree_downsample_deleted then g.TreeSize else g.down_del_num) =
    (if ds then g.TreeSize else go.down_del_num)

/-- How a son stands to the push flag of its father after a mutator has worked on it:
the flag is clear unless the son is null, or the son is a fresh tree. -/
def SonOK (flag : Bool) (s : KD_TREE_NODE K) : Prop :=
  (s.isNull = false → flag = false) ∨ Fresh s

/-! ### The heap of the k-nearest-neighbour search -/

/-- The order the heap is meant to keep: by distance, equal distances by the `x`
coordinate. -/
def keyLe (a b : PointType_CMP K) : Prop :=
  a.dist < b.dist ∨ (a.dist = b.dist ∧ a.point.x ≤ b.point.x)

/-- On the entries satisfying `P` the comparison `lt` is the strict part of `keyLe`. -/
def LexOn (P : PointType_CMP K → Prop) : Prop :=
  ∀ a b, P a → P b → (a.lt b = true ↔ ¬ keyLe b a)

/-- The order `le` agrees with the comparison `lt` on the entries satisfying `P`: it is
reflexive and transitive, holds where `lt` does and holds the other way where `lt` fails. -/
structure Ordered (le : PointType_CMP K → PointType_CMP K → Prop)
    (P : PointType_CMP K → Prop) : Prop where
  refl : ∀ a, le a a
  trans : ∀ a b c, le a b → le b c → le a c
  of_lt : ∀ a b, P a → P b → a.lt b = true → le a b
  of_not_lt : ∀ a b, P a → P b → ¬ a.lt b = true → le b a

/-- Heap order of the slots for the order `le`: no slot `j > 0` is above its ancestor slot
`(j - 1) / 2`. -/
def HeapOK (le : PointType_CMP K → PointType_CMP K → Prop) (g : List (PointType_CMP K)) :
    Prop :=
  ∀ j a b, 0 < j → g[j]? = some a → g[(j - 1) / 2]? = some b → le a b

/-- The squared distances from `q` to the points of `L` are pairwise equal or at least
`1e-10` apart, so that the tolerance of `PointType_CMP.lt` never applies to two distinct
distances. -/
def Separated (q : PointType K) (L : List (PointType K)) : Prop :=
  ∀ p ∈ L, ∀ p' ∈ L,
    calcDist q p = calcDist q p' ∨ 1 / 10000000000 ≤ |calcDist q p - calcDist q p'|

/-- A heap entry made by `search` for the query `q` from a point of `L`. -/
def EntryOf (q : PointType K) (L : List (PointType K)) (e : PointType_CMP K) : Prop :=
  e.dist = calcDist q e.point ∧ e.point ∈ L

/-- The order `keyLe` as far as it is known to be kept: it is claimed only when the
distances from `q` to `L` are separated. -/
def sepLe (q : PointType K) (L : List (PointType K)) (a b : PointType_CMP K) : Prop :=
  Separated q L → keyLe a b

/-- The state of the heap during a search for the `k` nearest points to `q` among `L`: heap
order for `le`, entries made from points of `L`, at most `k` entries, capacity `2 * k`. -/
def KnnOK (le : PointType_CMP K → PointType_CMP K → Prop) (q : PointType K)
    (L : List (PointType K)) (k : Nat) (heap : MANUAL_HEAP K) : Prop :=
  HeapOK le heap.m_heap ∧ (∀ e ∈ heap.m_heap, EntryOf q L e) ∧ heap.size ≤ k ∧
    heap.m_cap = 2 * k

/-- The heap holds `k` nearest points of the points `S` met so far: `S` splits into the
points of the heap and a rest, empty while the heap has fewer than `k` entries, of points
which, when the order is `strict`, are no nearer than any entry. -/
def Best (strict : Prop) (q : PointType K) (k : Nat) (heap : MANUAL_HEAP K)
    (S : List (PointType K)) : Prop :=
  ∃ rest, S.Perm (heap.m_heap.map (fun e => e.point) ++ rest) ∧
    (heap.size < k → rest = []) ∧
    (strict → ∀ p ∈ rest, ∀ e ∈ heap.m_heap, e.dist ≤ calcDist q p)

/-- The two steps of `calcBoxDist` for one axis: `m` plus the squared distance from `x` to
the interval `[lo, hi]`. -/
def boxDistAxis (x lo hi m : K) : K :=
  if x > hi then (if x < lo then m + (x - lo) * (x - lo) else m) + (x - hi) * (x - hi)
  else (if x < lo then m + (x - lo) * (x - lo) else m)

/-- The step of `search` at the point of a node `d`: the heap after the point was
offered to it. -/
def visitPoint (k : Nat) (q : PointType K) (maxDist : Option K) (heap : MANUAL_HEAP K)
    (d : NodeFields K) : MANUAL_HEAP K :=
  if !d.point_deleted && (!gtOpt (calcDist q d.point) (maxDist.map fun m => m * m) &&
      (decide (heap.size < k) || ltTop (some (calcDist q d.point)) heap)) then
    (if heap.size ≥ k then heap.pop else heap).push ⟨d.point, calcDist q d.point⟩ else heap

/-- The part of `search` that descends into the sons `l` and `r` of a node `d`, the
two recursive calls being `sL` and `sR` and the box distances of the sons `dl` and `dr`. -/
def searchSons (sL sR : MANUAL_HEAP K → KD_TREE_NODE K × MANUAL_HEAP K) (dl dr : Option K)
    (k : Nat) (d : NodeFields K) (l r : KD_TREE_NODE K) (q1 : MANUAL_HEAP K) :
    KD_TREE_NODE K × MANUAL_HEAP K :=
  if decide (q1.size < k) || (ltTop dl q1 && ltTop dr q1) then
    if optLe dl dr then
      if decide ((sL q1).2.size < k) || ltTop dr (sL q1).2 then
        (node d (sL q1).1 (sR (sL q1).2).1, (sR (sL q1).2).2)
      else (node d (sL q1).1 r, (sL q1).2)
    else
      if decide ((sR q1).2.size < k) || ltTop dl (sR q1).2 then
        (node d (sL (sR q1).2).1 (sR q1).1, (sL (sR q1).2).2)
      else (node d l (sR q1).1, (sR q1).2)
  else
    (node d (if ltTop dl q1 then sL q1 else (l, q1)).1
      (if ltTop dr (if ltTop dl q1 then sL q1 else (l, q1)).2 then
        sR (if ltTop dl q1 then sL q1 else (l, q1)).2
        else (r, (if ltTop dl q1 then sL q1 else (l, q1)).2)).1,
     (if ltTop dr (if ltTop dl q1 then sL q1 else (l, q1)).2 then
        sR (if ltTop dl q1 then sL q1 else (l, q1)).2
        else (r, (if ltTop dl q1 then sL q1 else (l, q1)).2)).2)

/-- Both ends of the range box of `d` lie in the box `b` on every axis. -/
def WithinBox (b : BoxPointType K) (d : NodeFields K) : Prop :=
  (b.vertex_min.1 ≤ d.node_range_x.1 ∧ d.node_range_x.1 < b.vertex_max.1 ∧
    b.vertex_min.1 ≤ d.node_range_x.2 ∧ d.node_range_x.2 < b.vertex_max.1) ∧
  (b.vertex_min.2.1 ≤ d.node_range_y.1 ∧ d.node_range_y.1 < b.vertex_max.2.1 ∧
    b.vertex_min.2.1 ≤ d.node_range_y.2 ∧ d.node_range_y.2 < b.vertex_max.2.1) ∧
  (b.vertex_min.2.2 ≤ d.node_range_z.1 ∧ d.node_range_z.1 < b.vertex_max.2.2 ∧
    b.vertex_min.2.2 ≤ d.node_range_z.2 ∧ d.node_range_z.2 < b.vertex_max.2.2)

/-- The range box of every node lies in every box that holds all the points stored in the
subtree of the node, deleted or not. -/
def HullInv (t : KD_TREE_NODE K) : Prop :=
  AllNodes (fun d l r => ∀ b : BoxPointType K,
    (∀ p ∈ points (node d l r), pointInBox b p = true) → WithinBox b d) (pushAll t)

/-- The points of the nodes of a pushed tree that are not `point_downsample_deleted`, in
pre-order. -/
def kept : KD_TREE_NODE K → List (PointType K)
  | nil => []
  | node d l r =>
    (if d.point_downsample_deleted then [] else [d.point]) ++ kept l ++ kept r

/-- The points of the nodes that are not downsample-deleted once the pending push-downs are
applied: the only points that a restoring operation may make live. -/
def keptPoints (t : KD_TREE_NODE K) : List (PointType K) := kept (pushAll t)

/-- The fields of a node once a subtree restoration has been pushed down to it: it is
deleted exactly when it is downsample-deleted. -/
def restoreFields (d : NodeFields K) : NodeFields K :=
  { d with
    tree_deleted := d.tree_downsample_deleted, point_deleted := d.point_downsample_deleted,
    invalid_point_num := d.down_del_num }

/-- A pushed tree with every node restored unless it is downsample-deleted. -/
def restoreAll : KD_TREE_NODE K → KD_TREE_NODE K
  | nil => nil
  | node d l r => node (restoreFields d) (restoreAll l) (restoreAll r)

/-- The number of nodes of a pushed tree that are `point_deleted`. -/
def deletedNodes : KD_TREE_NODE K → Nat
  | nil => 0
  | node d l r => (if d.point_deleted then 1 else 0) + deletedNodes l + deletedNodes r

/-- The states of the root pointer reachable from a `build` by `addPoints` (when it returns),
`deletePoints`, `addPointBoxes` and `deletePointBoxes`, in any order. -/
inductive Reachable (env : Env K) : KD_TREE_NODE K → Prop
  | ofBuild (m_rootNode : KD_TREE_NODE K) (pointCloud : List (PointType K)) :
      Reachable env (build env m_rootNode pointCloud)
  | afterAddPoints {t : KD_TREE_NODE K} (pointToAdd : List (PointType K))
      (downsampleOn : Bool) (res : KD_TREE_NODE K × Int) :
      Reachable env t → addPoints env t pointToAdd downsampleOn = some res →
      Reachable env res.1
  | afterDeletePoints {t : KD_TREE_NODE K} (pointToDel : List (PointType K)) :
      Reachable env t → Reachable env (deletePoints env t pointToDel)
  | afterAddPointBoxes {t : KD_TREE_NODE K} (boxPoints : List (BoxPointType K)) :
      Reachable env t → Reachable env (addPointBoxes env t boxPoints)
  | afterDeletePointBoxes {t : KD_TREE_NODE K} (boxPoints : List (BoxPointType K)) :
      Reachable env t → Reachable env (deletePointBoxes env t boxPoints).1

/-! ## The lists of removed points -/

/-- The enumeration `delete_point_storage_set`. -/
inductive delete_point_storage_set where
  | NOT_RECORD
  | DELETE_POINTS_REC
  | MULTI_THREAD_REC

/-- The members of the `KD_TREE` object that `acquireRemovedPoints` works on, with the
root. -/
structure KD_TREE (K : Type) where
  m_rootNode : KD_TREE_NODE K
  m_pointsDeleted : List (PointType K)
  m_multithreadPointsDeleted : List (PointType K)

/-- The operation `flatten` with its `storageType`.  The state is the pair of
`m_pointsDeleted` and `m_multithreadPointsDeleted`; the result is the tree after its
push-downs, the storage and the two lists. -/
def flattenRec : Nat → KD_TREE_NODE K → List (PointType K) → delete_point_storage_set →
    List (PointType K) × List (PointType K) →
    KD_TREE_NODE K × List (PointType K) × (List (PointType K) × List (PointType K))
  | _, nil, storage, _, removed => (nil, storage, removed)
  | 0, node d l r, storage, _, removed => (node d l r, storage, removed)
  | fuel + 1, node d l r, storage, storageType, removed =>
    let pd := pushDownNode d l r
    let st1 := if !pd.1.point_deleted then storage ++ [pd.1.point] else storage
    let fl := flattenRec fuel pd.2.1 st1 storageType removed
    let fr := flattenRec fuel pd.2.2 fl.2.1 storageType fl.2.2
    let removed1 := match storageType with
      | .NOT_RECORD => fr.2.2
      | .DELETE_POINTS_REC =>
        if pd.1.point_deleted && !pd.1.point_downsample_deleted then
          (fr.2.2.1 ++ [pd.1.point], fr.2.2.2) else fr.2.2
      | .MULTI_THREAD_REC =>
        if pd.1.point_deleted && !pd.1.point_downsample_deleted then
          (fr.2.2.1, fr.2.2.2 ++ [pd.1.point]) else fr.2.2
    (node pd.1 fl.1 fr.1, fr.2.1, removed1)

/-- The operation `rebuild` together with the two lists of removed points: its `flatten`
is called with `NOT_RECORD`. -/
def rebuildRec (env : Env K) : KD_TREE_NODE K → List (PointType K) × List (PointType K) →
    KD_TREE_NODE K × (List (PointType K) × List (PointType K))
  | nil, removed => (nil, removed)
  | node d l r, removed =>
    if d.TreeSize < Minimal_Unbalanced_Tree_Size then (node d l r, removed)
    else
      let fl := flattenRec (node d l r).height (node d l r) [] .NOT_RECORD removed
      if fl.2.1.isEmpty then (deleteTreeNodes (node d l r), fl.2.2)
      else (update (buildTree env fl.2.1.length fl.2.1), fl.2.2)

/-- The tail of the mutators, `updateAndRebuild`, together with the two lists. -/
def updateAndRebuildRec (env : Env K) (allowRebuild : Bool) (root : KD_TREE_NODE K)
    (removed : List (PointType K) × List (PointType K)) :
    KD_TREE_NODE K × (List (PointType K) × List (PointType K)) :=
  let root1 := update root
  if allowRebuild && criterionCheck env root1 then rebuildRec env root1 removed
  else (root1, removed)

/-- The operation `deleteByPoint` together with the two lists. -/
def deleteByPointRec (env : Env K) : Nat → KD_TREE_NODE K → PointType K → Bool →
    List (PointType K) × List (PointType K) →
    KD_TREE_NODE K × (List (PointType K) × List (PointType K))
  | _, nil, _, _, removed => (nil, removed)
  | 0, node d l r, _, _, removed => (node d l r, removed)
  | fuel + 1, node d l r, point, allowRebuild, removed =>
    if d.tree_deleted then (node d l r, removed)
    else
      let pd := pushDownNode d l r
      if samePoint pd.1.point point && !pd.1.point_deleted then
        (node { pd.1 with
          point_deleted := true
          invalid_point_num := pd.1.invalid_point_num + 1
          tree_deleted := if pd.1.invalid_point_num + 1 = pd.1.TreeSize then true
            else pd.1.tree_deleted } pd.2.1 pd.2.2, removed)
      else if goLeft pd.1 point then
        let sl := deleteByPointRec env fuel pd.2.1 point allowRebuild removed
        updateAndRebuildRec env allowRebuild (node pd.1 sl.1 pd.2.2) sl.2
      else
        let sr := deleteByPointRec env fuel pd.2.2 point allowRebuild removed
        updateAndRebuildRec env allowRebuild (node pd.1 pd.2.1 sr.1) sr.2

namespace KD_TREE

/-- A newly constructed object: no root, no removed points. -/
def init : KD_TREE K := ⟨nil, [], []⟩

/-- The operation `build` on the object: the lists are not touched. -/
def build (env : Env K) (s : KD_TREE K) (pointCloud : List (PointType K)) : KD_TREE K :=
  { s with m_rootNode := IkdTree.build env s.m_rootNode pointCloud }

/-- The operation `deletePoints` on the object. -/
def deletePoints (env : Env K) (s : KD_TREE K) : List (PointType K) → KD_TREE K
  | [] => s
  | p :: ps =>
    let res := deleteByPointRec env s.m_rootNode.height s.m_rootNode p true
      (s.m_pointsDeleted, s.m_multithreadPointsDeleted)
    deletePoints env ⟨res.1, res.2.1, res.2.2⟩ ps

/-- The operation `rebuild` applied to the root of the object. -/
def rebuild (env : Env K) (s : KD_TREE K) : KD_TREE K :=
  let res := rebuildRec env s.m_rootNode (s.m_pointsDeleted, s.m_multithreadPointsDeleted)
  ⟨res.1, res.2.1, res.2.2⟩

/-- The operation `acquireRemovedPoints`: the object with both lists cleared, and
`removedPoints` with the two lists appended. -/
def acquireRemovedPoints (s : KD_TREE K) (removedPoints : List (PointType K)) :
    KD_TREE K × List (PointType K) :=
  (⟨s.m_rootNode, [], []⟩,
    removedPoints ++ s.m_pointsDeleted ++ s.m_multithreadPointsDeleted)

end KD_TREE

/-! ## Concrete inputs -/

/-- A point with payload `0`. -/
def pt (x y z : ℚ) : PointType ℚ := ⟨x, y, z, 0⟩

/-- The five points of scenario S1. -/
def s1Points : List (PointType ℚ) := [pt 0 0 0, pt 1 0 0, pt 0 1 0, pt 0 0 1, pt 1 1 1]

/-- The query box of scenario S1, `[(-0.1,-0.1,-0.1), (0.5,0.5,0.5)]`. -/
def s1Box : BoxPointType ℚ := ⟨(-1 / 10, -1 / 10, -1 / 10), (1 / 2, 1 / 2, 1 / 2)⟩

/-- The tree of `build([(0,0,0),(1,0,0)])`: the split coordinates differ, so every
`nth_element` puts `(0,0,0)` at the root and `(1,0,0)` in its right son. -/
def twoPointTree : KD_TREE_NODE ℚ := build defaultEnv nil [pt 0 0 0, pt 1 0 0]

/-- A box around `(1,0,0)` only: `[(0.5,-1,-1), (1.5,1,1)]`. -/
def farBox : BoxPointType ℚ := ⟨(1 / 2, -1, -1), (3 / 2, 1, 1)⟩

/-- A box around `(0,0,0)` only: `[(-0.5,-0.5,-0.5), (0.5,0.5,0.5)]`. -/
def nearBox : BoxPointType ℚ := ⟨(-1 / 2, -1 / 2, -1 / 2), (1 / 2, 1 / 2, 1 / 2)⟩

/-- The state after `build([(0,0,0),(1,0,0)])`, `delete_points([(1,0,0)])` and
`add_boxes([nearBox])`. -/
def restoredTree : KD_TREE_NODE ℚ :=
  addPointBoxes defaultEnv (deletePoints defaultEnv twoPointTree [pt 1 0 0]) [nearBox]

/-- The tree of `build([(0,0,0),(0,1,0),(1,0,0)])` when `nth_element` leaves the slice in
its sorted order, as libstdc++ and libc++ do for three elements: the root is `(0,1,0)`,
its left son `(0,0,0)` has the same split coordinate `x = 0`. -/
def tieTree : KD_TREE_NODE ℚ := build defaultEnv nil [pt 0 0 0, pt 0 1 0, pt 1 0 0]

/-- Twelve points with distinct `x`; all lie in the voxel `[0, 0.2)^3` except the one of
median `x`, `(0.05,-0.05,0)`, which every `nth_element` puts at the root. -/
def clusterPoints : List (PointType ℚ) :=
  [pt 0 0 0, pt (1 / 100) 0 0, pt (2 / 100) 0 0, pt (3 / 100) 0 0, pt (4 / 100) 0 0,
   pt (5 / 100) (-5 / 100) 0, pt (6 / 100) 0 0, pt (7 / 100) 0 0, pt (8 / 100) 0 0,
   pt (9 / 100) 0 0, pt (10 / 100) 0 0, pt (11 / 100) 0 0]

/-- The state after `build(clusterPoints)` and `delete_points([(0.05,-0.05,0)])`. -/
def clusterTree : KD_TREE_NODE ℚ :=
  deletePoints defaultEnv (build defaultEnv nil clusterPoints) [pt (5 / 100) (-5 / 100) 0]

/-- The query point of scenario S2, `(0.9,0.9,0.9)`. -/
def s2Query : PointType ℚ := pt (9 / 10) (9 / 10) (9 / 10)

/-- Seven of the twelve `clusterPoints`, the root point first. -/
def clusterSeven : List (PointType ℚ) :=
  [pt (5 / 100) (-5 / 100) 0, pt 0 0 0, pt (1 / 100) 0 0, pt (2 / 100) 0 0, pt (3 / 100) 0 0,
   pt (4 / 100) 0 0, pt (6 / 100) 0 0]

/-- The object after `build(clusterPoints)` on a new object. -/
def clusterObject : KD_TREE ℚ := KD_TREE.build defaultEnv KD_TREE.init clusterPoints

/-- The state after `build([(0,0,0),(1,0,0)])` and `delete_points([(1,0,0)])`: two nodes,
one of them deleted. -/
def smallDeletedTree : KD_TREE_NODE ℚ := deletePoints defaultEnv twoPointTree [pt 1 0 0]

/-- The state after `build(clusterPoints)` and `delete_points` of seven points, the root
point last: the deletion of the root point returns before `criterionCheck`, so the tree
keeps its twelve nodes, seven of them deleted.  The live points are `(0.07,0,0)`,
`(0.08,0,0)`, `(0.09,0,0)`, `(0.1,0,0)`, `(0.11,0,0)`. -/
def clusterFiveLive : KD_TREE_NODE ℚ :=
  deletePoints defaultEnv (build defaultEnv nil clusterPoints)
    [pt 0 0 0, pt (1 / 100) 0 0, pt (2 / 100) 0 0, pt (3 / 100) 0 0, pt (4 / 100) 0 0,
     pt (6 / 100) 0 0, pt (5 / 100) (-5 / 100) 0]

/-- A query point at the same distance from `(0.08,0,0)` and `(0.09,0,0)`. -/
def tieQuery : PointType ℚ := pt (85 / 1000) 0 0

/-- The state after `build([(0,0,0),(0,0,0)])`: the same point stored in two nodes. -/
def duplicateTree : KD_TREE_NODE ℚ := build defaultEnv nil [pt 0 0 0, pt 0 0 0]

/-- A box that holds every point of the small scenarios: `[(-1,-1,-1), (2,2,2)]`. -/
def wideBox : BoxPointType ℚ := ⟨(-1, -1, -1), (2, 2, 2)⟩

/-- The state after `build([(0,0,0),(1,0,0)])` and `add_points([(0.05,0.05,0.05)])` with
downsampling: the new point replaces `(0,0,0)` in its voxel, which is downsample-deleted. -/
def downsampledTree : KD_TREE_NODE ℚ :=
  match addPoints defaultEnv twoPointTree [pt (1 / 20) (1 / 20) (1 / 20)] true with
  | some res => res.1
  | none => nil

/-- Twelve distinct points on a 4 × 3 grid in the plane `z = 0`. -/
def gridPoints : List (PointType ℚ) :=
  [pt 0 0 0, pt 0 1 0, pt 0 2 0, pt 1 0 0, pt 1 1 0, pt 1 2 0,
   pt 2 0 0, pt 2 1 0, pt 2 2 0, pt 3 0 0, pt 3 1 0, pt 3 2 0]

/-- Eight of the grid points, to be deleted. -/
def gridDeleted : List (PointType ℚ) :=
  [pt 1 1 0, pt 1 2 0, pt 2 0 0, pt 2 1 0, pt 2 2 0, pt 3 0 0, pt 3 1 0, pt 3 2 0]

/-- The state after `build(gridPoints)` and `delete_points(gridDeleted)`. -/
def gridTree : KD_TREE_NODE ℚ :=
  deletePoints defaultEnv (build defaultEnv nil gridPoints) gridDeleted

/-- The state after `build([(0,0,0),(1,0,0)])` and `delete_boxes` with a box around both
points: the root is marked deleted as a whole, its son has not received the mark yet. -/
def boxDeletedTree : KD_TREE_NODE ℚ := (deletePointBoxes defaultEnv twoPointTree [wideBox]).1

/-- The point `(1, 2^-26, 0)`: its squared distance to the origin is `1 + 2^-52`, the
`double` next above `1`. -/
def grazingPoint : PointType ℚ := pt 1 (1 / 67108864) 0


/-! ## The invariants of the data model on the stored fields -/

/-- Invariant 2 of the data model at one node, on the fields as they are stored: the three
counters are those of the sons plus the contribution of the node (a null son counts `0`). -/
def Counted (d : NodeFields K) (l r : KD_TREE_NODE K) : Prop :=
  d.TreeSize = 1 + size l + size r ∧
  d.invalid_point_num = (if d.point_deleted then 1 else 0) + invalidNum l + invalidNum r ∧
  d.down_del_num = (if d.point_downsample_deleted then 1 else 0) + downDelNum l + downDelNum r

/-- Invariant 5 of the data model at one node, on the fields as they are stored. -/
def FlagP (d : NodeFields K) : Prop :=
  (d.point_downsample_deleted = true → d.point_deleted = true) ∧
  (d.tree_downsample_deleted = true → d.tree_deleted = true)

/-- Invariant 5 of the data model at every node, on the fields as they are stored. -/
def FlagInv (t : KD_TREE_NODE K) : Prop := AllNodes (fun d _ _ => FlagP d) t

/-- The coordinate of `p` on the split axis `axis`. -/
def axisCoord (axis : Nat) (p : PointType K) : K :=
  if axis = 0 then p.x else if axis = 1 then p.y else p.z

/-- Invariant 1 of the data model, once pending push-downs are applied: the live points of
the left subtree of a node are strictly below its point on its split axis, those of the
right subtree are not below it. -/
def SplitInv (t : KD_TREE_NODE K) : Prop :=
  AllNodes (fun d l r =>
    (∀ p ∈ undeleted l, axisCoord d.division_axis p < axisCoord d.division_axis d.point) ∧
    (∀ p ∈ undeleted r, axisCoord d.division_axis d.point ≤ axisCoord d.division_axis p))
    (pushAll t)

instance decidableCounted (d : NodeFields K) (l r : KD_TREE_NODE K) :
    Decidable (Counted d l r) := by
  unfold Counted
  exact inferInstance

instance decidableFlagP (d : NodeFields K) : Decidable (FlagP d) := by
  unfold FlagP
  exact inferInstance

instance decidableInRange (d : NodeFields K) (p : PointType K) : Decidable (inRange d p) := by
  unfold inRange
  exact inferInstance

instance decidableAllNodes (P : NodeFields K → KD_TREE_NODE K → KD_TREE_NODE K → Prop)
    [∀ d l r, Decidable (P d l r)] : ∀ t : KD_TREE_NODE K, Decidable (AllNodes P t)
  | nil => isTrue trivial
  | node d l r =>
    match decidableAllNodes P l, decidableAllNodes P r with
    | isTrue hl, isTrue hr =>
      if h : P d l r then isTrue ⟨h, hl, hr⟩ else isFalse (fun hh => h hh.1)
    | isFalse hl, _ => isFalse (fun hh => hl hh.2.1)
    | _, isFalse hr => isFalse (fun hh => hr hh.2.2)


/-! ## The queue of the operation log -/

/-- The constant `Q_LEN`. -/
def Q_LEN : Nat := 1000000

/-- The ring buffer `MANUAL_Q<T>`: `m_queue` gives the contents of the `Q_LEN` slots of the
backing vector by index; the `int` members are natural numbers (they are never negative). -/
structure MANUAL_Q (T : Type) where
  m_head : Nat
  m_tail : Nat
  m_counter : Nat
  m_queue : Nat → T
  m_isEmpty : Bool

namespace MANUAL_Q

variable {T : Type}

/-- The constructor: an empty queue whose slots hold the default value `dflt` of `T`. -/
def init (dflt : T) : MANUAL_Q T := ⟨0, 0, 0, fun _ => dflt, true⟩

/-- The operation `pop`. -/
def pop (q : MANUAL_Q T) : MANUAL_Q T :=
  if q.m_counter = 0 then q
  else { q with
    m_head := (q.m_head + 1) % Q_LEN, m_counter := q.m_counter - 1,
    m_isEmpty := if q.m_counter - 1 = 0 then true else q.m_isEmpty }

/-- The accessor `front`. -/
def front (q : MANUAL_Q T) : T := q.m_queue q.m_head

/-- The accessor `back`. -/
def back (q : MANUAL_Q T) : T := q.m_queue q.m_tail

/-- The operation `clear`. -/
def clear (q : MANUAL_Q T) : MANUAL_Q T :=
  { q with m_head := 0, m_tail := 0, m_counter := 0, m_isEmpty := true }

/-- The operation `push`: the entry is stored in the slot `m_tail`, whatever that slot
holds; the source has no other branch. -/
def push (q : MANUAL_Q T) (op : T) : MANUAL_Q T :=
  { q with
    m_queue := fun i => if i = q.m_tail then op else q.m_queue i,
    m_counter := q.m_counter + 1, m_isEmpty := false, m_tail := (q.m_tail + 1) % Q_LEN }

/-- The accessor `empty`. -/
def empty (q : MANUAL_Q T) : Bool := q.m_isEmpty

/-- The accessor `size`. -/
def size (q : MANUAL_Q T) : Nat := q.m_counter

end MANUAL_Q

/-! ## The root metrics written by `update` -/

/-- The last block of `update`, which runs when `root == m_rootNode`: given the root after
the other fields were written and the stored pair `(alpha_del, alpha_bal)`, the pair stored
afterwards.  (With `TreeSize > 3` and both sons null the source dereferences a null son;
the model reads size `0` there.) -/
def updateRootAlpha (root : KD_TREE_NODE K) (alpha : K × K) : K × K :=
  match root with
  | nil => alpha
  | node d l r =>
    if d.TreeSize > 3 then
      let sonSize : Int := match l, r with
        | node ld _ _, _ => ld.TreeSize
        | nil, node rd _ _ => rd.TreeSize
        | nil, nil => 0
      let tmpBal : K := (sonSize : K) / ((d.TreeSize - 1 : Int) : K)
      ((d.invalid_point_num : K) / (d.TreeSize : K),
        if tmpBal ≥ 1 / 2 - EPSS then tmpBal else 1 - tmpBal)
    else alpha

/-! ## Replaying a logged operation -/

/-- The enumeration `operation_set`. -/
inductive operation_set where
  | ADD_POINT | DELETE_POINT | DELETE_BOX | ADD_BOX | DOWNSAMPLE_DELETE | PUSH_DOWN
deriving DecidableEq

/-- The record `Operation_Logger_Type`. -/
structure Operation_Logger_Type (K : Type) where
  point : PointType K
  boxpoint : BoxPointType K
  tree_deleted : Bool
  tree_downsample_deleted : Bool
  op : operation_set

/-- The assignments of the `PUSH_DOWN` case of `runOperation` to the fields of the root. -/
def pushLogged (operation : Operation_Logger_Type K) (s : NodeFields K) : NodeFields K :=
  let tdd := s.tree_downsample_deleted || operation.tree_downsample_deleted
  let pdd := s.point_downsample_deleted || operation.tree_downsample_deleted
  let td := operation.tree_deleted || tdd
  let pd := td || pdd
  let ddn := if operation.tree_downsample_deleted then s.TreeSize else s.down_del_num
  let inv := if operation.tree_deleted then s.TreeSize else ddn
  { s with
    tree_downsample_deleted := tdd, point_downsample_deleted := pdd, tree_deleted := td,
    point_deleted := pd, down_del_num := ddn, invalid_point_num := inv,
    need_push_down_to_left := true, need_push_down_to_right := true }

/-- The operation `runOperation`; `none` when the `PUSH_DOWN` case dereferences a null
root. -/
def runOperation (env : Env K) (root : KD_TREE_NODE K) (operation : Operation_Logger_Type K) :
    Option (KD_TREE_NODE K) :=
  match operation.op with
  | .ADD_POINT =>
    some (addByPoint env root.height root operation.point false
      (match root with
        | nil => 0
        | node d _ _ => d.division_axis))
  | .ADD_BOX => some (addByRange env root.height root operation.boxpoint false)
  | .DELETE_POINT => some (deleteByPoint env root.height root operation.point false)
  | .DELETE_BOX => some (deleteByRange env root.height root operation.boxpoint false false).1
  | .DOWNSAMPLE_DELETE =>
    some (deleteByRange env root.height root operation.boxpoint false true).1
  | .PUSH_DOWN =>
    match root with
    | nil => none
    | node d l r => some (node (pushLogged operation d) l r)

/-! ## The k-nearest-neighbour search with the reads of `top()` checked -/

/-- The test `a < q.top().dist`; `none` when `top()` is evaluated on a heap that holds no
entry. -/
def ltTopChecked (a : Option K) (q : MANUAL_HEAP K) : Option Bool :=
  match q.top with
  | none => none
  | some t =>
    some (match a with
      | some x => decide (x < t.dist)
      | none => false)

/-- The test `q.size() < kNearest || a < q.top().dist`: `top()` is evaluated only when the
first operand is false. -/
def sizeOrLtTop (k : Nat) (a : Option K) (q : MANUAL_HEAP K) : Option Bool :=
  if q.size < k then some true else ltTopChecked a q

/-- The step of `search` at the point of a node `d`, as `visitPoint`, with the read
of `top()` checked: the test is
`dist <= maxDistSqr && (q.size() < kNearest || dist < q.top().dist)`. -/
def visitPointChecked (k : Nat) (q : PointType K) (maxDist : Option K) (heap : MANUAL_HEAP K)
    (d : NodeFields K) : Option (MANUAL_HEAP K) :=
  if !d.point_deleted && !gtOpt (calcDist q d.point) (maxDist.map fun m => m * m) then
    (sizeOrLtTop k (some (calcDist q d.point)) heap).map fun offer =>
      if offer then (if heap.size ≥ k then heap.pop else heap).push ⟨d.point, calcDist q d.point⟩
      else heap
  else some heap

/-- The part of `search` that descends into the sons, as `searchSons`, with the reads of
`top()` checked: the first test is
`q.size() < kNearest || distLeftNode < q.top().dist && distRightNode < q.top().dist`. -/
def searchSonsChecked (sL sR : MANUAL_HEAP K → Option (KD_TREE_NODE K × MANUAL_HEAP K))
    (dl dr : Option K) (k : Nat) (d : NodeFields K) (l r : KD_TREE_NODE K)
    (q1 : MANUAL_HEAP K) : Option (KD_TREE_NODE K × MANUAL_HEAP K) :=
  (if q1.size < k then some true
    else (ltTopChecked dl q1).bind fun a => if a then ltTopChecked dr q1 else some false).bind
  fun both =>
    if both then
      if optLe dl dr then
        (sL q1).bind fun sl =>
          (sizeOrLtTop k dr sl.2).bind fun again =>
            if again then (sR sl.2).map fun sr => (node d sl.1 sr.1, sr.2)
            else some (node d sl.1 r, sl.2)
      else
        (sR q1).bind fun sr =>
          (sizeOrLtTop k dl sr.2).bind fun again =>
            if again then (sL sr.2).map fun sl => (node d sl.1 sr.1, sl.2)
            else some (node d l sr.1, sr.2)
    else
      (ltTopChecked dl q1).bind fun a =>
        (if a then sL q1 else some (l, q1)).bind fun sl =>
          (ltTopChecked dr sl.2).bind fun b =>
            (if b then sR sl.2 else some (r, sl.2)).map fun sr => (node d sl.1 sr.1, sr.2)

/-- The operation `search` with the reads of `top()` checked: `none` when the run evaluates
`q.top()` on a heap that holds no entry.  As in `search`, no push-down is carried out. -/
def searchChecked : Nat → KD_TREE_NODE K → Nat → PointType K → MANUAL_HEAP K → Option K →
    Option (KD_TREE_NODE K × MANUAL_HEAP K)
  | _, nil, _, _, q, _ => some (nil, q)
  | 0, node d l r, _, _, q, _ => some (node d l r, q)
  | fuel + 1, node d l r, kNearest, point, q, maxDist =>
    if d.tree_deleted then some (node d l r, q)
    else
      if (calcBoxDist (node d l r) point).elim false
          (fun c => gtOpt c (maxDist.map fun m => m * m)) then some (node d l r, q)
      else
        (visitPointChecked kNearest point maxDist q d).bind fun q1 =>
          searchSonsChecked (fun h => searchChecked fuel l kNearest point h maxDist)
            (fun h => searchChecked fuel r kNearest point h maxDist)
            (calcBoxDist l point) (calcBoxDist r point) kNearest d l r q1

/-- The operation `nearestSearch` with the reads of `top()` checked (the final loop reads
`top()` only while the heap holds an entry). -/
def nearestSearchChecked (m_rootNode : KD_TREE_NODE K) (point : PointType K) (kNearest : Nat)
    (maxDist : Option K) : Option (KD_TREE_NODE K × List (PointType K) × List K) :=
  (searchChecked m_rootNode.height m_rootNode kNearest point
    (MANUAL_HEAP.empty (heapCapacity kNearest)) maxDist).map fun res =>
      (res.1, drainHeap (min kNearest res.2.size) res.2 ([], []))


/-! ## Further concrete inputs -/

/-- The queue after the entries `0, 1, …, n - 1` were pushed onto `q`, in this order. -/
def pushRange (q : MANUAL_Q Nat) : Nat → MANUAL_Q Nat
  | 0 => q
  | n + 1 => (pushRange q n).push n

/-- The log after `Q_LEN` pushes and no pop: the entries `0, …, Q_LEN - 1` are unread. -/
def fullLog : MANUAL_Q Nat := pushRange (MANUAL_Q.init 0) Q_LEN

/-- The state after `build([(0,0,0)])` and `add_points([(1,0,0),(2,0,0),(3,0,0)])` without
downsampling: every new point goes to the right of the one before. -/
def chainTree : KD_TREE_NODE ℚ :=
  match addPoints defaultEnv (build defaultEnv nil [pt 0 0 0])
      [pt 1 0 0, pt 2 0 0, pt 3 0 0] false with
  | some res => res.1
  | none => nil

/-- The fields of the root of `chainTree`. -/
def chainRoot : NodeFields ℚ :=
  match chainTree with
  | node d _ _ => d
  | nil => initTreeNode

/-- The left son of the root of `chainTree`. -/
def chainLeft : KD_TREE_NODE ℚ :=
  match chainTree with
  | node _ l _ => l
  | nil => nil

/-- The right son of the root of `chainTree`. -/
def chainRight : KD_TREE_NODE ℚ :=
  match chainTree with
  | node _ _ r => r
  | nil => nil

/-! ## Specification-level notions of the node operations -/

/-- The range box of `d` on the axis `axis`. -/
def nodeRange (axis : Nat) (d : NodeFields K) : K × K :=
  if axis = 0 then d.node_range_x else if axis = 1 then d.node_range_y else d.node_range_z

/-- The union of a list of intervals `(min, max)`; `none` for the empty list. -/
def hullOf : List (K × K) → Option (K × K)
  | [] => none
  | a :: rest => some (rest.foldl (fun acc i => (min acc.1 i.1, max acc.2 i.2)) a)

/-- The interval that a son contributes to the range box of its father on `axis`: none for
a null son, and none for a fully deleted son unless `all` is set. -/
def sonPart (axis : Nat) (all : Bool) : KD_TREE_NODE K → List (K × K)
  | nil => []
  | node c _ _ => if all || !c.tree_deleted then [nodeRange axis c] else []

/-- The intervals whose union is the range box of a node on `axis`: those of the sons, and
the point of the node unless it is deleted; with `all` set, fully deleted sons and a deleted
point contribute as well. -/
def aabbParts (axis : Nat) (all : Bool) (d : NodeFields K) (l r : KD_TREE_NODE K) :
    List (K × K) :=
  sonPart axis all l ++ sonPart axis all r ++
    (if all || !d.point_deleted then [(axisCoord axis d.point, axisCoord axis d.point)] else [])

/-- What `push_down(n)` does to the son `c` whose push flag on `n` is `flag`, leaving `c'`:
a null son stays null, a son whose flag is not raised stays as it is, and a son whose flag is
raised receives the marks of `n` and has both its push flags raised; its own sons and its
other fields stay as they are. -/
def PushedSon (n : NodeFields K) (flag : Bool) (c c' : KD_TREE_NODE K) : Prop :=
  match c with
  | nil => c' = nil
  | node s cl cr =>
    if flag then
      ∃ s', c' = node s' cl cr ∧
        s'.tree_downsample_deleted = (s.tree_downsample_deleted || n.tree_downsample_deleted) ∧
        s'.point_downsample_deleted =
          (s.point_downsample_deleted || n.tree_downsample_deleted) ∧
        s'.tree_deleted = (n.tree_deleted || s'.tree_downsample_deleted) ∧
        s'.point_deleted = (s'.tree_deleted || s'.point_downsample_deleted) ∧
        s'.down_del_num = (if n.tree_downsample_deleted then s.TreeSize else s.down_del_num) ∧
        s'.invalid_point_num = (if n.tree_deleted then s.TreeSize else s'.down_del_num) ∧
        s'.need_push_down_to_left = true ∧ s'.need_push_down_to_right = true ∧
        SameStatic s' s
    else c' = node s cl cr

/-! ## Specification-level notions of the builder -/

/-- The number `w` is the width `max - min` of the coordinates of the points of `slice` on
`axis`: it is the difference of two of these coordinates, and no difference is larger. -/
def IsWidth (axis : Nat) (slice : List (PointType K)) (w : K) : Prop :=
  (∃ p ∈ slice, ∃ q ∈ slice, axisCoord axis p - axisCoord axis q = w) ∧
  ∀ p ∈ slice, ∀ q ∈ slice, axisCoord axis p - axisCoord axis q ≤ w

/-- The number of nodes of a tree. -/
def numNodes : KD_TREE_NODE K → Nat
  | nil => 0
  | node _ l r => numNodes l + numNodes r + 1

/-- At every node the two sons hold numbers of nodes that differ by at most one, the left
one not the larger, and the sizes stored in the sons are these numbers. -/
def Balanced (t : KD_TREE_NODE K) : Prop :=
  AllNodes (fun _ l r => numNodes l ≤ numNodes r ∧ numNodes r ≤ numNodes l + 1 ∧
    size l = (numNodes l : Int) ∧ size r = (numNodes r : Int)) t

/-! ## The subtree flags and the counters on the stored fields -/

/-- The subtree flags of one node stand for full counters, on the fields as they are
stored: `tree_deleted` holds exactly when `invalid_point_num = TreeSize`, and
`tree_downsample_deleted` exactly when `down_del_num = TreeSize`. -/
def TreeFlagP (d : NodeFields K) : Prop :=
  (d.tree_deleted = true ↔ d.invalid_point_num = d.TreeSize) ∧
  (d.tree_downsample_deleted = true ↔ d.down_del_num = d.TreeSize)

/-- The relation between the four deletion flags, the size and the two counters of one node
that the operations keep: the two equivalences of `TreeFlagP`, the counters between `0` and
the size, a subtree flag implies its point flag, and a downsample flag implies its deletion
flag. -/
def TallyV (td tdd pd pdd : Bool) (size inv ddn : Int) : Prop :=
  ((td = true ↔ inv = size) ∧ (tdd = true ↔ ddn = size)) ∧
  (0 ≤ inv ∧ inv ≤ size) ∧ (0 ≤ ddn ∧ ddn ≤ size) ∧
  (td = true → pd = true) ∧ (tdd = true → pdd = true) ∧
  (pdd = true → pd = true) ∧ (tdd = true → td = true)

/-- The relation `TallyV` on the stored fields of a node. -/
def TallyP (d : NodeFields K) : Prop :=
  TallyV d.tree_deleted d.tree_downsample_deleted d.point_deleted d.point_downsample_deleted
    d.TreeSize d.invalid_point_num d.down_del_num

/-- The property `TallyP` at every node. -/
def TallyInv (t : KD_TREE_NODE K) : Prop := AllNodes (fun d _ _ => TallyP d) t

/-! ## Replaying the operation log -/

/-- The replay loop of `multiThreadRebuild`: `runOperation` for each entry of the log, in
order; `none` when an entry dereferences a null root. -/
def replay (env : Env K) (root : KD_TREE_NODE K) :
    List (Operation_Logger_Type K) → Option (KD_TREE_NODE K)
  | [] => some root
  | operation :: rest => (runOperation env root operation).bind fun t => replay env t rest

/-- The subtree that `multiThreadRebuild` builds from `root`: `flatten` into a storage,
then `buildTree` on the storage when it is not empty, and null otherwise. -/
def rebuiltSubtree (env : Env K) (root : KD_TREE_NODE K) : KD_TREE_NODE K :=
  let storage := (flatten root.height root []).2
  if storage.length > 0 then buildTree env storage.length storage else nil

/-- A log entry with the operation `op` on the point `p` and the box `b`. -/
def logEntry (op : operation_set) (p : PointType K) (b : BoxPointType K) :
    Operation_Logger_Type K := ⟨p, b, false, false, op⟩

/-! ## Specification-level notions of the queue of the operation log -/

namespace MANUAL_Q

variable {T : Type}

/-- The queue after the entries of `xs` were pushed onto `q`, in this order. -/
def pushEach : MANUAL_Q T → List T → MANUAL_Q T
  | q, [] => q
  | q, x :: xs => pushEach (q.push x) xs

/-- The queue after `n` calls of `pop` on `q`. -/
def popTimes : MANUAL_Q T → Nat → MANUAL_Q T
  | q, 0 => q
  | q, n + 1 => popTimes q.pop n

/-- The queue `q` holds the entries `xs`, the oldest first: they are stored in the slots
from `m_head` on, cyclically, `m_tail` is the slot after the last one, `m_counter` is
their number, at most `Q_LEN`, and `m_isEmpty` is set exactly when there is none. -/
def Holds (q : MANUAL_Q T) (xs : List T) : Prop :=
  q.m_head < Q_LEN ∧ q.m_tail = (q.m_head + xs.length) % Q_LEN ∧ q.m_counter = xs.length ∧
  q.m_isEmpty = xs.isEmpty ∧ xs.length ≤ Q_LEN ∧
  ∀ (i : Nat) (x : T), xs[i]? = some x → q.m_queue ((q.m_head + i) % Q_LEN) = x

end MANUAL_Q

/-- The effect that a log entry is meant to have on the list of live points: `ADD_POINT`
adds its point, `DELETE_BOX` and `DOWNSAMPLE_DELETE` remove the points inside their box;
the other entries are not described here and leave the list as it is. -/
def logEffect (live : List (PointType K)) (e : Operation_Logger_Type K) :
    List (PointType K) :=
  match e.op with
  | .ADD_POINT => e.point :: live
  | .DELETE_BOX => live.filter fun p => !pointInBox e.boxpoint p
  | .DOWNSAMPLE_DELETE => live.filter fun p => !pointInBox e.boxpoint p
  | _ => live

/-! ## Concrete inputs of the node operations -/

/-- The fields of the root of `clusterFiveLive`: twelve nodes below it, seven of them
deleted. -/
def fiveLiveRoot : NodeFields ℚ :=
  match clusterFiveLive with
  | node d _ _ => d
  | nil => initTreeNode

/-- The left son of the root of `clusterFiveLive`. -/
def fiveLiveLeft : KD_TREE_NODE ℚ :=
  match clusterFiveLive with
  | node _ l _ => l
  | nil => nil

/-- The right son of the root of `clusterFiveLive`. -/
def fiveLiveRight : KD_TREE_NODE ℚ :=
  match clusterFiveLive with
  | node _ _ r => r
  | nil => nil

/-- The state after `build([(0,0,0)])` and `add_points([(0,1,0),(1,0,0)])` without
downsampling: the root is `(0,0,0)`, and `flatten` lists `(0,0,0)`, `(0,1,0)`, `(1,0,0)`. -/
def cornerTree : KD_TREE_NODE ℚ :=
  match addPoints defaultEnv (build defaultEnv nil [pt 0 0 0]) [pt 0 1 0, pt 1 0 0] false with
  | some res => res.1
  | none => nil

/-- The fields of a node that stores `n` nodes below it, none deleted; the members that
`criterionCheck` does not read are those of `initTreeNode`. -/
def sizedFields (n : Int) : NodeFields ℚ := { (initTreeNode : NodeFields ℚ) with TreeSize := n }

/-- A node with the fields `sizedFields n`. -/
def sizedNode (n : Int) (l r : KD_TREE_NODE ℚ) : KD_TREE_NODE ℚ := node (sizedFields n) l r

/-! ## Specification-level notions of the k-nearest-neighbour search -/

/-- The points that `search` can offer to the heap.  It reads the deletion flags as they
are stored, so these are the points of the nodes that are not `point_deleted`, outside the
subtrees whose root is `tree_deleted`, in pre-order. -/
def visible : KD_TREE_NODE K → List (PointType K)
  | nil => []
  | node d l r =>
    if d.tree_deleted then []
    else (if d.point_deleted then [] else [d.point]) ++ visible l ++ visible r

/-- The range box of every node that `search` can enter, as it is stored, contains the
points that `search` can offer below the node. -/
def VisRange : KD_TREE_NODE K → Prop
  | nil => True
  | node d l r => d.tree_deleted = true ∨
      ((∀ p ∈ visible (node d l r), inRange d p) ∧ VisRange l ∧ VisRange r)

/-- No push-down is pending where `search` goes: outside the subtrees whose root is
`tree_deleted`, a push flag is raised over a null son only. -/
def noPendingPush : KD_TREE_NODE K → Bool
  | nil => true
  | node d l r => d.tree_deleted ||
      ((!d.need_push_down_to_left || l.isNull) && (!d.need_push_down_to_right || r.isNull) &&
        noPendingPush l && noPendingPush r)

/-- A live node that holds `p` can be reached from the root of a pushed tree through nodes
whose range boxes contain `p`: a box search for a box that holds `p` does not turn back
before it. -/
def Covered (p : PointType K) : KD_TREE_NODE K → Prop
  | nil => False
  | node d l r =>
    inRange d p ∧ ((d.point = p ∧ d.point_deleted = false) ∨ Covered p l ∨ Covered p r)

/-! ## Double-precision arithmetic on rational numbers -/

/-- The power `2 ^ z` of an integer `z`. -/
def twoPow (z : Int) : ℚ :=
  if 0 ≤ z then ((2 ^ z.toNat : Nat) : ℚ) else 1 / ((2 ^ (-z).toNat : Nat) : ℚ)

/-- The loop of `log2`: the number of halvings that bring `n` below `2`. -/
def log2Loop : Nat → Nat → Nat
  | 0, _ => 0
  | fuel + 1, n => if n < 2 then 0 else log2Loop fuel (n / 2) + 1

/-- The binary logarithm of a positive natural number, rounded down. -/
def log2 (n : Nat) : Nat := log2Loop n n

/-- The binary exponent of a positive rational `x`: the `e` with `2 ^ e ≤ x < 2 ^ (e + 1)`.
The difference of the logarithms of numerator and denominator is `e` or `e + 1`. -/
def binaryExponent (x : ℚ) : Int :=
  if twoPow ((log2 x.num.natAbs : Int) - (log2 x.den : Int)) ≤ x then
    (log2 x.num.natAbs : Int) - (log2 x.den : Int)
  else (log2 x.num.natAbs : Int) - (log2 x.den : Int) - 1

/-- The integer nearest to a rational that is not negative, a tie going to the even one. -/
def roundHalfEven (x : ℚ) : Int :=
  if x - (⌊x⌋ : ℚ) < 1 / 2 then ⌊x⌋
  else if 1 / 2 < x - (⌊x⌋ : ℚ) then ⌊x⌋ + 1
  else if ⌊x⌋ % 2 = 0 then ⌊x⌋ else ⌊x⌋ + 1

/-- The `double` nearest to the rational `x`: rounding to nearest with 53 significant bits,
a tie going to the even significand, as in IEEE 754 binary64.  The exponent is not bounded:
subnormal numbers and overflow are left out. -/
def roundDouble (x : ℚ) : ℚ :=
  if x = 0 then 0
  else
    (if x < 0 then -1 else 1) *
      ((roundHalfEven (|x| * twoPow (52 - binaryExponent |x|)) : Int) : ℚ) *
      twoPow (binaryExponent |x| - 52)

/-- The quotient of two `double` values as the machine computes it: the exact quotient,
rounded. -/
def doubleDiv (a b : ℚ) : ℚ := roundDouble (a / b)

/-- The loop of `isqrt`: the bits of the root from bit `b - 1` down to bit `0`, each set
when the square stays within `n`. -/
def isqrtLoop (n : Nat) : Nat → Nat → Nat
  | 0, r => r
  | b + 1, r => isqrtLoop n b (if (r + 2 ^ b) * (r + 2 ^ b) ≤ n then r + 2 ^ b else r)

/-- The integer square root of `n`: the largest `r` with `r * r ≤ n`. -/
def isqrt (n : Nat) : Nat := isqrtLoop n (log2 n / 2 + 1) 0

/-- The `double` nearest to the square root of the rational `x`, `0` for `x ≤ 0`: what a
correctly rounded `sqrt` returns on a `double` that is not negative.  With `h` half the
binary exponent of `x`, rounded down, the root scaled by `2 ^ (52 - h)` lies between `2 ^ 52`
and `2 ^ 53`; the integer nearest to it is `(isqrt (4 * y) + 1) / 2` for the square `y` of
the scaled root. -/
def doubleSqrt (x : ℚ) : ℚ :=
  if x ≤ 0 then 0
  else
    ((isqrt (⌊4 * x * twoPow (2 * (52 - Int.fdiv (binaryExponent x) 2))⌋).toNat + 1) / 2 : Nat) *
      twoPow (Int.fdiv (binaryExponent x) 2 - 52)

/-- The environment of `KD_TREE(deleteParam, balanceParam, boxLength)` in double precision:
the three parameters are the `double` values nearest to the decimal numbers, the quotient is
rounded, and `nth_element` sorts. -/
def doubleEnv (deleteParam balanceParam boxLength : ℚ) : Env ℚ :=
  ⟨roundDouble deleteParam, roundDouble balanceParam, roundDouble boxLength, nthElementBySort,
    doubleDiv, fun x => ⌊x⌋⟩

set_option linter.unusedSectionVars false

/-! # Properties -/

/-! ## Basic facts about `pushDown` -/

theorem pushDownNode_snd_fst (d : NodeFields K) (l r : KD_TREE_NODE K) :
    (pushDownNode d l r).2.1 = pushSon d.need_push_down_to_left d l := rfl

theorem pushFields_congr (d e s : NodeFields K)
    (h1 : d.tree_deleted = e.tree_deleted)
    (h2 : d.tree_downsample_deleted = e.tree_downsample_deleted) :
    pushFields d s = pushFields e s := by
  simp [pushFields, h1, h2]

theorem pushSon_congr (flag : Bool) (d e : NodeFields K) (t : KD_TREE_NODE K)
    (h1 : d.tree_deleted = e.tree_deleted)
    (h2 : d.tree_downsample_deleted = e.tree_downsample_deleted) :
    pushSon flag d t = pushSon flag e t := by
  cases t with
  | nil => rfl
  | node s l r => simp only [pushSon, pushFields_congr d e s h1 h2]

theorem pushDownNode_snd_snd (d : NodeFields K) (l r : KD_TREE_NODE K) :
    (pushDownNode d l r).2.2 = pushSon d.need_push_down_to_right d r := by
  show pushSon _ _ r = _
  by_cases h : (d.need_push_down_to_left && !l.isNull) = true
  · rw [if_pos h]
    exact pushSon_congr _ _ _ _ rfl rfl
  · rw [if_neg h]

theorem pushDownNode_fst (d : NodeFields K) (l r : KD_TREE_NODE K) :
    (pushDownNode d l r).1 = { d with
      need_push_down_to_left := d.need_push_down_to_left && l.isNull
      need_push_down_to_right := d.need_push_down_to_right && r.isNull } := by
  cases d
  cases hl : l.isNull <;> cases hr : r.isNull <;>
    rename_i a b c e f g h i j nl nr k m n o <;>
    cases nl <;> cases nr <;> simp [pushDownNode, hl, hr]

section fields
variable (d : NodeFields K) (l r : KD_TREE_NODE K)

@[simp] theorem pushDownNode_point : (pushDownNode d l r).1.point = d.point := by
  rw [pushDownNode_fst]

@[simp] theorem pushDownNode_division_axis :
    (pushDownNode d l r).1.division_axis = d.division_axis := by
  rw [pushDownNode_fst]

@[simp] theorem pushDownNode_TreeSize : (pushDownNode d l r).1.TreeSize = d.TreeSize := by
  rw [pushDownNode_fst]

@[simp] theorem pushDownNode_invalid_point_num :
    (pushDownNode d l r).1.invalid_point_num = d.invalid_point_num := by
  rw [pushDownNode_fst]

@[simp] theorem pushDownNode_down_del_num :
    (pushDownNode d l r).1.down_del_num = d.down_del_num := by
  rw [pushDownNode_fst]

@[simp] theorem pushDownNode_point_deleted :
    (pushDownNode d l r).1.point_deleted = d.point_deleted := by
  rw [pushDownNode_fst]

@[simp] theorem pushDownNode_tree_deleted :
    (pushDownNode d l r).1.tree_deleted = d.tree_deleted := by
  rw [pushDownNode_fst]

@[simp] theorem pushDownNode_point_downsample_deleted :
    (pushDownNode d l r).1.point_downsample_deleted = d.point_downsample_deleted := by
  rw [pushDownNode_fst]

@[simp] theorem pushDownNode_tree_downsample_deleted :
    (pushDownNode d l r).1.tree_downsample_deleted = d.tree_downsample_deleted := by
  rw [pushDownNode_fst]

@[simp] theorem pushDownNode_radius_sq : (pushDownNode d l r).1.radius_sq = d.radius_sq := by
  rw [pushDownNode_fst]

@[simp] theorem pushDownNode_node_range_x :
    (pushDownNode d l r).1.node_range_x = d.node_range_x := by
  rw [pushDownNode_fst]

@[simp] theorem pushDownNode_node_range_y :
    (pushDownNode d l r).1.node_range_y = d.node_range_y := by
  rw [pushDownNode_fst]

@[simp] theorem pushDownNode_node_range_z :
    (pushDownNode d l r).1.node_range_z = d.node_range_z := by
  rw [pushDownNode_fst]

@[simp] theorem pushDownNode_need_left :
    (pushDownNode d l r).1.need_push_down_to_left = (d.need_push_down_to_left && l.isNull) := by
  rw [pushDownNode_fst]

@[simp] theorem pushDownNode_need_right :
    (pushDownNode d l r).1.need_push_down_to_right = (d.need_push_down_to_right && r.isNull) := by
  rw [pushDownNode_fst]

@[simp] theorem clearPush_pushDownNode : clearPush (pushDownNode d l r).1 = clearPush d := by
  rw [pushDownNode_fst]; rfl

end fields

@[simp] theorem pushSon_nil (flag : Bool) (d : NodeFields K) :
    pushSon flag d (nil : KD_TREE_NODE K) = nil := rfl

@[simp] theorem pushSon_false (d : NodeFields K) (t : KD_TREE_NODE K) :
    pushSon false d t = t := by
  cases t <;> rfl

@[simp] theorem isNull_pushSon (flag : Bool) (d : NodeFields K) (t : KD_TREE_NODE K) :
    (pushSon flag d t).isNull = t.isNull := by
  cases t <;> cases flag <;> rfl

@[simp] theorem height_pushSon (flag : Bool) (d : NodeFields K) (t : KD_TREE_NODE K) :
    (pushSon flag d t).height = t.height := by
  cases t <;> cases flag <;> rfl

theorem eq_nil_of_isNull {t : KD_TREE_NODE K} (h : t.isNull = true) : t = nil := by
  cases t with
  | nil => rfl
  | node d l r => simp [isNull] at h

theorem height_pushDownNode_left (d : NodeFields K) (l r : KD_TREE_NODE K) :
    (pushDownNode d l r).2.1.height = l.height := by
  rw [pushDownNode_snd_fst, height_pushSon]

theorem height_pushDownNode_right (d : NodeFields K) (l r : KD_TREE_NODE K) :
    (pushDownNode d l r).2.2.height = r.height := by
  rw [pushDownNode_snd_snd, height_pushSon]

theorem height_left_le {d : NodeFields K} {l r : KD_TREE_NODE K} {n : Nat}
    (h : (node d l r).height ≤ n + 1) : (pushDownNode d l r).2.1.height ≤ n := by
  rw [height_pushDownNode_left]; simp [height] at h; omega

theorem height_right_le {d : NodeFields K} {l r : KD_TREE_NODE K} {n : Nat}
    (h : (node d l r).height ≤ n + 1) : (pushDownNode d l r).2.2.height ≤ n := by
  rw [height_pushDownNode_right]; simp [height] at h; omega

/-! ## Trees that agree after push-down -/

theorem pushAll_pushSon (flag : Bool) (d : NodeFields K) (t : KD_TREE_NODE K) :
    pushAll (pushSon flag d t) = pushAllFrom (if flag then pushFields d else id) t := by
  cases t with
  | nil => rfl
  | node s l r => cases flag <;> rfl

@[simp] theorem pushAll_nil : pushAll (nil : KD_TREE_NODE K) = nil := rfl

/-- Unfolding of `pushAll` along `pushDown`. -/
theorem pushAll_node (d : NodeFields K) (l r : KD_TREE_NODE K) :
    pushAll (node d l r) =
      node (clearPush d) (pushAll (pushDownNode d l r).2.1)
        (pushAll (pushDownNode d l r).2.2) := by
  rw [pushDownNode_snd_fst, pushDownNode_snd_snd, pushAll_pushSon, pushAll_pushSon]
  rfl

theorem pushAllFrom_isNull (f : NodeFields K → NodeFields K) (t : KD_TREE_NODE K) :
    (pushAllFrom f t).isNull = t.isNull := by
  cases t <;> rfl

@[simp] theorem pushAll_isNull (t : KD_TREE_NODE K) : (pushAll t).isNull = t.isNull :=
  pushAllFrom_isNull id t

theorem isNull_eq_of_pushAll_eq {a b : KD_TREE_NODE K} (h : pushAll a = pushAll b) :
    a.isNull = b.isNull := by
  rw [← pushAll_isNull a, ← pushAll_isNull b, h]

/-- A node whose push flags towards its non-null sons are clear is pushed son by son. -/
theorem pushAll_node_clear (d : NodeFields K) (l r : KD_TREE_NODE K)
    (hl : l.isNull = false → d.need_push_down_to_left = false)
    (hr : r.isNull = false → d.need_push_down_to_right = false) :
    pushAll (node d l r) = node (clearPush d) (pushAll l) (pushAll r) := by
  rw [pushAll_node, pushDownNode_snd_fst, pushDownNode_snd_snd]
  congr 1
  · cases hn : l.isNull
    · rw [hl hn, pushSon_false]
    · rw [eq_nil_of_isNull hn]; rfl
  · cases hn : r.isNull
    · rw [hr hn, pushSon_false]
    · rw [eq_nil_of_isNull hn]; rfl

/-- Replacing the pushed sons of a node by trees that agree with them after push-down
gives a tree that agrees with the node after push-down. -/
theorem pushAll_node_congr (d : NodeFields K) (l r l1 r1 : KD_TREE_NODE K)
    (hl : pushAll l1 = pushAll (pushDownNode d l r).2.1)
    (hr : pushAll r1 = pushAll (pushDownNode d l r).2.2) :
    pushAll (node (pushDownNode d l r).1 l1 r1) = pushAll (node d l r) := by
  have nl : l1.isNull = l.isNull := by
    rw [isNull_eq_of_pushAll_eq hl, pushDownNode_snd_fst, isNull_pushSon]
  have nr : r1.isNull = r.isNull := by
    rw [isNull_eq_of_pushAll_eq hr, pushDownNode_snd_snd, isNull_pushSon]
  rw [pushAll_node_clear, pushAll_node d, hl, hr, clearPush_pushDownNode]
  · intro h; rw [pushDownNode_need_left, ← nl, h, Bool.and_false]
  · intro h; rw [pushDownNode_need_right, ← nr, h, Bool.and_false]

theorem pushAll_pushDownNode (d : NodeFields K) (l r : KD_TREE_NODE K) :
    pushAll (node (pushDownNode d l r).1 (pushDownNode d l r).2.1 (pushDownNode d l r).2.2) =
      pushAll (node d l r) :=
  pushAll_node_congr d l r _ _ rfl rfl

theorem livePoints_congr {a b : KD_TREE_NODE K} (h : pushAll a = pushAll b) :
    livePoints a = livePoints b := by
  unfold livePoints; rw [h]

/-- The live points of a node: its own point unless deleted, then those of the pushed
sons. -/
theorem livePoints_node (d : NodeFields K) (l r : KD_TREE_NODE K) :
    livePoints (node d l r) =
      (if d.point_deleted then [] else [d.point]) ++ livePoints (pushDownNode d l r).2.1 ++
        livePoints (pushDownNode d l r).2.2 := by
  unfold livePoints
  rw [pushAll_node]
  rfl

@[simp] theorem livePoints_nil : livePoints (nil : KD_TREE_NODE K) = [] := rfl

/-! ## `flatten` -/

/-- Whatever the fuel, `flatten` only pushes flags down. -/
theorem flatten_pushAll : ∀ (fuel : Nat) (t : KD_TREE_NODE K) (storage : List (PointType K)),
    pushAll (flatten fuel t storage).1 = pushAll t
  | _, nil, _ => by cases ‹Nat› <;> rfl
  | 0, node d l r, _ => rfl
  | fuel + 1, node d l r, storage => by
    simp only [flatten]
    exact pushAll_node_congr d l r _ _ (flatten_pushAll fuel _ _) (flatten_pushAll fuel _ _)

/-- With enough fuel `flatten` appends the live points, in pre-order. -/
theorem flatten_snd : ∀ (fuel : Nat) (t : KD_TREE_NODE K) (storage : List (PointType K)),
    t.height ≤ fuel → (flatten fuel t storage).2 = storage ++ livePoints t
  | _, nil, storage, _ => by cases ‹Nat› <;> simp [flatten]
  | 0, node d l r, _, h => by simp [height] at h
  | fuel + 1, node d l r, storage, h => by
    simp only [flatten, flatten_snd fuel _ _ (height_left_le h),
      flatten_snd fuel _ _ (height_right_le h), livePoints_node d l r,
      pushDownNode_point_deleted, pushDownNode_point]
    cases d.point_deleted <;> simp

/-! ## The bounding-box invariant and box search -/

theorem rangeInv_node (d : NodeFields K) (l r : KD_TREE_NODE K) :
    RangeInv (node d l r) ↔
      (∀ p ∈ livePoints (node d l r), inRange d p) ∧
        RangeInv (pushDownNode d l r).2.1 ∧ RangeInv (pushDownNode d l r).2.2 := by
  unfold RangeInv livePoints
  rw [pushAll_node]
  simp only [AllNodes]
  exact Iff.rfl

theorem rangeInv_congr {a b : KD_TREE_NODE K} (h : pushAll a = pushAll b) :
    RangeInv a ↔ RangeInv b := by
  unfold RangeInv; rw [h]

theorem not_pointInBox_of_boxMisses (b : BoxPointType K) (d : NodeFields K) (p : PointType K)
    (hm : boxMisses b d = true) (hp : inRange d p) : pointInBox b p = false := by
  obtain ⟨h1, h2, h3, h4, h5, h6⟩ := hp
  simp only [boxMisses, Bool.or_eq_true, decide_eq_true_eq] at hm
  rw [← Bool.not_eq_true]
  simp only [pointInBox, Bool.and_eq_true, decide_eq_true_eq]
  rintro ⟨⟨⟨⟨⟨a1, a2⟩, a3⟩, a4⟩, a5⟩, a6⟩
  rcases hm with (hm | hm) | hm
  · rcases hm with hm | hm
    · exact absurd (lt_of_lt_of_le (lt_of_le_of_lt h1 a2) hm) (lt_irrefl _)
    · exact absurd (lt_of_le_of_lt (le_trans a1 h2) hm) (lt_irrefl _)
  · rcases hm with hm | hm
    · exact absurd (lt_of_lt_of_le (lt_of_le_of_lt h3 a4) hm) (lt_irrefl _)
    · exact absurd (lt_of_le_of_lt (le_trans a3 h4) hm) (lt_irrefl _)
  · rcases hm with hm | hm
    · exact absurd (lt_of_lt_of_le (lt_of_le_of_lt h5 a6) hm) (lt_irrefl _)
    · exact absurd (lt_of_le_of_lt (le_trans a5 h6) hm) (lt_irrefl _)

theorem pointInBox_of_boxCovers (b : BoxPointType K) (d : NodeFields K) (p : PointType K)
    (hc : boxCovers b d = true) (hp : inRange d p) : pointInBox b p = true := by
  obtain ⟨h1, h2, h3, h4, h5, h6⟩ := hp
  simp only [boxCovers, Bool.and_eq_true, decide_eq_true_eq] at hc
  obtain ⟨⟨⟨⟨⟨a1, a2⟩, a3⟩, a4⟩, a5⟩, a6⟩ := hc
  simp only [pointInBox, Bool.and_eq_true, decide_eq_true_eq]
  exact ⟨⟨⟨⟨⟨le_trans a1 h1, lt_of_le_of_lt h2 a2⟩, le_trans a3 h3⟩, lt_of_le_of_lt h4 a4⟩,
    le_trans a5 h5⟩, lt_of_le_of_lt h6 a6⟩

theorem inRange_pushDownNode (d : NodeFields K) (l r : KD_TREE_NODE K) (p : PointType K) :
    inRange (pushDownNode d l r).1 p ↔ inRange d p := by
  simp [inRange]

/-- Whatever the fuel, `searchByRange` only pushes flags down. -/
theorem searchByRange_pushAll : ∀ (fuel : Nat) (t : KD_TREE_NODE K) (b : BoxPointType K)
    (storage : List (PointType K)), pushAll (searchByRange fuel t b storage).1 = pushAll t
  | _, nil, _, _ => by cases ‹Nat› <;> rfl
  | 0, node d l r, _, _ => rfl
  | fuel + 1, node d l r, b, storage => by
    simp only [searchByRange]
    split
    · exact pushAll_pushDownNode d l r
    · split
      · rw [flatten_pushAll]; exact pushAll_pushDownNode d l r
      · exact pushAll_node_congr d l r _ _ (searchByRange_pushAll fuel _ _ _)
          (searchByRange_pushAll fuel _ _ _)

/-- Under the bounding-box invariant and with enough fuel, `searchByRange` appends exactly
the live points that pass the point test of the box. -/
theorem searchByRange_snd : ∀ (fuel : Nat) (t : KD_TREE_NODE K) (b : BoxPointType K)
    (storage : List (PointType K)), t.height ≤ fuel → RangeInv t →
    (searchByRange fuel t b storage).2 = storage ++ (livePoints t).filter (pointInBox b)
  | _, nil, _, _, _, _ => by cases ‹Nat› <;> simp [searchByRange]
  | 0, node d l r, _, _, h, _ => by simp [height] at h
  | fuel + 1, node d l r, b, storage, h, hinv => by
    obtain ⟨h0, h1, h2⟩ := (rangeInv_node d l r).1 hinv
    have hd : ∀ p ∈ livePoints (node d l r), inRange (pushDownNode d l r).1 p :=
      fun p hp => (inRange_pushDownNode d l r p).2 (h0 p hp)
    simp only [searchByRange]
    split
    · rename_i hm
      have : (livePoints (node d l r)).filter (pointInBox b) = [] := by
        rw [List.filter_eq_nil_iff]
        intro p hp
        rw [not_pointInBox_of_boxMisses b _ p hm (hd p hp)]
        simp
      rw [this, List.append_nil]
    · split
      · rename_i hm hc
        have hh : (node (pushDownNode d l r).1 (pushDownNode d l r).2.1
            (pushDownNode d l r).2.2).height ≤ fuel + 1 := by
          simp only [height, height_pushDownNode_left, height_pushDownNode_right]
          simpa [height] using h
        rw [flatten_snd _ _ _ hh, livePoints_congr (pushAll_pushDownNode d l r)]
        have : (livePoints (node d l r)).filter (pointInBox b) = livePoints (node d l r) := by
          rw [List.filter_eq_self]
          intro p hp
          exact pointInBox_of_boxCovers b _ p hc (hd p hp)
        rw [this]
      · rw [searchByRange_snd fuel _ _ _ (height_right_le h) h2,
          searchByRange_snd fuel _ _ _ (height_left_le h) h1, livePoints_node d l r]
        simp only [pushDownNode_point, pushDownNode_point_deleted, List.filter_append,
          List.append_assoc]
        cases hpd : d.point_deleted <;> cases hb : pointInBox b d.point <;>
          simp [List.filter, hb]

/-! ## The range computed by `update` -/

theorem accRange_last (acc : Option (K × K)) (lo hi : K) :
    (accGet (accRange acc true lo hi)).1 ≤ lo ∧ hi ≤ (accGet (accRange acc true lo hi)).2 := by
  cases acc with
  | none => exact ⟨le_refl _, le_refl _⟩
  | some a => exact ⟨min_le_right _ _, le_max_right _ _⟩

theorem updateRange_point (full : Bool) (ls rs : Option (Bool × (K × K))) (pd : Bool) (c : K)
    (h : full = true ∨ pd = false) :
    (updateRange full ls rs pd c).1 ≤ c ∧ c ≤ (updateRange full ls rs pd c).2 := by
  cases full with
  | true =>
    rcases ls with _ | ⟨ltd, lr⟩ <;> rcases rs with _ | ⟨rtd, rr⟩ <;>
      simp only [updateRange, if_true, le_refl, and_self] <;>
      exact ⟨min_le_right _ _, le_max_right _ _⟩
  | false =>
    have hp : pd = false := by simpa using h
    subst hp
    rcases ls with _ | ⟨ltd, lr⟩ <;> rcases rs with _ | ⟨rtd, rr⟩ <;>
      simp only [updateRange, Bool.false_eq_true, if_false, le_refl, and_self, Bool.not_false] <;>
      exact accRange_last _ _ _

theorem updateRange_left (full ltd : Bool) (lr : K × K) (rs : Option (Bool × (K × K)))
    (pd : Bool) (c : K) (h : full = true ∨ ltd = false) :
    (updateRange full (some (ltd, lr)) rs pd c).1 ≤ lr.1 ∧
      lr.2 ≤ (updateRange full (some (ltd, lr)) rs pd c).2 := by
  rcases rs with _ | ⟨rtd, rr⟩ <;> cases full <;>
    simp only [updateRange, Bool.false_eq_true, if_false, if_true]
  · have hp : ltd = false := by simpa using h
    subst hp
    cases pd <;> simp [accRange, accGet]
  · exact ⟨min_le_left _ _, le_max_left _ _⟩
  · have hp : ltd = false := by simpa using h
    subst hp
    cases pd <;> cases rtd <;> simp [accRange, accGet]
  · exact ⟨le_trans (min_le_left _ _) (min_le_left _ _),
      le_trans (le_max_left _ _) (le_max_left _ _)⟩

theorem updateRange_right (full rtd : Bool) (rr : K × K) (ls : Option (Bool × (K × K)))
    (pd : Bool) (c : K) (h : full = true ∨ rtd = false) :
    (updateRange full ls (some (rtd, rr)) pd c).1 ≤ rr.1 ∧
      rr.2 ≤ (updateRange full ls (some (rtd, rr)) pd c).2 := by
  rcases ls with _ | ⟨ltd, lr⟩ <;> cases full <;>
    simp only [updateRange, Bool.false_eq_true, if_false, if_true]
  · have hp : rtd = false := by simpa using h
    subst hp
    cases pd <;> simp [accRange, accGet]
  · exact ⟨min_le_left _ _, le_max_left _ _⟩
  · have hp : rtd = false := by simpa using h
    subst hp
    cases pd <;> cases ltd <;> simp [accRange, accGet]
  · exact ⟨le_trans (min_le_left _ _) (min_le_right _ _),
      le_trans (le_max_right _ _) (le_max_left _ _)⟩

/-! ## The fields stored by `update` -/

section updateFields
variable (d : NodeFields K) (l r : KD_TREE_NODE K)

theorem elim_TreeSize : (l.fields?.elim 0 fun s => s.TreeSize) = size l := by
  cases l <;> rfl

theorem elim_invalid : (l.fields?.elim 0 fun s => s.invalid_point_num) = invalidNum l := by
  cases l <;> rfl

theorem elim_downDel : (l.fields?.elim 0 fun s => s.down_del_num) = downDelNum l := by
  cases l <;> rfl

theorem elim_td : (l.fields?.elim true fun s => s.tree_deleted) = treeDeleted l := by
  cases l <;> rfl

theorem elim_tdd : (l.fields?.elim true fun s => s.tree_downsample_deleted) =
    treeDownDeleted l := by
  cases l <;> rfl

theorem elim_ntd : (l.fields?.elim true fun s => !s.tree_deleted) =
    (l.isNull || !treeDeleted l) := by
  cases l <;> rfl

@[simp] theorem updateFields_point : (updateFields d l.fields? r.fields?).point = d.point := rfl

@[simp] theorem updateFields_division_axis :
    (updateFields d l.fields? r.fields?).division_axis = d.division_axis := rfl

@[simp] theorem updateFields_point_deleted :
    (updateFields d l.fields? r.fields?).point_deleted = d.point_deleted := rfl

@[simp] theorem updateFields_point_downsample_deleted :
    (updateFields d l.fields? r.fields?).point_downsample_deleted =
      d.point_downsample_deleted := rfl

@[simp] theorem updateFields_need_left :
    (updateFields d l.fields? r.fields?).need_push_down_to_left =
      d.need_push_down_to_left := rfl

@[simp] theorem updateFields_need_right :
    (updateFields d l.fields? r.fields?).need_push_down_to_right =
      d.need_push_down_to_right := rfl

@[simp] theorem updateFields_TreeSize :
    (updateFields d l.fields? r.fields?).TreeSize = size l + size r + 1 := by
  show (l.fields?.elim 0 fun s => s.TreeSize) + (r.fields?.elim 0 fun s => s.TreeSize) + 1 = _
  rw [elim_TreeSize, elim_TreeSize]

@[simp] theorem updateFields_invalid :
    (updateFields d l.fields? r.fields?).invalid_point_num =
      invalidNum l + invalidNum r + (if d.point_deleted then 1 else 0) := by
  show (l.fields?.elim 0 fun s => s.invalid_point_num) +
    (r.fields?.elim 0 fun s => s.invalid_point_num) + _ = _
  rw [elim_invalid, elim_invalid]

@[simp] theorem updateFields_downDel :
    (updateFields d l.fields? r.fields?).down_del_num =
      downDelNum l + downDelNum r + (if d.point_downsample_deleted then 1 else 0) := by
  show (l.fields?.elim 0 fun s => s.down_del_num) +
    (r.fields?.elim 0 fun s => s.down_del_num) + _ = _
  rw [elim_downDel, elim_downDel]

@[simp] theorem updateFields_tree_deleted :
    (updateFields d l.fields? r.fields?).tree_deleted =
      (treeDeleted l && treeDeleted r && d.point_deleted) := by
  show ((l.fields?.elim true fun s => s.tree_deleted) &&
    (r.fields?.elim true fun s => s.tree_deleted) && _) = _
  rw [elim_td, elim_td]

@[simp] theorem updateFields_tree_downsample_deleted :
    (updateFields d l.fields? r.fields?).tree_downsample_deleted =
      (treeDownDeleted l && treeDownDeleted r && d.point_downsample_deleted) := by
  show ((l.fields?.elim true fun s => s.tree_downsample_deleted) &&
    (r.fields?.elim true fun s => s.tree_downsample_deleted) && _) = _
  rw [elim_tdd, elim_tdd]

/-- The flag `full` of `update`: the first branch of its range computation. -/
theorem updateFields_range_x :
    (updateFields d l.fields? r.fields?).node_range_x =
      updateRange ((treeDeleted l && treeDeleted r && d.point_deleted) ||
          ((l.isNull || !treeDeleted l) && (r.isNull || !treeDeleted r) && !d.point_deleted))
        (l.fields?.map fun s => (s.tree_deleted, s.node_range_x))
        (r.fields?.map fun s => (s.tree_deleted, s.node_range_x)) d.point_deleted d.point.x := by
  show updateRange (((l.fields?.elim true fun s => s.tree_deleted) &&
    (r.fields?.elim true fun s => s.tree_deleted) && _) ||
    ((l.fields?.elim true fun s => !s.tree_deleted) &&
      (r.fields?.elim true fun s => !s.tree_deleted) && _)) _ _ _ _ = _
  rw [elim_td, elim_td, elim_ntd, elim_ntd]

theorem updateFields_range_y :
    (updateFields d l.fields? r.fields?).node_range_y =
      updateRange ((treeDeleted l && treeDeleted r && d.point_deleted) ||
          ((l.isNull || !treeDeleted l) && (r.isNull || !treeDeleted r) && !d.point_deleted))
        (l.fields?.map fun s => (s.tree_deleted, s.node_range_y))
        (r.fields?.map fun s => (s.tree_deleted, s.node_range_y)) d.point_deleted d.point.y := by
  show updateRange (((l.fields?.elim true fun s => s.tree_deleted) &&
    (r.fields?.elim true fun s => s.tree_deleted) && _) ||
    ((l.fields?.elim true fun s => !s.tree_deleted) &&
      (r.fields?.elim true fun s => !s.tree_deleted) && _)) _ _ _ _ = _
  rw [elim_td, elim_td, elim_ntd, elim_ntd]

theorem updateFields_range_z :
    (updateFields d l.fields? r.fields?).node_range_z =
      updateRange ((treeDeleted l && treeDeleted r && d.point_deleted) ||
          ((l.isNull || !treeDeleted l) && (r.isNull || !treeDeleted r) && !d.point_deleted))
        (l.fields?.map fun s => (s.tree_deleted, s.node_range_z))
        (r.fields?.map fun s => (s.tree_deleted, s.node_range_z)) d.point_deleted d.point.z := by
  show updateRange (((l.fields?.elim true fun s => s.tree_deleted) &&
    (r.fields?.elim true fun s => s.tree_deleted) && _) ||
    ((l.fields?.elim true fun s => !s.tree_deleted) &&
      (r.fields?.elim true fun s => !s.tree_deleted) && _)) _ _ _ _ = _
  rw [elim_td, elim_td, elim_ntd, elim_ntd]

/-- After `update` the range box holds the node's own point unless the point is deleted
and the subtree is not fully deleted. -/
theorem update_inRange_point
    (h : (treeDeleted l && treeDeleted r && d.point_deleted) = true ∨ d.point_deleted = false) :
    inRange (updateFields d l.fields? r.fields?) d.point := by
  have hf : ((treeDeleted l && treeDeleted r && d.point_deleted) ||
      ((l.isNull || !treeDeleted l) && (r.isNull || !treeDeleted r) && !d.point_deleted)) = true
      ∨ d.point_deleted = false := by
    rcases h with h | h
    · left; rw [h]; rfl
    · right; exact h
  unfold inRange
  rw [updateFields_range_x, updateFields_range_y, updateFields_range_z]
  exact ⟨(updateRange_point _ _ _ _ _ hf).1, (updateRange_point _ _ _ _ _ hf).2,
    (updateRange_point _ _ _ _ _ hf).1, (updateRange_point _ _ _ _ _ hf).2,
    (updateRange_point _ _ _ _ _ hf).1, (updateRange_point _ _ _ _ _ hf).2⟩

end updateFields

/-- After `update` the range box holds whatever the range box of a left son holds, unless
that son is fully deleted and the node is not. -/
theorem update_inRange_left (d ld : NodeFields K) (a b r : KD_TREE_NODE K) (p : PointType K)
    (h : (ld.tree_deleted && treeDeleted r && d.point_deleted) = true ∨
      ld.tree_deleted = false)
    (hp : inRange ld p) :
    inRange (updateFields d (node ld a b).fields? r.fields?) p := by
  have hf : ((treeDeleted (node ld a b) && treeDeleted r && d.point_deleted) ||
      (((node ld a b).isNull || !treeDeleted (node ld a b)) && (r.isNull || !treeDeleted r) &&
        !d.point_deleted)) = true ∨ ld.tree_deleted = false := by
    rcases h with h | h
    · left
      have : (treeDeleted (node ld a b) && treeDeleted r && d.point_deleted) = true := h
      rw [this]; rfl
    · right; exact h
  obtain ⟨h1, h2, h3, h4, h5, h6⟩ := hp
  unfold inRange
  rw [updateFields_range_x, updateFields_range_y, updateFields_range_z]
  simp only [fields?, Option.map_some']
  exact ⟨le_trans (updateRange_left _ _ _ _ _ _ hf).1 h1,
    le_trans h2 (updateRange_left _ _ _ _ _ _ hf).2,
    le_trans (updateRange_left _ _ _ _ _ _ hf).1 h3,
    le_trans h4 (updateRange_left _ _ _ _ _ _ hf).2,
    le_trans (updateRange_left _ _ _ _ _ _ hf).1 h5,
    le_trans h6 (updateRange_left _ _ _ _ _ _ hf).2⟩

/-- The same for a right son. -/
theorem update_inRange_right (d rd : NodeFields K) (l a b : KD_TREE_NODE K) (p : PointType K)
    (h : (treeDeleted l && rd.tree_deleted && d.point_deleted) = true ∨
      rd.tree_deleted = false)
    (hp : inRange rd p) :
    inRange (updateFields d l.fields? (node rd a b).fields?) p := by
  have hf : ((treeDeleted l && treeDeleted (node rd a b) && d.point_deleted) ||
      ((l.isNull || !treeDeleted l) && ((node rd a b).isNull || !treeDeleted (node rd a b)) &&
        !d.point_deleted)) = true ∨ rd.tree_deleted = false := by
    rcases h with h | h
    · left
      have : (treeDeleted l && treeDeleted (node rd a b) && d.point_deleted) = true := h
      rw [this]; rfl
    · right; exact h
  obtain ⟨h1, h2, h3, h4, h5, h6⟩ := hp
  unfold inRange
  rw [updateFields_range_x, updateFields_range_y, updateFields_range_z]
  simp only [fields?, Option.map_some']
  exact ⟨le_trans (updateRange_right _ _ _ _ _ _ hf).1 h1,
    le_trans h2 (updateRange_right _ _ _ _ _ _ hf).2,
    le_trans (updateRange_right _ _ _ _ _ _ hf).1 h3,
    le_trans h4 (updateRange_right _ _ _ _ _ _ hf).2,
    le_trans (updateRange_right _ _ _ _ _ _ hf).1 h5,
    le_trans h6 (updateRange_right _ _ _ _ _ _ hf).2⟩

/-! ## Freshly built trees -/

theorem fresh_node {d : NodeFields K} {l r : KD_TREE_NODE K} (h : Fresh (node d l r)) :
    Fresh l ∧ Fresh r := ⟨h.2.1, h.2.2⟩

theorem clearPush_eq_self (d : NodeFields K) (h1 : d.need_push_down_to_left = false)
    (h2 : d.need_push_down_to_right = false) : clearPush d = d := by
  cases d
  simp only [clearPush] at *
  subst h1 h2
  rfl

/-- A fresh tree has no pending push-down. -/
theorem pushAll_fresh : ∀ t : KD_TREE_NODE K, Fresh t → pushAll t = t
  | nil, _ => rfl
  | node d l r, h => by
    obtain ⟨⟨_, _, _, _, h5, h6, _⟩, hl, hr⟩ := h
    rw [pushAll_node_clear d l r (fun _ => h5) (fun _ => h6), pushAll_fresh l hl,
      pushAll_fresh r hr, clearPush_eq_self d h5 h6]

theorem undeleted_fresh : ∀ t : KD_TREE_NODE K, Fresh t → undeleted t = points t
  | nil, _ => rfl
  | node d l r, h => by
    obtain ⟨⟨h1, _⟩, hl, hr⟩ := h
    simp [undeleted, points, h1, undeleted_fresh l hl, undeleted_fresh r hr]

/-- Every point of a fresh tree is live. -/
theorem livePoints_fresh (t : KD_TREE_NODE K) (h : Fresh t) : livePoints t = points t := by
  unfold livePoints
  rw [pushAll_fresh t h, undeleted_fresh t h]

theorem allNodes_rangeInv_fresh : ∀ t : KD_TREE_NODE K, Fresh t →
    AllNodes (fun d l r => ∀ p ∈ undeleted (node d l r), inRange d p) t
  | nil, _ => trivial
  | node d l r, h => by
    refine ⟨?_, allNodes_rangeInv_fresh l h.2.1, allNodes_rangeInv_fresh r h.2.2⟩
    intro p hp
    rw [undeleted_fresh _ h] at hp
    exact h.1.2.2.2.2.2.2.2.2.2 p hp

/-- A fresh tree satisfies the bounding-box invariant. -/
theorem rangeInv_fresh (t : KD_TREE_NODE K) (h : Fresh t) : RangeInv t := by
  unfold RangeInv
  rw [pushAll_fresh t h]
  exact allNodes_rangeInv_fresh t h

theorem size_fresh : ∀ t : KD_TREE_NODE K, Fresh t → size t = ((points t).length : Int)
  | nil, _ => rfl
  | node d l r, h => by
    have e : d.TreeSize = size l + size r + 1 := h.1.2.2.2.2.2.2.1
    show d.TreeSize = _
    rw [e, size_fresh l h.2.1, size_fresh r h.2.2]
    simp only [points, List.length_cons, List.length_append]
    push_cast
    ring

theorem validnum_fresh (t : KD_TREE_NODE K) (h : Fresh t) : validnum t = size t := by
  cases t with
  | nil => rfl
  | node d l r =>
    have e := h.1.2.2.2.2.2.2.2.1
    simp [validnum, size, e]

/-- A fresh tree has exact aggregate fields. -/
theorem allNodes_agg_fresh : ∀ t : KD_TREE_NODE K, Fresh t → AllNodes Agg t
  | nil, _ => trivial
  | node d l r, h => by
    obtain ⟨⟨h1, h2, h3, h4, _, _, h7, h8, h9, _⟩, hl, hr⟩ := h
    refine ⟨⟨h7, ?_, ?_, ?_, ?_, ?_⟩, allNodes_agg_fresh l hl, allNodes_agg_fresh r hr⟩
    · have el : invalidNum l = 0 := by
        cases l with
        | nil => rfl
        | node ld a b => exact hl.1.2.2.2.2.2.2.2.1
      have er : invalidNum r = 0 := by
        cases r with
        | nil => rfl
        | node rd a b => exact hr.1.2.2.2.2.2.2.2.1
      simp [h8, h1, el, er]
    · have el : downDelNum l = 0 := by
        cases l with
        | nil => rfl
        | node ld a b => exact hl.1.2.2.2.2.2.2.2.2.1
      have er : downDelNum r = 0 := by
        cases r with
        | nil => rfl
        | node rd a b => exact hr.1.2.2.2.2.2.2.2.2.1
      simp [h9, h3, el, er]
    · simp [h2, h1]
    · simp [h4, h3]
    · intro hc; rw [h3] at hc; cases hc

theorem countInv_fresh (t : KD_TREE_NODE K) (h : Fresh t) : CountInv t := by
  unfold CountInv
  rw [pushAll_fresh t h]
  exact allNodes_agg_fresh t h

/-! ## `buildTree` -/

theorem treeDeleted_fresh_node {d : NodeFields K} {l r : KD_TREE_NODE K}
    (h : Fresh (node d l r)) : d.tree_deleted = false := h.1.2.1

/-- `update` applied to a node that `buildTree` has just initialised, over fresh sons,
gives a fresh tree. -/
theorem fresh_update_init (p : PointType K) (axis : Nat) (l r : KD_TREE_NODE K)
    (hl : Fresh l) (hr : Fresh r) :
    Fresh (update (node { (initTreeNode : NodeFields K) with
      division_axis := axis, point := p } l r)) := by
  refine ⟨⟨rfl, ?_, rfl, ?_, rfl, rfl, ?_, ?_, ?_, ?_⟩, hl, hr⟩
  · rw [updateFields_tree_deleted]; simp [initTreeNode]
  · rw [updateFields_tree_downsample_deleted]; simp [initTreeNode]
  · rw [updateFields_TreeSize]
  · rw [updateFields_invalid]
    have el : invalidNum l = 0 := by
      cases l with
      | nil => rfl
      | node ld a b => exact hl.1.2.2.2.2.2.2.2.1
    have er : invalidNum r = 0 := by
      cases r with
      | nil => rfl
      | node rd a b => exact hr.1.2.2.2.2.2.2.2.1
    simp [el, er, initTreeNode]
  · rw [updateFields_downDel]
    have el : downDelNum l = 0 := by
      cases l with
      | nil => rfl
      | node ld a b => exact hl.1.2.2.2.2.2.2.2.2.1
    have er : downDelNum r = 0 := by
      cases r with
      | nil => rfl
      | node rd a b => exact hr.1.2.2.2.2.2.2.2.2.1
    simp [el, er, initTreeNode]
  · intro q hq
    simp only [points, updateFields_point, List.mem_cons, List.mem_append] at hq
    rcases hq with hq | hq | hq
    · subst hq
      exact update_inRange_point _ l r (Or.inr rfl)
    · cases l with
      | nil => simp [points] at hq
      | node ld a b =>
        exact update_inRange_left _ ld a b r q (Or.inr hl.1.2.1)
          (hl.1.2.2.2.2.2.2.2.2.2 q (by simpa [points] using hq))
    · cases r with
      | nil => simp [points] at hq
      | node rd a b =>
        exact update_inRange_right _ rd l a b q (Or.inr hr.1.2.1)
          (hr.1.2.2.2.2.2.2.2.2.2 q (by simpa [points] using hq))

theorem points_update (t : KD_TREE_NODE K) : points (update t) = points t := by
  cases t <;> rfl

theorem buildTree_cons (env : Env K) (fuel : Nat) (p0 : PointType K) (ps : List (PointType K)) :
    buildTree env (fuel + 1) (p0 :: ps) =
      update (node { (initTreeNode : NodeFields K) with
        division_axis := divAxis p0 ps
        point := (env.nth_element (if divAxis p0 ps = 0 then pointCmpX else
          if divAxis p0 ps = 1 then pointCmpY else pointCmpZ) (((p0 :: ps).length - 1) / 2)
          (p0 :: ps)).getD (((p0 :: ps).length - 1) / 2) p0 }
        (buildTree env fuel ((env.nth_element (if divAxis p0 ps = 0 then pointCmpX else
          if divAxis p0 ps = 1 then pointCmpY else pointCmpZ) (((p0 :: ps).length - 1) / 2)
          (p0 :: ps)).take (((p0 :: ps).length - 1) / 2)))
        (buildTree env fuel ((env.nth_element (if divAxis p0 ps = 0 then pointCmpX else
          if divAxis p0 ps = 1 then pointCmpY else pointCmpZ) (((p0 :: ps).length - 1) / 2)
          (p0 :: ps)).drop (((p0 :: ps).length - 1) / 2 + 1)))) := rfl

/-- With fuel at least the number of points, `buildTree` returns a fresh tree whose
points are a rearrangement of the slice. -/
theorem buildTree_fresh (env : Env K) (hnth : NthPermutes env) :
    ∀ (fuel : Nat) (pts : List (PointType K)), pts.length ≤ fuel →
      Fresh (buildTree env fuel pts) ∧ (points (buildTree env fuel pts)).Perm pts
  | _, [], _ => by cases ‹Nat› <;> exact ⟨trivial, List.Perm.refl _⟩
  | 0, _ :: _, h => by simp at h
  | fuel + 1, p0 :: ps, h => by
    have hperm := hnth (if divAxis p0 ps = 0 then pointCmpX else
      if divAxis p0 ps = 1 then pointCmpY else pointCmpZ) (((p0 :: ps).length - 1) / 2) (p0 :: ps)
    rw [buildTree_cons]
    generalize env.nth_element _ (((p0 :: ps).length - 1) / 2) (p0 :: ps) = storage at hperm ⊢
    have hlen : storage.length = ps.length + 1 := by
      rw [hperm.length_eq]; rfl
    have hmid : ((p0 :: ps).length - 1) / 2 < storage.length := by
      rw [hlen]; simp only [List.length_cons, Nat.add_sub_cancel]; omega
    generalize ((p0 :: ps).length - 1) / 2 = mid at hmid ⊢
    have hfuel : ps.length ≤ fuel := by simpa using h
    have h1 : (storage.take mid).length ≤ fuel := by
      rw [List.length_take]; omega
    have h2 : (storage.drop (mid + 1)).length ≤ fuel := by
      rw [List.length_drop]; omega
    obtain ⟨fl, pl⟩ := buildTree_fresh env hnth fuel _ h1
    obtain ⟨fr, pr⟩ := buildTree_fresh env hnth fuel _ h2
    have hsplit : storage = storage.take mid ++ storage.getD mid p0 :: storage.drop (mid + 1) := by
      rw [List.getD_eq_getElem _ _ hmid]
      conv_lhs => rw [← List.take_append_drop mid storage]
      rw [List.drop_eq_getElem_cons hmid]
    refine ⟨fresh_update_init _ _ _ _ fl fr, ?_⟩
    rw [points_update]
    simp only [points]
    refine List.Perm.trans ?_ hperm
    conv_rhs => rw [hsplit]
    refine List.Perm.trans ?_ (List.perm_middle).symm
    exact List.Perm.cons _ (List.Perm.append pl pr)

/-! ## The sorting environment rearranges -/

theorem insertSorted_perm (cmp : PointType K → PointType K → Bool) (a : PointType K) :
    ∀ l : List (PointType K), (insertSorted cmp a l).Perm (a :: l)
  | [] => List.Perm.refl _
  | b :: l => by
    simp only [insertSorted]
    split
    · exact ((insertSorted_perm cmp a l).cons b).trans (List.Perm.swap a b l)
    · exact List.Perm.refl _

theorem sortBy_perm (cmp : PointType K → PointType K → Bool) :
    ∀ l : List (PointType K), (sortBy cmp l).Perm l
  | [] => List.Perm.refl _
  | a :: l => (insertSorted_perm cmp a (sortBy cmp l)).trans ((sortBy_perm cmp l).cons a)

theorem nthPermutes_defaultEnv : NthPermutes defaultEnv :=
  fun cmp _ l => sortBy_perm cmp l

/-! ## `build` -/

theorem build_eq (env : Env K) (m_rootNode : KD_TREE_NODE K) (pointCloud : List (PointType K)) :
    build env m_rootNode pointCloud = buildTree env pointCloud.length pointCloud := by
  unfold build
  cases pointCloud with
  | nil => cases m_rootNode <;> rfl
  | cons p ps => simp

theorem build_fresh (env : Env K) (hnth : NthPermutes env) (m_rootNode : KD_TREE_NODE K)
    (pointCloud : List (PointType K)) :
    Fresh (build env m_rootNode pointCloud) ∧
      (points (build env m_rootNode pointCloud)).Perm pointCloud := by
  rw [build_eq]
  exact buildTree_fresh env hnth _ _ le_rfl

/-- Box search on a tree that satisfies the bounding-box invariant returns the live points
inside the box. -/
theorem boxSearch_snd (t : KD_TREE_NODE K) (hinv : RangeInv t) (b : BoxPointType K) :
    (boxSearch t b).2 = (livePoints t).filter (pointInBox b) := by
  unfold boxSearch
  rw [searchByRange_snd _ _ _ _ le_rfl hinv, List.nil_append]

/-- Claim C5: after `build(P)` the tree holds exactly `P`, whatever the tree was before:
`size()` and `validnum()` are `|P|`, the live points are `P` as a multiset, a box search
returns the points of `P` inside the box (all of `P` for an enclosing box), and the empty
list gives the empty tree. -/
theorem build_holds_exactly_the_points (env : Env K) (hnth : NthPermutes env)
    (m_rootNode : KD_TREE_NODE K) (pointCloud : List (PointType K)) :
    size (build env m_rootNode pointCloud) = (pointCloud.length : Int) ∧
    validnum (build env m_rootNode pointCloud) = (pointCloud.length : Int) ∧
    (livePoints (build env m_rootNode pointCloud)).Perm pointCloud ∧
    (∀ b : BoxPointType K, (boxSearch (build env m_rootNode pointCloud) b).2.Perm
      (pointCloud.filter (pointInBox b))) ∧
    (∀ b : BoxPointType K, (∀ p ∈ pointCloud, pointInBox b p = true) →
      (boxSearch (build env m_rootNode pointCloud) b).2.Perm pointCloud) ∧
    (pointCloud = [] → build env m_rootNode pointCloud = nil ∧
      size (build env m_rootNode pointCloud) = 0) := by
  obtain ⟨hf, hp⟩ := build_fresh env hnth m_rootNode pointCloud
  have hs : size (build env m_rootNode pointCloud) = (pointCloud.length : Int) := by
    rw [size_fresh _ hf, hp.length_eq]
  have hb : ∀ b : BoxPointType K, (boxSearch (build env m_rootNode pointCloud) b).2.Perm
      (pointCloud.filter (pointInBox b)) := by
    intro b
    rw [boxSearch_snd _ (rangeInv_fresh _ hf), livePoints_fresh _ hf]
    exact hp.filter _
  refine ⟨hs, ?_, ?_, hb, ?_, ?_⟩
  · rw [validnum_fresh _ hf, hs]
  · rw [livePoints_fresh _ hf]; exact hp
  · intro b hall
    have := hb b
    rwa [List.filter_eq_self.2 hall] at this
  · intro he
    subst he
    rw [build_eq]
    exact ⟨rfl, rfl⟩

/-- Witness for C5 on scenario S1: the sorting environment rearranges, building the five
points gives `size() = 5`, and the box search of S1 returns exactly `(0,0,0)`. -/
theorem build_holds_exactly_the_points_witness :
    NthPermutes defaultEnv ∧ size (build defaultEnv nil s1Points) = 5 ∧
      (boxSearch (build defaultEnv nil s1Points) s1Box).2.Perm [pt 0 0 0] :=
  ⟨nthPermutes_defaultEnv,
    (build_holds_exactly_the_points defaultEnv nthPermutes_defaultEnv nil s1Points).1,
    (by decide! : List.filter (pointInBox s1Box) s1Points = [pt 0 0 0]) ▸
      (build_holds_exactly_the_points defaultEnv nthPermutes_defaultEnv nil s1Points).2.2.2.1
        s1Box⟩

/-! ## Runs of the code on failing inputs -/

/-- Claim C1, failing input: after `build([(0,0,0),(1,0,0)])`, `delete_points([(1,0,0)])` and
`add_boxes` with a box around `(0,0,0)` only, the point `(1,0,0)` is live again (it is
flattened and counted by `validnum()`), it lies in the box `[(0.5,-1,-1), (1.5,1,1)]`, and
the box search with that box returns nothing. -/
theorem boxSearch_misses_restored_point :
    livePoints restoredTree = [pt 0 0 0, pt 1 0 0] ∧ validnum restoredTree = 2 ∧
      (flatten restoredTree.height restoredTree []).2 = [pt 0 0 0, pt 1 0 0] ∧
      pointInBox farBox (pt 1 0 0) = true ∧ (boxSearch restoredTree farBox).2 = [] := by
  decide!

/-- Claim C6, failing input: in the tree of `build([(0,0,0),(0,1,0),(1,0,0)])` the live
point `(0,0,0)` sits in the left subtree of the root `(0,1,0)`; `delete_points([(0,0,0)])`
descends to the right, deletes nothing, and `validnum()` stays `3`. -/
theorem deletePoints_misses_left_tie :
    tieTree.fields?.map (fun d => d.point) = some (pt 0 1 0) ∧
      pt 0 0 0 ∈ livePoints tieTree ∧ validnum tieTree = 3 ∧
      validnum (deletePoints defaultEnv tieTree [pt 0 0 0]) = 3 ∧
      pt 0 0 0 ∈ livePoints (deletePoints defaultEnv tieTree [pt 0 0 0]) ∧
      (boxSearch (deletePoints defaultEnv tieTree [pt 0 0 0]) nearBox).2 = [pt 0 0 0] := by
  decide!

/-- Claim C8, failing input: on the tree of `build([(0,0,0),(1,0,0)])`, `delete_boxes` with
the box `[(0.5,-1,-1), (1.5,1,1)]` deletes `(1,0,0)`, and `add_boxes` with the same box
does not restore it: `validnum()` stays `1` and the point stays out of the live points. -/
theorem addPointBoxes_does_not_restore :
    livePoints twoPointTree = [pt 0 0 0, pt 1 0 0] ∧
      (deletePointBoxes defaultEnv twoPointTree [farBox]).2 = 1 ∧
      livePoints (addPointBoxes defaultEnv
        (deletePointBoxes defaultEnv twoPointTree [farBox]).1 [farBox]) = [pt 0 0 0] ∧
      validnum (addPointBoxes defaultEnv
        (deletePointBoxes defaultEnv twoPointTree [farBox]).1 [farBox]) = 1 := by
  decide!

/-- Claim C10, failing input: on the non-empty tree left by `build` of twelve points and
`delete_points` of the root point (eleven live points, all in the voxel `[0, 0.2)^3`),
`add_points([(0.1,0.1,0.1)], downsample = true)` deletes the voxel, the root is rebuilt
from no live point and becomes null, and the call then reads
`m_rootNode->division_axis`: no tree results. -/
theorem addPoints_downsample_null_root :
    clusterTree.isNull = false ∧ validnum clusterTree = 11 ∧
      (livePoints clusterTree).all (pointInBox (voxelOf defaultEnv (pt (1 / 10) (1 / 10) (1 / 10))))
        = true ∧
      (deleteByRange defaultEnv clusterTree.height clusterTree
        (voxelOf defaultEnv (pt (1 / 10) (1 / 10) (1 / 10))) true true).1 = nil ∧
      addPoints defaultEnv clusterTree [pt (1 / 10) (1 / 10) (1 / 10)] true = none := by
  decide!

/-! ## Radius search -/

theorem calcDist_nonneg (a b : PointType K) : 0 ≤ calcDist a b := by
  unfold calcDist
  nlinarith [mul_self_nonneg (a.x - b.x), mul_self_nonneg (a.y - b.y),
    mul_self_nonneg (a.z - b.z)]

theorem sq_center_le (lo hi c : K) (h1 : lo ≤ c) (h2 : c ≤ hi) :
    (c - (lo + hi) * (1 / 2)) * (c - (lo + hi) * (1 / 2)) ≤
      (hi - lo) * (1 / 2) * ((hi - lo) * (1 / 2)) := by
  nlinarith [mul_nonneg (sub_nonneg.2 h1) (sub_nonneg.2 h2)]

/-- A point of the range box is within the half-diagonal of its centre. -/
theorem calcDist_center_le (d : NodeFields K) (p : PointType K) (hp : inRange d p) :
    calcDist p (rangeCenter d) ≤ halfDiagSq d := by
  obtain ⟨h1, h2, h3, h4, h5, h6⟩ := hp
  unfold calcDist halfDiagSq rangeCenter
  have hx := sq_center_le _ _ _ h1 h2
  have hy := sq_center_le _ _ _ h3 h4
  have hz := sq_center_le _ _ _ h5 h6
  simp only
  linarith

/-- Cauchy-Schwarz in the form used for the two sphere tests. -/
theorem calcDist_cross_sq (p c q : PointType K) :
    (calcDist p q - calcDist c q - calcDist p c) * (calcDist p q - calcDist c q - calcDist p c)
      ≤ 4 * (calcDist c q * calcDist p c) := by
  unfold calcDist
  have key : 4 * (((c.x - q.x) * (c.x - q.x) + (c.y - q.y) * (c.y - q.y) +
        (c.z - q.z) * (c.z - q.z)) * ((p.x - c.x) * (p.x - c.x) + (p.y - c.y) * (p.y - c.y) +
        (p.z - c.z) * (p.z - c.z))) -
      ((p.x - q.x) * (p.x - q.x) + (p.y - q.y) * (p.y - q.y) + (p.z - q.z) * (p.z - q.z) -
        ((c.x - q.x) * (c.x - q.x) + (c.y - q.y) * (c.y - q.y) + (c.z - q.z) * (c.z - q.z)) -
        ((p.x - c.x) * (p.x - c.x) + (p.y - c.y) * (p.y - c.y) + (p.z - c.z) * (p.z - c.z))) *
      ((p.x - q.x) * (p.x - q.x) + (p.y - q.y) * (p.y - q.y) + (p.z - q.z) * (p.z - q.z) -
        ((c.x - q.x) * (c.x - q.x) + (c.y - q.y) * (c.y - q.y) + (c.z - q.z) * (c.z - q.z)) -
        ((p.x - c.x) * (p.x - c.x) + (p.y - c.y) * (p.y - c.y) + (p.z - c.z) * (p.z - c.z))) =
      4 * (((p.x - c.x) * (c.y - q.y) - (p.y - c.y) * (c.x - q.x)) *
          ((p.x - c.x) * (c.y - q.y) - (p.y - c.y) * (c.x - q.x)) +
        ((p.x - c.x) * (c.z - q.z) - (p.z - c.z) * (c.x - q.x)) *
          ((p.x - c.x) * (c.z - q.z) - (p.z - c.z) * (c.x - q.x)) +
        ((p.y - c.y) * (c.z - q.z) - (p.z - c.z) * (c.y - q.y)) *
          ((p.y - c.y) * (c.z - q.z) - (p.z - c.z) * (c.y - q.y))) := by
    ring
  have h1 := mul_self_nonneg ((p.x - c.x) * (c.y - q.y) - (p.y - c.y) * (c.x - q.x))
  have h2 := mul_self_nonneg ((p.x - c.x) * (c.z - q.z) - (p.z - c.z) * (c.x - q.x))
  have h3 := mul_self_nonneg ((p.y - c.y) * (c.z - q.z) - (p.z - c.z) * (c.y - q.y))
  linarith

theorem abs_le_of_mul_self_le {x y : K} (hy : 0 ≤ y) (h : x * x ≤ y * y) : |x| ≤ y :=
  abs_le_of_sq_le_sq (by simpa [sq] using h) hy

/-- The prune of `searchByRadius` is sound: beyond `radius + sqrt(radius_sq)` from the
centre no point of the range box is within `radius`. -/
theorem radius_prune_sound (sqrt : K → K) (hs : SqrtExact sqrt) (d : NodeFields K)
    (p q : PointType K) (radius : K) (h0 : 0 ≤ radius) (hp : inRange d p)
    (hrad : d.radius_sq = halfDiagSq d)
    (h : sqrt (calcDist (rangeCenter d) q) > radius + sqrt d.radius_sq) :
    ¬ calcDist p q ≤ radius * radius := by
  have hB := calcDist_center_le d p hp
  obtain ⟨ha0, ha⟩ := hs _ (calcDist_nonneg (rangeCenter d) q)
  obtain ⟨hb0, hb⟩ := hs _ (calcDist_nonneg p (rangeCenter d))
  have hR0 : 0 ≤ halfDiagSq d := le_trans (calcDist_nonneg _ _) hB
  rw [hrad] at h
  obtain ⟨hr0, hr⟩ := hs _ hR0
  set a := sqrt (calcDist (rangeCenter d) q)
  set b := sqrt (calcDist p (rangeCenter d))
  set R := sqrt (halfDiagSq d)
  have hbR : b ≤ R := by
    by_contra hc
    push_neg at hc
    nlinarith
  have hcs := calcDist_cross_sq p (rangeCenter d) q
  rw [← ha, ← hb] at hcs
  have habs : |calcDist p q - a * a - b * b| ≤ 2 * (a * b) := by
    apply abs_le_of_mul_self_le (by positivity)
    nlinarith
  have hlow := (abs_le.1 habs).1
  intro hle
  nlinarith [mul_nonneg ha0 hb0, mul_nonneg h0 h0]

/-- The whole-subtree branch of `searchByRadius` is sound: within
`radius - sqrt(radius_sq)` of the centre every point of the range box is within `radius`. -/
theorem radius_cover_sound (sqrt : K → K) (hs : SqrtExact sqrt) (d : NodeFields K)
    (p q : PointType K) (radius : K) (hp : inRange d p)
    (hrad : d.radius_sq = halfDiagSq d)
    (h : sqrt (calcDist (rangeCenter d) q) ≤ radius - sqrt d.radius_sq) :
    calcDist p q ≤ radius * radius := by
  have hB := calcDist_center_le d p hp
  obtain ⟨ha0, ha⟩ := hs _ (calcDist_nonneg (rangeCenter d) q)
  obtain ⟨hb0, hb⟩ := hs _ (calcDist_nonneg p (rangeCenter d))
  have hR0 : 0 ≤ halfDiagSq d := le_trans (calcDist_nonneg _ _) hB
  rw [hrad] at h
  obtain ⟨hr0, hr⟩ := hs _ hR0
  set a := sqrt (calcDist (rangeCenter d) q)
  set b := sqrt (calcDist p (rangeCenter d))
  set R := sqrt (halfDiagSq d)
  have hbR : b ≤ R := by
    by_contra hc
    push_neg at hc
    nlinarith
  have hcs := calcDist_cross_sq p (rangeCenter d) q
  rw [← ha, ← hb] at hcs
  have habs : |calcDist p q - a * a - b * b| ≤ 2 * (a * b) := by
    apply abs_le_of_mul_self_le (by positivity)
    nlinarith
  have hup := (abs_le.1 habs).2
  nlinarith [mul_nonneg ha0 hb0]

theorem rangeCenter_pushDownNode (d : NodeFields K) (l r : KD_TREE_NODE K) :
    rangeCenter (pushDownNode d l r).1 = rangeCenter d := by
  simp [rangeCenter]

theorem radiusInv_node (d : NodeFields K) (l r : KD_TREE_NODE K) :
    RadiusInv (node d l r) ↔
      d.radius_sq = halfDiagSq d ∧
        RadiusInv (pushDownNode d l r).2.1 ∧ RadiusInv (pushDownNode d l r).2.2 := by
  unfold RadiusInv
  rw [pushAll_node]
  simp only [AllNodes]
  exact Iff.rfl

/-- Under the bounding-box invariant, with `radius_sq` the squared half-diagonal, an exact
square root, a non-negative radius and enough fuel, `searchByRadius` appends exactly the
live points within the radius. -/
theorem searchByRadius_snd (sqrt : K → K) (hs : SqrtExact sqrt) (q : PointType K) (radius : K)
    (h0 : 0 ≤ radius) : ∀ (fuel : Nat) (t : KD_TREE_NODE K) (storage : List (PointType K)),
    t.height ≤ fuel → RangeInv t → RadiusInv t →
    (searchByRadius sqrt fuel t q radius storage).2 =
      storage ++ (livePoints t).filter (fun p => decide (calcDist p q ≤ radius * radius))
  | _, nil, _, _, _, _ => by cases ‹Nat› <;> simp [searchByRadius]
  | 0, node d l r, _, h, _, _ => by simp [height] at h
  | fuel + 1, node d l r, storage, h, hinv, hrinv => by
    obtain ⟨h0', h1, h2⟩ := (rangeInv_node d l r).1 hinv
    obtain ⟨e0, e1, e2⟩ := (radiusInv_node d l r).1 hrinv
    simp only [searchByRadius, rangeCenter_pushDownNode, pushDownNode_radius_sq]
    split
    · rename_i hm
      have : (livePoints (node d l r)).filter
          (fun p => decide (calcDist p q ≤ radius * radius)) = [] := by
        rw [List.filter_eq_nil_iff]
        intro p hp
        have := radius_prune_sound sqrt hs d p q radius h0 (h0' p hp) e0 hm
        simpa using this
      rw [this, List.append_nil]
    · split
      · rename_i hm hc
        have hh : (node (pushDownNode d l r).1 (pushDownNode d l r).2.1
            (pushDownNode d l r).2.2).height ≤ fuel + 1 := by
          simp only [height, height_pushDownNode_left, height_pushDownNode_right]
          simpa [height] using h
        rw [flatten_snd _ _ _ hh, livePoints_congr (pushAll_pushDownNode d l r)]
        have : (livePoints (node d l r)).filter
            (fun p => decide (calcDist p q ≤ radius * radius)) = livePoints (node d l r) := by
          rw [List.filter_eq_self]
          intro p hp
          have := radius_cover_sound sqrt hs d p q radius (h0' p hp) e0 hc
          simpa using this
        rw [this]
      · rw [searchByRadius_snd sqrt hs q radius h0 fuel _ _ (height_right_le h) h2 e2,
          searchByRadius_snd sqrt hs q radius h0 fuel _ _ (height_left_le h) h1 e1,
          livePoints_node d l r]
        simp only [pushDownNode_point, pushDownNode_point_deleted, List.filter_append,
          List.append_assoc]
        cases hpd : d.point_deleted <;>
          by_cases hb : calcDist d.point q ≤ radius * radius <;>
          simp [List.filter, hb]

/-- A fresh tree whose nodes went through `update` has exact `radius_sq`. -/
theorem buildTree_radius (env : Env K) :
    ∀ (fuel : Nat) (pts : List (PointType K)),
      AllNodes (fun d _ _ => d.radius_sq = halfDiagSq d) (buildTree env fuel pts)
  | _, [] => by cases ‹Nat› <;> exact trivial
  | 0, _ :: _ => trivial
  | fuel + 1, p0 :: ps => by
    rw [buildTree_cons]
    exact ⟨rfl, buildTree_radius env fuel _, buildTree_radius env fuel _⟩

theorem radiusInv_build (env : Env K) (hnth : NthPermutes env) (m_rootNode : KD_TREE_NODE K)
    (pointCloud : List (PointType K)) : RadiusInv (build env m_rootNode pointCloud) := by
  unfold RadiusInv
  rw [pushAll_fresh _ (build_fresh env hnth m_rootNode pointCloud).1, build_eq]
  exact buildTree_radius env _ _

theorem sqrtExact_real : SqrtExact Real.sqrt :=
  fun x hx => ⟨Real.sqrt_nonneg x, Real.mul_self_sqrt hx⟩

/-- With an exact square root, on a tree that satisfies the bounding-box invariant (with
`radius_sq` the squared half-diagonal of the box), for every centre and every radius
`r >= 0`, the radius search returns exactly the live points whose squared distance to the
centre is at most `r * r`. -/
theorem radiusSearch_snd (sqrt : K → K) (hs : SqrtExact sqrt)
    (t : KD_TREE_NODE K) (hinv : RangeInv t) (hrad : RadiusInv t) (point : PointType K)
    (radius : K) (h0 : 0 ≤ radius) :
    (radiusSearch sqrt t point radius).2 =
      (livePoints t).filter (fun p => decide (calcDist p point ≤ radius * radius)) := by
  unfold radiusSearch
  rw [searchByRadius_snd sqrt hs point radius h0 _ _ _ le_rfl hinv hrad, List.nil_append]

theorem grazingTree_eq :
    build defaultEnv nil [grazingPoint] =
      node { (initTreeNode : NodeFields ℚ) with
        point := grazingPoint, TreeSize := 1,
        node_range_x := (1, 1), node_range_y := (1 / 67108864, 1 / 67108864),
        node_range_z := (0, 0), radius_sq := 0 } nil nil := by
  decide!

/-- Claim C4, failing input: after `build([(1, 2^-26, 0)])` the radius search around the
origin with radius `1` returns the point, whose squared distance to the origin is
`1 + 2^-52`, more than `1 * 1`; no live point lies in the sphere.  This holds for every
square root that returns `0` at `0` and `1` at `1 + 2^-52`, as the correctly rounded square
root of `double` arithmetic does (the exact root lies below `1 + 2^-53`, halfway to the next
`double`).  The range box of the node is the point, so the test
`dist <= radius - qSqrt(radius_sq)` compares the rounded root `1` with `1 - 0` and the
subtree is flattened; the test of the point itself, on squared distances, is not reached. -/
theorem radiusSearch_admits_point_outside_sphere (sqrt : ℚ → ℚ) (h0 : sqrt 0 = 0)
    (h1 : sqrt (1 + 1 / 4503599627370496) = 1) :
    (radiusSearch sqrt (build defaultEnv nil [grazingPoint]) (pt 0 0 0) 1).2 = [grazingPoint] ∧
      calcDist grazingPoint (pt 0 0 0) = 1 + 1 / 4503599627370496 ∧
      (1 : ℚ) * 1 < calcDist grazingPoint (pt 0 0 0) ∧
      (livePoints (build defaultEnv nil [grazingPoint])).filter
        (fun p => decide (calcDist p (pt 0 0 0) ≤ 1 * 1)) = [] := by
  refine ⟨?_, by decide!, by decide!, by decide!⟩
  rw [grazingTree_eq]
  have hc : calcDist (rangeCenter ({ (initTreeNode : NodeFields ℚ) with
        point := grazingPoint, TreeSize := 1,
        node_range_x := (1, 1), node_range_y := (1 / 67108864, 1 / 67108864),
        node_range_z := (0, 0), radius_sq := 0 })) (pt 0 0 0) = 1 + 1 / 4503599627370496 := by
    decide!
  simp only [radiusSearch, height, searchByRadius, rangeCenter_pushDownNode,
    pushDownNode_radius_sq, hc, h0, h1]
  decide!

/-- Witness for the failing input of C4: the rounded square root `doubleSqrt` returns `0` at
`0` and `1` at `1 + 2^-52`, so the radius search with it returns the point outside the
sphere. -/
theorem radiusSearch_admits_point_outside_sphere_witness :
    doubleSqrt 0 = 0 ∧ doubleSqrt (1 + 1 / 4503599627370496) = 1 ∧
      (radiusSearch doubleSqrt (build defaultEnv nil [grazingPoint]) (pt 0 0 0) 1).2 =
        [grazingPoint] ∧
      (1 : ℚ) * 1 < calcDist grazingPoint (pt 0 0 0) :=
  ⟨by decide!, by decide!,
    (radiusSearch_admits_point_outside_sphere doubleSqrt (by decide!) (by decide!)).1,
    (radiusSearch_admits_point_outside_sphere doubleSqrt (by decide!) (by decide!)).2.2.1⟩

/-! ## The counter invariant -/

section rootFields
variable (f : NodeFields K → NodeFields K) (t : KD_TREE_NODE K)

@[simp] theorem size_pushAll : size (pushAll t) = size t := by
  cases t <;> rfl

@[simp] theorem invalidNum_pushAll : invalidNum (pushAll t) = invalidNum t := by
  cases t <;> rfl

@[simp] theorem downDelNum_pushAll : downDelNum (pushAll t) = downDelNum t := by
  cases t <;> rfl

@[simp] theorem treeDeleted_pushAll : treeDeleted (pushAll t) = treeDeleted t := by
  cases t <;> rfl

@[simp] theorem treeDownDeleted_pushAll : treeDownDeleted (pushAll t) = treeDownDeleted t := by
  cases t <;> rfl

@[simp] theorem validnum_pushAll : validnum (pushAll t) = validnum t := by
  cases t <;> rfl

end rootFields

theorem agg_clearPush_pushAll (d : NodeFields K) (l r : KD_TREE_NODE K) :
    Agg (clearPush d) (pushAll l) (pushAll r) ↔ Agg d l r := by
  unfold Agg
  simp only [size_pushAll, invalidNum_pushAll, downDelNum_pushAll, treeDeleted_pushAll,
    treeDownDeleted_pushAll]
  exact Iff.rfl

theorem countInv_node (d : NodeFields K) (l r : KD_TREE_NODE K) :
    CountInv (node d l r) ↔
      Agg d (pushDownNode d l r).2.1 (pushDownNode d l r).2.2 ∧
        CountInv (pushDownNode d l r).2.1 ∧ CountInv (pushDownNode d l r).2.2 := by
  unfold CountInv
  rw [pushAll_node]
  simp only [AllNodes]
  rw [agg_clearPush_pushAll]

theorem countInv_congr {a b : KD_TREE_NODE K} (h : pushAll a = pushAll b) :
    CountInv a ↔ CountInv b := by
  unfold CountInv; rw [h]

theorem countInv_nil : CountInv (nil : KD_TREE_NODE K) := trivial

theorem rangeInv_nil : RangeInv (nil : KD_TREE_NODE K) := trivial

/-- On a pushed tree with exact counters, `TreeSize - invalid_point_num` counts the
undeleted nodes. -/
theorem validnum_eq_length_undeleted : ∀ u : KD_TREE_NODE K, AllNodes Agg u →
    validnum u = ((undeleted u).length : Int)
  | nil, _ => rfl
  | node d l r, h => by
    obtain ⟨⟨h1, h2, _⟩, hl, hr⟩ := h
    have el := validnum_eq_length_undeleted l hl
    have er := validnum_eq_length_undeleted r hr
    have vl : validnum l = size l - invalidNum l := by cases l <;> simp [validnum, size, invalidNum]
    have vr : validnum r = size r - invalidNum r := by cases r <;> simp [validnum, size, invalidNum]
    show d.TreeSize - d.invalid_point_num = _
    simp only [undeleted, List.length_append]
    push_cast
    cases hpd : d.point_deleted <;> simp [hpd] at h2 ⊢ <;> omega

/-- On a pushed tree with exact flags, a `tree_deleted` subtree has no undeleted node. -/
theorem undeleted_of_treeDeleted : ∀ u : KD_TREE_NODE K, AllNodes Agg u →
    treeDeleted u = true → undeleted u = []
  | nil, _, _ => rfl
  | node d l r, h, htd => by
    obtain ⟨⟨_, _, _, h4, _⟩, hl, hr⟩ := h
    have htd' : d.tree_deleted = true := htd
    rw [h4] at htd'
    simp only [Bool.and_eq_true] at htd'
    obtain ⟨⟨a, b⟩, c⟩ := htd'
    simp [undeleted, c, undeleted_of_treeDeleted l hl a, undeleted_of_treeDeleted r hr b]

/-- On a pushed tree with exact counters, a `tree_downsample_deleted` subtree has
`down_del_num = TreeSize`. -/
theorem downDelNum_of_treeDownDeleted : ∀ u : KD_TREE_NODE K, AllNodes Agg u →
    treeDownDeleted u = true → downDelNum u = size u
  | nil, _, _ => rfl
  | node d l r, h, htd => by
    obtain ⟨⟨h1, _, h3, _, h5, _⟩, hl, hr⟩ := h
    have htd' : d.tree_downsample_deleted = true := htd
    rw [h5] at htd'
    simp only [Bool.and_eq_true] at htd'
    obtain ⟨⟨a, b⟩, c⟩ := htd'
    show d.down_del_num = d.TreeSize
    rw [h1, h3, downDelNum_of_treeDownDeleted l hl a, downDelNum_of_treeDownDeleted r hr b, c]
    simp

/-- Under the counter invariant `validnum()` is the number of live points. -/
theorem validnum_eq_length_livePoints (t : KD_TREE_NODE K) (h : CountInv t) :
    validnum t = ((livePoints t).length : Int) := by
  rw [← validnum_pushAll]
  exact validnum_eq_length_undeleted _ h

/-- Under the counter invariant a `tree_deleted` tree has no live point. -/
theorem livePoints_of_treeDeleted (t : KD_TREE_NODE K) (h : CountInv t)
    (htd : treeDeleted t = true) : livePoints t = [] :=
  undeleted_of_treeDeleted _ h (by rw [treeDeleted_pushAll]; exact htd)

/-! ## Pushing a subtree deletion down -/

theorem fields_ext (a b : NodeFields K) (h1 : a.point = b.point)
    (h2 : a.division_axis = b.division_axis) (h3 : a.TreeSize = b.TreeSize)
    (h4 : a.invalid_point_num = b.invalid_point_num) (h5 : a.down_del_num = b.down_del_num)
    (h6 : a.point_deleted = b.point_deleted) (h7 : a.tree_deleted = b.tree_deleted)
    (h8 : a.point_downsample_deleted = b.point_downsample_deleted)
    (h9 : a.tree_downsample_deleted = b.tree_downsample_deleted)
    (h10 : a.need_push_down_to_left = b.need_push_down_to_left)
    (h11 : a.need_push_down_to_right = b.need_push_down_to_right)
    (h12 : a.radius_sq = b.radius_sq) (h13 : a.node_range_x = b.node_range_x)
    (h14 : a.node_range_y = b.node_range_y) (h15 : a.node_range_z = b.node_range_z) :
    a = b := by
  cases a; cases b; simp_all

theorem sameStatic_refl (a : NodeFields K) : SameStatic a a :=
  ⟨rfl, rfl, rfl, rfl, rfl, rfl, rfl⟩

theorem sameStatic_pushFields (e s : NodeFields K) : SameStatic (pushFields e s) s :=
  ⟨rfl, rfl, rfl, rfl, rfl, rfl, rfl⟩

theorem sameStatic_next (d : NodeFields K) (s : NodeFields K) :
    SameStatic ((if d.need_push_down_to_left = true then pushFields d else id) s) s ∧
      SameStatic ((if d.need_push_down_to_right = true then pushFields d else id) s) s := by
  constructor <;> split <;> first | exact sameStatic_pushFields _ _ | exact sameStatic_refl _

theorem clearPush_pushFields_eq (ds : Bool) (e g go : NodeFields K) (hs : SameStatic go g)
    (he : e.tree_deleted = true) (hr : PushRel ds e g go) :
    clearPush (pushFields e g) = markFields ds (clearPush go) := by
  obtain ⟨s1, s2, s3, s4, s5, s6, s7⟩ := hs
  obtain ⟨r1, r2, r3⟩ := hr
  apply fields_ext
  · exact s1.symm
  · exact s2.symm
  · exact s3.symm
  · show (if e.tree_deleted = true then g.TreeSize else _) = go.TreeSize
    rw [if_pos he, s3]
  · show (if e.tree_downsample_deleted = true then g.TreeSize else g.down_del_num) =
      if ds = true then go.TreeSize else go.down_del_num
    rw [s3]; exact r3
  · show ((e.tree_deleted || _) || _) = true
    rw [he]; rfl
  · show (e.tree_deleted || _) = true
    rw [he]; rfl
  · exact r2
  · exact r1
  · rfl
  · rfl
  · exact s4.symm
  · exact s5.symm
  · exact s6.symm
  · exact s7.symm

/-- The sons of a node that receives a deleting push receive a deleting push related in the
same way to their own former fields. -/
theorem pushRel_son (ds : Bool) (e g go h : NodeFields K) (flag : Bool)
    (a b : KD_TREE_NODE K) (hr : PushRel ds e g go)
    (hago : go.tree_downsample_deleted = true →
      treeDownDeleted (pushAllFrom (if flag = true then pushFields go else id) (node h a b))
        = true)
    (hsub : AllNodes Agg (pushAllFrom (if flag = true then pushFields go else id) (node h a b))) :
    PushRel ds (pushFields e g) h ((if flag = true then pushFields go else id) h) := by
  obtain ⟨r1, r2, r3⟩ := hr
  have e1 : (pushFields e g).tree_downsample_deleted = (go.tree_downsample_deleted || ds) := r1
  have hdd := downDelNum_of_treeDownDeleted _ hsub
  have hpdd := hsub.1.2.2.2.2.1
  cases flag with
  | true =>
    simp only [if_true] at hago hsub hdd hpdd ⊢
    refine ⟨?_, ?_, ?_⟩
    · rw [e1]
      show (_ || _) = ((h.tree_downsample_deleted || go.tree_downsample_deleted) || ds)
      rw [Bool.or_assoc]
    · rw [e1]
      show (_ || _) = ((h.point_downsample_deleted || go.tree_downsample_deleted) || ds)
      rw [Bool.or_assoc]
    · rw [e1]
      show _ = if ds = true then h.TreeSize else
        (if go.tree_downsample_deleted = true then h.TreeSize else h.down_del_num)
      cases ds <;> cases go.tree_downsample_deleted <;> rfl
  | false =>
    simp only [Bool.false_eq_true, if_false] at hago hsub hdd hpdd ⊢
    have t1 : treeDownDeleted (pushAllFrom id (node h a b)) = h.tree_downsample_deleted := rfl
    have t2 : downDelNum (pushAllFrom id (node h a b)) = h.down_del_num := rfl
    have t3 : size (pushAllFrom id (node h a b)) = h.TreeSize := rfl
    rw [t1] at hago hdd
    rw [t2, t3] at hdd
    have hpdd' : h.tree_downsample_deleted = true → h.point_downsample_deleted = true := by
      intro hh
      have : (clearPush (id h)).tree_downsample_deleted = true := hh
      rw [hpdd] at this
      simp only [Bool.and_eq_true] at this
      exact this.2
    have imp : go.tree_downsample_deleted = true → h.tree_downsample_deleted = true := hago
    refine ⟨?_, ?_, ?_⟩
    · rw [e1]
      show (h.tree_downsample_deleted || _) = (h.tree_downsample_deleted || ds)
      cases hg : go.tree_downsample_deleted
      · simp
      · simp [imp hg]
    · rw [e1]
      show (h.point_downsample_deleted || _) = (h.point_downsample_deleted || ds)
      cases hg : go.tree_downsample_deleted
      · simp
      · simp [hpdd' (imp hg)]
    · rw [e1]
      show _ = if ds = true then h.TreeSize else h.down_del_num
      cases hg : go.tree_downsample_deleted
      · cases ds <;> simp
      · cases ds
        · simp [hdd (imp hg)]
        · simp

/-- Pushing a deletion down a subtree of a tree with exact counters marks every node of the
subtree deleted and changes nothing else. -/
theorem pushAllFrom_deleted (ds : Bool) : ∀ (t : KD_TREE_NODE K)
    (fo : NodeFields K → NodeFields K) (e : NodeFields K),
    (∀ s, SameStatic (fo s) s) → e.tree_deleted = true → AllNodes Agg (pushAllFrom fo t) →
    (∀ g l r, t = node g l r → PushRel ds e g (fo g)) →
    pushAllFrom (pushFields e) t = markDeleted ds (pushAllFrom fo t)
  | nil, _, _, _, _, _, _ => rfl
  | node g l r, fo, e, hs, he, hagg, hrel => by
    have hr := hrel g l r rfl
    obtain ⟨hroot, hl, hr'⟩ := hagg
    have htdd : (clearPush (fo g)).tree_downsample_deleted = true →
        treeDownDeleted (pushAllFrom (if (fo g).need_push_down_to_left = true then
          pushFields (fo g) else id) l) = true ∧
        treeDownDeleted (pushAllFrom (if (fo g).need_push_down_to_right = true then
          pushFields (fo g) else id) r) = true := by
      intro hh
      rw [hroot.2.2.2.2.1] at hh
      simp only [Bool.and_eq_true] at hh
      exact hh.1
    have he' : (pushFields e g).tree_deleted = true := by
      show (e.tree_deleted || _) = true
      rw [he]; rfl
    show node (clearPush (pushFields e g)) (pushAllFrom (pushFields (pushFields e g)) l)
        (pushAllFrom (pushFields (pushFields e g)) r) =
      node (markFields ds (clearPush (fo g))) (markDeleted ds (pushAllFrom _ l))
        (markDeleted ds (pushAllFrom _ r))
    rw [clearPush_pushFields_eq ds e g (fo g) (hs g) he hr,
      pushAllFrom_deleted ds l _ (pushFields e g) (fun s => (sameStatic_next (fo g) s).1) he' hl
        (fun h a b hlab => by
          subst hlab
          exact pushRel_son ds e g (fo g) h _ a b hr (fun hh => (htdd hh).1) hl),
      pushAllFrom_deleted ds r _ (pushFields e g) (fun s => (sameStatic_next (fo g) s).2) he' hr'
        (fun h a b hlab => by
          subst hlab
          exact pushRel_son ds e g (fo g) h _ a b hr (fun hh => (htdd hh).2) hr')]

/-- Marking a pushed tree with exact counters deleted keeps the counters exact. -/
theorem allNodes_agg_markDeleted (ds : Bool) : ∀ u : KD_TREE_NODE K, AllNodes Agg u →
    AllNodes Agg (markDeleted ds u)
  | nil, _ => trivial
  | node d l r, h => by
    obtain ⟨⟨h1, h2, h3, h4, h5, h6⟩, hl, hr⟩ := h
    have sl : size (markDeleted ds l) = size l := by cases l <;> rfl
    have sr : size (markDeleted ds r) = size r := by cases r <;> rfl
    have il : invalidNum (markDeleted ds l) = size l := by cases l <;> rfl
    have ir : invalidNum (markDeleted ds r) = size r := by cases r <;> rfl
    have dl : downDelNum (markDeleted ds l) = if ds then size l else downDelNum l := by
      cases l <;> cases ds <;> rfl
    have dr : downDelNum (markDeleted ds r) = if ds then size r else downDelNum r := by
      cases r <;> cases ds <;> rfl
    have tl : treeDeleted (markDeleted ds l) = true := by cases l <;> rfl
    have tr : treeDeleted (markDeleted ds r) = true := by cases r <;> rfl
    have ddl : treeDownDeleted (markDeleted ds l) = (treeDownDeleted l || l.isNull || ds) := by
      cases l <;> simp [markDeleted, markFields, treeDownDeleted, isNull]
    have ddr : treeDownDeleted (markDeleted ds r) = (treeDownDeleted r || r.isNull || ds) := by
      cases r <;> simp [markDeleted, markFields, treeDownDeleted, isNull]
    have nl : l.isNull = true → treeDownDeleted l = true := by
      intro hn; rw [eq_nil_of_isNull hn]; rfl
    have nr : r.isNull = true → treeDownDeleted r = true := by
      intro hn; rw [eq_nil_of_isNull hn]; rfl
    refine ⟨⟨?_, ?_, ?_, ?_, ?_, fun _ => rfl⟩, allNodes_agg_markDeleted ds l hl,
      allNodes_agg_markDeleted ds r hr⟩
    · show d.TreeSize = _
      rw [sl, sr, h1]
    · show d.TreeSize = _ + _ + (if true = true then 1 else 0)
      rw [il, ir, h1]; simp
    · show (if ds = true then d.TreeSize else d.down_del_num) = _ + _ +
        (if (d.point_downsample_deleted || ds) = true then 1 else 0)
      rw [dl, dr]
      cases ds
      · simp only [Bool.false_eq_true, if_false, Bool.or_false]
        exact h3
      · simp only [if_true, Bool.or_true]
        exact h1
    · show true = (_ && _ && true)
      rw [tl, tr]; rfl
    · show (d.tree_downsample_deleted || ds) = (_ && _ && (d.point_downsample_deleted || ds))
      rw [ddl, ddr, h5]
      cases ds
      · cases hnl : l.isNull <;> cases hnr : r.isNull <;>
          simp [nl, nr, hnl, hnr]
      · simp

theorem undeleted_markDeleted (ds : Bool) : ∀ u : KD_TREE_NODE K,
    undeleted (markDeleted ds u) = []
  | nil => rfl
  | node d l r => by
    show (if true = true then [] else _) ++ undeleted (markDeleted ds l) ++
      undeleted (markDeleted ds r) = []
    rw [undeleted_markDeleted ds l, undeleted_markDeleted ds r]; rfl

theorem allNodes_range_markDeleted (ds : Bool) : ∀ u : KD_TREE_NODE K,
    AllNodes (fun d l r => ∀ p ∈ undeleted (node d l r), inRange d p) (markDeleted ds u)
  | nil => trivial
  | node d l r => by
    refine ⟨?_, allNodes_range_markDeleted ds l, allNodes_range_markDeleted ds r⟩
    intro p hp
    have := undeleted_markDeleted ds (node d l r)
    rw [markDeleted] at this
    rw [this] at hp
    cases hp

/-! ## `update` and `rebuild` keep the invariants -/

theorem update_update (t : KD_TREE_NODE K) : update (update t) = update t := by
  cases t <;> rfl

theorem update_buildTree (env : Env K) (fuel : Nat) (pts : List (PointType K)) :
    update (buildTree env fuel pts) = buildTree env fuel pts := by
  cases fuel with
  | zero => cases pts <;> rfl
  | succ n =>
    cases pts with
    | nil => rfl
    | cons p ps => rw [buildTree_cons, update_update]

/-- What `rebuild` returns: the tree itself (below the size threshold), or a fresh tree on
the live points. -/
theorem rebuild_spec (env : Env K) (hnth : NthPermutes env) (t : KD_TREE_NODE K) :
    rebuild env t = t ∨
      (Fresh (rebuild env t) ∧ (points (rebuild env t)).Perm (livePoints t)) := by
  cases t with
  | nil => left; rfl
  | node d l r =>
    simp only [rebuild]
    split
    · left; rfl
    · right
      rw [flatten_snd _ _ _ le_rfl, List.nil_append]
      split
      · rename_i he
        have : livePoints (node d l r) = [] := by simpa using he
        rw [this]
        exact ⟨trivial, List.Perm.refl _⟩
      · rw [update_buildTree]
        exact buildTree_fresh env hnth _ _ le_rfl

/-- `rebuild` keeps both invariants and the multiset of live points. -/
theorem rebuild_inv (env : Env K) (hnth : NthPermutes env) (t : KD_TREE_NODE K)
    (hc : CountInv t) (hr : RangeInv t) :
    CountInv (rebuild env t) ∧ RangeInv (rebuild env t) ∧
      (livePoints (rebuild env t)).Perm (livePoints t) := by
  rcases rebuild_spec env hnth t with h | ⟨hf, hp⟩
  · rw [h]; exact ⟨hc, hr, List.Perm.refl _⟩
  · refine ⟨countInv_fresh _ hf, rangeInv_fresh _ hf, ?_⟩
    rw [livePoints_fresh _ hf]; exact hp

/-- A push that neither deletes nor downsample-deletes leaves a fresh tree as it is. -/
theorem pushAllFrom_fresh : ∀ (t : KD_TREE_NODE K) (e : NodeFields K), Fresh t →
    e.tree_deleted = false → e.tree_downsample_deleted = false →
    pushAllFrom (pushFields e) t = t
  | nil, _, _, _, _ => rfl
  | node g l r, e, hf, h1, h2 => by
    obtain ⟨⟨f1, f2, f3, f4, f5, f6, _, f8, f9, _⟩, hl, hr⟩ := hf
    have e1 : (pushFields e g).tree_deleted = false := by
      show (e.tree_deleted || (g.tree_downsample_deleted || e.tree_downsample_deleted)) = false
      rw [h1, h2, f4]; rfl
    have e2 : (pushFields e g).tree_downsample_deleted = false := by
      show (g.tree_downsample_deleted || e.tree_downsample_deleted) = false
      rw [h2, f4]; rfl
    show node (clearPush (pushFields e g)) (pushAllFrom (pushFields (pushFields e g)) l)
      (pushAllFrom (pushFields (pushFields e g)) r) = node g l r
    rw [pushAllFrom_fresh l _ hl e1 e2, pushAllFrom_fresh r _ hr e1 e2]
    congr 1
    apply fields_ext <;> try rfl
    · show (if e.tree_deleted = true then g.TreeSize else
        if e.tree_downsample_deleted = true then g.TreeSize else g.down_del_num) = _
      rw [h1, h2, f8, f9]; rfl
    · show (if e.tree_downsample_deleted = true then g.TreeSize else g.down_del_num) = _
      rw [h2]; rfl
    · show ((e.tree_deleted || (g.tree_downsample_deleted || e.tree_downsample_deleted)) ||
        (g.point_downsample_deleted || e.tree_downsample_deleted)) = _
      rw [h1, h2, f4, f3, f1]; rfl
    · exact e1.trans f2.symm
    · show (g.point_downsample_deleted || e.tree_downsample_deleted) = _
      rw [h2, f3]; rfl
    · exact e2.trans f4.symm
    · exact f5.symm
    · exact f6.symm

theorem pushAll_pushSon_ok (flag : Bool) (e : NodeFields K) (s : KD_TREE_NODE K)
    (h : SonOK flag s)
    (he : Fresh s → s.isNull = false →
      e.tree_deleted = false ∧ e.tree_downsample_deleted = false) :
    pushAll (pushSon flag e s) = pushAll s := by
  cases hn : s.isNull
  · rcases h with h | h
    · rw [h hn, pushSon_false]
    · rw [pushAll_pushSon, pushAll_fresh s h]
      cases flag
      · exact pushAll_fresh s h
      · exact pushAllFrom_fresh s e h (he h hn).1 (he h hn).2
  · rw [eq_nil_of_isNull hn]; rfl

theorem treeDeleted_fresh (s : KD_TREE_NODE K) (h : Fresh s) (hn : s.isNull = false) :
    treeDeleted s = false ∧ treeDownDeleted s = false := by
  cases s with
  | nil => simp [isNull] at hn
  | node d l r => exact ⟨h.1.2.1, h.1.2.2.2.1⟩

theorem rangeInv_root {d : NodeFields K} {l r : KD_TREE_NODE K} (h : RangeInv (node d l r)) :
    ∀ p ∈ livePoints (node d l r), inRange d p :=
  ((rangeInv_node d l r).1 h).1

/-- The node that a mutator hands to `update`, with sons that satisfy the invariants, comes
out of `update` satisfying them, and its live points are its own point (unless deleted)
followed by those of the sons. -/
theorem update_inv (d : NodeFields K) (l r : KD_TREE_NODE K)
    (hl : SonOK d.need_push_down_to_left l) (hr : SonOK d.need_push_down_to_right r)
    (hcl : CountInv l) (hcr : CountInv r) (hrl : RangeInv l) (hrr : RangeInv r)
    (hflag : d.point_downsample_deleted = true → d.point_deleted = true) :
    CountInv (update (node d l r)) ∧ RangeInv (update (node d l r)) ∧
      livePoints (update (node d l r)) =
        (if d.point_deleted then [] else [d.point]) ++ livePoints l ++ livePoints r := by
  have hpush : pushAll (update (node d l r)) =
      node (clearPush (updateFields d l.fields? r.fields?)) (pushAll l) (pushAll r) := by
    show pushAll (node (updateFields d l.fields? r.fields?) l r) = _
    rw [pushAll_node, pushDownNode_snd_fst, pushDownNode_snd_snd, updateFields_need_left,
      updateFields_need_right]
    congr 1
    · apply pushAll_pushSon_ok _ _ _ hl
      intro hf hn
      rw [updateFields_tree_deleted, updateFields_tree_downsample_deleted,
        (treeDeleted_fresh l hf hn).1, (treeDeleted_fresh l hf hn).2]
      exact ⟨rfl, rfl⟩
    · apply pushAll_pushSon_ok _ _ _ hr
      intro hf hn
      rw [updateFields_tree_deleted, updateFields_tree_downsample_deleted,
        (treeDeleted_fresh r hf hn).1, (treeDeleted_fresh r hf hn).2]
      simp
  have hlive : livePoints (update (node d l r)) =
      (if d.point_deleted then [] else [d.point]) ++ livePoints l ++ livePoints r := by
    unfold livePoints
    rw [hpush]
    rfl
  refine ⟨?_, ?_, hlive⟩
  · unfold CountInv
    rw [hpush]
    refine ⟨(agg_clearPush_pushAll _ _ _).2 ?_, hcl, hcr⟩
    exact ⟨updateFields_TreeSize d l r, updateFields_invalid d l r, updateFields_downDel d l r,
      updateFields_tree_deleted d l r, updateFields_tree_downsample_deleted d l r, hflag⟩
  · unfold RangeInv
    rw [hpush]
    refine ⟨?_, hrl, hrr⟩
    intro p hp
    have hp' : p ∈ (if d.point_deleted then [] else [d.point]) ++ livePoints l ++
        livePoints r := hp
    show inRange (updateFields d l.fields? r.fields?) p
    simp only [List.mem_append] at hp'
    rcases hp' with (hp' | hp') | hp'
    · cases hpd : d.point_deleted
      · rw [hpd] at hp'
        have : p = d.point := by simpa using hp'
        subst this
        exact update_inRange_point d l r (Or.inr hpd)
      · rw [hpd] at hp'
        simp at hp'
    · cases l with
      | nil => simp at hp'
      | node ld a b =>
        have htd : ld.tree_deleted = false := by
          cases h : ld.tree_deleted
          · rfl
          · rw [livePoints_of_treeDeleted _ hcl h] at hp'
            cases hp'
        exact update_inRange_left d ld a b r p (Or.inr htd) (rangeInv_root hrl p hp')
    · cases r with
      | nil => simp at hp'
      | node rd a b =>
        have htd : rd.tree_deleted = false := by
          cases h : rd.tree_deleted
          · rfl
          · rw [livePoints_of_treeDeleted _ hcr h] at hp'
            cases hp'
        exact update_inRange_right d rd l a b p (Or.inr htd) (rangeInv_root hrr p hp')

/-- The tail of every mutator keeps both invariants; the live points are rearranged at
most. -/
theorem updateAndRebuild_inv (env : Env K) (hnth : NthPermutes env) (allowRebuild : Bool)
    (d : NodeFields K) (l r : KD_TREE_NODE K)
    (hl : SonOK d.need_push_down_to_left l) (hr : SonOK d.need_push_down_to_right r)
    (hcl : CountInv l) (hcr : CountInv r) (hrl : RangeInv l) (hrr : RangeInv r)
    (hflag : d.point_downsample_deleted = true → d.point_deleted = true) :
    CountInv (updateAndRebuild env allowRebuild (node d l r)) ∧
      RangeInv (updateAndRebuild env allowRebuild (node d l r)) ∧
      (livePoints (updateAndRebuild env allowRebuild (node d l r))).Perm
        ((if d.point_deleted then [] else [d.point]) ++ livePoints l ++ livePoints r) := by
  obtain ⟨h1, h2, h3⟩ := update_inv d l r hl hr hcl hcr hrl hrr hflag
  unfold updateAndRebuild
  simp only
  split
  · obtain ⟨g1, g2, g3⟩ := rebuild_inv env hnth _ h1 h2
    exact ⟨g1, g2, h3 ▸ g3⟩
  · exact ⟨h1, h2, h3 ▸ List.Perm.refl _⟩

/-! ## `deleteByRange` -/

/-- On a pushed tree with exact flags, downsample-deleted subtrees are deleted. -/
theorem treeDeleted_of_treeDownDeleted : ∀ u : KD_TREE_NODE K, AllNodes Agg u →
    treeDownDeleted u = true → treeDeleted u = true
  | nil, _, _ => rfl
  | node d l r, h, htd => by
    obtain ⟨⟨_, _, _, h4, h5, h6⟩, hl, hr⟩ := h
    have htd' : d.tree_downsample_deleted = true := htd
    rw [h5] at htd'
    simp only [Bool.and_eq_true] at htd'
    obtain ⟨⟨a, b⟩, c⟩ := htd'
    show d.tree_deleted = true
    rw [h4, treeDeleted_of_treeDownDeleted l hl a, treeDeleted_of_treeDownDeleted r hr b, h6 c]
    rfl

theorem tdd_false_of_td_false (d : NodeFields K) (l r : KD_TREE_NODE K)
    (hc : CountInv (node d l r)) (htd : d.tree_deleted = false) :
    d.tree_downsample_deleted = false := by
  cases h : d.tree_downsample_deleted
  · rfl
  · have := treeDeleted_of_treeDownDeleted _ hc
      (by rw [treeDownDeleted_pushAll]; exact h)
    rw [treeDeleted_pushAll] at this
    have : d.tree_deleted = true := this
    rw [htd] at this
    cases this

/-- The covering branch of `deleteByRange`: after push-down the result is the old tree
with every node marked deleted. -/
theorem pushAll_cover (d d2 : NodeFields K) (l r : KD_TREE_NODE K) (ds : Bool)
    (hc : CountInv (node d l r)) (htd : d.tree_deleted = false)
    (h2 : clearPush d2 = markFields ds (clearPush d))
    (hnl : d2.need_push_down_to_left = true) (hnr : d2.need_push_down_to_right = true) :
    pushAll (node d2 (pushDownNode d l r).2.1 (pushDownNode d l r).2.2) =
      markDeleted ds (pushAll (node d l r)) := by
  obtain ⟨_, hcl, hcr⟩ := (countInv_node d l r).1 hc
  have htdd := tdd_false_of_td_false d l r hc htd
  have e1 : d2.tree_deleted = true := by
    have : (clearPush d2).tree_deleted = true := by rw [h2]; rfl
    exact this
  have e2 : d2.tree_downsample_deleted = ds := by
    have : (clearPush d2).tree_downsample_deleted = (d.tree_downsample_deleted || ds) := by
      rw [h2]; rfl
    rw [htdd] at this
    simpa using this
  have hrel : ∀ (t : KD_TREE_NODE K) g a b, t = node g a b → PushRel ds d2 g (id g) := by
    intro t g a b _
    refine ⟨?_, ?_, ?_⟩ <;> rw [e2] <;> rfl
  rw [pushAll_node d2, pushDownNode_snd_fst d2, pushDownNode_snd_snd d2, hnl, hnr,
    pushAll_pushSon, pushAll_pushSon, pushAll_node d l r]
  simp only [if_true]
  rw [pushAllFrom_deleted ds _ id d2 sameStatic_refl e1 hcl (hrel _),
    pushAllFrom_deleted ds _ id d2 sameStatic_refl e1 hcr (hrel _), h2]
  rfl

theorem filter_not_eq_self_of_filter_nil {α : Type} (p : α → Bool) (l : List α)
    (h : l.filter p = []) : l.filter (fun a => !p a) = l := by
  rw [List.filter_eq_self]
  intro a ha
  rw [List.filter_eq_nil_iff] at h
  simpa using h a ha

theorem filter_not_nil_of_filter_self {α : Type} (p : α → Bool) (l : List α)
    (h : l.filter p = l) : l.filter (fun a => !p a) = [] := by
  rw [List.filter_eq_nil_iff]
  intro a ha
  rw [List.filter_eq_self] at h
  simp [h a ha]

/-- With enough fuel and on a tree that satisfies the counter and bounding-box invariants,
`deleteByRange` keeps the invariants, leaves exactly the live points outside the box live,
and returns the number of live points inside the box. -/
theorem deleteByRange_spec (env : Env K) (hnth : NthPermutes env) (b : BoxPointType K)
    (allowRebuild isDownsample : Bool) : ∀ (fuel : Nat) (t : KD_TREE_NODE K),
    t.height ≤ fuel → CountInv t → RangeInv t →
    CountInv (deleteByRange env fuel t b allowRebuild isDownsample).1 ∧
    RangeInv (deleteByRange env fuel t b allowRebuild isDownsample).1 ∧
    (livePoints (deleteByRange env fuel t b allowRebuild isDownsample).1).Perm
      ((livePoints t).filter (fun p => !pointInBox b p)) ∧
    (deleteByRange env fuel t b allowRebuild isDownsample).2 =
      (((livePoints t).filter (pointInBox b)).length : Int)
  | _, nil, _, _, _ => by
    cases ‹Nat› <;> exact ⟨countInv_nil, rangeInv_nil, List.Perm.refl _, rfl⟩
  | 0, node d l r, h, _, _ => by simp [height] at h
  | fuel + 1, node d l r, h, hc, hr => by
    simp only [deleteByRange]
    split
    · rename_i htd
      have hlp := livePoints_of_treeDeleted _ hc htd
      rw [hlp]
      exact ⟨hc, hr, List.Perm.refl _, rfl⟩
    · rename_i htd
      have htd : d.tree_deleted = false := by simpa using htd
      obtain ⟨hagg, hcl, hcr⟩ := (countInv_node d l r).1 hc
      obtain ⟨hr0, hrl, hrr⟩ := (rangeInv_node d l r).1 hr
      have hd : ∀ p ∈ livePoints (node d l r), inRange (pushDownNode d l r).1 p :=
        fun p hp => (inRange_pushDownNode d l r p).2 (hr0 p hp)
      split
      · rename_i hm
        have hnil : (livePoints (node d l r)).filter (pointInBox b) = [] := by
          rw [List.filter_eq_nil_iff]
          intro p hp
          rw [not_pointInBox_of_boxMisses b _ p hm (hd p hp)]
          simp
        have hpush := pushAll_pushDownNode d l r
        refine ⟨(countInv_congr hpush).2 hc, (rangeInv_congr hpush).2 hr, ?_, ?_⟩
        · rw [livePoints_congr hpush, filter_not_eq_self_of_filter_nil _ _ hnil]
        · rw [hnil]; rfl
      · split
        · rename_i hm hcov
          have hall : (livePoints (node d l r)).filter (pointInBox b) =
              livePoints (node d l r) := by
            rw [List.filter_eq_self]
            intro p hp
            exact pointInBox_of_boxCovers b _ p hcov (hd p hp)
          have hpush : pushAll (node
              (if isDownsample = true then
                { ({ (pushDownNode d l r).1 with
                    tree_deleted := true, point_deleted := true,
                    need_push_down_to_left := true, need_push_down_to_right := true,
                    invalid_point_num := (pushDownNode d l r).1.TreeSize } : NodeFields K) with
                  tree_downsample_deleted := true, point_downsample_deleted := true,
                  down_del_num := (pushDownNode d l r).1.TreeSize }
              else
                { (pushDownNode d l r).1 with
                  tree_deleted := true, point_deleted := true,
                  need_push_down_to_left := true, need_push_down_to_right := true,
                  invalid_point_num := (pushDownNode d l r).1.TreeSize })
              (pushDownNode d l r).2.1 (pushDownNode d l r).2.2) =
              markDeleted isDownsample (pushAll (node d l r)) := by
            apply pushAll_cover d _ l r isDownsample hc htd
            · cases isDownsample
              · simp only [Bool.false_eq_true, if_false]
                apply fields_ext <;> simp [clearPush, markFields]
              · simp only [if_true]
                apply fields_ext <;> simp [clearPush, markFields]
            · cases isDownsample <;> rfl
            · cases isDownsample <;> rfl
          refine ⟨?_, ?_, ?_, ?_⟩
          · unfold CountInv
            rw [hpush]
            exact allNodes_agg_markDeleted _ _ hc
          · unfold RangeInv
            rw [hpush]
            exact allNodes_range_markDeleted _ _
          · unfold livePoints
            rw [hpush, undeleted_markDeleted]
            have := filter_not_nil_of_filter_self _ _ hall
            unfold livePoints at this
            rw [this]
          · rw [hall, ← validnum_eq_length_livePoints _ hc]
            simp [validnum]
        · rename_i hm hcov
          obtain ⟨il1, il2, il3, il4⟩ := deleteByRange_spec env hnth b allowRebuild isDownsample
            fuel _ (height_left_le h) hcl hrl
          obtain ⟨ir1, ir2, ir3, ir4⟩ := deleteByRange_spec env hnth b allowRebuild isDownsample
            fuel _ (height_right_le h) hcr hrr
          have sl : SonOK (pushDownNode d l r).1.need_push_down_to_left
              (deleteByRange env fuel (pushDownNode d l r).2.1 b allowRebuild isDownsample).1 := by
            left
            intro hn
            rw [pushDownNode_need_left]
            cases l with
            | nil => cases fuel <;> simp [deleteByRange, pushDownNode_snd_fst, isNull] at hn
            | node _ _ _ => simp [isNull]
          have sr : SonOK (pushDownNode d l r).1.need_push_down_to_right
              (deleteByRange env fuel (pushDownNode d l r).2.2 b allowRebuild isDownsample).1 := by
            left
            intro hn
            rw [pushDownNode_need_right]
            cases r with
            | nil => cases fuel <;> simp [deleteByRange, pushDownNode_snd_snd, isNull] at hn
            | node _ _ _ => simp [isNull]
          have hflag0 : d.point_downsample_deleted = true → d.point_deleted = true := hagg.2.2.2.2.2
          cases hhit : (!(pushDownNode d l r).1.point_deleted &&
              pointInBox b (pushDownNode d l r).1.point)
          · simp only [Bool.false_eq_true, if_false]
            have hflag : (pushDownNode d l r).1.point_downsample_deleted = true →
                (pushDownNode d l r).1.point_deleted = true := by simpa using hflag0
            obtain ⟨u1, u2, u3⟩ := updateAndRebuild_inv env hnth allowRebuild _ _ _ sl sr il1 ir1
              il2 ir2 hflag
            simp only [pushDownNode_point_deleted, pushDownNode_point] at hhit u3
            refine ⟨u1, u2, ?_, ?_⟩
            · refine u3.trans ?_
              rw [livePoints_node d l r, List.filter_append, List.filter_append]
              refine List.Perm.append (List.Perm.append ?_ il3) ir3
              cases hpd : d.point_deleted
              · rw [hpd] at hhit
                have : pointInBox b d.point = false := by simpa using hhit
                simp [List.filter, this]
              · simp
            · rw [il4, ir4, livePoints_node d l r, List.filter_append, List.filter_append,
                List.length_append, List.length_append]
              push_cast
              cases hpd : d.point_deleted
              · rw [hpd] at hhit
                have : pointInBox b d.point = false := by simpa using hhit
                simp [List.filter, this]
              · simp
          · simp only [if_true]
            have hpd : d.point_deleted = false := by
              simp only [pushDownNode_point_deleted, Bool.and_eq_true, Bool.not_eq_true'] at hhit
              exact hhit.1
            have hin : pointInBox b d.point = true := by
              simp only [pushDownNode_point, Bool.and_eq_true] at hhit
              exact hhit.2
            obtain ⟨u1, u2, u3⟩ := updateAndRebuild_inv env hnth allowRebuild
              { (pushDownNode d l r).1 with
                point_deleted := true
                point_downsample_deleted :=
                  if isDownsample = true then true
                  else (pushDownNode d l r).1.point_downsample_deleted } _ _ sl sr il1 ir1
              il2 ir2 (fun _ => rfl)
            refine ⟨u1, u2, ?_, ?_⟩
            · refine u3.trans ?_
              rw [livePoints_node d l r, List.filter_append, List.filter_append]
              refine List.Perm.append (List.Perm.append ?_ il3) ir3
              simp [hpd, List.filter, hin]
            · rw [il4, ir4, livePoints_node d l r, List.filter_append, List.filter_append,
                List.length_append, List.length_append]
              push_cast
              simp [hpd, List.filter, hin]

/-! ## `deletePointBoxes` -/

theorem length_filter_add_length_filter_not {α : Type} (p : α → Bool) (l : List α) :
    (l.filter p).length + (l.filter (fun a => !p a)).length = l.length := by
  induction l with
  | nil => rfl
  | cons a l ih =>
    cases h : p a <;> simp [List.filter, h] <;> omega

theorem twoPointTree_inv : CountInv twoPointTree ∧ RangeInv twoPointTree :=
  ⟨countInv_fresh _ (build_fresh _ nthPermutes_defaultEnv _ _).1,
    rangeInv_fresh _ (build_fresh _ nthPermutes_defaultEnv _ _).1⟩

/-- On a tree with exact counters whose range boxes contain the live points,
`delete_boxes([B])` returns the number of live points inside `B`, which is `validnum()`
before minus `validnum()` after; afterwards no live point lies inside `B`, the live points
are exactly the former live points outside `B`, and the invariants still hold. -/
theorem deletePointBoxes_spec (env : Env K) (hnth : NthPermutes env)
    (t : KD_TREE_NODE K) (hc : CountInv t) (hr : RangeInv t) (b : BoxPointType K) :
    (deletePointBoxes env t [b]).2 = (((livePoints t).filter (pointInBox b)).length : Int) ∧
    (deletePointBoxes env t [b]).2 = validnum t - validnum (deletePointBoxes env t [b]).1 ∧
    (∀ p ∈ livePoints (deletePointBoxes env t [b]).1, pointInBox b p = false) ∧
    (livePoints (deletePointBoxes env t [b]).1).Perm
      ((livePoints t).filter (fun p => !pointInBox b p)) ∧
    CountInv (deletePointBoxes env t [b]).1 ∧ RangeInv (deletePointBoxes env t [b]).1 := by
  obtain ⟨h1, h2, h3, h4⟩ := deleteByRange_spec env hnth b true false t.height t le_rfl hc hr
  have e1 : (deletePointBoxes env t [b]).1 = (deleteByRange env t.height t b true false).1 := rfl
  have e2 : (deletePointBoxes env t [b]).2 = 0 + (deleteByRange env t.height t b true false).2 :=
    rfl
  rw [e1, e2, zero_add]
  refine ⟨h4, ?_, ?_, h3, h1, h2⟩
  · rw [h4, validnum_eq_length_livePoints _ hc, validnum_eq_length_livePoints _ h1,
      h3.length_eq, ← length_filter_add_length_filter_not (pointInBox b) (livePoints t)]
    push_cast
    ring
  · intro p hp
    have := h3.mem_iff.1 hp
    rw [List.mem_filter] at this
    simpa using this.2

/-- Claim C7, failing input: after `build([(0,0,0),(1,0,0)])`, `delete_points([(1,0,0)])` and
`add_boxes` with a box around `(0,0,0)` only, the point `(1,0,0)` is live again and
`validnum()` is `2`; the range box of the root is still the point `(0,0,0)`.  The point
`(1,0,0)` lies in the box `[(0.5,-1,-1), (1.5,1,1)]`, and `delete_boxes` with that box turns
back at the root: it returns `0`, `validnum()` stays `2` and `(1,0,0)` stays live. -/
theorem deletePointBoxes_misses_restored_point :
    livePoints restoredTree = [pt 0 0 0, pt 1 0 0] ∧ validnum restoredTree = 2 ∧
      pointInBox farBox (pt 1 0 0) = true ∧
      restoredTree.fields?.map (fun d => (d.node_range_x, d.node_range_y, d.node_range_z)) =
        some ((0, 0), (0, 0), (0, 0)) ∧
      (deletePointBoxes defaultEnv restoredTree [farBox]).2 = 0 ∧
      validnum (deletePointBoxes defaultEnv restoredTree [farBox]).1 = 2 ∧
      pt 1 0 0 ∈ livePoints (deletePointBoxes defaultEnv restoredTree [farBox]).1 := by
  decide!

/-! ## `addByPoint` and `addPoints` -/

theorem isNull_false_of_livePoints_ne_nil (t : KD_TREE_NODE K) (h : livePoints t ≠ []) :
    t.isNull = false := by
  cases t with
  | nil => exact absurd rfl h
  | node d l r => rfl

theorem sonOK_pushed_right (d : NodeFields K) (l r : KD_TREE_NODE K) :
    SonOK (pushDownNode d l r).1.need_push_down_to_right (pushDownNode d l r).2.2 := by
  left
  intro hn
  rw [pushDownNode_need_right]
  rw [pushDownNode_snd_snd, isNull_pushSon] at hn
  rw [hn, Bool.and_false]

theorem sonOK_pushed_left (d : NodeFields K) (l r : KD_TREE_NODE K) :
    SonOK (pushDownNode d l r).1.need_push_down_to_left (pushDownNode d l r).2.1 := by
  left
  intro hn
  rw [pushDownNode_need_left]
  rw [pushDownNode_snd_fst, isNull_pushSon] at hn
  rw [hn, Bool.and_false]

/-- With enough fuel and on a tree that satisfies the counter and bounding-box invariants,
`addByPoint` keeps the invariants and adds exactly the new point to the live points; on a
null pointer it creates a fresh leaf. -/
theorem addByPoint_spec (env : Env K) (hnth : NthPermutes env) (p : PointType K)
    (allowRebuild : Bool) : ∀ (fuel : Nat) (t : KD_TREE_NODE K) (fatherAxis : Nat),
    t.height ≤ fuel → CountInv t → RangeInv t →
    CountInv (addByPoint env fuel t p allowRebuild fatherAxis) ∧
    RangeInv (addByPoint env fuel t p allowRebuild fatherAxis) ∧
    (livePoints (addByPoint env fuel t p allowRebuild fatherAxis)).Perm (p :: livePoints t) ∧
    (t.isNull = true → Fresh (addByPoint env fuel t p allowRebuild fatherAxis))
  | fuel, nil, fa, _, _, _ => by
    have hf : Fresh (addByPoint env fuel nil p allowRebuild fa) := by
      cases fuel <;> exact fresh_update_init p ((fa + 1) % 3) nil nil trivial trivial
    refine ⟨countInv_fresh _ hf, rangeInv_fresh _ hf, ?_, fun _ => hf⟩
    rw [livePoints_fresh _ hf]
    cases fuel <;> exact List.Perm.refl _
  | 0, node d l r, _, h, _, _ => by simp [height] at h
  | fuel + 1, node d l r, fa, h, hc, hr => by
    obtain ⟨hagg, hcl, hcr⟩ := (countInv_node d l r).1 hc
    obtain ⟨hr0, hrl, hrr⟩ := (rangeInv_node d l r).1 hr
    have hflag : (pushDownNode d l r).1.point_downsample_deleted = true →
        (pushDownNode d l r).1.point_deleted = true := by simpa using hagg.2.2.2.2.2
    simp only [addByPoint]
    split
    · obtain ⟨i1, i2, i3, i4⟩ := addByPoint_spec env hnth p allowRebuild fuel
        (pushDownNode d l r).2.1 (pushDownNode d l r).1.division_axis (height_left_le h) hcl hrl
      have sl : SonOK (pushDownNode d l r).1.need_push_down_to_left
          (addByPoint env fuel (pushDownNode d l r).2.1 p allowRebuild
            (pushDownNode d l r).1.division_axis) := by
        cases hn : (pushDownNode d l r).2.1.isNull
        · left
          intro _
          rw [pushDownNode_need_left]
          rw [pushDownNode_snd_fst, isNull_pushSon] at hn
          rw [hn, Bool.and_false]
        · right; exact i4 hn
      obtain ⟨u1, u2, u3⟩ := updateAndRebuild_inv env hnth allowRebuild _ _ _ sl
        (sonOK_pushed_right d l r) i1 hcr i2 hrr hflag
      refine ⟨u1, u2, ?_, fun hn => by simp [isNull] at hn⟩
      refine u3.trans ?_
      rw [livePoints_node d l r, pushDownNode_point_deleted, pushDownNode_point]
      refine (List.Perm.append_right _ (List.Perm.append_left _ i3)).trans ?_
      rw [List.append_assoc, List.append_assoc]
      exact List.perm_middle
    · obtain ⟨i1, i2, i3, i4⟩ := addByPoint_spec env hnth p allowRebuild fuel
        (pushDownNode d l r).2.2 (pushDownNode d l r).1.division_axis (height_right_le h) hcr hrr
      have sr : SonOK (pushDownNode d l r).1.need_push_down_to_right
          (addByPoint env fuel (pushDownNode d l r).2.2 p allowRebuild
            (pushDownNode d l r).1.division_axis) := by
        cases hn : (pushDownNode d l r).2.2.isNull
        · left
          intro _
          rw [pushDownNode_need_right]
          rw [pushDownNode_snd_snd, isNull_pushSon] at hn
          rw [hn, Bool.and_false]
        · right; exact i4 hn
      obtain ⟨u1, u2, u3⟩ := updateAndRebuild_inv env hnth allowRebuild _ _ _
        (sonOK_pushed_left d l r) sr hcl i1 hrl i2 hflag
      refine ⟨u1, u2, ?_, fun hn => by simp [isNull] at hn⟩
      refine u3.trans ?_
      rw [livePoints_node d l r, pushDownNode_point_deleted, pushDownNode_point]
      refine (List.Perm.append_left _ i3).trans ?_
      exact List.perm_middle

/-- The loop of `addPoints` without downsampling, started on a non-null root that satisfies
the invariants: it never meets a null root, returns counter `0` more, and inserts every
point. -/
theorem addPointsLoop_spec (env : Env K) (hnth : NthPermutes env) :
    ∀ (pts : List (PointType K)) (t : KD_TREE_NODE K) (c : Int),
    t.isNull = false → CountInv t → RangeInv t →
    ∃ t1, addPointsLoop env false pts t c = some (t1, c) ∧ t1.isNull = false ∧
      CountInv t1 ∧ RangeInv t1 ∧ (livePoints t1).Perm (pts ++ livePoints t)
  | [], t, c, hn, hc, hr => ⟨t, rfl, hn, hc, hr, List.Perm.refl _⟩
  | p :: ps, t, c, hn, hc, hr => by
    cases t with
    | nil => simp [isNull] at hn
    | node d l r =>
      obtain ⟨a1, a2, a3, _⟩ := addByPoint_spec env hnth p true (node d l r).height (node d l r)
        d.division_axis le_rfl hc hr
      have hne : (addByPoint env (node d l r).height (node d l r) p true d.division_axis).isNull
          = false := by
        apply isNull_false_of_livePoints_ne_nil
        intro he
        rw [he] at a3
        exact absurd a3.symm.eq_nil (List.cons_ne_nil _ _)
      obtain ⟨t1, e1, e2, e3, e4, e5⟩ := addPointsLoop_spec env hnth ps _ (c + 0) hne a1 a2
      refine ⟨t1, ?_, e2, e3, e4, ?_⟩
      · simp only [addPointsLoop, addPointsStep, Bool.false_eq_true, if_false]
        rw [e1, add_zero]
      · refine e5.trans ?_
        refine (List.Perm.append_left _ a3).trans ?_
        exact List.perm_middle


/-! ## The heap -/

theorem keyLe_total (a b : PointType_CMP K) : keyLe a b ∨ keyLe b a := by
  unfold keyLe
  rcases lt_trichotomy a.dist b.dist with h | h | h
  · exact Or.inl (Or.inl h)
  · rcases le_total a.point.x b.point.x with hx | hx
    · exact Or.inl (Or.inr ⟨h, hx⟩)
    · exact Or.inr (Or.inr ⟨h.symm, hx⟩)
  · exact Or.inr (Or.inl h)

theorem keyLe_refl (a : PointType_CMP K) : keyLe a a := Or.inr ⟨rfl, le_refl _⟩

theorem keyLe_trans {a b c : PointType_CMP K} (h1 : keyLe a b) (h2 : keyLe b c) :
    keyLe a c := by
  unfold keyLe at *
  rcases h1 with h1 | ⟨h1, x1⟩ <;> rcases h2 with h2 | ⟨h2, x2⟩
  · exact Or.inl (lt_trans h1 h2)
  · exact Or.inl (h2 ▸ h1)
  · exact Or.inl (h1 ▸ h2)
  · exact Or.inr ⟨h1.trans h2, le_trans x1 x2⟩

theorem keyLe_dist {a b : PointType_CMP K} (h : keyLe a b) : a.dist ≤ b.dist := by
  rcases h with h | ⟨h, _⟩
  · exact le_of_lt h
  · exact le_of_eq h

theorem keyLe_of_lt {P : PointType_CMP K → Prop} (hlex : LexOn P) {a b : PointType_CMP K}
    (ha : P a) (hb : P b) (h : a.lt b = true) : keyLe a b :=
  (keyLe_total a b).resolve_right ((hlex a b ha hb).1 h)

theorem keyLe_of_not_lt {P : PointType_CMP K → Prop} (hlex : LexOn P)
    {a b : PointType_CMP K} (ha : P a) (hb : P b) (h : ¬ a.lt b = true) : keyLe b a :=
  not_not.1 (fun hn => h ((hlex a b ha hb).2 hn))

/-- The tolerance never applies between entries whose distances are separated. -/
theorem lexOn_entryOf (q : PointType K) (L : List (PointType K)) (hs : Separated q L) :
    LexOn (EntryOf q L) := by
  intro a b ha hb
  have hsep := hs a.point ha.2 b.point hb.2
  rw [← ha.1, ← hb.1] at hsep
  unfold PointType_CMP.lt keyLe
  rcases hsep with he | hge
  · have h0 : |a.dist - b.dist| < 1 / 10000000000 := by
      rw [he, sub_self, abs_zero]; norm_num
    rw [if_pos h0, decide_eq_true_iff]
    constructor
    · intro hx hk
      rcases hk with hk | ⟨_, hk⟩
      · exact absurd he.symm (ne_of_lt hk)
      · exact absurd hx (not_lt.2 hk)
    · intro hk
      by_contra hx
      exact hk (Or.inr ⟨he.symm, not_lt.1 hx⟩)
  · rw [if_neg (not_lt.2 hge), decide_eq_true_iff]
    have hne : a.dist ≠ b.dist := by
      intro he
      rw [he, sub_self, abs_zero] at hge
      norm_num at hge
    constructor
    · intro hx hk
      rcases hk with hk | ⟨hk, _⟩
      · exact absurd hx (not_lt.2 (le_of_lt hk))
      · exact hne hk.symm
    · intro hk
      by_contra hx
      rcases lt_or_eq_of_le (not_lt.1 hx) with h | h
      · exact hk (Or.inl h)
      · exact hne h.symm

theorem perm_cons_set {α : Type} (a b : α) :
    ∀ (l : List α) (j : Nat), l[j]? = some b → (b :: l.set j a).Perm (a :: l)
  | [], _, h => by simp at h
  | x :: xs, 0, h => by
    simp at h
    subst h
    exact List.Perm.swap _ _ _
  | x :: xs, j + 1, h => by
    simp at h
    have ih := perm_cons_set a b xs j h
    simp only [List.set_cons_succ]
    exact ((List.Perm.swap _ _ _).trans (ih.cons x)).trans (List.Perm.swap _ _ _)

theorem perm_swap {α : Type} (a b : α) :
    ∀ (l : List α) (i j : Nat), i ≠ j → l[i]? = some a → l[j]? = some b →
      ((l.set i b).set j a).Perm l
  | [], _, _, _, h, _ => by simp at h
  | x :: xs, 0, 0, hne, _, _ => absurd rfl hne
  | x :: xs, 0, j + 1, _, hi, hj => by
    simp at hi hj
    subst hi
    simpa using perm_cons_set x b xs j hj
  | x :: xs, i + 1, 0, _, hi, hj => by
    simp at hi hj
    subst hj
    simpa using perm_cons_set x a xs i hi
  | x :: xs, i + 1, j + 1, hne, hi, hj => by
    simp at hi hj
    simpa using perm_swap a b xs i j (fun h => hne (by rw [h])) hi hj

/-- The order `sepLe` agrees with `lt` on the entries made from `L`. -/
theorem ordered_sepLe (q : PointType K) (L : List (PointType K)) :
    Ordered (sepLe q L) (EntryOf q L) where
  refl := fun a _ => keyLe_refl a
  trans := fun _ _ _ h1 h2 hs => keyLe_trans (h1 hs) (h2 hs)
  of_lt := fun _ _ ha hb h hs => keyLe_of_lt (lexOn_entryOf q L hs) ha hb h
  of_not_lt := fun _ _ ha hb h hs => keyLe_of_not_lt (lexOn_entryOf q L hs) ha hb h

theorem getElem?_set_hole (h : List (PointType_CMP K)) (i : Nat) (tmp : PointType_CMP K)
    (hi : i < h.length) (j : Nat) :
    (h.set i tmp)[j]? = if j = i then some tmp else h[j]? := by
  rw [List.getElem?_set]
  by_cases hj : j = i
  · rw [if_pos hj.symm, if_pos hi, if_pos hj]
  · rw [if_neg (fun e => hj e.symm), if_neg hj]

theorem getElem?_set_swap (h : List (PointType_CMP K)) (i k : Nat) (tmp x : PointType_CMP K)
    (hi : i < h.length) (hk : k < h.length) (j : Nat) :
    ((h.set i x).set k tmp)[j]? =
      if j = k then some tmp else if j = i then some x else h[j]? := by
  rw [getElem?_set_hole _ k tmp (by simpa using hk), getElem?_set_hole _ i x hi]

/-- The loop of `floatUp` with the entry `tmp` travelling from slot `i`: if the slots are in
heap order except at `i`, the final vector with `tmp` stored is in heap order and holds the
same entries. -/
theorem floatUpLoop_spec {le : PointType_CMP K → PointType_CMP K → Prop}
    {P : PointType_CMP K → Prop} (hlex : Ordered le P)
    (tmp : PointType_CMP K) :
    ∀ (fuel : Nat) (h : List (PointType_CMP K)) (i : Nat), i < h.length → i ≤ fuel →
      (∀ e ∈ h.set i tmp, P e) →
      (∀ j a b, 0 < j → j ≠ i → (h.set i tmp)[j]? = some a →
        (h.set i tmp)[(j - 1) / 2]? = some b → le a b) →
      (∀ j a b, 0 < i → 0 < j → (j - 1) / 2 = i → (h.set i tmp)[j]? = some a →
        (h.set i tmp)[(i - 1) / 2]? = some b → le a b) →
      HeapOK le ((MANUAL_HEAP.floatUpLoop fuel h i tmp).1.set
          (MANUAL_HEAP.floatUpLoop fuel h i tmp).2 tmp) ∧
        ((MANUAL_HEAP.floatUpLoop fuel h i tmp).1.set
          (MANUAL_HEAP.floatUpLoop fuel h i tmp).2 tmp).Perm (h.set i tmp) := by
  intro fuel
  induction fuel with
  | zero =>
    intro h i _ hf _ U1 _
    have h0 : i = 0 := by omega
    subst h0
    refine ⟨?_, List.Perm.refl _⟩
    intro j a b hj ha hb
    exact U1 j a b hj (by omega) ha hb
  | succ n ih =>
    intro h i hi hf hP U1 U2
    have hPt : P tmp := hP tmp (List.getElem?_mem
      (by rw [getElem?_set_hole h i tmp hi, if_pos rfl] : (h.set i tmp)[i]? = some tmp))
    by_cases h0 : 0 < i
    · have hanc : (i - 1) / 2 < h.length := by omega
      have hai : (i - 1) / 2 ≠ i := by omega
      obtain ⟨x, hxe⟩ : ∃ x, h[(i - 1) / 2]? = some x :=
        ⟨h[(i - 1) / 2], List.getElem?_eq_getElem hanc⟩
      have hgx : (h.set i tmp)[(i - 1) / 2]? = some x := by
        rw [getElem?_set_hole h i tmp hi, if_neg hai, hxe]
      have hPx : P x := hP x (List.getElem?_mem hgx)
      have hgd : h.getD ((i - 1) / 2) tmp = x := by
        rw [List.getD_eq_getElem?_getD, hxe]; rfl
      by_cases hlt : x.lt tmp = true
      · have hstep : MANUAL_HEAP.floatUpLoop (n + 1) h i tmp =
            MANUAL_HEAP.floatUpLoop n (h.set i x) ((i - 1) / 2) tmp := by
          simp only [MANUAL_HEAP.floatUpLoop, if_pos h0, hgd, if_pos hlt]
        rw [hstep]
        have hxt : le x tmp := hlex.of_lt _ _ hPx hPt hlt
        have hperm : ((h.set i x).set ((i - 1) / 2) tmp).Perm (h.set i tmp) := by
          have := perm_swap tmp x (h.set i tmp) i ((i - 1) / 2) (fun e => hai e.symm)
            (by rw [getElem?_set_hole h i tmp hi, if_pos rfl]) hgx
          rwa [List.set_set] at this
        have hg' := getElem?_set_swap h i ((i - 1) / 2) tmp x hi hanc
        have hg := getElem?_set_hole h i tmp hi
        have key := ih (h.set i x) ((i - 1) / 2) (by simpa using hanc) (by omega)
          (fun e he => hP e (hperm.subset he)) ?_ ?_
        · exact ⟨key.1, key.2.trans hperm⟩
        · intro j a b hj hne ha hb
          rw [hg' j, if_neg hne] at ha
          rw [hg' ((j - 1) / 2)] at hb
          by_cases hji : j = i
          · rw [if_pos hji] at ha
            rw [if_pos (by rw [hji])] at hb
            cases ha; cases hb
            exact hxt
          · rw [if_neg hji] at ha
            have hga : (h.set i tmp)[j]? = some a := by rw [hg j, if_neg hji, ha]
            by_cases hpa : (j - 1) / 2 = (i - 1) / 2
            · rw [if_pos hpa] at hb
              cases hb
              exact hlex.trans _ _ _ (U1 j a x hj hji hga (hpa ▸ hgx)) hxt
            · rw [if_neg hpa] at hb
              by_cases hpi : (j - 1) / 2 = i
              · rw [if_pos hpi] at hb
                cases hb
                exact U2 j a x h0 hj hpi hga hgx
              · rw [if_neg hpi] at hb
                exact U1 j a b hj hji hga (by rw [hg, if_neg hpi, hb])
        · intro j a b ha0 hj hpj ha hb
          have hpp : ((i - 1) / 2 - 1) / 2 ≠ (i - 1) / 2 := by omega
          have hpi : ((i - 1) / 2 - 1) / 2 ≠ i := by omega
          rw [hg' _, if_neg hpp, if_neg hpi] at hb
          have hgb : (h.set i tmp)[((i - 1) / 2 - 1) / 2]? = some b := by
            rw [hg, if_neg hpi, hb]
          have hxb : le x b := U1 ((i - 1) / 2) x b ha0 hai hgx hgb
          rw [hg' j, if_neg (by omega)] at ha
          by_cases hji : j = i
          · rw [if_pos hji] at ha
            cases ha
            exact hxb
          · rw [if_neg hji] at ha
            have hga : (h.set i tmp)[j]? = some a := by rw [hg j, if_neg hji, ha]
            exact hlex.trans _ _ _ (U1 j a x hj hji hga (hpj ▸ hgx)) hxb
      · have hstep : MANUAL_HEAP.floatUpLoop (n + 1) h i tmp = (h, i) := by
          simp only [MANUAL_HEAP.floatUpLoop, if_pos h0, hgd, if_neg hlt]
        rw [hstep]
        refine ⟨?_, List.Perm.refl _⟩
        intro j a b hj ha hb
        by_cases hji : j = i
        · subst hji
          rw [getElem?_set_hole h j tmp hi, if_pos rfl] at ha
          rw [hgx] at hb
          cases ha; cases hb
          exact hlex.of_not_lt _ _ hPx hPt hlt
        · exact U1 j a b hj hji ha hb
    · have hstep : MANUAL_HEAP.floatUpLoop (n + 1) h i tmp = (h, i) := by
        simp only [MANUAL_HEAP.floatUpLoop, if_neg h0]
      rw [hstep]
      refine ⟨?_, List.Perm.refl _⟩
      intro j a b hj ha hb
      exact U1 j a b hj (by omega) ha hb

/-- `push` on a heap with room keeps heap order and adds the entry. -/
theorem push_spec {le : PointType_CMP K → PointType_CMP K → Prop}
    {P : PointType_CMP K → Prop} (hlex : Ordered le P) (q : MANUAL_HEAP K)
    (x : PointType_CMP K) (hq : HeapOK le q.m_heap) (hP : ∀ e ∈ q.m_heap, P e) (hx : P x)
    (hcap : q.size < q.m_cap) :
    HeapOK le (q.push x).m_heap ∧ (q.push x).m_heap.Perm (x :: q.m_heap) ∧
      (q.push x).m_cap = q.m_cap := by
  have hlen : q.size < (q.m_heap ++ [x]).length := by
    simp [MANUAL_HEAP.size]
  have hget : (q.m_heap ++ [x])[q.size]? = some x := by
    simp [MANUAL_HEAP.size]
  have hset : (q.m_heap ++ [x]).set q.size x = q.m_heap ++ [x] := by
    apply List.ext_getElem?
    intro j
    rw [getElem?_set_hole _ _ _ hlen]
    by_cases hj : j = q.size
    · rw [if_pos hj, hj, hget]
    · rw [if_neg hj]
  have hpush : (q.push x).m_heap =
      (MANUAL_HEAP.floatUpLoop q.size (q.m_heap ++ [x]) q.size x).1.set
        (MANUAL_HEAP.floatUpLoop q.size (q.m_heap ++ [x]) q.size x).2 x := by
    have hg : (q.m_heap ++ [x]).get? q.size = some x := by
      rw [List.get?_eq_getElem?]; exact hget
    simp only [MANUAL_HEAP.push, if_neg (not_le.2 hcap), MANUAL_HEAP.floatUp, hg]
  have hcap2 : (q.push x).m_cap = q.m_cap := by
    simp only [MANUAL_HEAP.push, if_neg (not_le.2 hcap)]
  have key := floatUpLoop_spec hlex x q.size (q.m_heap ++ [x]) q.size hlen (le_refl _)
    (by
      rw [hset]
      intro e he
      rcases List.mem_append.1 he with h | h
      · exact hP e h
      · rw [List.mem_singleton.1 h]; exact hx)
    (by
      rw [hset]
      intro j a b hj hne ha hb
      have hl := (List.getElem?_eq_some_iff.1 ha).1
      rw [List.length_append, List.length_singleton] at hl
      have hne2 : j ≠ q.m_heap.length := hne
      have hjl : j < q.m_heap.length := by omega
      rw [List.getElem?_append_left hjl] at ha
      rw [List.getElem?_append_left (by omega)] at hb
      exact hq j a b hj ha hb)
    (by
      rw [hset]
      intro j a b _ hj hpj ha _
      have hl := (List.getElem?_eq_some_iff.1 ha).1
      rw [List.length_append, List.length_singleton] at hl
      have hpj2 : (j - 1) / 2 = q.m_heap.length := hpj
      omega)
  rw [hset] at key
  rw [hpush]
  exact ⟨key.1, key.2.trans (List.perm_append_singleton x q.m_heap), hcap2⟩

/-- In a heap-ordered vector the first slot is above every entry. -/
theorem heapOK_top {le : PointType_CMP K → PointType_CMP K → Prop}
    {P : PointType_CMP K → Prop} (hlex : Ordered le P) (g : List (PointType_CMP K))
    (hg : HeapOK le g) (t : PointType_CMP K)
    (ht : g.head? = some t) : ∀ e ∈ g, le e t := by
  have h0 : g[0]? = some t := by rw [← List.head?_eq_getElem?]; exact ht
  have main : ∀ (n j : Nat), j ≤ n → ∀ e, g[j]? = some e → le e t := by
    intro n
    induction n with
    | zero =>
      intro j hj e he
      have : j = 0 := by omega
      subst this
      rw [h0] at he
      cases he
      exact hlex.refl _
    | succ n ih =>
      intro j hj e he
      by_cases hj0 : j = 0
      · subst hj0
        rw [h0] at he
        cases he
        exact hlex.refl _
      · have hjl := (List.getElem?_eq_some_iff.1 he).1
        have hpl : (j - 1) / 2 < g.length := by omega
        have hb : g[(j - 1) / 2]? = some g[(j - 1) / 2] := List.getElem?_eq_getElem hpl
        exact hlex.trans _ _ _ (hg j e _ (by omega) he hb) (ih _ (by omega) _ hb)
  intro e he
  obtain ⟨j, hj⟩ := List.mem_iff_getElem?.1 he
  exact main j j (le_refl _) e hj

/-- The larger son chosen by the loop of `moveDown` at slot `i`: it is a son of `i` and no
son of `i` is above it. -/
theorem moveDown_choice {le : PointType_CMP K → PointType_CMP K → Prop}
    {P : PointType_CMP K → Prop} (hlex : Ordered le P)
    (tmp : PointType_CMP K) (h : List (PointType_CMP K)) (i : Nat)
    (hP : ∀ e ∈ h.set i tmp, P e) (hi : i < h.length) (hl : i * 2 + 1 < h.length) :
    ∃ l1 x, l1 < h.length ∧ (l1 - 1) / 2 = i ∧ i < l1 ∧ h[l1]? = some x ∧
      (if i * 2 + 1 + 1 < h.length &&
          (h.getD (i * 2 + 1) tmp).lt (h.getD (i * 2 + 1 + 1) tmp) then i * 2 + 1 + 1
        else i * 2 + 1) = l1 ∧ h.getD l1 tmp = x ∧
      ∀ j a, 0 < j → (j - 1) / 2 = i → (h.set i tmp)[j]? = some a → le a x := by
  have hg := getElem?_set_hole h i tmp hi
  have hgl : h[i * 2 + 1]? = some h[i * 2 + 1] := List.getElem?_eq_getElem hl
  have hdl : h.getD (i * 2 + 1) tmp = h[i * 2 + 1] := by
    rw [List.getD_eq_getElem?_getD, hgl]; rfl
  have hPl : P h[i * 2 + 1] := hP _ (List.getElem?_mem
    (by rw [hg, if_neg (by omega), hgl] : (h.set i tmp)[i * 2 + 1]? = some _))
  by_cases hr : i * 2 + 1 + 1 < h.length
  · have hgr : h[i * 2 + 1 + 1]? = some h[i * 2 + 1 + 1] := List.getElem?_eq_getElem hr
    have hdr : h.getD (i * 2 + 1 + 1) tmp = h[i * 2 + 1 + 1] := by
      rw [List.getD_eq_getElem?_getD, hgr]; rfl
    have hPr : P h[i * 2 + 1 + 1] := hP _ (List.getElem?_mem
      (by rw [hg, if_neg (by omega), hgr] : (h.set i tmp)[i * 2 + 1 + 1]? = some _))
    by_cases hc : (h[i * 2 + 1]).lt (h[i * 2 + 1 + 1]) = true
    · refine ⟨i * 2 + 1 + 1, h[i * 2 + 1 + 1], hr, by omega, by omega, hgr, ?_, hdr, ?_⟩
      · rw [hdl, hdr, hc, decide_eq_true hr]; rfl
      · intro j a hj hpj ha
        rw [hg, if_neg (by omega)] at ha
        have hj2 : j = i * 2 + 1 ∨ j = i * 2 + 1 + 1 := by omega
        rcases hj2 with e | e
        · rw [e, hgl] at ha
          cases ha
          exact hlex.of_lt _ _ hPl hPr hc
        · rw [e, hgr] at ha
          cases ha
          exact hlex.refl _
    · refine ⟨i * 2 + 1, h[i * 2 + 1], hl, by omega, by omega, hgl, ?_, hdl, ?_⟩
      · rw [hdl, hdr, Bool.eq_false_iff.2 hc, Bool.and_false]; rfl
      · intro j a hj hpj ha
        rw [hg, if_neg (by omega)] at ha
        have hj2 : j = i * 2 + 1 ∨ j = i * 2 + 1 + 1 := by omega
        rcases hj2 with e | e
        · rw [e, hgl] at ha
          cases ha
          exact hlex.refl _
        · rw [e, hgr] at ha
          cases ha
          exact hlex.of_not_lt _ _ hPl hPr hc
  · refine ⟨i * 2 + 1, h[i * 2 + 1], hl, by omega, by omega, hgl, ?_, hdl, ?_⟩
    · rw [decide_eq_false hr, Bool.false_and]; rfl
    · intro j a hj hpj ha
      rw [hg, if_neg (by omega)] at ha
      have hjl := (List.getElem?_eq_some_iff.1 ha).1
      have e : j = i * 2 + 1 := by omega
      rw [e, hgl] at ha
      cases ha
      exact hlex.refl _

/-- The loop of `moveDown` with the entry `tmp` travelling from slot `i`: if the slots are
in heap order except below `i`, the final vector with `tmp` stored is in heap order and
holds the same entries. -/
theorem moveDownLoop_spec {le : PointType_CMP K → PointType_CMP K → Prop}
    {P : PointType_CMP K → Prop} (hlex : Ordered le P)
    (tmp : PointType_CMP K) :
    ∀ (fuel : Nat) (h : List (PointType_CMP K)) (i : Nat), i < h.length →
      h.length ≤ fuel + i →
      (∀ e ∈ h.set i tmp, P e) →
      (∀ j a b, 0 < j → (j - 1) / 2 ≠ i → (h.set i tmp)[j]? = some a →
        (h.set i tmp)[(j - 1) / 2]? = some b → le a b) →
      (∀ j a b, 0 < i → 0 < j → (j - 1) / 2 = i → (h.set i tmp)[j]? = some a →
        (h.set i tmp)[(i - 1) / 2]? = some b → le a b) →
      HeapOK le ((MANUAL_HEAP.moveDownLoop fuel h i (i * 2 + 1) tmp).1.set
          (MANUAL_HEAP.moveDownLoop fuel h i (i * 2 + 1) tmp).2 tmp) ∧
        ((MANUAL_HEAP.moveDownLoop fuel h i (i * 2 + 1) tmp).1.set
          (MANUAL_HEAP.moveDownLoop fuel h i (i * 2 + 1) tmp).2 tmp).Perm (h.set i tmp) := by
  intro fuel
  induction fuel with
  | zero =>
    intro h i hi hf _ _ _
    omega
  | succ n ih =>
    intro h i hi hf hP D1 D2
    have hg := getElem?_set_hole h i tmp hi
    have hgi : (h.set i tmp)[i]? = some tmp := by rw [hg, if_pos rfl]
    have hPt : P tmp := hP tmp (List.getElem?_mem hgi)
    by_cases hl : i * 2 + 1 < h.length
    · obtain ⟨l1, x, hl1, hp1, hil, hx, hsel, hgd, hmax⟩ :=
        moveDown_choice hlex tmp h i hP hi hl
      have hgx : (h.set i tmp)[l1]? = some x := by rw [hg, if_neg (by omega), hx]
      have hPx : P x := hP x (List.getElem?_mem hgx)
      by_cases hlt : tmp.lt x = true
      · have hstep : MANUAL_HEAP.moveDownLoop (n + 1) h i (i * 2 + 1) tmp =
            MANUAL_HEAP.moveDownLoop n (h.set i x) l1 (l1 * 2 + 1) tmp := by
          simp only [MANUAL_HEAP.moveDownLoop, if_pos hl, hsel, hgd, if_pos hlt]
        rw [hstep]
        have htx : le tmp x := hlex.of_lt _ _ hPt hPx hlt
        have hperm : ((h.set i x).set l1 tmp).Perm (h.set i tmp) := by
          have := perm_swap tmp x (h.set i tmp) i l1 (by omega) hgi hgx
          rwa [List.set_set] at this
        have hg' := getElem?_set_swap h i l1 tmp x hi hl1
        have key := ih (h.set i x) l1 (by simpa using hl1) (by simp; omega)
          (fun e he => hP e (hperm.subset he)) ?_ ?_
        · exact ⟨key.1, key.2.trans hperm⟩
        · intro j a b hj hne ha hb
          rw [hg' j] at ha
          rw [hg' ((j - 1) / 2), if_neg hne] at hb
          by_cases hjl : j = l1
          · rw [if_pos hjl] at ha
            rw [if_pos (by rw [hjl, hp1])] at hb
            cases ha; cases hb
            exact htx
          · rw [if_neg hjl] at ha
            by_cases hji : j = i
            · rw [if_pos hji] at ha
              cases ha
              have hpi : (j - 1) / 2 ≠ i := by omega
              rw [if_neg hpi] at hb
              have hgb : (h.set i tmp)[(i - 1) / 2]? = some b := by
                rw [hg, if_neg (by omega), ← hji, hb]
              exact D2 l1 _ b (by omega) (by omega) hp1 hgx hgb
            · rw [if_neg hji] at ha
              have hga : (h.set i tmp)[j]? = some a := by rw [hg j, if_neg hji, ha]
              by_cases hpi : (j - 1) / 2 = i
              · rw [if_pos hpi] at hb
                cases hb
                exact hmax j a hj hpi hga
              · rw [if_neg hpi] at hb
                exact D1 j a b hj hpi hga (by rw [hg, if_neg hpi, hb])
        · intro j a b _ hj hpj ha hb
          rw [hg' j, if_neg (by omega), if_neg (by omega)] at ha
          rw [hg' _, if_neg (by omega), if_pos hp1] at hb
          cases hb
          have hga : (h.set i tmp)[j]? = some a := by rw [hg j, if_neg (by omega), ha]
          exact D1 j a _ hj (by omega) hga (by rw [hpj]; exact hgx)
      · have hstep : MANUAL_HEAP.moveDownLoop (n + 1) h i (i * 2 + 1) tmp = (h, i) := by
          simp only [MANUAL_HEAP.moveDownLoop, if_pos hl, hsel, hgd, if_neg hlt]
        rw [hstep]
        refine ⟨?_, List.Perm.refl _⟩
        intro j a b hj ha hb
        by_cases hpi : (j - 1) / 2 = i
        · rw [hpi, hgi] at hb
          cases hb
          exact hlex.trans _ _ _ (hmax j a hj hpi ha) (hlex.of_not_lt _ _ hPt hPx hlt)
        · exact D1 j a b hj hpi ha hb
    · have hstep : MANUAL_HEAP.moveDownLoop (n + 1) h i (i * 2 + 1) tmp = (h, i) := by
        simp only [MANUAL_HEAP.moveDownLoop, if_neg hl]
      rw [hstep]
      refine ⟨?_, List.Perm.refl _⟩
      intro j a b hj ha hb
      by_cases hpi : (j - 1) / 2 = i
      · have hjl : j < h.length := by
          have := (List.getElem?_eq_some_iff.1 ha).1
          simpa using this
        omega
      · exact D1 j a b hj hpi ha hb

theorem perm_pop_slots {α : Type} (t last : α) (rest : List α)
    (hlast : (t :: rest).getLast? = some last) :
    (t :: (((t :: rest).set 0 last).dropLast)).Perm (t :: rest) := by
  cases rest with
  | nil => simp
  | cons y ys =>
    have h1 : (y :: ys).getLast? = some last := by
      rw [List.getLast?_cons_cons] at hlast; exact hlast
    obtain ⟨zs, hz⟩ := List.getLast?_eq_some_iff.1 h1
    rw [hz]
    have hne : zs ++ [last] ≠ [] := by simp
    rw [List.set_cons_zero, List.dropLast_cons_of_ne_nil hne, List.dropLast_concat]
    exact (List.perm_append_singleton last zs).symm.cons t

/-- `pop` on a non-empty heap keeps heap order and removes the first slot. -/
theorem pop_spec {le : PointType_CMP K → PointType_CMP K → Prop}
    {P : PointType_CMP K → Prop} (hlex : Ordered le P) (q : MANUAL_HEAP K)
    (t : PointType_CMP K) (rest : List (PointType_CMP K)) (hm : q.m_heap = t :: rest)
    (hq : HeapOK le q.m_heap) (hP : ∀ e ∈ q.m_heap, P e) :
    HeapOK le q.pop.m_heap ∧ (t :: q.pop.m_heap).Perm q.m_heap ∧ q.pop.m_cap = q.m_cap := by
  obtain ⟨last, hlast⟩ : ∃ last, q.m_heap.getLast? = some last := by
    rw [hm]
    exact ⟨(t :: rest).getLast (by simp), List.getLast?_eq_getLast _ _⟩
  have hperm0 : (t :: ((q.m_heap.set 0 last).dropLast)).Perm q.m_heap := by
    rw [hm] at hlast ⊢
    exact perm_pop_slots t last rest hlast
  have hget : ∀ j, ((q.m_heap.set 0 last).dropLast)[j]? =
      if j < q.m_heap.length - 1 then (if j = 0 then some last else q.m_heap[j]?)
      else none := by
    intro j
    rw [List.getElem?_dropLast, List.length_set]
    by_cases hj : j < q.m_heap.length - 1
    · rw [if_pos hj, if_pos hj, getElem?_set_hole _ 0 last (by omega)]
    · rw [if_neg hj, if_neg hj]
  have hpop : q.pop.m_heap = MANUAL_HEAP.moveDown ((q.m_heap.set 0 last).dropLast) 0 := by
    simp only [MANUAL_HEAP.pop, hlast]
  have hcap : q.pop.m_cap = q.m_cap := by
    simp only [MANUAL_HEAP.pop, hlast]
  rw [hpop]
  by_cases h1 : 0 < q.m_heap.length - 1
  · have h0 : ((q.m_heap.set 0 last).dropLast)[0]? = some last := by
      rw [hget, if_pos h1, if_pos rfl]
    have hlen : 0 < ((q.m_heap.set 0 last).dropLast).length :=
      (List.getElem?_eq_some_iff.1 h0).1
    have hset : ((q.m_heap.set 0 last).dropLast).set 0 last =
        (q.m_heap.set 0 last).dropLast := by
      apply List.ext_getElem?
      intro j
      rw [getElem?_set_hole _ _ _ hlen]
      by_cases hj : j = 0
      · rw [if_pos hj, hj, h0]
      · rw [if_neg hj]
    have hmd : MANUAL_HEAP.moveDown ((q.m_heap.set 0 last).dropLast) 0 =
        (MANUAL_HEAP.moveDownLoop ((q.m_heap.set 0 last).dropLast).length
          ((q.m_heap.set 0 last).dropLast) 0 (0 * 2 + 1) last).1.set
        (MANUAL_HEAP.moveDownLoop ((q.m_heap.set 0 last).dropLast).length
          ((q.m_heap.set 0 last).dropLast) 0 (0 * 2 + 1) last).2 last := by
      have hg : ((q.m_heap.set 0 last).dropLast).get? 0 = some last := by
        rw [List.get?_eq_getElem?]; exact h0
      simp only [MANUAL_HEAP.moveDown, hg]
    have key := moveDownLoop_spec hlex last ((q.m_heap.set 0 last).dropLast).length
      ((q.m_heap.set 0 last).dropLast) 0 hlen (by omega)
      (by
        rw [hset]
        intro e he
        exact hP e (hperm0.subset (List.mem_cons_of_mem _ he)))
      (by
        rw [hset]
        intro j a b hj hne ha hb
        rw [hget] at ha hb
        have hjl : j < q.m_heap.length - 1 := by
          by_contra hc
          rw [if_neg hc] at ha
          cases ha
        rw [if_pos hjl, if_neg (by omega)] at ha
        rw [if_pos (by omega), if_neg hne] at hb
        exact hq j a b hj ha hb)
      (by
        intro j a b hi
        omega)
    rw [hset] at key
    rw [hmd]
    exact ⟨key.1, (key.2.cons t).trans hperm0, hcap⟩
  · have hnil : (q.m_heap.set 0 last).dropLast = [] := by
      apply List.eq_nil_of_length_eq_zero
      rw [List.length_dropLast, List.length_set]
      omega
    rw [hnil] at hperm0 ⊢
    refine ⟨?_, hperm0, hcap⟩
    intro j a b _ ha
    simp [MANUAL_HEAP.moveDown] at ha

/-! ## The k-nearest-neighbour search -/

/-- Draining a heap-ordered heap lists its entries in increasing key order in front of the
output. -/
theorem drainHeap_spec {le : PointType_CMP K → PointType_CMP K → Prop}
    {P : PointType_CMP K → Prop} (hlex : Ordered le P) :
    ∀ (n : Nat) (q : MANUAL_HEAP K) (out : List (PointType K) × List K), q.size = n →
      HeapOK le q.m_heap → (∀ e ∈ q.m_heap, P e) →
      ∃ es : List (PointType_CMP K), es.Perm q.m_heap ∧ es.Pairwise le ∧
        drainHeap n q out =
          (es.map (fun e => e.point) ++ out.1, es.map (fun e => e.dist) ++ out.2) := by
  intro n
  induction n with
  | zero =>
    intro q out hn _ _
    have hnil : q.m_heap = [] := List.eq_nil_of_length_eq_zero hn
    exact ⟨[], by rw [hnil], List.Pairwise.nil, rfl⟩
  | succ n ih =>
    intro q out hn hq hP
    obtain ⟨t, rest, hm⟩ : ∃ t rest, q.m_heap = t :: rest := by
      cases hq' : q.m_heap with
      | nil => rw [MANUAL_HEAP.size, hq'] at hn; cases hn
      | cons t rest => exact ⟨t, rest, rfl⟩
    obtain ⟨h1, h2, _⟩ := pop_spec hlex q t rest hm hq hP
    have htop : q.top = some t := by rw [MANUAL_HEAP.top, hm]; rfl
    have hsz : q.pop.size = n := by
      have := h2.length_eq
      rw [List.length_cons] at this
      have hn' : q.m_heap.length = n + 1 := hn
      rw [MANUAL_HEAP.size]
      omega
    obtain ⟨es, e1, e2, e3⟩ := ih q.pop (t.point :: out.1, t.dist :: out.2) hsz h1
      (fun e he => hP e (h2.subset (List.mem_cons_of_mem _ he)))
    refine ⟨es ++ [t], ?_, ?_, ?_⟩
    · exact (List.perm_append_singleton t es).trans ((e1.cons t).trans h2)
    · rw [List.pairwise_append]
      refine ⟨e2, List.pairwise_singleton _ _, ?_⟩
      intro a ha b hb
      rw [List.mem_singleton.1 hb]
      exact heapOK_top hlex q.m_heap hq t (by rw [hm]; rfl) a
        (h2.subset (List.mem_cons_of_mem _ (e1.subset ha)))
    · simp only [drainHeap, htop, e3, List.map_append, List.map_cons, List.map_nil,
        List.append_assoc, List.singleton_append]

/-- A new entry pushed while the heap has fewer than `k` entries. -/
theorem visit_push {q : PointType K} {L : List (PointType K)} {k : Nat}
    {le : PointType_CMP K → PointType_CMP K → Prop}
    (hlex : Ordered le (EntryOf q L)) (heap : MANUAL_HEAP K) (e : PointType_CMP K)
    (hk : KnnOK le q L k heap) (he : EntryOf q L e) (hlt : heap.size < k) :
    KnnOK le q L k (heap.push e) ∧ (heap.push e).m_heap.Perm (e :: heap.m_heap) := by
  obtain ⟨h1, h2, _, h4⟩ := hk
  obtain ⟨p1, p2, p3⟩ := push_spec hlex heap e h1 h2 he (by omega)
  refine ⟨⟨p1, ?_, ?_, p3.trans h4⟩, p2⟩
  · intro x hx
    rcases List.mem_cons.1 (p2.subset hx) with h | h
    · rw [h]; exact he
    · exact h2 x h
  · have := p2.length_eq
    rw [List.length_cons] at this
    have hs : heap.m_heap.length < k := hlt
    rw [MANUAL_HEAP.size]
    omega

/-- A new entry replacing the top of a full heap. -/
theorem visit_replace {q : PointType K} {L : List (PointType K)} {k : Nat}
    {le : PointType_CMP K → PointType_CMP K → Prop}
    (hlex : Ordered le (EntryOf q L)) (heap : MANUAL_HEAP K) (e t : PointType_CMP K)
    (rest : List (PointType_CMP K)) (hm : heap.m_heap = t :: rest)
    (hk : KnnOK le q L k heap) (he : EntryOf q L e) :
    KnnOK le q L k (heap.pop.push e) ∧
      (t :: (heap.pop.push e).m_heap).Perm (e :: heap.m_heap) ∧
      (heap.pop.push e).size = heap.size := by
  obtain ⟨h1, h2, h3, h4⟩ := hk
  obtain ⟨o1, o2, o3⟩ := pop_spec hlex heap t rest hm h1 h2
  have hP : ∀ x ∈ heap.pop.m_heap, EntryOf q L x :=
    fun x hx => h2 x (o2.subset (List.mem_cons_of_mem _ hx))
  have hl := o2.length_eq
  rw [List.length_cons] at hl
  have hs : heap.m_heap.length ≤ k := h3
  have hsz : heap.pop.size + 1 = heap.size := hl
  obtain ⟨p1, p2, p3⟩ := push_spec hlex heap.pop e o1 hP he (by rw [o3, h4]; omega)
  have hl2 := p2.length_eq
  rw [List.length_cons] at hl2
  have hsz2 : (heap.pop.push e).size = heap.size := by
    rw [← hsz]; exact hl2
  refine ⟨⟨p1, ?_, by rw [hsz2]; exact h3, (p3.trans o3).trans h4⟩, ?_, hsz2⟩
  · intro x hx
    rcases List.mem_cons.1 (p2.subset hx) with h | h
    · rw [h]; exact he
    · exact hP x h
  · exact ((p2.cons t).trans (List.Perm.swap _ _ _)).trans (o2.cons e)

theorem pushDownNode_of_no_flags (d : NodeFields K) (l r : KD_TREE_NODE K)
    (h1 : d.need_push_down_to_left = false) (h2 : d.need_push_down_to_right = false) :
    pushDownNode d l r = (d, l, r) := by
  unfold pushDownNode
  simp only [h1, h2, pushSon_false, Bool.false_and, Bool.false_eq_true, if_false]

/-- One level of `search` on a node, in terms of `visitPoint` and `searchSons`. -/
theorem search_succ (fuel : Nat) (d : NodeFields K) (l r : KD_TREE_NODE K) (k : Nat)
    (q : PointType K) (heap : MANUAL_HEAP K) (maxDist : Option K) :
    search (fuel + 1) (node d l r) k q heap maxDist =
      if d.tree_deleted then (node d l r, heap)
      else if (calcBoxDist (node d l r) q).elim false
          (fun c => gtOpt c (maxDist.map fun m => m * m)) then (node d l r, heap)
      else searchSons (fun h => search fuel l k q h maxDist)
        (fun h => search fuel r k q h maxDist) (calcBoxDist l q) (calcBoxDist r q) k d l r
        (visitPoint k q maxDist heap d) := rfl

/-- The tree that `search` returns is the tree it was given. -/
theorem search_fst (k : Nat) (q : PointType K) (maxDist : Option K) :
    ∀ (fuel : Nat) (t : KD_TREE_NODE K) (heap : MANUAL_HEAP K),
      (search fuel t k q heap maxDist).1 = t := by
  intro fuel
  induction fuel with
  | zero => intro t heap; cases t <;> rfl
  | succ n ih =>
    intro t heap
    cases t with
    | nil => rfl
    | node d l r =>
      rw [search_succ]
      split
      · rfl
      · split
        · rfl
        · unfold searchSons
          split
          · split
            · split
              · simp only [ih]
              · simp only [ih]
            · split
              · simp only [ih]
              · simp only [ih]
          · by_cases c1 : ltTop (calcBoxDist l q) (visitPoint k q maxDist heap d) = true
            · simp only [if_pos c1, ih]
              split <;> simp only [ih]
            · simp only [if_neg c1]
              split <;> simp only [ih]

theorem visible_node (d : NodeFields K) (l r : KD_TREE_NODE K) (h : ¬ d.tree_deleted = true) :
    visible (node d l r) =
      (if d.point_deleted then [] else [d.point]) ++ visible l ++ visible r := by
  show (if d.tree_deleted = true then _ else _) = _
  rw [if_neg h]

theorem visible_of_treeDeleted (d : NodeFields K) (l r : KD_TREE_NODE K)
    (h : d.tree_deleted = true) : visible (node d l r) = [] := by
  show (if d.tree_deleted = true then _ else _) = _
  rw [if_pos h]

theorem heap_cons_of_size {k : Nat} (hk0 : 0 < k) (heap : MANUAL_HEAP K)
    (h : heap.size ≥ k) : ∃ t rest, heap.m_heap = t :: rest := by
  cases hm : heap.m_heap with
  | nil => rw [MANUAL_HEAP.size, hm] at h; simp at h; omega
  | cons t rest => exact ⟨t, rest, rfl⟩

theorem visitPoint_basic {q : PointType K} {L : List (PointType K)} {k : Nat} (hk0 : 0 < k)
    {le : PointType_CMP K → PointType_CMP K → Prop}
    (hlex : Ordered le (EntryOf q L)) (maxDist : Option K) (heap : MANUAL_HEAP K)
    (d : NodeFields K) (hd : d.point_deleted = false → d.point ∈ L)
    (hk : KnnOK le q L k heap) :
    KnnOK le q L k (visitPoint k q maxDist heap d) ∧
      heap.size ≤ (visitPoint k q maxDist heap d).size := by
  unfold visitPoint
  split
  · rename_i hc
    rw [Bool.and_eq_true, Bool.not_eq_true'] at hc
    have he : EntryOf q L ⟨d.point, calcDist q d.point⟩ := ⟨rfl, hd hc.1⟩
    by_cases hs : heap.size ≥ k
    · rw [if_pos hs]
      obtain ⟨t, rest, hm⟩ := heap_cons_of_size hk0 heap hs
      obtain ⟨a, _, c⟩ := visit_replace hlex heap _ t rest hm hk he
      exact ⟨a, le_of_eq c.symm⟩
    · rw [if_neg hs]
      obtain ⟨a, b⟩ := visit_push hlex heap _ hk he (not_le.1 hs)
      refine ⟨a, ?_⟩
      have := b.length_eq
      rw [List.length_cons] at this
      rw [MANUAL_HEAP.size, MANUAL_HEAP.size]
      omega
  · exact ⟨hk, le_refl _⟩

theorem searchSons_basic {q : PointType K} {L : List (PointType K)} {k : Nat}
    (sL sR : MANUAL_HEAP K → KD_TREE_NODE K × MANUAL_HEAP K) (dl dr : Option K)
    (d : NodeFields K) (l r : KD_TREE_NODE K) (q1 : MANUAL_HEAP K)
    (hL : ∀ h, KnnOK le q L k h → KnnOK le q L k (sL h).2 ∧ h.size ≤ (sL h).2.size)
    (hR : ∀ h, KnnOK le q L k h → KnnOK le q L k (sR h).2 ∧ h.size ≤ (sR h).2.size)
    (hk : KnnOK le q L k q1) :
    KnnOK le q L k (searchSons sL sR dl dr k d l r q1).2 ∧
      q1.size ≤ (searchSons sL sR dl dr k d l r q1).2.size := by
  have l1 := hL q1 hk
  have r1 := hR q1 hk
  have lr := hR _ l1.1
  have rl := hL _ r1.1
  unfold searchSons
  split
  · split
    · split
      · exact ⟨lr.1, le_trans l1.2 lr.2⟩
      · exact l1
    · split
      · exact ⟨rl.1, le_trans r1.2 rl.2⟩
      · exact r1
  · by_cases c1 : ltTop dl q1 = true
    · simp only [if_pos c1]
      by_cases c2 : ltTop dr (sL q1).2 = true
      · simp only [if_pos c2]
        exact ⟨lr.1, le_trans l1.2 lr.2⟩
      · simp only [if_neg c2]
        exact l1
    · simp only [if_neg c1]
      by_cases c2 : ltTop dr q1 = true
      · simp only [if_pos c2]
        exact r1
      · simp only [if_neg c2]
        exact ⟨hk, le_refl _⟩

/-- Whatever the tree, `search` keeps the heap in order, made of entries for points that the
stored flags leave visible, with at most `k` entries, and never shrinks it. -/
theorem search_basic {q : PointType K} {L : List (PointType K)} {k : Nat} (hk0 : 0 < k)
    {le : PointType_CMP K → PointType_CMP K → Prop}
    (hlex : Ordered le (EntryOf q L)) (maxDist : Option K) :
    ∀ (fuel : Nat) (t : KD_TREE_NODE K) (heap : MANUAL_HEAP K),
      (∀ p ∈ visible t, p ∈ L) → KnnOK le q L k heap →
      KnnOK le q L k (search fuel t k q heap maxDist).2 ∧
        heap.size ≤ (search fuel t k q heap maxDist).2.size := by
  intro fuel
  induction fuel with
  | zero =>
    intro t heap _ hk
    cases t <;> exact ⟨hk, le_refl _⟩
  | succ n ih =>
    intro t heap hL hk
    cases t with
    | nil => exact ⟨hk, le_refl _⟩
    | node d l r =>
      rw [search_succ]
      split
      · exact ⟨hk, le_refl _⟩
      · rename_i htd
        rw [visible_node d l r htd] at hL
        split
        · exact ⟨hk, le_refl _⟩
        · have hv := visitPoint_basic hk0 hlex maxDist heap d
            (by
              intro hpd
              apply hL
              rw [hpd]
              simp) hk
          have hs := searchSons_basic
            (fun h => search n l k q h maxDist) (fun h => search n r k q h maxDist)
            (calcBoxDist l q) (calcBoxDist r q) d l r (visitPoint k q maxDist heap d)
            (fun h hh => ih _ h (fun p hp => hL p (by simp [hp])) hh)
            (fun h hh => ih _ h (fun p hp => hL p (by simp [hp])) hh) hv.1
          exact ⟨hs.1, le_trans hv.2 hs.2⟩

theorem axis_dist_le (x lo hi p m : K) (h1 : lo ≤ p) (h2 : p ≤ hi) :
    boxDistAxis x lo hi m ≤ m + (x - p) * (x - p) := by
  have hsq : 0 ≤ (x - p) * (x - p) := mul_self_nonneg _
  unfold boxDistAxis
  split_ifs with a b b
  · exact absurd (lt_of_le_of_lt (le_trans h1 h2) a) (not_lt.2 (le_of_lt b))
  · nlinarith
  · nlinarith
  · linarith

theorem calcBoxDist_node (d : NodeFields K) (l r : KD_TREE_NODE K) (q : PointType K) :
    calcBoxDist (node d l r) q =
      some (boxDistAxis q.z d.node_range_z.1 d.node_range_z.2
        (boxDistAxis q.y d.node_range_y.1 d.node_range_y.2
          (boxDistAxis q.x d.node_range_x.1 d.node_range_x.2 0))) := rfl

/-- The distance to the range box of a node is at most the distance to any point in the
box. -/
theorem calcBoxDist_le (d : NodeFields K) (l r : KD_TREE_NODE K) (q p : PointType K)
    (hp : inRange d p) (c : K) (hc : calcBoxDist (node d l r) q = some c) :
    c ≤ calcDist q p := by
  obtain ⟨h1, h2, h3, h4, h5, h6⟩ := hp
  rw [calcBoxDist_node, Option.some.injEq] at hc
  rw [← hc]
  have a := axis_dist_le q.x d.node_range_x.1 d.node_range_x.2 p.x 0 h1 h2
  have b := axis_dist_le q.y d.node_range_y.1 d.node_range_y.2 p.y
    (boxDistAxis q.x d.node_range_x.1 d.node_range_x.2 0) h3 h4
  have e := axis_dist_le q.z d.node_range_z.1 d.node_range_z.2 p.z
    (boxDistAxis q.y d.node_range_y.1 d.node_range_y.2
      (boxDistAxis q.x d.node_range_x.1 d.node_range_x.2 0)) h5 h6
  unfold calcDist
  linarith

theorem best_perm {strict : Prop} {q : PointType K} {k : Nat} {heap : MANUAL_HEAP K}
    {S S' : List (PointType K)} (hp : S.Perm S') (h : Best strict q k heap S) :
    Best strict q k heap S' := by
  obtain ⟨rest, h1, h2, h3⟩ := h
  exact ⟨rest, hp.symm.trans h1, h2, h3⟩

/-- In a strict order every entry of the heap is at most as far as the top. -/
theorem dist_le_top {le : PointType_CMP K → PointType_CMP K → Prop} {strict : Prop}
    {q : PointType K} {L : List (PointType K)} {k : Nat}
    (hlex : Ordered le (EntryOf q L)) (hdist : strict → ∀ a b, le a b → a.dist ≤ b.dist)
    (hs : strict) (heap : MANUAL_HEAP K) (hk : KnnOK le q L k heap) (t : PointType_CMP K)
    (rest : List (PointType_CMP K)) (hm : heap.m_heap = t :: rest) :
    ∀ e ∈ heap.m_heap, e.dist ≤ t.dist :=
  fun e he => hdist hs e t (heapOK_top hlex heap.m_heap hk.1 t (by rw [hm]; rfl) e he)

theorem visRange_node (d : NodeFields K) (l r : KD_TREE_NODE K) (h : VisRange (node d l r))
    (htd : ¬ d.tree_deleted = true) :
    (∀ p ∈ visible (node d l r), inRange d p) ∧ VisRange l ∧ VisRange r := by
  rcases h with h | h
  · exact absurd h htd
  · exact h

theorem visRange_root (d : NodeFields K) (l r : KD_TREE_NODE K) (h : VisRange (node d l r)) :
    ∀ p ∈ visible (node d l r), inRange d p := by
  by_cases htd : d.tree_deleted = true
  · intro p hp
    rw [visible_of_treeDeleted d l r htd] at hp
    cases hp
  · exact (visRange_node d l r h htd).1

/-- Skipping a subtree whose box is no nearer than the top of a full heap loses nothing. -/
theorem best_skip {le : PointType_CMP K → PointType_CMP K → Prop} {strict : Prop}
    {q : PointType K} {L : List (PointType K)} {k : Nat} (hk0 : 0 < k)
    (hlex : Ordered le (EntryOf q L)) (hdist : strict → ∀ a b, le a b → a.dist ≤ b.dist)
    (s : KD_TREE_NODE K) (hr : strict → VisRange s) (heap : MANUAL_HEAP K)
    (S : List (PointType K)) (hk : KnnOK le q L k heap) (hb : Best strict q k heap S)
    (hfull : k ≤ heap.size) (hlt : ltTop (calcBoxDist s q) heap = false) :
    Best strict q k heap (S ++ visible s) := by
  obtain ⟨rest, h1, _, h3⟩ := hb
  refine ⟨rest ++ visible s, ?_, fun h => absurd h (by omega), ?_⟩
  · rw [← List.append_assoc]
    exact h1.append_right _
  · intro hs p hp e he
    rcases List.mem_append.1 hp with hp | hp
    · exact h3 hs p hp e he
    · cases s with
      | nil => simp [visible] at hp
      | node d l r =>
        obtain ⟨t, rest0, hm⟩ := heap_cons_of_size hk0 heap hfull
        have hin := visRange_root d l r (hr hs) p hp
        obtain ⟨c, hc⟩ : ∃ c, calcBoxDist (node d l r) q = some c := ⟨_, rfl⟩
        have hcp := calcBoxDist_le d l r q p hin c hc
        have htop : heap.top = some t := by rw [MANUAL_HEAP.top, hm]; rfl
        rw [hc] at hlt
        simp only [ltTop, htop, decide_eq_false_iff_not, not_lt] at hlt
        exact le_trans (dist_le_top hlex hdist hs heap hk t rest0 hm e he) (le_trans hlt hcp)

/-- Offering the point of a node to the heap keeps the heap a choice of `k` nearest
points. -/
theorem visitPoint_best {le : PointType_CMP K → PointType_CMP K → Prop} {strict : Prop}
    {q : PointType K} {L : List (PointType K)} {k : Nat} (hk0 : 0 < k)
    (hlex : Ordered le (EntryOf q L)) (hdist : strict → ∀ a b, le a b → a.dist ≤ b.dist)
    (heap : MANUAL_HEAP K) (S : List (PointType K)) (d : NodeFields K)
    (hd : d.point_deleted = false → d.point ∈ L) (hk : KnnOK le q L k heap)
    (hb : Best strict q k heap S) :
    Best strict q k (visitPoint k q none heap d)
      (S ++ if d.point_deleted then [] else [d.point]) := by
  obtain ⟨rest, h1, h2, h3⟩ := hb
  unfold visitPoint
  by_cases hpd : d.point_deleted = true
  · simp only [hpd, Bool.not_true, Bool.false_and, Bool.false_eq_true, if_false, if_true,
      List.append_nil]
    exact ⟨rest, h1, h2, h3⟩
  · rw [Bool.not_eq_true] at hpd
    have he : EntryOf q L ⟨d.point, calcDist q d.point⟩ := ⟨rfl, hd hpd⟩
    have hS : (S ++ [d.point]).Perm
        (d.point :: (heap.m_heap.map (fun e => e.point) ++ rest)) :=
      (List.perm_append_singleton _ _).trans (h1.cons _)
    simp only [hpd, Bool.not_false, Bool.true_and, Option.map_none', gtOpt,
      Bool.false_eq_true, if_false]
    by_cases hs : heap.size < k
    · simp only [decide_eq_true hs, Bool.true_or, if_true, if_neg (not_le.2 hs)]
      obtain ⟨_, b⟩ := visit_push hlex heap _ hk he hs
      refine ⟨[], ?_, fun _ => rfl, fun _ p hp => by simp at hp⟩
      rw [List.append_nil]
      rw [h2 hs, List.append_nil] at hS
      have b' := (b.map (fun e : PointType_CMP K => e.point)).symm
      simp only [List.map_cons] at b'
      exact hS.trans b'
    · have hge : heap.size ≥ k := not_lt.1 hs
      obtain ⟨t, rest0, hm⟩ := heap_cons_of_size hk0 heap hge
      have htop : heap.top = some t := by rw [MANUAL_HEAP.top, hm]; rfl
      have ht : EntryOf q L t := hk.2.1 t (by rw [hm]; exact List.mem_cons_self _ _)
      simp only [decide_eq_false hs, Bool.false_or, ltTop, htop, decide_eq_true_eq]
      by_cases hc : calcDist q d.point < t.dist
      · rw [if_pos hc, if_pos hge]
        obtain ⟨_, b, c⟩ := visit_replace hlex heap ⟨d.point, calcDist q d.point⟩ t rest0 hm
          hk he
        refine ⟨t.point :: rest, ?_, fun h => absurd h (by rw [c]; exact hs), ?_⟩
        · refine hS.trans ?_
          have b' := (b.map (fun e : PointType_CMP K => e.point)).symm
          simp only [List.map_cons] at b'
          exact ((b'.append_right rest).trans (List.perm_middle).symm)
        · intro hst p hp e hem
          have hem' : e = ⟨d.point, calcDist q d.point⟩ ∨ e ∈ heap.m_heap :=
            List.mem_cons.1 (b.subset (List.mem_cons_of_mem _ hem))
          have hle := dist_le_top hlex hdist hst heap hk t rest0 hm
          rcases List.mem_cons.1 hp with hp | hp
          · rw [hp, ← ht.1]
            rcases hem' with h | h
            · rw [h]; exact le_of_lt hc
            · exact hle e h
          · have hf := h3 hst p hp
            rcases hem' with h | h
            · rw [h]
              exact le_trans (le_of_lt hc) (hf t (by rw [hm]; exact List.mem_cons_self _ _))
            · exact hf e h
      · rw [if_neg hc]
        refine ⟨d.point :: rest, hS.trans List.perm_middle.symm,
          fun h => absurd h hs, ?_⟩
        intro hst p hp e hem
        rcases List.mem_cons.1 hp with hp | hp
        · rw [hp]
          exact le_trans (dist_le_top hlex hdist hst heap hk t rest0 hm e hem) (not_lt.1 hc)
        · exact h3 hst p hp e hem

theorem searchSons_best {le : PointType_CMP K → PointType_CMP K → Prop} {strict : Prop}
    {q : PointType K} {L : List (PointType K)} {k : Nat}
    (sL sR : MANUAL_HEAP K → KD_TREE_NODE K × MANUAL_HEAP K) (dl dr : Option K)
    (d : NodeFields K) (l r : KD_TREE_NODE K) (A B : List (PointType K))
    (hL : ∀ h S, KnnOK le q L k h → Best strict q k h S →
      (KnnOK le q L k (sL h).2 ∧ h.size ≤ (sL h).2.size) ∧ Best strict q k (sL h).2 (S ++ A))
    (hLs : ∀ h S, KnnOK le q L k h → Best strict q k h S → k ≤ h.size →
      ltTop dl h = false → Best strict q k h (S ++ A))
    (hR : ∀ h S, KnnOK le q L k h → Best strict q k h S →
      (KnnOK le q L k (sR h).2 ∧ h.size ≤ (sR h).2.size) ∧ Best strict q k (sR h).2 (S ++ B))
    (hRs : ∀ h S, KnnOK le q L k h → Best strict q k h S → k ≤ h.size →
      ltTop dr h = false → Best strict q k h (S ++ B))
    (q1 : MANUAL_HEAP K) (S : List (PointType K)) (hk : KnnOK le q L k q1)
    (hb : Best strict q k q1 S) :
    Best strict q k (searchSons sL sR dl dr k d l r q1).2 (S ++ A ++ B) := by
  have hcomm : (S ++ B ++ A).Perm (S ++ A ++ B) := by
    rw [List.append_assoc, List.append_assoc]
    exact List.perm_append_comm.append_left S
  obtain ⟨l1, l2⟩ := hL q1 S hk hb
  obtain ⟨r1, r2⟩ := hR q1 S hk hb
  unfold searchSons
  split
  · split
    · split
      · exact (hR _ _ l1.1 l2).2
      · rename_i hc
        rw [Bool.not_eq_true, Bool.or_eq_false_iff, decide_eq_false_iff_not, not_lt] at hc
        exact hRs _ _ l1.1 l2 hc.1 hc.2
    · split
      · exact best_perm hcomm (hL _ _ r1.1 r2).2
      · rename_i hc
        rw [Bool.not_eq_true, Bool.or_eq_false_iff, decide_eq_false_iff_not, not_lt] at hc
        exact best_perm hcomm (hLs _ _ r1.1 r2 hc.1 hc.2)
  · rename_i hc
    rw [Bool.not_eq_true, Bool.or_eq_false_iff, decide_eq_false_iff_not, not_lt] at hc
    have hfull := hc.1
    by_cases c1 : ltTop dl q1 = true
    · simp only [if_pos c1]
      by_cases c2 : ltTop dr (sL q1).2 = true
      · simp only [if_pos c2]
        exact (hR _ _ l1.1 l2).2
      · simp only [if_neg c2]
        exact hRs _ _ l1.1 l2 (le_trans hfull l1.2) (Bool.not_eq_true _ ▸ c2)
    · simp only [if_neg c1]
      have l3 := hLs q1 S hk hb hfull (Bool.not_eq_true _ ▸ c1)
      by_cases c2 : ltTop dr q1 = true
      · simp only [if_pos c2]
        exact (hR _ _ hk l3).2
      · simp only [if_neg c2]
        exact hRs _ _ hk l3 hfull (Bool.not_eq_true _ ▸ c2)

theorem height_son_left {d : NodeFields K} {l r : KD_TREE_NODE K} {n : Nat}
    (h : (node d l r).height ≤ n + 1) : l.height ≤ n := by
  simp only [height] at h
  omega

theorem height_son_right {d : NodeFields K} {l r : KD_TREE_NODE K} {n : Nat}
    (h : (node d l r).height ≤ n + 1) : r.height ≤ n := by
  simp only [height] at h
  omega

/-- For a strict order on a tree whose stored range boxes contain the visible points,
`search` with no distance bound leaves in the heap `k` nearest points of the points met
before and the points that the stored flags leave visible. -/
theorem search_best {le : PointType_CMP K → PointType_CMP K → Prop} {strict : Prop}
    {q : PointType K} {L : List (PointType K)} {k : Nat} (hk0 : 0 < k)
    (hlex : Ordered le (EntryOf q L)) (hdist : strict → ∀ a b, le a b → a.dist ≤ b.dist) :
    ∀ (fuel : Nat) (t : KD_TREE_NODE K) (heap : MANUAL_HEAP K) (S : List (PointType K)),
      t.height ≤ fuel → (strict → VisRange t) →
      (∀ p ∈ visible t, p ∈ L) → KnnOK le q L k heap → Best strict q k heap S →
      Best strict q k (search fuel t k q heap none).2 (S ++ visible t) := by
  intro fuel
  induction fuel with
  | zero =>
    intro t heap S hh _ _ _ hb
    cases t with
    | nil =>
      have hb' : Best strict q k heap (S ++ []) := by rw [List.append_nil]; exact hb
      exact hb'
    | node d l r => simp [height] at hh
  | succ n ih =>
    intro t heap S hh hr hL hk hb
    cases t with
    | nil =>
      have hb' : Best strict q k heap (S ++ []) := by rw [List.append_nil]; exact hb
      exact hb'
    | node d l r =>
      rw [search_succ]
      split
      · rename_i htd
        rw [visible_of_treeDeleted d l r htd, List.append_nil]
        exact hb
      · rename_i htd
        have hprune : (calcBoxDist (node d l r) q).elim false
            (fun c => gtOpt c ((none : Option K).map fun m => m * m)) = false := by
          rw [calcBoxDist_node]; rfl
        rw [if_neg (by rw [hprune]; simp)]
        rw [visible_node d l r htd] at hL ⊢
        have hLl : ∀ p ∈ visible l, p ∈ L := fun p hp => hL p (by simp [hp])
        have hLr : ∀ p ∈ visible r, p ∈ L := fun p hp => hL p (by simp [hp])
        have hd : d.point_deleted = false → d.point ∈ L := by
          intro hpd
          apply hL
          rw [hpd]
          simp
        have hv := visitPoint_basic hk0 hlex none heap d hd hk
        have hvb := visitPoint_best hk0 hlex hdist heap S d hd hk hb
        have hs := searchSons_best
          (fun h => search n l k q h none) (fun h => search n r k q h none)
          (calcBoxDist l q) (calcBoxDist r q) d l r (visible l) (visible r)
          (fun h S' hh' hb' => ⟨search_basic hk0 hlex none n _ h hLl hh',
            ih _ h S' (height_son_left hh)
              (fun hs => (visRange_node d l r (hr hs) htd).2.1) hLl hh' hb'⟩)
          (fun h S' hh' hb' hf hlt => best_skip hk0 hlex hdist _
            (fun hs => (visRange_node d l r (hr hs) htd).2.1) h S' hh' hb' hf hlt)
          (fun h S' hh' hb' => ⟨search_basic hk0 hlex none n _ h hLr hh',
            ih _ h S' (height_son_right hh)
              (fun hs => (visRange_node d l r (hr hs) htd).2.2) hLr hh' hb'⟩)
          (fun h S' hh' hb' hf hlt => best_skip hk0 hlex hdist _
            (fun hs => (visRange_node d l r (hr hs) htd).2.2) h S' hh' hb' hf hlt)
          (visitPoint k q none heap d) _ hv.1 hvb
        simpa only [List.append_assoc] using hs

/-! ## The stored flags where no push-down is pending -/

theorem pushSon_of_null (flag : Bool) (d : NodeFields K) (t : KD_TREE_NODE K)
    (h : flag = true → t.isNull = true) : pushSon flag d t = t := by
  cases flag with
  | false => exact pushSon_false d t
  | true =>
    cases t with
    | nil => rfl
    | node _ _ _ => exact absurd (h rfl) (by simp [isNull])

/-- A push-down on a node whose push flags are raised over null sons only changes
nothing. -/
theorem pushDownNode_of_null_sons (d : NodeFields K) (l r : KD_TREE_NODE K)
    (hl : d.need_push_down_to_left = true → l.isNull = true)
    (hr : d.need_push_down_to_right = true → r.isNull = true) :
    pushDownNode d l r = (d, l, r) := by
  have h1 : (pushDownNode d l r).1 = d := by
    rw [pushDownNode_fst]
    cases d
    rename_i a b c e f g h i j nl nr k m n o
    cases nl <;> cases nr <;> simp_all
  have h2 : (pushDownNode d l r).2.1 = l := by
    rw [pushDownNode_snd_fst]
    exact pushSon_of_null _ d l hl
  have h3 : (pushDownNode d l r).2.2 = r := by
    rw [pushDownNode_snd_snd]
    exact pushSon_of_null _ d r hr
  exact Prod.ext h1 (Prod.ext h2 h3)

theorem noPendingPush_node (d : NodeFields K) (l r : KD_TREE_NODE K)
    (h : noPendingPush (node d l r) = true) (htd : ¬ d.tree_deleted = true) :
    (d.need_push_down_to_left = true → l.isNull = true) ∧
      (d.need_push_down_to_right = true → r.isNull = true) ∧
      noPendingPush l = true ∧ noPendingPush r = true := by
  simp only [noPendingPush, Bool.or_eq_true, Bool.and_eq_true, Bool.not_eq_true'] at h
  rcases h with h | ⟨⟨⟨h1, h2⟩, h3⟩, h4⟩
  · exact absurd h htd
  · refine ⟨fun hf => ?_, fun hf => ?_, h3, h4⟩
    · rcases h1 with h1 | h1
      · rw [hf] at h1; cases h1
      · exact h1
    · rcases h2 with h2 | h2
      · rw [hf] at h2; cases h2
      · exact h2

/-- Where no push-down is pending and the counters are exact, the points that the stored
flags leave visible are the live points. -/
theorem visible_eq_livePoints : ∀ t : KD_TREE_NODE K, noPendingPush t = true → CountInv t →
    visible t = livePoints t
  | nil, _, _ => rfl
  | node d l r, hp, hc => by
    by_cases htd : d.tree_deleted = true
    · rw [visible_of_treeDeleted d l r htd,
        livePoints_of_treeDeleted _ hc (by simpa [treeDeleted] using htd)]
    · obtain ⟨f1, f2, pl, pr⟩ := noPendingPush_node d l r hp htd
      obtain ⟨_, cl, cr⟩ := (countInv_node d l r).1 hc
      rw [pushDownNode_of_null_sons d l r f1 f2] at cl cr
      rw [visible_node d l r htd, livePoints_node, pushDownNode_of_null_sons d l r f1 f2,
        visible_eq_livePoints l pl cl, visible_eq_livePoints r pr cr]

/-- Where no push-down is pending and the counters are exact, range boxes that contain the
live points contain the points that the stored flags leave visible. -/
theorem visRange_of_rangeInv : ∀ t : KD_TREE_NODE K, noPendingPush t = true → CountInv t →
    RangeInv t → VisRange t
  | nil, _, _, _ => trivial
  | node d l r, hp, hc, hr => by
    by_cases htd : d.tree_deleted = true
    · exact Or.inl htd
    · obtain ⟨f1, f2, pl, pr⟩ := noPendingPush_node d l r hp htd
      obtain ⟨_, cl, cr⟩ := (countInv_node d l r).1 hc
      obtain ⟨r0, rl, rr⟩ := (rangeInv_node d l r).1 hr
      rw [pushDownNode_of_null_sons d l r f1 f2] at cl cr rl rr
      refine Or.inr ⟨?_, visRange_of_rangeInv l pl cl rl, visRange_of_rangeInv r pr cr rr⟩
      rw [visible_eq_livePoints _ hp hc]
      exact r0

theorem noPendingPush_fresh : ∀ t : KD_TREE_NODE K, Fresh t → noPendingPush t = true
  | nil, _ => rfl
  | node d l r, h => by
    obtain ⟨⟨_, _, _, _, h5, h6, _⟩, hl, hr⟩ := h
    simp only [noPendingPush, h5, h6, noPendingPush_fresh l hl, noPendingPush_fresh r hr,
      Bool.not_false, Bool.true_or, Bool.and_self, Bool.or_true]

theorem visible_subset_points : ∀ (t : KD_TREE_NODE K) (p : PointType K),
    p ∈ visible t → p ∈ points t
  | nil, _, h => by cases h
  | node d l r, p, h => by
    by_cases htd : d.tree_deleted = true
    · rw [visible_of_treeDeleted d l r htd] at h
      cases h
    · rw [visible_node d l r htd] at h
      simp only [points, List.mem_cons, List.mem_append]
      rcases List.mem_append.1 h with h | h
      · rcases List.mem_append.1 h with h | h
        · left
          by_cases hpd : d.point_deleted = true
          · rw [if_pos hpd] at h
            cases h
          · rw [if_neg hpd] at h
            exact List.mem_singleton.1 h
        · exact Or.inr (Or.inl (visible_subset_points l p h))
      · exact Or.inr (Or.inr (visible_subset_points r p h))

/-! ## `nearestSearch` -/

/-- Below `2^30` the product `2 * k` is the capacity of the heap. -/
theorem heapCapacity_small (k : Nat) (hk30 : k < 1073741824) : heapCapacity k = 2 * k := by
  unfold heapCapacity
  rw [Nat.mod_eq_of_lt (by omega), if_pos (by omega)]

theorem knnOK_empty (le : PointType_CMP K → PointType_CMP K → Prop) (q : PointType K)
    (L : List (PointType K)) (k : Nat) (hk30 : k < 1073741824) :
    KnnOK le q L k (MANUAL_HEAP.empty (heapCapacity k)) :=
  ⟨fun j a b _ ha => by simp [MANUAL_HEAP.empty] at ha,
    fun e he => by simp [MANUAL_HEAP.empty] at he, Nat.zero_le _, heapCapacity_small k hk30⟩

/-- The output of `nearestSearch` lists the entries left in the heap by `search`, in
increasing order. -/
theorem nearestSearch_spec {le : PointType_CMP K → PointType_CMP K → Prop}
    {q : PointType K} {L : List (PointType K)} {k : Nat} (hk0 : 0 < k)
    (hk30 : k < 1073741824)
    (hlex : Ordered le (EntryOf q L)) (maxDist : Option K) (t : KD_TREE_NODE K)
    (hL : ∀ p ∈ visible t, p ∈ L) :
    ∃ es : List (PointType_CMP K),
      es.Perm (search t.height t k q (MANUAL_HEAP.empty (heapCapacity k)) maxDist).2.m_heap ∧
      es.Pairwise le ∧ (∀ e ∈ es, EntryOf q L e) ∧
      (nearestSearch t q k maxDist).2 =
        (es.map (fun e => e.point), es.map (fun e => e.dist)) := by
  have hb := search_basic hk0 hlex maxDist t.height t (MANUAL_HEAP.empty (heapCapacity k)) hL
    (knnOK_empty le q L k hk30)
  obtain ⟨es, e1, e2, e3⟩ := drainHeap_spec hlex _
    (search t.height t k q (MANUAL_HEAP.empty (heapCapacity k)) maxDist).2 ([], []) rfl
    hb.1.1 hb.1.2.1
  refine ⟨es, e1, e2, fun e he => hb.1.2.1 e (e1.subset he), ?_⟩
  have hn : (nearestSearch t q k maxDist).2 =
      drainHeap
        (min k (search t.height t k q (MANUAL_HEAP.empty (heapCapacity k)) maxDist).2.size)
        (search t.height t k q (MANUAL_HEAP.empty (heapCapacity k)) maxDist).2 ([], []) := rfl
  rw [hn, Nat.min_eq_right hb.1.2.2.1, e3, List.append_nil, List.append_nil]

theorem ordered_true (P : PointType_CMP K → Prop) : Ordered (fun _ _ => True) P :=
  ⟨fun _ => trivial, fun _ _ _ _ _ => trivial, fun _ _ _ _ _ => trivial,
    fun _ _ _ _ _ => trivial⟩

/-! ### A heap of capacity `0` -/

theorem pop_of_nil (heap : MANUAL_HEAP K) (hn : heap.m_heap = []) : heap.pop = heap := by
  unfold MANUAL_HEAP.pop
  rw [hn]
  rfl

theorem best_empty (strict : Prop) (q : PointType K) (k : Nat) :
    Best strict q k (MANUAL_HEAP.empty (heapCapacity k)) [] :=
  ⟨[], List.Perm.refl _, fun _ => rfl, fun _ p hp => by simp at hp⟩

/-- What `nearestSearch` returns for `k` below `2^30` on a tree whose stored range boxes
contain the points that the stored flags leave visible: `min(k, number of visible points)`
visible points, the other visible points being no nearer when the distances are
separated. -/
theorem nearestSearch_k_visible (t : KD_TREE_NODE K)
    (q : PointType K) (k : Nat) (hk : 1 ≤ k) (hk30 : k < 1073741824) (hr : VisRange t) :
    ((nearestSearch t q k none).2.1).length = min k (visible t).length ∧
      (∀ p ∈ (nearestSearch t q k none).2.1, p ∈ visible t) ∧
      ∃ rest, (visible t).Perm ((nearestSearch t q k none).2.1 ++ rest) ∧
        (Separated q (visible t) →
          ∀ p ∈ rest, ∀ r ∈ (nearestSearch t q k none).2.1, calcDist q r ≤ calcDist q p) := by
  have hlex := ordered_sepLe q (visible t)
  have hdist : Separated q (visible t) →
      ∀ a b : PointType_CMP K, sepLe q (visible t) a b → a.dist ≤ b.dist :=
    fun hs _ _ h => keyLe_dist (h hs)
  obtain ⟨es, e1, _, e3, e4⟩ := nearestSearch_spec hk hk30 hlex none t (fun p hp => hp)
  have hb := search_basic hk hlex none t.height t (MANUAL_HEAP.empty (heapCapacity k))
    (fun p hp => hp) (knnOK_empty _ q _ k hk30)
  obtain ⟨rest, b1, b2, b3⟩ := search_best hk hlex hdist t.height t
    (MANUAL_HEAP.empty (heapCapacity k)) [] le_rfl (fun _ => hr) (fun p hp => hp)
    (knnOK_empty _ q _ k hk30) (best_empty _ q k)
  rw [List.nil_append] at b1
  have hR : (nearestSearch t q k none).2.1 = es.map (fun e => e.point) := by rw [e4]
  have hperm : (visible t).Perm ((nearestSearch t q k none).2.1 ++ rest) := by
    rw [hR]
    exact b1.trans ((e1.map _).symm.append_right rest)
  have hlen := hperm.length_eq
  rw [List.length_append] at hlen
  have hsz : ((nearestSearch t q k none).2.1).length =
      (search t.height t k q (MANUAL_HEAP.empty (heapCapacity k)) none).2.size := by
    rw [hR, List.length_map, e1.length_eq]; rfl
  refine ⟨?_, fun p hp => hperm.symm.subset (List.mem_append_left _ hp), rest, hperm, ?_⟩
  · have hle := hb.1.2.2.1
    by_cases hlt : (search t.height t k q (MANUAL_HEAP.empty (heapCapacity k)) none).2.size < k
    · rw [b2 hlt, List.length_nil] at hlen
      omega
    · omega
  · intro hs p hp r hrm
    rw [hR] at hrm
    obtain ⟨e, he, rfl⟩ := List.mem_map.1 hrm
    rw [← (e3 e he).1]
    exact b3 hs p hp e (e1.subset he)

/-- What `nearestSearch` returns for `k` below `2^30` on a tree with no pending push-down
outside the deleted subtrees, with exact counters and flags, whose range boxes contain the
live points: `min(k, number of live points)` live points, the other live points being no
nearer when the distances are separated. -/
theorem nearestSearch_k_nearest (t : KD_TREE_NODE K)
    (q : PointType K) (k : Nat) (hk : 1 ≤ k) (hk30 : k < 1073741824)
    (hp : noPendingPush t = true) (hc : CountInv t) (hr : RangeInv t) :
    ((nearestSearch t q k none).2.1).length = min k (livePoints t).length ∧
      (∀ p ∈ (nearestSearch t q k none).2.1, p ∈ livePoints t) ∧
      ∃ rest, (livePoints t).Perm ((nearestSearch t q k none).2.1 ++ rest) ∧
        (Separated q (livePoints t) →
          ∀ p ∈ rest, ∀ r ∈ (nearestSearch t q k none).2.1, calcDist q r ≤ calcDist q p) := by
  have h := nearestSearch_k_visible t q k hk hk30 (visRange_of_rangeInv t hp hc hr)
  rw [visible_eq_livePoints t hp hc] at h
  exact h

/-- The overflow of the capacity `2 * kNearest`: with `kNearest = 2^30` the heap admits no
entry and `nearestSearch` returns nothing, on a tree that holds a live point. -/
theorem nearestSearch_capacity_overflow :
    livePoints (build defaultEnv nil [pt 0 0 0]) = [pt 0 0 0] ∧
      (nearestSearch (build defaultEnv nil [pt 0 0 0]) (pt 0 0 0) 1073741824 none).2 =
        ([], []) := by
  decide!

theorem samePoint_self (p : PointType K) : samePoint p p = true := by
  simp [samePoint, EPSS]

/-- Claim C20: on the empty tree (a null root, which is also what `build` of the empty list
leaves), `boxSearch` and `radiusSearch` return no points, `nearestSearch` returns no points
and no distances, and `size()` and `validnum()` return `0`. -/
theorem empty_tree_queries_return_nothing (env : Env K) (sqrt : K → K)
    (t : KD_TREE_NODE K) (b : BoxPointType K) (c q : PointType K) (radius : K) (k : Nat)
    (maxDist : Option K) :
    build env t [] = nil ∧ (boxSearch nil b).2 = [] ∧
      (radiusSearch sqrt nil c radius).2 = [] ∧
      (nearestSearch nil q k maxDist).2 = ([], []) ∧
      size (nil : KD_TREE_NODE K) = 0 ∧ validnum (nil : KD_TREE_NODE K) = 0 := by
  refine ⟨?_, rfl, rfl, ?_, rfl, rfl⟩
  · rw [build_eq]
    rfl
  · show drainHeap (min k 0) (MANUAL_HEAP.empty (heapCapacity k)) ([], []) = ([], [])
    rw [Nat.min_zero]
    rfl

/-- Claim C19, failing input: on the empty tree `add_points` of a non-empty list, with or
without downsampling, reads `m_rootNode->division_axis` on the null root before the first
`addByPoint`: no tree results. -/
theorem addPoints_empty_tree_null_root (env : Env K) (t : KD_TREE_NODE K)
    (p : PointType K) (ps : List (PointType K)) (downsampleOn : Bool) :
    build env t [] = nil ∧ addPoints env nil (p :: ps) downsampleOn = none := by
  refine ⟨by rw [build_eq]; rfl, ?_⟩
  cases downsampleOn with
  | false => rfl
  | true =>
    have h : addPointsStep env nil p true = none := by
      simp [addPointsStep, searchByRange, nearestToMid, samePoint_self]
    simp [addPoints, addPointsLoop, h]

/-- Claim C15, failing input: after `build([(0,0,0),(1,0,0)])` and
`delete_points([(1,0,0)])` the point `(1,0,0)` is deleted; it lies outside the box
`[(-0.5,-0.5,-0.5), (0.5,0.5,0.5)]`, and `add_boxes` with that box makes it live again. -/
theorem addPointBoxes_restores_outside_box :
    livePoints (deletePoints defaultEnv twoPointTree [pt 1 0 0]) = [pt 0 0 0] ∧
      validnum (deletePoints defaultEnv twoPointTree [pt 1 0 0]) = 1 ∧
      pointInBox nearBox (pt 1 0 0) = false ∧
      pt 1 0 0 ∈ livePoints
        (addPointBoxes defaultEnv (deletePoints defaultEnv twoPointTree [pt 1 0 0]) [nearBox]) ∧
      validnum
        (addPointBoxes defaultEnv (deletePoints defaultEnv twoPointTree [pt 1 0 0]) [nearBox])
        = 2 := by
  decide!

/-! ## Removed points -/

/-- With `NOT_RECORD`, `flatten` is the list-free `flatten` and leaves both lists alone. -/
theorem flattenRec_not_record : ∀ (fuel : Nat) (t : KD_TREE_NODE K)
    (storage : List (PointType K)) (removed : List (PointType K) × List (PointType K)),
    flattenRec fuel t storage .NOT_RECORD removed =
      ((flatten fuel t storage).1, (flatten fuel t storage).2, removed)
  | 0, nil, _, _ => rfl
  | _ + 1, nil, _, _ => rfl
  | 0, node _ _ _, _, _ => rfl
  | fuel + 1, node d l r, storage, removed => by
    simp only [flattenRec, flatten]
    rw [flattenRec_not_record fuel, flattenRec_not_record fuel]

theorem rebuildRec_eq (env : Env K) (t : KD_TREE_NODE K)
    (removed : List (PointType K) × List (PointType K)) :
    rebuildRec env t removed = (rebuild env t, removed) := by
  cases t with
  | nil => rfl
  | node d l r =>
    simp only [rebuildRec, rebuild, flattenRec_not_record]
    split
    · rfl
    · split <;> rfl

theorem updateAndRebuildRec_eq (env : Env K) (allowRebuild : Bool) (t : KD_TREE_NODE K)
    (removed : List (PointType K) × List (PointType K)) :
    updateAndRebuildRec env allowRebuild t removed =
      (updateAndRebuild env allowRebuild t, removed) := by
  simp only [updateAndRebuildRec, updateAndRebuild, rebuildRec_eq]
  split <;> rfl

theorem deleteByPointRec_eq (env : Env K) : ∀ (fuel : Nat) (t : KD_TREE_NODE K)
    (p : PointType K) (allowRebuild : Bool)
    (removed : List (PointType K) × List (PointType K)),
    deleteByPointRec env fuel t p allowRebuild removed =
      (deleteByPoint env fuel t p allowRebuild, removed)
  | 0, nil, _, _, _ => rfl
  | _ + 1, nil, _, _, _ => rfl
  | 0, node _ _ _, _, _, _ => rfl
  | fuel + 1, node d l r, p, allowRebuild, removed => by
    simp only [deleteByPointRec, deleteByPoint, deleteByPointRec_eq env fuel,
      updateAndRebuildRec_eq]
    split
    · rfl
    · split
      · rfl
      · split <;> rfl

/-- The object-level `deletePoints` is the tree-level one and leaves both lists alone. -/
theorem objDeletePoints_eq (env : Env K) : ∀ (pts : List (PointType K)) (s : KD_TREE K),
    KD_TREE.deletePoints env s pts =
      ⟨IkdTree.deletePoints env s.m_rootNode pts, s.m_pointsDeleted,
        s.m_multithreadPointsDeleted⟩
  | [], _ => rfl
  | p :: ps, s => by
    simp only [KD_TREE.deletePoints, IkdTree.deletePoints, deleteByPointRec_eq]
    rw [objDeletePoints_eq env ps]

/-- Claim C17, amended: after `build` of the five points of S1 on a new object and
`delete_points([(0,0,0)])`, whatever `nth_element` does, `acquire_removed_points()` returns
no point, and an immediately following second call returns no point. -/
theorem acquireRemovedPoints_after_deletePoints (env : Env ℚ) :
    ((KD_TREE.deletePoints env (KD_TREE.build env KD_TREE.init s1Points)
        [pt 0 0 0]).acquireRemovedPoints []).2 = [] ∧
      (((KD_TREE.deletePoints env (KD_TREE.build env KD_TREE.init s1Points)
        [pt 0 0 0]).acquireRemovedPoints []).1.acquireRemovedPoints []).2 = [] := by
  rw [objDeletePoints_eq]
  exact ⟨rfl, rfl⟩

/-- Counterexample to C17 as stated: after `build` of the five points of S1 and
`delete_points([(0,0,0)])`, `acquire_removed_points()` returns the empty list, not
`[(0,0,0)]`. -/
theorem acquireRemovedPoints_not_the_deleted_point :
    ((KD_TREE.deletePoints defaultEnv (KD_TREE.build defaultEnv KD_TREE.init s1Points)
        [pt 0 0 0]).acquireRemovedPoints []).2 = [] ∧
      ((KD_TREE.deletePoints defaultEnv (KD_TREE.build defaultEnv KD_TREE.init s1Points)
        [pt 0 0 0]).acquireRemovedPoints []).2 ≠ [pt 0 0 0] := by
  decide!

/-- Claim C18, failing input: after `build` of twelve points and `delete_points` of six of
them the tree has `12` nodes, `6` of them deleted and none downsample-deleted; the seventh
`delete_points` rebuilds the root inline (`5` nodes are left, all live), and
`acquire_removed_points()` then returns no point. -/
theorem rebuild_records_no_removed_point :
    size (KD_TREE.deletePoints defaultEnv clusterObject (clusterSeven.take 6)).m_rootNode = 12 ∧
      validnum (KD_TREE.deletePoints defaultEnv clusterObject
        (clusterSeven.take 6)).m_rootNode = 6 ∧
      downDelNum (pushAll (KD_TREE.deletePoints defaultEnv clusterObject
        (clusterSeven.take 6)).m_rootNode) = 0 ∧
      size (KD_TREE.deletePoints defaultEnv clusterObject clusterSeven).m_rootNode = 5 ∧
      validnum (KD_TREE.deletePoints defaultEnv clusterObject clusterSeven).m_rootNode = 5 ∧
      ((KD_TREE.deletePoints defaultEnv clusterObject clusterSeven).acquireRemovedPoints
        []).2 = [] := by
  decide!

/-! ## `rebuild` -/

theorem rebuild_radius (env : Env K) (hnth : NthPermutes env) (t : KD_TREE_NODE K)
    (h : RadiusInv t) : RadiusInv (rebuild env t) := by
  cases t with
  | nil => exact h
  | node d l r =>
    simp only [rebuild]
    split
    · exact h
    · split
      · exact trivial
      · rw [update_buildTree]
        unfold RadiusInv
        rw [pushAll_fresh _ (buildTree_fresh env hnth _ _ le_rfl).1]
        exact buildTree_radius env _ _

theorem points_pushAllFrom : ∀ (t : KD_TREE_NODE K) (f : NodeFields K → NodeFields K),
    (∀ s, (f s).point = s.point) → points (pushAllFrom f t) = points t
  | nil, _, _ => rfl
  | node s l r, f, hf => by
    have h1 : ∀ x, ((if (f s).need_push_down_to_left = true then pushFields (f s) else id)
        x).point = x.point := by
      intro x; split <;> rfl
    have h2 : ∀ x, ((if (f s).need_push_down_to_right = true then pushFields (f s) else id)
        x).point = x.point := by
      intro x; split <;> rfl
    show (clearPush (f s)).point :: (points (pushAllFrom _ l) ++ points (pushAllFrom _ r)) =
      s.point :: (points l ++ points r)
    rw [points_pushAllFrom l _ h1, points_pushAllFrom r _ h2]
    congr 1
    exact hf s

@[simp] theorem points_pushAll (t : KD_TREE_NODE K) : points (pushAll t) = points t :=
  points_pushAllFrom t id (fun _ => rfl)

theorem points_of_pushAll_eq {a b : KD_TREE_NODE K} (h : pushAll a = pushAll b) :
    points a = points b := by
  rw [← points_pushAll a, h, points_pushAll]

theorem hullInv_node (d : NodeFields K) (l r : KD_TREE_NODE K) :
    HullInv (node d l r) ↔
      (∀ b : BoxPointType K, (∀ p ∈ points (node d l r), pointInBox b p = true) →
        WithinBox b d) ∧
        HullInv (pushDownNode d l r).2.1 ∧ HullInv (pushDownNode d l r).2.2 := by
  unfold HullInv
  rw [pushAll_node]
  simp only [AllNodes]
  have hp : points (node (clearPush d) (pushAll (pushDownNode d l r).2.1)
      (pushAll (pushDownNode d l r).2.2)) = points (node d l r) := by
    rw [← pushAll_node, points_pushAll]
  rw [hp]
  exact Iff.rfl

theorem hullInv_congr {a b : KD_TREE_NODE K} (h : pushAll a = pushAll b) :
    HullInv a ↔ HullInv b := by
  unfold HullInv; rw [h]

theorem hullInv_nil : HullInv (nil : KD_TREE_NODE K) := trivial

theorem hullInv_root {d : NodeFields K} {l r : KD_TREE_NODE K} (h : HullInv (node d l r))
    (b : BoxPointType K) (hb : ∀ p ∈ points (node d l r), pointInBox b p = true) :
    WithinBox b d :=
  ((hullInv_node d l r).1 h).1 b hb

theorem pointInBox_iff (b : BoxPointType K) (p : PointType K) :
    pointInBox b p = true ↔
      (b.vertex_min.1 ≤ p.x ∧ p.x < b.vertex_max.1) ∧
      (b.vertex_min.2.1 ≤ p.y ∧ p.y < b.vertex_max.2.1) ∧
      (b.vertex_min.2.2 ≤ p.z ∧ p.z < b.vertex_max.2.2) := by
  simp only [pointInBox, Bool.and_eq_true, decide_eq_true_eq, gt_iff_lt]
  tauto

/-- One axis of the range computed by `update` stays in an interval that holds the
coordinate of the point and the ranges of the sons. -/
theorem updateRange_within (a b : K) (full : Bool) (ls rs : Option (Bool × (K × K)))
    (pd : Bool) (c : K) (hc : a ≤ c ∧ c < b)
    (hl : ∀ ltd lr, ls = some (ltd, lr) → a ≤ lr.1 ∧ lr.1 < b ∧ a ≤ lr.2 ∧ lr.2 < b)
    (hr : ∀ rtd rr, rs = some (rtd, rr) → a ≤ rr.1 ∧ rr.1 < b ∧ a ≤ rr.2 ∧ rr.2 < b)
    (hact : full = false →
      (∃ lr, ls = some (false, lr)) ∨ (∃ rr, rs = some (false, rr)) ∨ pd = false) :
    a ≤ (updateRange full ls rs pd c).1 ∧ (updateRange full ls rs pd c).1 < b ∧
      a ≤ (updateRange full ls rs pd c).2 ∧ (updateRange full ls rs pd c).2 < b := by
  obtain ⟨c1, c2⟩ := hc
  rcases ls with _ | ⟨ltd, lr⟩ <;> rcases rs with _ | ⟨rtd, rr⟩
  · exact ⟨c1, c2, c1, c2⟩
  · obtain ⟨r1, r2, r3, r4⟩ := hr rtd rr rfl
    cases full
    · have := hact rfl
      cases rtd <;> cases pd <;>
        simp_all [updateRange, accRange, accGet, le_min_iff, min_lt_iff, le_max_iff,
          max_lt_iff]
    · simp_all [updateRange, le_min_iff, min_lt_iff, le_max_iff, max_lt_iff]
  · obtain ⟨l1, l2, l3, l4⟩ := hl ltd lr rfl
    cases full
    · have := hact rfl
      cases ltd <;> cases pd <;>
        simp_all [updateRange, accRange, accGet, le_min_iff, min_lt_iff, le_max_iff,
          max_lt_iff]
    · simp_all [updateRange, le_min_iff, min_lt_iff, le_max_iff, max_lt_iff]
  · obtain ⟨l1, l2, l3, l4⟩ := hl ltd lr rfl
    obtain ⟨r1, r2, r3, r4⟩ := hr rtd rr rfl
    cases full
    · have := hact rfl
      cases ltd <;> cases rtd <;> cases pd <;>
        simp_all [updateRange, accRange, accGet, le_min_iff, min_lt_iff, le_max_iff,
          max_lt_iff]
    · simp_all [updateRange, le_min_iff, min_lt_iff, le_max_iff, max_lt_iff]

theorem some_of_treeDeleted_false (l : KD_TREE_NODE K) (g : NodeFields K → K × K)
    (h : treeDeleted l = false) :
    ∃ lr, (l.fields?.map fun s => (s.tree_deleted, g s)) = some (false, lr) := by
  cases l with
  | nil => cases h
  | node ld a c =>
    have h' : ld.tree_deleted = false := h
    exact ⟨g ld, by simp [fields?, h']⟩

theorem update_active (d : NodeFields K) (l r : KD_TREE_NODE K) (g : NodeFields K → K × K)
    (h : ((treeDeleted l && treeDeleted r && d.point_deleted) ||
      ((l.isNull || !treeDeleted l) && (r.isNull || !treeDeleted r) && !d.point_deleted))
        = false) :
    (∃ lr, (l.fields?.map fun s => (s.tree_deleted, g s)) = some (false, lr)) ∨
      (∃ rr, (r.fields?.map fun s => (s.tree_deleted, g s)) = some (false, rr)) ∨
      d.point_deleted = false := by
  rw [Bool.or_eq_false_iff] at h
  cases hl : treeDeleted l
  · exact Or.inl (some_of_treeDeleted_false l g hl)
  · cases hr : treeDeleted r
    · exact Or.inr (Or.inl (some_of_treeDeleted_false r g hr))
    · right; right
      have := h.1
      rw [hl, hr] at this
      simpa using this

/-- The range box stored by `update` lies in every box that holds the point of the node
and the range boxes of the sons. -/
theorem updateFields_within (d : NodeFields K) (l r : KD_TREE_NODE K) (b : BoxPointType K)
    (hp : pointInBox b d.point = true)
    (hl : ∀ ld a c, l = node ld a c → WithinBox b ld)
    (hr : ∀ rd a c, r = node rd a c → WithinBox b rd) :
    WithinBox b (updateFields d l.fields? r.fields?) := by
  obtain ⟨px, py, pz⟩ := (pointInBox_iff b d.point).1 hp
  unfold WithinBox
  rw [updateFields_range_x, updateFields_range_y, updateFields_range_z]
  refine ⟨?_, ?_, ?_⟩
  · apply updateRange_within _ _ _ _ _ _ _ px
    · intro ltd lr h
      cases l with
      | nil => cases h
      | node ld a c =>
        simp only [fields?, Option.map_some', Option.some.injEq, Prod.mk.injEq] at h
        rw [← h.2]
        exact (hl ld a c rfl).1
    · intro rtd rr h
      cases r with
      | nil => cases h
      | node rd a c =>
        simp only [fields?, Option.map_some', Option.some.injEq, Prod.mk.injEq] at h
        rw [← h.2]
        exact (hr rd a c rfl).1
    · exact update_active d l r _
  · apply updateRange_within _ _ _ _ _ _ _ py
    · intro ltd lr h
      cases l with
      | nil => cases h
      | node ld a c =>
        simp only [fields?, Option.map_some', Option.some.injEq, Prod.mk.injEq] at h
        rw [← h.2]
        exact (hl ld a c rfl).2.1
    · intro rtd rr h
      cases r with
      | nil => cases h
      | node rd a c =>
        simp only [fields?, Option.map_some', Option.some.injEq, Prod.mk.injEq] at h
        rw [← h.2]
        exact (hr rd a c rfl).2.1
    · exact update_active d l r _
  · apply updateRange_within _ _ _ _ _ _ _ pz
    · intro ltd lr h
      cases l with
      | nil => cases h
      | node ld a c =>
        simp only [fields?, Option.map_some', Option.some.injEq, Prod.mk.injEq] at h
        rw [← h.2]
        exact (hl ld a c rfl).2.2
    · intro rtd rr h
      cases r with
      | nil => cases h
      | node rd a c =>
        simp only [fields?, Option.map_some', Option.some.injEq, Prod.mk.injEq] at h
        rw [← h.2]
        exact (hr rd a c rfl).2.2
    · exact update_active d l r _

/-- The pushed form of the node a mutator hands to `update`. -/
theorem pushAll_update (d : NodeFields K) (l r : KD_TREE_NODE K)
    (hl : SonOK d.need_push_down_to_left l) (hr : SonOK d.need_push_down_to_right r) :
    pushAll (update (node d l r)) =
      node (clearPush (updateFields d l.fields? r.fields?)) (pushAll l) (pushAll r) := by
  show pushAll (node (updateFields d l.fields? r.fields?) l r) = _
  rw [pushAll_node, pushDownNode_snd_fst, pushDownNode_snd_snd, updateFields_need_left,
    updateFields_need_right]
  congr 1
  · apply pushAll_pushSon_ok _ _ _ hl
    intro hf hn
    rw [updateFields_tree_deleted, updateFields_tree_downsample_deleted,
      (treeDeleted_fresh l hf hn).1, (treeDeleted_fresh l hf hn).2]
    exact ⟨rfl, rfl⟩
  · apply pushAll_pushSon_ok _ _ _ hr
    intro hf hn
    rw [updateFields_tree_deleted, updateFields_tree_downsample_deleted,
      (treeDeleted_fresh r hf hn).1, (treeDeleted_fresh r hf hn).2]
    simp

/-! ## The counters and the hull through `update` and `rebuild` -/

theorem kept_fresh : ∀ t : KD_TREE_NODE K, Fresh t → kept t = points t
  | nil, _ => rfl
  | node d l r, h => by
    obtain ⟨⟨_, _, h3, _⟩, hl, hr⟩ := h
    simp [kept, points, h3, kept_fresh l hl, kept_fresh r hr]

theorem keptPoints_fresh (t : KD_TREE_NODE K) (h : Fresh t) : keptPoints t = points t := by
  unfold keptPoints
  rw [pushAll_fresh t h, kept_fresh t h]

theorem keptPoints_congr {a b : KD_TREE_NODE K} (h : pushAll a = pushAll b) :
    keptPoints a = keptPoints b := by
  unfold keptPoints; rw [h]

theorem keptPoints_node (d : NodeFields K) (l r : KD_TREE_NODE K) :
    keptPoints (node d l r) =
      (if d.point_downsample_deleted then [] else [d.point]) ++
        keptPoints (pushDownNode d l r).2.1 ++ keptPoints (pushDownNode d l r).2.2 := by
  unfold keptPoints
  rw [pushAll_node]
  rfl

/-- On a pushed tree with exact flags every undeleted point is a kept point. -/
theorem undeleted_sublist_kept : ∀ u : KD_TREE_NODE K, AllNodes Agg u →
    (undeleted u).Sublist (kept u)
  | nil, _ => List.Sublist.refl _
  | node d l r, h => by
    obtain ⟨⟨_, _, _, _, _, h6⟩, hl, hr⟩ := h
    have hroot : (if d.point_deleted = true then [] else [d.point]).Sublist
        (if d.point_downsample_deleted = true then [] else [d.point]) := by
      cases hpd : d.point_deleted
      · cases hpdd : d.point_downsample_deleted
        · exact List.Sublist.refl _
        · rw [h6 hpdd] at hpd; cases hpd
      · exact List.nil_sublist _
    exact (hroot.append (undeleted_sublist_kept l hl)).append (undeleted_sublist_kept r hr)

theorem livePoints_sublist_keptPoints (t : KD_TREE_NODE K) (h : CountInv t) :
    (livePoints t).Sublist (keptPoints t) :=
  undeleted_sublist_kept _ h

/-- The node that a mutator hands to `update`, over sons with exact counters and range
boxes inside the hull, comes out of `update` with both properties; its live and kept points
are its own point (unless deleted) followed by those of the sons. -/
theorem update_count {H R Q : Prop} (d : NodeFields K) (l r : KD_TREE_NODE K)
    (hl : SonOK d.need_push_down_to_left l) (hr : SonOK d.need_push_down_to_right r)
    (hcl : CountInv l) (hcr : CountInv r) (hhl : H → HullInv l) (hhr : H → HullInv r)
    (hgl : R → RangeInv l) (hgr : R → RangeInv r)
    (hql : Q → RadiusInv l) (hqr : Q → RadiusInv r)
    (hflag : d.point_downsample_deleted = true → d.point_deleted = true) :
    CountInv (update (node d l r)) ∧ (H → HullInv (update (node d l r))) ∧
      (R → RangeInv (update (node d l r))) ∧ (Q → RadiusInv (update (node d l r))) ∧
      livePoints (update (node d l r)) =
        (if d.point_deleted then [] else [d.point]) ++ livePoints l ++ livePoints r ∧
      keptPoints (update (node d l r)) =
        (if d.point_downsample_deleted then [] else [d.point]) ++ keptPoints l ++
          keptPoints r := by
  have hpush := pushAll_update d l r hl hr
  refine ⟨?_, ?_, ?_, ?_, ?_, ?_⟩
  · unfold CountInv
    rw [hpush]
    refine ⟨(agg_clearPush_pushAll _ _ _).2 ?_, hcl, hcr⟩
    exact ⟨updateFields_TreeSize d l r, updateFields_invalid d l r, updateFields_downDel d l r,
      updateFields_tree_deleted d l r, updateFields_tree_downsample_deleted d l r, hflag⟩
  · intro hH
    unfold HullInv
    rw [hpush]
    refine ⟨?_, hhl hH, hhr hH⟩
    intro b hb
    have hb' : ∀ p ∈ d.point :: (points l ++ points r), pointInBox b p = true := by
      intro p hp
      apply hb
      show p ∈ d.point :: (points (pushAll l) ++ points (pushAll r))
      rw [points_pushAll, points_pushAll]
      exact hp
    show WithinBox b (updateFields d l.fields? r.fields?)
    apply updateFields_within
    · exact hb' _ (List.mem_cons_self _ _)
    · intro ld a c e
      subst e
      exact hullInv_root (hhl hH) b
        (fun p hp => hb' p (List.mem_cons_of_mem _ (List.mem_append_left _ hp)))
    · intro rd a c e
      subst e
      exact hullInv_root (hhr hH) b
        (fun p hp => hb' p (List.mem_cons_of_mem _ (List.mem_append_right _ hp)))
  · intro hR
    exact (update_inv d l r hl hr hcl hcr (hgl hR) (hgr hR) hflag).2.1
  · intro hQ
    unfold RadiusInv
    rw [hpush]
    exact ⟨rfl, hql hQ, hqr hQ⟩
  · unfold livePoints
    rw [hpush]
    rfl
  · unfold keptPoints
    rw [hpush]
    rfl

theorem buildTree_hull (env : Env K) : ∀ (fuel : Nat) (pts : List (PointType K)),
    pts.length ≤ fuel → NthPermutes env → HullInv (buildTree env fuel pts)
  | _, [], _, _ => by cases ‹Nat› <;> exact hullInv_nil
  | 0, _ :: _, h, _ => by simp at h
  | fuel + 1, p0 :: ps, h, hnth => by
    have hperm := hnth (if divAxis p0 ps = 0 then pointCmpX else
      if divAxis p0 ps = 1 then pointCmpY else pointCmpZ) (((p0 :: ps).length - 1) / 2) (p0 :: ps)
    rw [buildTree_cons]
    generalize env.nth_element _ (((p0 :: ps).length - 1) / 2) (p0 :: ps) = storage at hperm ⊢
    have hlen : storage.length = ps.length + 1 := by
      rw [hperm.length_eq]; rfl
    have h1 : (storage.take (((p0 :: ps).length - 1) / 2)).length ≤ fuel := by
      rw [List.length_take]
      simp only [List.length_cons] at h ⊢
      omega
    have h2 : (storage.drop (((p0 :: ps).length - 1) / 2 + 1)).length ≤ fuel := by
      rw [List.length_drop]
      simp only [List.length_cons] at h ⊢
      omega
    have fl := (buildTree_fresh env hnth fuel _ h1).1
    have fr := (buildTree_fresh env hnth fuel _ h2).1
    exact (update_count _ _ _ (Or.inl fun _ => rfl) (Or.inl fun _ => rfl)
      (countInv_fresh _ fl) (countInv_fresh _ fr)
      (fun _ : True => buildTree_hull env fuel _ h1 hnth)
      (fun _ => buildTree_hull env fuel _ h2 hnth) (fun hF : False => hF.elim)
      (fun hF => hF.elim) (fun hF : False => hF.elim) (fun hF => hF.elim)
      (fun hh => by cases hh)).2.1 trivial

theorem build_hull (env : Env K) (hnth : NthPermutes env) (m_rootNode : KD_TREE_NODE K)
    (pointCloud : List (PointType K)) : HullInv (build env m_rootNode pointCloud) := by
  rw [build_eq]
  exact buildTree_hull env _ _ le_rfl hnth

theorem rebuild_hull (env : Env K) (hnth : NthPermutes env) (t : KD_TREE_NODE K)
    (h : HullInv t) : HullInv (rebuild env t) := by
  cases t with
  | nil => exact h
  | node d l r =>
    simp only [rebuild]
    split
    · exact h
    · split
      · exact hullInv_nil
      · rw [update_buildTree]
        exact buildTree_hull env _ _ le_rfl hnth

/-- `rebuild` keeps the counters exact and the range boxes inside the hull, keeps the live
points and drops kept points at most. -/
theorem rebuild_count {H R Q : Prop} (env : Env K) (hnth : NthPermutes env)
    (t : KD_TREE_NODE K) (hc : CountInv t) (hh : H → HullInv t)
    (hg : R → RangeInv t) (hq : Q → RadiusInv t) :
    CountInv (rebuild env t) ∧ (H → HullInv (rebuild env t)) ∧
      (R → RangeInv (rebuild env t)) ∧ (Q → RadiusInv (rebuild env t)) ∧
      (livePoints (rebuild env t)).Perm (livePoints t) ∧
      (keptPoints (rebuild env t)).Subperm (keptPoints t) := by
  refine ⟨?_, fun hH => rebuild_hull env hnth t (hh hH),
    fun hR => (rebuild_inv env hnth t hc (hg hR)).2.1,
    fun hQ => rebuild_radius env hnth t (hq hQ), ?_, ?_⟩
  · rcases rebuild_spec env hnth t with h | ⟨hf, _⟩
    · rw [h]; exact hc
    · exact countInv_fresh _ hf
  · rcases rebuild_spec env hnth t with h | ⟨hf, hp⟩
    · rw [h]
    · rw [livePoints_fresh _ hf]; exact hp
  · rcases rebuild_spec env hnth t with h | ⟨hf, hp⟩
    · rw [h]
    · rw [keptPoints_fresh _ hf]
      exact hp.subperm.trans (livePoints_sublist_keptPoints t hc).subperm

/-- The tail of every mutator keeps the counters exact and the range boxes inside the hull;
the live points are rearranged at most and kept points are dropped at most. -/
theorem updateAndRebuild_count {H R Q : Prop} (env : Env K) (hnth : NthPermutes env)
    (allowRebuild : Bool) (d : NodeFields K) (l r : KD_TREE_NODE K)
    (hl : SonOK d.need_push_down_to_left l) (hr : SonOK d.need_push_down_to_right r)
    (hcl : CountInv l) (hcr : CountInv r) (hhl : H → HullInv l) (hhr : H → HullInv r)
    (hgl : R → RangeInv l) (hgr : R → RangeInv r)
    (hql : Q → RadiusInv l) (hqr : Q → RadiusInv r)
    (hflag : d.point_downsample_deleted = true → d.point_deleted = true) :
    CountInv (updateAndRebuild env allowRebuild (node d l r)) ∧
      (H → HullInv (updateAndRebuild env allowRebuild (node d l r))) ∧
      (R → RangeInv (updateAndRebuild env allowRebuild (node d l r))) ∧
      (Q → RadiusInv (updateAndRebuild env allowRebuild (node d l r))) ∧
      (livePoints (updateAndRebuild env allowRebuild (node d l r))).Perm
        ((if d.point_deleted then [] else [d.point]) ++ livePoints l ++ livePoints r) ∧
      (keptPoints (updateAndRebuild env allowRebuild (node d l r))).Subperm
        ((if d.point_downsample_deleted then [] else [d.point]) ++ keptPoints l ++
          keptPoints r) := by
  obtain ⟨h1, h2, hg, hq, h3, h4⟩ :=
    update_count d l r hl hr hcl hcr hhl hhr hgl hgr hql hqr hflag
  unfold updateAndRebuild
  simp only
  split
  · obtain ⟨g1, g2, gg, gq, g3, g4⟩ := rebuild_count env hnth _ h1 h2 hg hq
    exact ⟨g1, g2, gg, gq, h3 ▸ g3, h4 ▸ g4⟩
  · exact ⟨h1, h2, hg, hq, h3 ▸ List.Perm.refl _, h4 ▸ List.Subperm.refl _⟩

/-! ## `deleteByPoint` -/

/-- On a pushed tree with exact counters a subtree is `tree_deleted` exactly when all its
nodes are invalid. -/
theorem treeDeleted_iff_invalid : ∀ u : KD_TREE_NODE K, AllNodes Agg u →
    0 ≤ invalidNum u ∧ invalidNum u ≤ size u ∧
      (treeDeleted u = true ↔ invalidNum u = size u)
  | nil, _ => ⟨le_refl _, le_refl _, by simp [treeDeleted, invalidNum, size]⟩
  | node d l r, h => by
    obtain ⟨⟨h1, h2, _, h4, _, _⟩, hl, hr⟩ := h
    obtain ⟨l0, l1, l2⟩ := treeDeleted_iff_invalid l hl
    obtain ⟨r0, r1, r2⟩ := treeDeleted_iff_invalid r hr
    show 0 ≤ d.invalid_point_num ∧ d.invalid_point_num ≤ d.TreeSize ∧
      (d.tree_deleted = true ↔ d.invalid_point_num = d.TreeSize)
    rw [h1, h2, h4]
    cases hpd : d.point_deleted
    · simp only [Bool.and_false, Bool.false_eq_true, if_false, false_iff]
      omega
    · simp only [Bool.and_true, Bool.and_eq_true, if_true, l2, r2]
      refine ⟨by omega, by omega, ?_⟩
      constructor
      · rintro ⟨a, b⟩; omega
      · intro e; constructor <;> omega

theorem countInv_invalid (t : KD_TREE_NODE K) (h : CountInv t) :
    0 ≤ invalidNum t ∧ invalidNum t ≤ size t ∧
      (treeDeleted t = true ↔ invalidNum t = size t) := by
  have := treeDeleted_iff_invalid _ h
  simpa using this

theorem points_pushSon (f : Bool) (e : NodeFields K) (s : KD_TREE_NODE K) :
    points (pushSon f e s) = points s := by
  cases s with
  | nil => rfl
  | node g a c => cases f <;> rfl

theorem points_pushDownNode (d : NodeFields K) (l r : KD_TREE_NODE K) :
    points (node (pushDownNode d l r).1 (pushDownNode d l r).2.1 (pushDownNode d l r).2.2) =
      points (node d l r) := by
  show (pushDownNode d l r).1.point :: (points (pushDownNode d l r).2.1 ++
    points (pushDownNode d l r).2.2) = d.point :: (points l ++ points r)
  rw [pushDownNode_point, pushDownNode_snd_fst, pushDownNode_snd_snd, points_pushSon,
    points_pushSon]

/-- A node whose fields `e` replace the pushed fields of `d` over the pushed sons, with the
same push flags. -/
theorem pushAll_node_pushed (d e : NodeFields K) (l r : KD_TREE_NODE K)
    (e1 : e.need_push_down_to_left = (pushDownNode d l r).1.need_push_down_to_left)
    (e2 : e.need_push_down_to_right = (pushDownNode d l r).1.need_push_down_to_right) :
    pushAll (node e (pushDownNode d l r).2.1 (pushDownNode d l r).2.2) =
      node (clearPush e) (pushAll (pushDownNode d l r).2.1)
        (pushAll (pushDownNode d l r).2.2) := by
  apply pushAll_node_clear
  · intro hn
    rw [e1, pushDownNode_need_left]
    rw [pushDownNode_snd_fst, isNull_pushSon] at hn
    rw [hn, Bool.and_false]
  · intro hn
    rw [e2, pushDownNode_need_right]
    rw [pushDownNode_snd_snd, isNull_pushSon] at hn
    rw [hn, Bool.and_false]

/-- Replacing the fields of a pushed node by fields with the same point, range box and push
flags keeps the range boxes inside the hull. -/
theorem hullInv_node_pushed (d e : NodeFields K) (l r : KD_TREE_NODE K)
    (hh : HullInv (node d l r)) (hs : SameStatic e (pushDownNode d l r).1)
    (e1 : e.need_push_down_to_left = (pushDownNode d l r).1.need_push_down_to_left)
    (e2 : e.need_push_down_to_right = (pushDownNode d l r).1.need_push_down_to_right) :
    HullInv (node e (pushDownNode d l r).2.1 (pushDownNode d l r).2.2) := by
  obtain ⟨hroot, hhl, hhr⟩ := (hullInv_node d l r).1 hh
  obtain ⟨s1, _, _, _, s5, s6, s7⟩ := hs
  unfold HullInv
  rw [pushAll_node_pushed d e l r e1 e2]
  refine ⟨?_, hhl, hhr⟩
  intro b hb
  have hw := hroot b (by
    intro p hp
    apply hb
    show p ∈ e.point ::
      (points (pushAll (pushDownNode d l r).2.1) ++ points (pushAll (pushDownNode d l r).2.2))
    rw [s1, points_pushAll, points_pushAll]
    rw [← points_pushDownNode] at hp
    exact hp)
  show WithinBox b e
  unfold WithinBox at hw ⊢
  rw [s5, s6, s7, pushDownNode_node_range_x, pushDownNode_node_range_y,
    pushDownNode_node_range_z]
  exact hw

/-- Replacing the fields of a pushed node by fields with the same range box and push flags,
and with the point deleted, keeps the range boxes around the live points. -/
theorem rangeInv_node_pushed (d e : NodeFields K) (l r : KD_TREE_NODE K)
    (hr : RangeInv (node d l r)) (hs : SameStatic e (pushDownNode d l r).1)
    (e1 : e.need_push_down_to_left = (pushDownNode d l r).1.need_push_down_to_left)
    (e2 : e.need_push_down_to_right = (pushDownNode d l r).1.need_push_down_to_right)
    (e6 : e.point_deleted = true) :
    RangeInv (node e (pushDownNode d l r).2.1 (pushDownNode d l r).2.2) := by
  obtain ⟨hroot, hrl, hrr⟩ := (rangeInv_node d l r).1 hr
  obtain ⟨_, _, _, s4, s5, s6, s7⟩ := hs
  unfold RangeInv
  rw [pushAll_node_pushed d e l r e1 e2]
  refine ⟨?_, hrl, hrr⟩
  intro p hp
  have hp' : p ∈ (if e.point_deleted = true then [] else [e.point]) ++
      livePoints (pushDownNode d l r).2.1 ++ livePoints (pushDownNode d l r).2.2 := hp
  rw [e6] at hp'
  have hin := hroot p (by
    rw [livePoints_node]
    simp only [List.mem_append] at hp' ⊢
    rcases hp' with (h | h) | h
    · simp at h
    · exact Or.inl (Or.inr h)
    · exact Or.inr h)
  show inRange e p
  unfold inRange at hin ⊢
  rw [s5, s6, s7, pushDownNode_node_range_x, pushDownNode_node_range_y,
    pushDownNode_node_range_z]
  exact hin

/-- Replacing the fields of a pushed node by fields with the same range box, `radius_sq`
and push flags keeps the radius exact. -/
theorem radiusInv_node_pushed (d e : NodeFields K) (l r : KD_TREE_NODE K)
    (hrad : RadiusInv (node d l r)) (hs : SameStatic e (pushDownNode d l r).1)
    (e1 : e.need_push_down_to_left = (pushDownNode d l r).1.need_push_down_to_left)
    (e2 : e.need_push_down_to_right = (pushDownNode d l r).1.need_push_down_to_right) :
    RadiusInv (node e (pushDownNode d l r).2.1 (pushDownNode d l r).2.2) := by
  obtain ⟨g0, gl, gr⟩ := (radiusInv_node d l r).1 hrad
  obtain ⟨_, _, _, s4, s5, s6, s7⟩ := hs
  unfold RadiusInv
  rw [pushAll_node_pushed d e l r e1 e2]
  refine ⟨?_, gl, gr⟩
  show e.radius_sq = halfDiagSq e
  unfold halfDiagSq at g0 ⊢
  rw [s4, s5, s6, s7, pushDownNode_radius_sq, pushDownNode_node_range_x,
    pushDownNode_node_range_y, pushDownNode_node_range_z]
  exact g0

/-- The node at which `deleteByPoint` finds its point: marking it keeps the counters
exact. -/
theorem deleteByPoint_match (d e : NodeFields K) (l r : KD_TREE_NODE K)
    (hc : CountInv (node d l r)) (hpd : d.point_deleted = false)
    (e1 : e.need_push_down_to_left = (pushDownNode d l r).1.need_push_down_to_left)
    (e2 : e.need_push_down_to_right = (pushDownNode d l r).1.need_push_down_to_right)
    (e3 : e.TreeSize = d.TreeSize) (e4 : e.invalid_point_num = d.invalid_point_num + 1)
    (e5 : e.down_del_num = d.down_del_num) (e6 : e.point_deleted = true)
    (e7 : e.tree_deleted = if d.invalid_point_num + 1 = d.TreeSize then true
      else d.tree_deleted)
    (e8 : e.point_downsample_deleted = d.point_downsample_deleted)
    (e9 : e.tree_downsample_deleted = d.tree_downsample_deleted) :
    CountInv (node e (pushDownNode d l r).2.1 (pushDownNode d l r).2.2) := by
  obtain ⟨hagg, hcl, hcr⟩ := (countInv_node d l r).1 hc
  obtain ⟨a1, a2, a3, a4, a5, a6⟩ := hagg
  have il := countInv_invalid _ hcl
  have ir := countInv_invalid _ hcr
  unfold CountInv
  rw [pushAll_node_pushed d e l r e1 e2]
  refine ⟨(agg_clearPush_pushAll _ _ _).2 ⟨?_, ?_, ?_, ?_, ?_, fun _ => e6⟩, hcl, hcr⟩
  · rw [e3]; exact a1
  · rw [e4, e6, a2, hpd]
    simp
  · rw [e5, e8]; exact a3
  · rw [e7, e6, a1, a2, a4, hpd]
    simp only [Bool.and_false, Bool.false_eq_true, if_false, add_zero, Bool.and_true]
    by_cases e : invalidNum (pushDownNode d l r).2.1 + invalidNum (pushDownNode d l r).2.2 + 1
        = size (pushDownNode d l r).2.1 + size (pushDownNode d l r).2.2 + 1
    · rw [if_pos e]
      have h1 : invalidNum (pushDownNode d l r).2.1 = size (pushDownNode d l r).2.1 := by
        omega
      have h2 : invalidNum (pushDownNode d l r).2.2 = size (pushDownNode d l r).2.2 := by
        omega
      rw [il.2.2.2 h1, ir.2.2.2 h2]
      rfl
    · rw [if_neg e]
      cases t1 : treeDeleted (pushDownNode d l r).2.1
      · rfl
      · cases t2 : treeDeleted (pushDownNode d l r).2.2
        · rfl
        · exact absurd (by rw [il.2.2.1 t1, ir.2.2.1 t2]) e
  · rw [e9, e8]; exact a5

theorem deleteByPoint_isNull (env : Env K) (fuel : Nat) (t : KD_TREE_NODE K) (p : PointType K)
    (allowRebuild : Bool) (h : (deleteByPoint env fuel t p allowRebuild).isNull = false) :
    t.isNull = false := by
  cases t with
  | nil => cases fuel <;> exact h
  | node _ _ _ => rfl

/-- With enough fuel and on a tree with exact counters and range boxes inside the hull,
`deleteByPoint` keeps both properties; when no live point equals the point within `EPSS`
the live points are rearranged at most. -/
theorem deleteByPoint_count {H R Q : Prop} (env : Env K) (hnth : NthPermutes env)
    (p : PointType K) (allowRebuild : Bool) : ∀ (fuel : Nat) (t : KD_TREE_NODE K),
    t.height ≤ fuel → CountInv t → (H → HullInv t) → (R → RangeInv t) →
    (Q → RadiusInv t) →
    CountInv (deleteByPoint env fuel t p allowRebuild) ∧
    (H → HullInv (deleteByPoint env fuel t p allowRebuild)) ∧
    (R → RangeInv (deleteByPoint env fuel t p allowRebuild)) ∧
    (Q → RadiusInv (deleteByPoint env fuel t p allowRebuild)) ∧
    ((∀ p' ∈ livePoints t, samePoint p' p = false) →
      (livePoints (deleteByPoint env fuel t p allowRebuild)).Perm (livePoints t))
  | _, nil, _, _, _, _, _ => by
    cases ‹Nat› <;>
      exact ⟨countInv_nil, fun _ => hullInv_nil, fun _ => rangeInv_nil, fun _ => trivial,
        fun _ => List.Perm.refl _⟩
  | 0, node d l r, h, _, _, _, _ => by simp [height] at h
  | fuel + 1, node d l r, h, hc, hh, hg, hq => by
    simp only [deleteByPoint]
    split
    · exact ⟨hc, hh, hg, hq, fun _ => List.Perm.refl _⟩
    · obtain ⟨hagg, hcl, hcr⟩ := (countInv_node d l r).1 hc
      have hhl : H → HullInv (pushDownNode d l r).2.1 :=
        fun hH => ((hullInv_node d l r).1 (hh hH)).2.1
      have hhr : H → HullInv (pushDownNode d l r).2.2 :=
        fun hH => ((hullInv_node d l r).1 (hh hH)).2.2
      have hgl : R → RangeInv (pushDownNode d l r).2.1 :=
        fun hR => ((rangeInv_node d l r).1 (hg hR)).2.1
      have hgr : R → RangeInv (pushDownNode d l r).2.2 :=
        fun hR => ((rangeInv_node d l r).1 (hg hR)).2.2
      have hql : Q → RadiusInv (pushDownNode d l r).2.1 :=
        fun hQ => ((radiusInv_node d l r).1 (hq hQ)).2.1
      have hqr : Q → RadiusInv (pushDownNode d l r).2.2 :=
        fun hQ => ((radiusInv_node d l r).1 (hq hQ)).2.2
      have hflag : (pushDownNode d l r).1.point_downsample_deleted = true →
          (pushDownNode d l r).1.point_deleted = true := by
        simpa using hagg.2.2.2.2.2
      split
      · rename_i hm
        rw [Bool.and_eq_true, Bool.not_eq_true', pushDownNode_point_deleted,
          pushDownNode_point] at hm
        refine ⟨?_, ?_, ?_, ?_, ?_⟩
        · refine deleteByPoint_match d _ l r hc hm.2 ?_ ?_ ?_ ?_ ?_ ?_ ?_ ?_ ?_
          · rfl
          · rfl
          · exact pushDownNode_TreeSize d l r
          · show (pushDownNode d l r).1.invalid_point_num + 1 = _
            rw [pushDownNode_invalid_point_num]
          · exact pushDownNode_down_del_num d l r
          · rfl
          · show (if (pushDownNode d l r).1.invalid_point_num + 1 =
              (pushDownNode d l r).1.TreeSize then true
              else (pushDownNode d l r).1.tree_deleted) = _
            rw [pushDownNode_invalid_point_num, pushDownNode_TreeSize,
              pushDownNode_tree_deleted]
          · exact pushDownNode_point_downsample_deleted d l r
          · exact pushDownNode_tree_downsample_deleted d l r
        · intro hH
          refine hullInv_node_pushed d _ l r (hh hH) ?_ ?_ ?_
          · exact ⟨rfl, rfl, rfl, rfl, rfl, rfl, rfl⟩
          · rfl
          · rfl
        · intro hR
          refine rangeInv_node_pushed d _ l r (hg hR) ?_ ?_ ?_ ?_
          · exact ⟨rfl, rfl, rfl, rfl, rfl, rfl, rfl⟩
          · rfl
          · rfl
          · rfl
        · intro hQ
          refine radiusInv_node_pushed d _ l r (hq hQ) ?_ ?_ ?_
          · exact ⟨rfl, rfl, rfl, rfl, rfl, rfl, rfl⟩
          · rfl
          · rfl
        · intro hnf
          have hin : d.point ∈ livePoints (node d l r) := by
            rw [livePoints_node, hm.2]
            simp
          rw [hnf _ hin] at hm
          exact absurd hm.1 (by simp)
      · have hlive := livePoints_node d l r
        split
        · obtain ⟨i1, i2, ig, iq, i3⟩ := deleteByPoint_count env hnth p allowRebuild fuel _
            (height_left_le h) hcl hhl hgl hql
          have sl : SonOK (pushDownNode d l r).1.need_push_down_to_left
              (deleteByPoint env fuel (pushDownNode d l r).2.1 p allowRebuild) := by
            left
            intro hn
            have := deleteByPoint_isNull env fuel _ p allowRebuild hn
            rw [pushDownNode_snd_fst, isNull_pushSon] at this
            rw [pushDownNode_need_left, this, Bool.and_false]
          obtain ⟨u1, u2, ug, uq, u3, _⟩ := updateAndRebuild_count env hnth allowRebuild _ _ _
            sl (sonOK_pushed_right d l r) i1 hcr i2 hhr ig hgr iq hqr hflag
          refine ⟨u1, u2, ug, uq, ?_⟩
          intro hnf
          rw [hlive] at hnf ⊢
          refine u3.trans ?_
          rw [pushDownNode_point_deleted, pushDownNode_point]
          exact (List.Perm.append_left _ (i3 (fun p' hp' => hnf p' (by simp [hp'])))).append_right _
        · obtain ⟨i1, i2, ig, iq, i3⟩ := deleteByPoint_count env hnth p allowRebuild fuel _
            (height_right_le h) hcr hhr hgr hqr
          have sr : SonOK (pushDownNode d l r).1.need_push_down_to_right
              (deleteByPoint env fuel (pushDownNode d l r).2.2 p allowRebuild) := by
            left
            intro hn
            have := deleteByPoint_isNull env fuel _ p allowRebuild hn
            rw [pushDownNode_snd_snd, isNull_pushSon] at this
            rw [pushDownNode_need_right, this, Bool.and_false]
          obtain ⟨u1, u2, ug, uq, u3, _⟩ := updateAndRebuild_count env hnth allowRebuild _ _ _
            (sonOK_pushed_left d l r) sr hcl i1 hhl i2 hgl ig hql iq hflag
          refine ⟨u1, u2, ug, uq, ?_⟩
          intro hnf
          rw [hlive] at hnf ⊢
          refine u3.trans ?_
          rw [pushDownNode_point_deleted, pushDownNode_point]
          exact List.Perm.append_left _ (i3 (fun p' hp' => hnf p' (by simp [hp'])))

/-- The loop of `deletePoints`. -/
theorem deletePoints_count {H R Q : Prop} (env : Env K) (hnth : NthPermutes env) :
    ∀ (S : List (PointType K)) (t : KD_TREE_NODE K),
    CountInv t → (H → HullInv t) → (R → RangeInv t) → (Q → RadiusInv t) →
    CountInv (deletePoints env t S) ∧ (H → HullInv (deletePoints env t S)) ∧
    (R → RangeInv (deletePoints env t S)) ∧ (Q → RadiusInv (deletePoints env t S)) ∧
    ((∀ s ∈ S, ∀ p' ∈ livePoints t, samePoint p' s = false) →
      (livePoints (deletePoints env t S)).Perm (livePoints t))
  | [], t, hc, hh, hg, hq => ⟨hc, hh, hg, hq, fun _ => List.Perm.refl _⟩
  | p :: ps, t, hc, hh, hg, hq => by
    obtain ⟨i1, i2, i3, i4, i5⟩ :=
      deleteByPoint_count env hnth p true t.height t le_rfl hc hh hg hq
    obtain ⟨j1, j2, j3, j4, j5⟩ := deletePoints_count env hnth ps _ i1 i2 i3 i4
    refine ⟨j1, j2, j3, j4, ?_⟩
    intro hnf
    have h1 := i5 (hnf p (List.mem_cons_self _ _))
    exact (j5 (fun s hs p' hp' =>
      hnf s (List.mem_cons_of_mem _ hs) p' (h1.subset hp'))).trans h1


/-! ## A deletion that finds no point -/

/-- The twelve-point tree after seven deletions has exact counters and range boxes. -/
theorem clusterFiveLive_inv : CountInv clusterFiveLive ∧ RangeInv clusterFiveLive := by
  have h := deletePoints_count defaultEnv nthPermutes_defaultEnv
    [pt 0 0 0, pt (1 / 100) 0 0, pt (2 / 100) 0 0, pt (3 / 100) 0 0, pt (4 / 100) 0 0,
     pt (6 / 100) 0 0, pt (5 / 100) (-5 / 100) 0] (build defaultEnv nil clusterPoints)
    (countInv_fresh _ (build_fresh _ nthPermutes_defaultEnv _ _).1)
    (fun hF : False => hF.elim)
    (fun _ : True => rangeInv_fresh _ (build_fresh _ nthPermutes_defaultEnv _ _).1)
    (fun hF : False => hF.elim)
  exact ⟨h.1, h.2.2.1 trivial⟩

theorem noPendingPush_of_treeDeleted (d : NodeFields K) (l r : KD_TREE_NODE K)
    (h : d.tree_deleted = true) : noPendingPush (node d l r) = true := by
  simp only [noPendingPush, h, Bool.true_or]

/-- Claim C13 (amended): for a tree with exact counters and a list `S` of points, if after
`delete_points(S)` no live point equals a point of `S` (within `EPS` on all three axes),
a second `delete_points(S)` leaves the live points the same up to order and `valid_count()`
unchanged. -/
theorem deletePoints_twice_when_all_removed (env : Env K) (hnth : NthPermutes env)
    (t : KD_TREE_NODE K) (S : List (PointType K)) (hc : CountInv t)
    (hS : ∀ s ∈ S, ∀ p' ∈ livePoints (deletePoints env t S), samePoint p' s = false) :
    (livePoints (deletePoints env (deletePoints env t S) S)).Perm
        (livePoints (deletePoints env t S)) ∧
      validnum (deletePoints env (deletePoints env t S) S) =
        validnum (deletePoints env t S) := by
  obtain ⟨h1, _, _, _, _⟩ := deletePoints_count env hnth S t hc
    (fun hF : False => hF.elim) (fun hF : False => hF.elim) (fun hF : False => hF.elim)
  obtain ⟨g1, _, _, _, g5⟩ := deletePoints_count env hnth S (deletePoints env t S) h1
    (fun hF : False => hF.elim) (fun hF : False => hF.elim) (fun hF : False => hF.elim)
  refine ⟨g5 hS, ?_⟩
  rw [validnum_eq_length_livePoints _ g1, validnum_eq_length_livePoints _ h1,
    (g5 hS).length_eq]

/-- Witness for C13: after `build([(0,0,0),(1,0,0)])` and `delete_points([(1,0,0)])` the
point `(1,0,0)` is not live, and a second `delete_points([(1,0,0)])` changes nothing. -/
theorem deletePoints_twice_when_all_removed_witness :
    NthPermutes defaultEnv ∧ CountInv twoPointTree ∧
      (∀ s ∈ [pt 1 0 0], ∀ p' ∈ livePoints (deletePoints defaultEnv twoPointTree [pt 1 0 0]),
        samePoint p' s = false) ∧
      (livePoints (deletePoints defaultEnv
        (deletePoints defaultEnv twoPointTree [pt 1 0 0]) [pt 1 0 0])).Perm
        (livePoints (deletePoints defaultEnv twoPointTree [pt 1 0 0])) ∧
      validnum (deletePoints defaultEnv
        (deletePoints defaultEnv twoPointTree [pt 1 0 0]) [pt 1 0 0]) =
        validnum (deletePoints defaultEnv twoPointTree [pt 1 0 0]) :=
  ⟨nthPermutes_defaultEnv, countInv_fresh _ (build_fresh _ nthPermutes_defaultEnv _ _).1,
    by decide!,
    (deletePoints_twice_when_all_removed defaultEnv nthPermutes_defaultEnv twoPointTree
      [pt 1 0 0] (countInv_fresh _ (build_fresh _ nthPermutes_defaultEnv _ _).1)
      (by decide!)).1,
    (deletePoints_twice_when_all_removed defaultEnv nthPermutes_defaultEnv twoPointTree
      [pt 1 0 0] (countInv_fresh _ (build_fresh _ nthPermutes_defaultEnv _ _).1)
      (by decide!)).2⟩

/-- Counterexample to C13 as stated: after `build([(0,0,0),(0,0,0)])` one
`delete_points([(0,0,0)])` leaves one live point and `valid_count()` `1`, a second one
leaves no live point and `valid_count()` `0`. Without equal points too: after `build` of
twelve distinct grid points one `delete_points` of eight of them leaves `(1,1,0)` live
(`valid_count()` `5`), a second one deletes it (`valid_count()` `4`). -/
theorem deletePoints_twice_removes_duplicate :
    livePoints (deletePoints defaultEnv duplicateTree [pt 0 0 0]) = [pt 0 0 0] ∧
      validnum (deletePoints defaultEnv duplicateTree [pt 0 0 0]) = 1 ∧
      livePoints (deletePoints defaultEnv
        (deletePoints defaultEnv duplicateTree [pt 0 0 0]) [pt 0 0 0]) = [] ∧
      validnum (deletePoints defaultEnv
        (deletePoints defaultEnv duplicateTree [pt 0 0 0]) [pt 0 0 0]) = 0 ∧
      gridPoints.Nodup ∧ pt 1 1 0 ∈ gridDeleted ∧
      pt 1 1 0 ∈ livePoints gridTree ∧ validnum gridTree = 5 ∧
      pt 1 1 0 ∉ livePoints (deletePoints defaultEnv gridTree gridDeleted) ∧
      validnum (deletePoints defaultEnv gridTree gridDeleted) = 4 := by
  decide!


/-! ## Pushing a subtree restoration down -/

theorem clearPush_pushFields_restore (e g go : NodeFields K) (hs : SameStatic go g)
    (he : e.tree_deleted = e.tree_downsample_deleted) (hr : PushRel false e g go)
    (hflag : go.tree_downsample_deleted = true → go.point_downsample_deleted = true) :
    clearPush (pushFields e g) = restoreFields (clearPush go) := by
  obtain ⟨s1, s2, s3, s4, s5, s6, s7⟩ := hs
  obtain ⟨r1, r2, r3⟩ := hr
  rw [Bool.or_false] at r1 r2
  simp only [Bool.false_eq_true, if_false] at r3
  apply fields_ext
  · exact s1.symm
  · exact s2.symm
  · exact s3.symm
  · show (if e.tree_deleted = true then g.TreeSize else
      (if e.tree_downsample_deleted = true then g.TreeSize else g.down_del_num)) =
        go.down_del_num
    rw [he, ← r3]
    split <;> rfl
  · exact r3
  · show ((e.tree_deleted || (g.tree_downsample_deleted || e.tree_downsample_deleted)) ||
      (g.point_downsample_deleted || e.tree_downsample_deleted)) = go.point_downsample_deleted
    have hE : e.tree_downsample_deleted = true → go.tree_downsample_deleted = true := by
      intro h
      rw [← r1, h, Bool.or_true]
    rw [he, r1, r2]
    cases h1 : go.tree_downsample_deleted
    · cases h2 : e.tree_downsample_deleted
      · simp
      · rw [hE h2] at h1; cases h1
    · simp [hflag h1]
  · show (e.tree_deleted || (g.tree_downsample_deleted || e.tree_downsample_deleted)) =
      go.tree_downsample_deleted
    rw [he, ← r1]
    cases e.tree_downsample_deleted <;> simp
  · exact r2
  · exact r1
  · rfl
  · rfl
  · exact s4.symm
  · exact s5.symm
  · exact s6.symm
  · exact s7.symm

/-- Pushing a restoration down a subtree of a tree with exact counters restores every node
of the subtree that is not downsample-deleted and changes nothing else. -/
theorem pushAllFrom_restored : ∀ (t : KD_TREE_NODE K)
    (fo : NodeFields K → NodeFields K) (e : NodeFields K),
    (∀ s, SameStatic (fo s) s) → e.tree_deleted = e.tree_downsample_deleted →
    AllNodes Agg (pushAllFrom fo t) →
    (∀ g l r, t = node g l r → PushRel false e g (fo g)) →
    pushAllFrom (pushFields e) t = restoreAll (pushAllFrom fo t)
  | nil, _, _, _, _, _, _ => rfl
  | node g l r, fo, e, hs, he, hagg, hrel => by
    have hr := hrel g l r rfl
    obtain ⟨hroot, hl, hr'⟩ := hagg
    have htdd : (clearPush (fo g)).tree_downsample_deleted = true →
        (treeDownDeleted (pushAllFrom (if (fo g).need_push_down_to_left = true then
          pushFields (fo g) else id) l) = true ∧
        treeDownDeleted (pushAllFrom (if (fo g).need_push_down_to_right = true then
          pushFields (fo g) else id) r) = true) ∧
        (clearPush (fo g)).point_downsample_deleted = true := by
      intro hh
      rw [hroot.2.2.2.2.1] at hh
      simp only [Bool.and_eq_true] at hh
      exact hh
    have he' : (pushFields e g).tree_deleted = (pushFields e g).tree_downsample_deleted := by
      show (e.tree_deleted || (g.tree_downsample_deleted || e.tree_downsample_deleted)) =
        (g.tree_downsample_deleted || e.tree_downsample_deleted)
      rw [he]
      cases e.tree_downsample_deleted <;> simp
    show node (clearPush (pushFields e g)) (pushAllFrom (pushFields (pushFields e g)) l)
        (pushAllFrom (pushFields (pushFields e g)) r) =
      node (restoreFields (clearPush (fo g))) (restoreAll (pushAllFrom _ l))
        (restoreAll (pushAllFrom _ r))
    rw [clearPush_pushFields_restore e g (fo g) (hs g) he hr (fun hh => (htdd hh).2),
      pushAllFrom_restored l _ (pushFields e g) (fun s => (sameStatic_next (fo g) s).1) he' hl
        (fun h a b hlab => by
          subst hlab
          exact pushRel_son false e g (fo g) h _ a b hr (fun hh => (htdd hh).1.1) hl),
      pushAllFrom_restored r _ (pushFields e g) (fun s => (sameStatic_next (fo g) s).2) he' hr'
        (fun h a b hlab => by
          subst hlab
          exact pushRel_son false e g (fo g) h _ a b hr (fun hh => (htdd hh).1.2) hr')]

/-- Restoring a pushed tree with exact counters keeps the counters exact. -/
theorem allNodes_agg_restoreAll : ∀ u : KD_TREE_NODE K, AllNodes Agg u →
    AllNodes Agg (restoreAll u)
  | nil, _ => trivial
  | node d l r, h => by
    obtain ⟨⟨h1, h2, h3, h4, h5, h6⟩, hl, hr⟩ := h
    have sl : size (restoreAll l) = size l := by cases l <;> rfl
    have sr : size (restoreAll r) = size r := by cases r <;> rfl
    have il : invalidNum (restoreAll l) = downDelNum l := by cases l <;> rfl
    have ir : invalidNum (restoreAll r) = downDelNum r := by cases r <;> rfl
    have dl : downDelNum (restoreAll l) = downDelNum l := by cases l <;> rfl
    have dr : downDelNum (restoreAll r) = downDelNum r := by cases r <;> rfl
    have tl : treeDeleted (restoreAll l) = treeDownDeleted l := by cases l <;> rfl
    have tr : treeDeleted (restoreAll r) = treeDownDeleted r := by cases r <;> rfl
    have ddl : treeDownDeleted (restoreAll l) = treeDownDeleted l := by cases l <;> rfl
    have ddr : treeDownDeleted (restoreAll r) = treeDownDeleted r := by cases r <;> rfl
    refine ⟨⟨?_, ?_, ?_, ?_, ?_, fun hh => hh⟩, allNodes_agg_restoreAll l hl,
      allNodes_agg_restoreAll r hr⟩
    · show d.TreeSize = _
      rw [sl, sr, h1]
    · show d.down_del_num = _ + _ + (if d.point_downsample_deleted = true then 1 else 0)
      rw [il, ir, h3]
    · show d.down_del_num = _ + _ + (if d.point_downsample_deleted = true then 1 else 0)
      rw [dl, dr, h3]
    · show d.tree_downsample_deleted = (_ && _ && d.point_downsample_deleted)
      rw [tl, tr, h5]
    · show d.tree_downsample_deleted = (_ && _ && d.point_downsample_deleted)
      rw [ddl, ddr, h5]

theorem undeleted_restoreAll : ∀ u : KD_TREE_NODE K, undeleted (restoreAll u) = kept u
  | nil => rfl
  | node d l r => by
    show (if d.point_downsample_deleted = true then [] else [d.point]) ++
      undeleted (restoreAll l) ++ undeleted (restoreAll r) = _
    rw [undeleted_restoreAll l, undeleted_restoreAll r]; rfl

theorem kept_restoreAll : ∀ u : KD_TREE_NODE K, kept (restoreAll u) = kept u
  | nil => rfl
  | node d l r => by
    show (if d.point_downsample_deleted = true then [] else [d.point]) ++
      kept (restoreAll l) ++ kept (restoreAll r) = _
    rw [kept_restoreAll l, kept_restoreAll r]; rfl

theorem points_restoreAll : ∀ u : KD_TREE_NODE K, points (restoreAll u) = points u
  | nil => rfl
  | node d l r => by
    show d.point :: (points (restoreAll l) ++ points (restoreAll r)) = _
    rw [points_restoreAll l, points_restoreAll r]; rfl

theorem allNodes_hull_restoreAll : ∀ u : KD_TREE_NODE K,
    AllNodes (fun d l r => ∀ b : BoxPointType K,
      (∀ p ∈ points (node d l r), pointInBox b p = true) → WithinBox b d) u →
    AllNodes (fun d l r => ∀ b : BoxPointType K,
      (∀ p ∈ points (node d l r), pointInBox b p = true) → WithinBox b d) (restoreAll u)
  | nil, _ => trivial
  | node d l r, h => by
    obtain ⟨h0, hl, hr⟩ := h
    refine ⟨?_, allNodes_hull_restoreAll l hl, allNodes_hull_restoreAll r hr⟩
    intro b hb
    have hp : points (node (restoreFields d) (restoreAll l) (restoreAll r)) =
        points (node d l r) := points_restoreAll (node d l r)
    rw [hp] at hb
    exact h0 b hb


/-! ## `addByRange` -/

/-- A restoring push is related to the sons of a node with exact counters as `PushRel`
asks. -/
theorem pushRel_restore (e d : NodeFields K) (l r : KD_TREE_NODE K)
    (hagg : Agg d (pushDownNode d l r).2.1 (pushDownNode d l r).2.2)
    (he : e.tree_downsample_deleted = d.tree_downsample_deleted) :
    (∀ (t : KD_TREE_NODE K) g a b, t = node g a b → t = (pushDownNode d l r).2.1 →
      CountInv t → PushRel false e g (id g)) ∧
    (∀ (t : KD_TREE_NODE K) g a b, t = node g a b → t = (pushDownNode d l r).2.2 →
      CountInv t → PushRel false e g (id g)) := by
  have key : ∀ (g : NodeFields K) (a b : KD_TREE_NODE K), CountInv (node g a b) →
      (d.tree_downsample_deleted = true → g.tree_downsample_deleted = true) →
      PushRel false e g (id g) := by
    intro g a b hc himp
    cases hd : d.tree_downsample_deleted
    · refine ⟨?_, ?_, ?_⟩ <;> rw [he, hd] <;> rfl
    · have hg := himp hd
      have hdd := downDelNum_of_treeDownDeleted (pushAll (node g a b)) hc hg
      have t2 : downDelNum (pushAll (node g a b)) = g.down_del_num := rfl
      have t3 : size (pushAll (node g a b)) = g.TreeSize := rfl
      rw [t2, t3] at hdd
      have hp : g.point_downsample_deleted = true := by
        have h5 := hc.1.2.2.2.2.1
        have h6 : (clearPush (id g)).tree_downsample_deleted = true := hg
        rw [h5] at h6
        simp only [Bool.and_eq_true] at h6
        exact h6.2
      refine ⟨?_, ?_, ?_⟩
      · rw [he, hd]; show (g.tree_downsample_deleted || true) = (g.tree_downsample_deleted || false)
        rw [hg]; rfl
      · rw [he, hd]
        show (g.point_downsample_deleted || true) = (g.point_downsample_deleted || false)
        rw [hp]; rfl
      · rw [he, hd]
        show g.TreeSize = g.down_del_num
        exact hdd.symm
  have h5 := hagg.2.2.2.2.1
  constructor
  · intro t g a b ht hpl hc
    subst ht
    refine key g a b hc ?_
    intro hd
    rw [h5, ← hpl] at hd
    simp only [Bool.and_eq_true] at hd
    exact hd.1.1
  · intro t g a b ht hpr hc
    subst ht
    refine key g a b hc ?_
    intro hd
    rw [h5, ← hpr] at hd
    simp only [Bool.and_eq_true] at hd
    exact hd.1.2

/-- The covering branch of `addByRange`: after push-down the result is the old tree with
every node restored unless it is downsample-deleted. -/
theorem pushAll_restore_cover (d e : NodeFields K) (l r : KD_TREE_NODE K)
    (hc : CountInv (node d l r))
    (h2 : clearPush e = restoreFields (clearPush d))
    (hnl : e.need_push_down_to_left = true) (hnr : e.need_push_down_to_right = true) :
    pushAll (node e (pushDownNode d l r).2.1 (pushDownNode d l r).2.2) =
      restoreAll (pushAll (node d l r)) := by
  obtain ⟨hagg, hcl, hcr⟩ := (countInv_node d l r).1 hc
  have e1 : e.tree_deleted = e.tree_downsample_deleted := by
    have a1 : (clearPush e).tree_deleted = d.tree_downsample_deleted := by rw [h2]; rfl
    have a2 : (clearPush e).tree_downsample_deleted = d.tree_downsample_deleted := by
      rw [h2]; rfl
    exact a1.trans a2.symm
  have e2 : e.tree_downsample_deleted = d.tree_downsample_deleted := by
    have a2 : (clearPush e).tree_downsample_deleted = d.tree_downsample_deleted := by
      rw [h2]; rfl
    exact a2
  obtain ⟨rl, rr⟩ := pushRel_restore e d l r hagg e2
  rw [pushAll_node e, pushDownNode_snd_fst e, pushDownNode_snd_snd e, hnl, hnr,
    pushAll_pushSon, pushAll_pushSon, pushAll_node d l r]
  simp only [if_true]
  rw [pushAllFrom_restored _ id e sameStatic_refl e1 hcl
      (fun g a b h => rl _ g a b h rfl (h ▸ hcl)),
    pushAllFrom_restored _ id e sameStatic_refl e1 hcr
      (fun g a b h => rr _ g a b h rfl (h ▸ hcr)), h2]
  rfl

theorem subperm_append {α : Type} {a b c d : List α} (h1 : a.Subperm b) (h2 : c.Subperm d) :
    (a ++ c).Subperm (b ++ d) :=
  ((List.subperm_append_right c).2 h1).trans ((List.subperm_append_left b).2 h2)

/-- With enough fuel and on a tree with exact counters, `addByRange` keeps the counters
exact and keeps the range boxes inside the hull of the stored points; the points of the
nodes that are not downsample-deleted afterwards are among those before. -/
theorem addByRange_count {H : Prop} (env : Env K) (hnth : NthPermutes env)
    (b : BoxPointType K) (allowRebuild : Bool) : ∀ (fuel : Nat) (t : KD_TREE_NODE K),
    t.height ≤ fuel → CountInv t → (H → HullInv t) →
    CountInv (addByRange env fuel t b allowRebuild) ∧
    (H → HullInv (addByRange env fuel t b allowRebuild)) ∧
    (keptPoints (addByRange env fuel t b allowRebuild)).Subperm (keptPoints t)
  | _, nil, _, _, _ => by
    cases ‹Nat› <;> exact ⟨countInv_nil, fun _ => hullInv_nil, List.Subperm.refl _⟩
  | 0, node d l r, h, _, _ => by simp [height] at h
  | fuel + 1, node d l r, h, hc, hh => by
    obtain ⟨hagg, hcl, hcr⟩ := (countInv_node d l r).1 hc
    have hhl : H → HullInv (pushDownNode d l r).2.1 :=
      fun hH => ((hullInv_node d l r).1 (hh hH)).2.1
    have hhr : H → HullInv (pushDownNode d l r).2.2 :=
      fun hH => ((hullInv_node d l r).1 (hh hH)).2.2
    simp only [addByRange]
    split
    · have hpush := pushAll_pushDownNode d l r
      exact ⟨(countInv_congr hpush).2 hc, fun hH => (hullInv_congr hpush).2 (hh hH),
        by rw [keptPoints_congr hpush]⟩
    · split
      · have hpush : pushAll (node
            { (pushDownNode d l r).1 with
              tree_deleted := false || (pushDownNode d l r).1.tree_downsample_deleted
              point_deleted := false || (pushDownNode d l r).1.point_downsample_deleted
              need_push_down_to_left := true, need_push_down_to_right := true
              invalid_point_num := (pushDownNode d l r).1.down_del_num }
            (pushDownNode d l r).2.1 (pushDownNode d l r).2.2) =
            restoreAll (pushAll (node d l r)) := by
          apply pushAll_restore_cover d _ l r hc
          · apply fields_ext <;> simp [clearPush, restoreFields]
          · rfl
          · rfl
        refine ⟨?_, ?_, ?_⟩
        · unfold CountInv
          rw [hpush]
          exact allNodes_agg_restoreAll _ hc
        · intro hH
          unfold HullInv
          rw [hpush]
          exact allNodes_hull_restoreAll _ (hh hH)
        · unfold keptPoints
          rw [hpush, kept_restoreAll]
      · obtain ⟨il1, il2, il3⟩ := addByRange_count env hnth b allowRebuild fuel _
          (height_left_le h) hcl hhl
        obtain ⟨ir1, ir2, ir3⟩ := addByRange_count env hnth b allowRebuild fuel _
          (height_right_le h) hcr hhr
        have sl : SonOK (pushDownNode d l r).1.need_push_down_to_left
            (addByRange env fuel (pushDownNode d l r).2.1 b allowRebuild) := by
          left
          intro hn
          rw [pushDownNode_need_left]
          cases l with
          | nil => cases fuel <;> simp [addByRange, pushDownNode_snd_fst, isNull] at hn
          | node _ _ _ => simp [isNull]
        have sr : SonOK (pushDownNode d l r).1.need_push_down_to_right
            (addByRange env fuel (pushDownNode d l r).2.2 b allowRebuild) := by
          left
          intro hn
          rw [pushDownNode_need_right]
          cases r with
          | nil => cases fuel <;> simp [addByRange, pushDownNode_snd_snd, isNull] at hn
          | node _ _ _ => simp [isNull]
        have hflag0 : d.point_downsample_deleted = true → d.point_deleted = true :=
          hagg.2.2.2.2.2
        have hk := keptPoints_node d l r
        cases hin : pointInBox b (pushDownNode d l r).1.point
        · simp only [Bool.false_eq_true, if_false]
          have hflag : (pushDownNode d l r).1.point_downsample_deleted = true →
              (pushDownNode d l r).1.point_deleted = true := by simpa using hflag0
          obtain ⟨u1, u2, _, _, _, u5⟩ := updateAndRebuild_count env hnth allowRebuild _ _ _
            sl sr il1 ir1 il2 ir2 (fun hF : False => hF.elim) (fun hF => hF.elim)
            (fun hF : False => hF.elim) (fun hF => hF.elim) hflag
          refine ⟨u1, u2, u5.trans ?_⟩
          rw [hk, pushDownNode_point_downsample_deleted, pushDownNode_point]
          exact subperm_append (subperm_append (List.Subperm.refl _) il3) ir3
        · simp only [if_true]
          obtain ⟨u1, u2, _, _, _, u5⟩ := updateAndRebuild_count env hnth allowRebuild
            { (pushDownNode d l r).1 with
              point_deleted := (pushDownNode d l r).1.point_downsample_deleted } _ _
            sl sr il1 ir1 il2 ir2 (fun hF : False => hF.elim) (fun hF => hF.elim)
            (fun hF : False => hF.elim) (fun hF => hF.elim) (fun hh => hh)
          refine ⟨u1, u2, u5.trans ?_⟩
          rw [hk]
          show ((if (pushDownNode d l r).1.point_downsample_deleted = true then []
            else [(pushDownNode d l r).1.point]) ++ _ ++ _).Subperm _
          rw [pushDownNode_point_downsample_deleted, pushDownNode_point]
          exact subperm_append (subperm_append (List.Subperm.refl _) il3) ir3

/-- The loop of `addPointBoxes`. -/
theorem addPointBoxes_count {H : Prop} (env : Env K) (hnth : NthPermutes env) :
    ∀ (bs : List (BoxPointType K)) (t : KD_TREE_NODE K), CountInv t → (H → HullInv t) →
    CountInv (addPointBoxes env t bs) ∧ (H → HullInv (addPointBoxes env t bs)) ∧
    (keptPoints (addPointBoxes env t bs)).Subperm (keptPoints t)
  | [], t, hc, hh => ⟨hc, hh, List.Subperm.refl _⟩
  | b :: bs, t, hc, hh => by
    obtain ⟨i1, i2, i3⟩ := addByRange_count env hnth b true t.height t le_rfl hc hh
    obtain ⟨j1, j2, j3⟩ := addPointBoxes_count env hnth bs _ i1 i2
    exact ⟨j1, j2, j3.trans i3⟩


/-! ## Search results are live points -/

/-- With enough fuel `searchByRange` appends live points only, whatever the range boxes. -/
theorem searchByRange_sublist : ∀ (fuel : Nat) (t : KD_TREE_NODE K) (b : BoxPointType K)
    (storage : List (PointType K)), t.height ≤ fuel →
    ∃ s, (searchByRange fuel t b storage).2 = storage ++ s ∧ s.Sublist (livePoints t)
  | _, nil, _, _, _ => by cases ‹Nat› <;> exact ⟨[], by simp [searchByRange], List.nil_sublist _⟩
  | 0, node d l r, _, _, h => by simp [height] at h
  | fuel + 1, node d l r, b, storage, h => by
    simp only [searchByRange]
    split
    · exact ⟨[], by simp, List.nil_sublist _⟩
    · split
      · have hh : (node (pushDownNode d l r).1 (pushDownNode d l r).2.1
            (pushDownNode d l r).2.2).height ≤ fuel + 1 := by
          simp only [height, height_pushDownNode_left, height_pushDownNode_right]
          simpa [height] using h
        rw [flatten_snd _ _ _ hh, livePoints_congr (pushAll_pushDownNode d l r)]
        exact ⟨_, rfl, List.Sublist.refl _⟩
      · obtain ⟨s1, e1, b1⟩ := searchByRange_sublist fuel (pushDownNode d l r).2.1 b
          (if (pointInBox b (pushDownNode d l r).1.point &&
            !(pushDownNode d l r).1.point_deleted) = true
            then storage ++ [(pushDownNode d l r).1.point] else storage) (height_left_le h)
        obtain ⟨s2, e2, b2⟩ := searchByRange_sublist fuel (pushDownNode d l r).2.2 b
          (searchByRange fuel (pushDownNode d l r).2.1 b
            (if (pointInBox b (pushDownNode d l r).1.point &&
              !(pushDownNode d l r).1.point_deleted) = true
              then storage ++ [(pushDownNode d l r).1.point] else storage)).2
          (height_right_le h)
        rw [e2, e1, livePoints_node d l r]
        simp only [pushDownNode_point, pushDownNode_point_deleted]
        cases hpd : d.point_deleted <;> cases hb : pointInBox b d.point
        · refine ⟨s1 ++ s2, by simp, ?_⟩
          simp only [Bool.false_eq_true, if_false, List.append_assoc]
          exact (List.nil_sublist _).append (b1.append b2)
        · refine ⟨[d.point] ++ s1 ++ s2, by simp, ?_⟩
          simp only [Bool.false_eq_true, if_false]
          exact ((List.Sublist.refl _).append b1).append b2
        · refine ⟨s1 ++ s2, by simp, ?_⟩
          simp only [if_true, List.nil_append]
          exact b1.append b2
        · refine ⟨s1 ++ s2, by simp, ?_⟩
          simp only [if_true, List.nil_append]
          exact b1.append b2

/-- With enough fuel `searchByRadius` appends live points only, whatever the range boxes,
the radii and the square root. -/
theorem searchByRadius_sublist (sqrt : K → K) (q : PointType K) (radius : K) :
    ∀ (fuel : Nat) (t : KD_TREE_NODE K) (storage : List (PointType K)), t.height ≤ fuel →
    ∃ s, (searchByRadius sqrt fuel t q radius storage).2 = storage ++ s ∧
      s.Sublist (livePoints t)
  | _, nil, _, _ => by
    cases ‹Nat› <;> exact ⟨[], by simp [searchByRadius], List.nil_sublist _⟩
  | 0, node d l r, _, h => by simp [height] at h
  | fuel + 1, node d l r, storage, h => by
    simp only [searchByRadius]
    split
    · exact ⟨[], by simp, List.nil_sublist _⟩
    · split
      · have hh : (node (pushDownNode d l r).1 (pushDownNode d l r).2.1
            (pushDownNode d l r).2.2).height ≤ fuel + 1 := by
          simp only [height, height_pushDownNode_left, height_pushDownNode_right]
          simpa [height] using h
        rw [flatten_snd _ _ _ hh, livePoints_congr (pushAll_pushDownNode d l r)]
        exact ⟨_, rfl, List.Sublist.refl _⟩
      · obtain ⟨s1, e1, b1⟩ := searchByRadius_sublist sqrt q radius fuel
          (pushDownNode d l r).2.1
          (if (!(pushDownNode d l r).1.point_deleted &&
            decide (calcDist (pushDownNode d l r).1.point q ≤ radius * radius)) = true
            then storage ++ [(pushDownNode d l r).1.point] else storage) (height_left_le h)
        obtain ⟨s2, e2, b2⟩ := searchByRadius_sublist sqrt q radius fuel
          (pushDownNode d l r).2.2
          (searchByRadius sqrt fuel (pushDownNode d l r).2.1 q radius
            (if (!(pushDownNode d l r).1.point_deleted &&
              decide (calcDist (pushDownNode d l r).1.point q ≤ radius * radius)) = true
              then storage ++ [(pushDownNode d l r).1.point] else storage)).2
          (height_right_le h)
        rw [e2, e1, livePoints_node d l r]
        simp only [pushDownNode_point, pushDownNode_point_deleted]
        cases hpd : d.point_deleted <;>
          by_cases hb : calcDist d.point q ≤ radius * radius
        · refine ⟨[d.point] ++ s1 ++ s2, by simp [hb], ?_⟩
          simp only [Bool.false_eq_true, if_false]
          exact ((List.Sublist.refl _).append b1).append b2
        · refine ⟨s1 ++ s2, by simp [hb], ?_⟩
          simp only [Bool.false_eq_true, if_false, List.append_assoc]
          exact (List.nil_sublist _).append (b1.append b2)
        · refine ⟨s1 ++ s2, by simp, ?_⟩
          simp only [if_true, List.nil_append]
          exact b1.append b2
        · refine ⟨s1 ++ s2, by simp, ?_⟩
          simp only [if_true, List.nil_append]
          exact b1.append b2

/-- Every point returned by a box search or a radius search is a live point of the tree,
whatever the range boxes, the radii and the square root. -/
theorem search_results_live (t : KD_TREE_NODE K) (p : PointType K) :
    (∀ b : BoxPointType K, p ∈ (boxSearch t b).2 → p ∈ livePoints t) ∧
    (∀ (sqrt : K → K) (c : PointType K) (radius : K),
      p ∈ (radiusSearch sqrt t c radius).2 → p ∈ livePoints t) := by
  refine ⟨?_, ?_⟩
  · intro b hp
    obtain ⟨s, e, hs⟩ := searchByRange_sublist t.height t b [] le_rfl
    unfold boxSearch at hp
    rw [e, List.nil_append] at hp
    exact hs.subset hp
  · intro sqrt c radius hp
    obtain ⟨s, e, hs⟩ := searchByRadius_sublist sqrt c radius t.height t [] le_rfl
    unfold radiusSearch at hp
    rw [e, List.nil_append] at hp
    exact hs.subset hp

/-! ## The entries of the heap, whatever its capacity -/

theorem push_entries (P : PointType_CMP K → Prop) (heap : MANUAL_HEAP K) (x : PointType_CMP K)
    (hP : ∀ e ∈ heap.m_heap, P e) (hx : P x) : ∀ e ∈ (heap.push x).m_heap, P e := by
  by_cases hcap : heap.size < heap.m_cap
  · obtain ⟨_, p2, _⟩ := push_spec (ordered_true P) heap x (fun _ _ _ _ _ _ => trivial) hP hx
      hcap
    intro e he
    rcases List.mem_cons.1 (p2.subset he) with h | h
    · rw [h]; exact hx
    · exact hP e h
  · have : heap.push x = heap := by
      unfold MANUAL_HEAP.push
      rw [if_pos (not_lt.1 hcap)]
    rw [this]
    exact hP

theorem pop_entries (P : PointType_CMP K → Prop) (heap : MANUAL_HEAP K)
    (hP : ∀ e ∈ heap.m_heap, P e) : ∀ e ∈ heap.pop.m_heap, P e := by
  cases hm : heap.m_heap with
  | nil =>
    rw [pop_of_nil heap hm]
    exact hP
  | cons t rest =>
    obtain ⟨_, p2, _⟩ := pop_spec (ordered_true P) heap t rest hm (fun _ _ _ _ _ _ => trivial)
      hP
    intro e he
    exact hP e (p2.subset (List.mem_cons_of_mem _ he))

theorem visitPoint_entries (P : PointType_CMP K → Prop) (k : Nat) (q : PointType K)
    (maxDist : Option K) (heap : MANUAL_HEAP K) (d : NodeFields K)
    (hd : d.point_deleted = false → P ⟨d.point, calcDist q d.point⟩)
    (hP : ∀ e ∈ heap.m_heap, P e) : ∀ e ∈ (visitPoint k q maxDist heap d).m_heap, P e := by
  unfold visitPoint
  split
  · rename_i hc
    rw [Bool.and_eq_true, Bool.not_eq_true'] at hc
    split
    · exact push_entries P _ _ (pop_entries P heap hP) (hd hc.1)
    · exact push_entries P _ _ hP (hd hc.1)
  · exact hP

theorem searchSons_entries (P : PointType_CMP K → Prop)
    (sL sR : MANUAL_HEAP K → KD_TREE_NODE K × MANUAL_HEAP K) (dl dr : Option K) (k : Nat)
    (d : NodeFields K) (l r : KD_TREE_NODE K) (q1 : MANUAL_HEAP K)
    (hL : ∀ h, (∀ e ∈ h.m_heap, P e) → ∀ e ∈ (sL h).2.m_heap, P e)
    (hR : ∀ h, (∀ e ∈ h.m_heap, P e) → ∀ e ∈ (sR h).2.m_heap, P e)
    (hP : ∀ e ∈ q1.m_heap, P e) :
    ∀ e ∈ (searchSons sL sR dl dr k d l r q1).2.m_heap, P e := by
  unfold searchSons
  split
  · split
    · split
      · exact hR _ (hL _ hP)
      · exact hL _ hP
    · split
      · exact hL _ (hR _ hP)
      · exact hR _ hP
  · by_cases c1 : ltTop dl q1 = true
    · simp only [if_pos c1]
      by_cases c2 : ltTop dr (sL q1).2 = true
      · simp only [if_pos c2]
        exact hR _ (hL _ hP)
      · simp only [if_neg c2]
        exact hL _ hP
    · simp only [if_neg c1]
      by_cases c2 : ltTop dr q1 = true
      · simp only [if_pos c2]
        exact hR _ hP
      · simp only [if_neg c2]
        exact hP

/-- Whatever `k`, the capacity of the heap and the distance bound, every entry that `search`
adds to the heap is made from a point that the stored flags leave visible. -/
theorem search_entries (P : PointType_CMP K → Prop) (k : Nat) (q : PointType K)
    (maxDist : Option K) : ∀ (fuel : Nat) (t : KD_TREE_NODE K) (heap : MANUAL_HEAP K),
    (∀ p ∈ visible t, P ⟨p, calcDist q p⟩) → (∀ e ∈ heap.m_heap, P e) →
    ∀ e ∈ (search fuel t k q heap maxDist).2.m_heap, P e := by
  intro fuel
  induction fuel with
  | zero => intro t heap _ hP; cases t <;> exact hP
  | succ n ih =>
    intro t heap hv hP
    cases t with
    | nil => exact hP
    | node d l r =>
      rw [search_succ]
      split
      · exact hP
      · rename_i htd
        rw [visible_node d l r htd] at hv
        split
        · exact hP
        · exact searchSons_entries P _ _ _ _ k d l r _
            (fun h hh => ih l h (fun p hp => hv p (by simp [hp])) hh)
            (fun h hh => ih r h (fun p hp => hv p (by simp [hp])) hh)
            (visitPoint_entries P k q maxDist heap d
              (fun hpd => hv d.point (by rw [hpd]; simp)) hP)

theorem drainHeap_points : ∀ (n : Nat) (heap : MANUAL_HEAP K) (out : List (PointType K) × List K)
    (p : PointType K), p ∈ (drainHeap n heap out).1 →
    p ∈ out.1 ∨ ∃ e ∈ heap.m_heap, e.point = p
  | 0, _, _, _, h => Or.inl h
  | n + 1, heap, out, p, h => by
    cases hm : heap.m_heap with
    | nil =>
      have ht : heap.top = none := by rw [MANUAL_HEAP.top, hm]; rfl
      simp only [drainHeap, ht] at h
      exact Or.inl h
    | cons t rest =>
      have ht : heap.top = some t := by rw [MANUAL_HEAP.top, hm]; rfl
      simp only [drainHeap, ht] at h
      rcases drainHeap_points n heap.pop _ p h with h1 | ⟨e, he, hep⟩
      · rcases List.mem_cons.1 h1 with h2 | h2
        · exact Or.inr ⟨t, List.mem_cons_self _ _, h2.symm⟩
        · exact Or.inl h2
      · have := pop_entries (fun x => x ∈ heap.m_heap) heap (fun _ hx => hx) e he
        rw [hm] at this
        exact Or.inr ⟨e, this, hep⟩

/-- Every point returned by `nearestSearch`, whatever `k` and the distance bound, is a point
that the stored flags leave visible. -/
theorem nearestSearch_results_visible (t : KD_TREE_NODE K) (q : PointType K) (k : Nat)
    (maxDist : Option K) : ∀ p ∈ (nearestSearch t q k maxDist).2.1, p ∈ visible t := by
  intro p hp
  rcases drainHeap_points _ _ _ p hp with h | ⟨e, he, hep⟩
  · cases h
  · have := search_entries (fun x => x.point ∈ visible t) k q maxDist t.height t
      (MANUAL_HEAP.empty (heapCapacity k)) (fun p hp => hp)
      (fun e he => by simp [MANUAL_HEAP.empty] at he) e he
    rw [← hep]
    exact this


/-! ## Counters and hull under `deleteByRange` and `addByPoint` -/

theorem points_markDeleted (ds : Bool) : ∀ u : KD_TREE_NODE K,
    points (markDeleted ds u) = points u
  | nil => rfl
  | node d l r => by
    show d.point :: (points (markDeleted ds l) ++ points (markDeleted ds r)) = _
    rw [points_markDeleted ds l, points_markDeleted ds r]; rfl

theorem allNodes_hull_markDeleted (ds : Bool) : ∀ u : KD_TREE_NODE K,
    AllNodes (fun d l r => ∀ b : BoxPointType K,
      (∀ p ∈ points (node d l r), pointInBox b p = true) → WithinBox b d) u →
    AllNodes (fun d l r => ∀ b : BoxPointType K,
      (∀ p ∈ points (node d l r), pointInBox b p = true) → WithinBox b d) (markDeleted ds u)
  | nil, _ => trivial
  | node d l r, h => by
    obtain ⟨h0, hl, hr⟩ := h
    refine ⟨?_, allNodes_hull_markDeleted ds l hl, allNodes_hull_markDeleted ds r hr⟩
    intro b hb
    have hp : points (node (markFields ds d) (markDeleted ds l) (markDeleted ds r)) =
        points (node d l r) := points_markDeleted ds (node d l r)
    rw [hp] at hb
    exact h0 b hb

/-- With enough fuel and on a tree with exact counters, `deleteByRange` keeps the counters
exact and keeps the range boxes inside the hull of the stored points, whatever the range
boxes are. -/
theorem deleteByRange_count {H : Prop} (env : Env K) (hnth : NthPermutes env)
    (b : BoxPointType K) (allowRebuild isDownsample : Bool) :
    ∀ (fuel : Nat) (t : KD_TREE_NODE K), t.height ≤ fuel → CountInv t → (H → HullInv t) →
    CountInv (deleteByRange env fuel t b allowRebuild isDownsample).1 ∧
    (H → HullInv (deleteByRange env fuel t b allowRebuild isDownsample).1)
  | _, nil, _, _, _ => by
    cases ‹Nat› <;> exact ⟨countInv_nil, fun _ => hullInv_nil⟩
  | 0, node d l r, h, _, _ => by simp [height] at h
  | fuel + 1, node d l r, h, hc, hh => by
    simp only [deleteByRange]
    split
    · exact ⟨hc, hh⟩
    · rename_i htd
      have htd : d.tree_deleted = false := by simpa using htd
      obtain ⟨hagg, hcl, hcr⟩ := (countInv_node d l r).1 hc
      have hhl : H → HullInv (pushDownNode d l r).2.1 :=
        fun hH => ((hullInv_node d l r).1 (hh hH)).2.1
      have hhr : H → HullInv (pushDownNode d l r).2.2 :=
        fun hH => ((hullInv_node d l r).1 (hh hH)).2.2
      split
      · have hpush := pushAll_pushDownNode d l r
        exact ⟨(countInv_congr hpush).2 hc, fun hH => (hullInv_congr hpush).2 (hh hH)⟩
      · split
        · have hpush : pushAll (node
              (if isDownsample = true then
                { ({ (pushDownNode d l r).1 with
                    tree_deleted := true, point_deleted := true,
                    need_push_down_to_left := true, need_push_down_to_right := true,
                    invalid_point_num := (pushDownNode d l r).1.TreeSize } : NodeFields K) with
                  tree_downsample_deleted := true, point_downsample_deleted := true,
                  down_del_num := (pushDownNode d l r).1.TreeSize }
              else
                { (pushDownNode d l r).1 with
                  tree_deleted := true, point_deleted := true,
                  need_push_down_to_left := true, need_push_down_to_right := true,
                  invalid_point_num := (pushDownNode d l r).1.TreeSize })
              (pushDownNode d l r).2.1 (pushDownNode d l r).2.2) =
              markDeleted isDownsample (pushAll (node d l r)) := by
            apply pushAll_cover d _ l r isDownsample hc htd
            · cases isDownsample
              · simp only [Bool.false_eq_true, if_false]
                apply fields_ext <;> simp [clearPush, markFields]
              · simp only [if_true]
                apply fields_ext <;> simp [clearPush, markFields]
            · cases isDownsample <;> rfl
            · cases isDownsample <;> rfl
          refine ⟨?_, ?_⟩
          · unfold CountInv
            rw [hpush]
            exact allNodes_agg_markDeleted _ _ hc
          · intro hH
            unfold HullInv
            rw [hpush]
            exact allNodes_hull_markDeleted _ _ (hh hH)
        · obtain ⟨il1, il2⟩ := deleteByRange_count env hnth b allowRebuild isDownsample
            fuel _ (height_left_le h) hcl hhl
          obtain ⟨ir1, ir2⟩ := deleteByRange_count env hnth b allowRebuild isDownsample
            fuel _ (height_right_le h) hcr hhr
          have sl : SonOK (pushDownNode d l r).1.need_push_down_to_left
              (deleteByRange env fuel (pushDownNode d l r).2.1 b allowRebuild isDownsample).1 := by
            left
            intro hn
            rw [pushDownNode_need_left]
            cases l with
            | nil => cases fuel <;> simp [deleteByRange, pushDownNode_snd_fst, isNull] at hn
            | node _ _ _ => simp [isNull]
          have sr : SonOK (pushDownNode d l r).1.need_push_down_to_right
              (deleteByRange env fuel (pushDownNode d l r).2.2 b allowRebuild isDownsample).1 := by
            left
            intro hn
            rw [pushDownNode_need_right]
            cases r with
            | nil => cases fuel <;> simp [deleteByRange, pushDownNode_snd_snd, isNull] at hn
            | node _ _ _ => simp [isNull]
          have hflag0 : d.point_downsample_deleted = true → d.point_deleted = true :=
            hagg.2.2.2.2.2
          cases hhit : (!(pushDownNode d l r).1.point_deleted &&
              pointInBox b (pushDownNode d l r).1.point)
          · simp only [Bool.false_eq_true, if_false]
            have hflag : (pushDownNode d l r).1.point_downsample_deleted = true →
                (pushDownNode d l r).1.point_deleted = true := by simpa using hflag0
            obtain ⟨u1, u2, _⟩ := updateAndRebuild_count env hnth allowRebuild _ _ _
              sl sr il1 ir1 il2 ir2 (fun hF : False => hF.elim) (fun hF => hF.elim)
              (fun hF : False => hF.elim) (fun hF => hF.elim) hflag
            exact ⟨u1, u2⟩
          · simp only [if_true]
            obtain ⟨u1, u2, _⟩ := updateAndRebuild_count env hnth allowRebuild
              { (pushDownNode d l r).1 with
                point_deleted := true
                point_downsample_deleted :=
                  if isDownsample = true then true
                  else (pushDownNode d l r).1.point_downsample_deleted } _ _
              sl sr il1 ir1 il2 ir2 (fun hF : False => hF.elim) (fun hF => hF.elim)
              (fun hF : False => hF.elim) (fun hF => hF.elim) (fun _ => rfl)
            exact ⟨u1, u2⟩

/-- With enough fuel and on a tree with exact counters, `addByPoint` keeps the counters
exact and keeps the range boxes inside the hull of the stored points; on a null pointer it
creates a fresh leaf. -/
theorem addByPoint_count {H : Prop} (env : Env K) (hnth : NthPermutes env) (p : PointType K)
    (allowRebuild : Bool) : ∀ (fuel : Nat) (t : KD_TREE_NODE K) (fatherAxis : Nat),
    t.height ≤ fuel → CountInv t → (H → HullInv t) →
    CountInv (addByPoint env fuel t p allowRebuild fatherAxis) ∧
    (H → HullInv (addByPoint env fuel t p allowRebuild fatherAxis)) ∧
    (t.isNull = true → Fresh (addByPoint env fuel t p allowRebuild fatherAxis))
  | fuel, nil, fa, _, _, _ => by
    have hf : Fresh (addByPoint env fuel nil p allowRebuild fa) := by
      cases fuel <;> exact fresh_update_init p ((fa + 1) % 3) nil nil trivial trivial
    have hu := update_count (H := H) (R := False) (Q := False)
      ({ (initTreeNode : NodeFields K) with
        point := p, division_axis := (fa + 1) % 3 }) nil nil
      (Or.inl (fun hn => by simp [isNull] at hn)) (Or.inl (fun hn => by simp [isNull] at hn))
      countInv_nil countInv_nil (fun _ => hullInv_nil) (fun _ => hullInv_nil)
      (fun hF => hF.elim) (fun hF => hF.elim) (fun hF => hF.elim) (fun hF => hF.elim)
      (fun hh => by cases hh)
    refine ⟨countInv_fresh _ hf, ?_, fun _ => hf⟩
    cases fuel <;> exact hu.2.1
  | 0, node d l r, _, h, _, _ => by simp [height] at h
  | fuel + 1, node d l r, fa, h, hc, hh => by
    obtain ⟨hagg, hcl, hcr⟩ := (countInv_node d l r).1 hc
    have hhl : H → HullInv (pushDownNode d l r).2.1 :=
      fun hH => ((hullInv_node d l r).1 (hh hH)).2.1
    have hhr : H → HullInv (pushDownNode d l r).2.2 :=
      fun hH => ((hullInv_node d l r).1 (hh hH)).2.2
    have hflag : (pushDownNode d l r).1.point_downsample_deleted = true →
        (pushDownNode d l r).1.point_deleted = true := by simpa using hagg.2.2.2.2.2
    simp only [addByPoint]
    split
    · obtain ⟨i1, i2, i4⟩ := addByPoint_count env hnth p allowRebuild fuel
        (pushDownNode d l r).2.1 (pushDownNode d l r).1.division_axis (height_left_le h) hcl hhl
      have sl : SonOK (pushDownNode d l r).1.need_push_down_to_left
          (addByPoint env fuel (pushDownNode d l r).2.1 p allowRebuild
            (pushDownNode d l r).1.division_axis) := by
        cases hn : (pushDownNode d l r).2.1.isNull
        · left
          intro _
          rw [pushDownNode_need_left]
          rw [pushDownNode_snd_fst, isNull_pushSon] at hn
          rw [hn, Bool.and_false]
        · right; exact i4 hn
      obtain ⟨u1, u2, _⟩ := updateAndRebuild_count env hnth allowRebuild _ _ _ sl
        (sonOK_pushed_right d l r) i1 hcr i2 hhr (fun hF : False => hF.elim)
        (fun hF => hF.elim) (fun hF : False => hF.elim) (fun hF => hF.elim) hflag
      exact ⟨u1, u2, fun hn => by simp [isNull] at hn⟩
    · obtain ⟨i1, i2, i4⟩ := addByPoint_count env hnth p allowRebuild fuel
        (pushDownNode d l r).2.2 (pushDownNode d l r).1.division_axis (height_right_le h) hcr hhr
      have sr : SonOK (pushDownNode d l r).1.need_push_down_to_right
          (addByPoint env fuel (pushDownNode d l r).2.2 p allowRebuild
            (pushDownNode d l r).1.division_axis) := by
        cases hn : (pushDownNode d l r).2.2.isNull
        · left
          intro _
          rw [pushDownNode_need_right]
          rw [pushDownNode_snd_snd, isNull_pushSon] at hn
          rw [hn, Bool.and_false]
        · right; exact i4 hn
      obtain ⟨u1, u2, _⟩ := updateAndRebuild_count env hnth allowRebuild _ _ _
        (sonOK_pushed_left d l r) sr hcl i1 hhl i2 (fun hF : False => hF.elim)
        (fun hF => hF.elim) (fun hF : False => hF.elim) (fun hF => hF.elim) hflag
      exact ⟨u1, u2, fun hn => by simp [isNull] at hn⟩


/-! ## Counters and hull under the public operations -/

/-- One iteration of `addPoints` that does not meet a null root keeps the counters exact
and the range boxes inside the hull of the stored points. -/
theorem addPointsStep_count {H : Prop} (env : Env K) (hnth : NthPermutes env)
    (t : KD_TREE_NODE K) (p : PointType K) (downsampleOn : Bool) (res : KD_TREE_NODE K × Int)
    (hc : CountInv t) (hh : H → HullInv t)
    (hres : addPointsStep env t p downsampleOn = some res) :
    CountInv res.1 ∧ (H → HullInv res.1) := by
  unfold addPointsStep at hres
  cases downsampleOn with
  | true =>
    simp only [if_true] at hres
    have hpush := searchByRange_pushAll t.height t (voxelOf env p) []
    have hfc : CountInv (searchByRange t.height t (voxelOf env p) []).1 :=
      (countInv_congr hpush).2 hc
    have hfh : H → HullInv (searchByRange t.height t (voxelOf env p) []).1 :=
      fun hH => (hullInv_congr hpush).2 (hh hH)
    split at hres
    · have h1 : CountInv (if (searchByRange t.height t (voxelOf env p) []).2.length > 0 then
          (deleteByRange env (searchByRange t.height t (voxelOf env p) []).1.height
            (searchByRange t.height t (voxelOf env p) []).1 (voxelOf env p) true true).1
          else (searchByRange t.height t (voxelOf env p) []).1) ∧
          (H → HullInv (if (searchByRange t.height t (voxelOf env p) []).2.length > 0 then
          (deleteByRange env (searchByRange t.height t (voxelOf env p) []).1.height
            (searchByRange t.height t (voxelOf env p) []).1 (voxelOf env p) true true).1
          else (searchByRange t.height t (voxelOf env p) []).1)) := by
        split
        · exact deleteByRange_count env hnth _ true true _ _ le_rfl hfc hfh
        · exact ⟨hfc, hfh⟩
      split at hres
      · cases hres
      · rename_i d l r heq
        rw [heq] at h1
        cases hres
        obtain ⟨a1, a2, _⟩ := addByPoint_count env hnth
          (nearestToMid (voxelMid (voxelOf env p))
            (searchByRange t.height t (voxelOf env p) []).2
            (calcDist p (voxelMid (voxelOf env p))) p) true
          (node d l r).height (node d l r) d.division_axis le_rfl h1.1 h1.2
        exact ⟨a1, a2⟩
    · cases hres
      exact ⟨hfc, hfh⟩
  | false =>
    simp only [Bool.false_eq_true, if_false] at hres
    cases t with
    | nil => cases hres
    | node d l r =>
      cases hres
      obtain ⟨a1, a2, _⟩ := addByPoint_count env hnth p true
        (node d l r).height (node d l r) d.division_axis le_rfl hc hh
      exact ⟨a1, a2⟩

/-- The loop of `addPoints`. -/
theorem addPointsLoop_count {H : Prop} (env : Env K) (hnth : NthPermutes env)
    (downsampleOn : Bool) : ∀ (pts : List (PointType K)) (t : KD_TREE_NODE K) (c : Int)
    (res : KD_TREE_NODE K × Int), CountInv t → (H → HullInv t) →
    addPointsLoop env downsampleOn pts t c = some res →
    CountInv res.1 ∧ (H → HullInv res.1)
  | [], t, c, res, hc, hh, hres => by
    cases hres
    exact ⟨hc, hh⟩
  | p :: ps, t, c, res, hc, hh, hres => by
    simp only [addPointsLoop] at hres
    split at hres
    · cases hres
    · rename_i r1 heq
      obtain ⟨a1, a2⟩ := addPointsStep_count env hnth t p downsampleOn r1 hc hh heq
      exact addPointsLoop_count env hnth downsampleOn ps _ _ res a1 a2 hres

/-- The loop of `deletePointBoxes`. -/
theorem deletePointBoxesLoop_count {H : Prop} (env : Env K) (hnth : NthPermutes env) :
    ∀ (bs : List (BoxPointType K)) (t : KD_TREE_NODE K) (c : Int),
    CountInv t → (H → HullInv t) →
    CountInv (deletePointBoxesLoop env t c bs).1 ∧
      (H → HullInv (deletePointBoxesLoop env t c bs).1)
  | [], t, c, hc, hh => ⟨hc, hh⟩
  | b :: bs, t, c, hc, hh => by
    obtain ⟨i1, i2⟩ := deleteByRange_count env hnth b true false t.height t le_rfl hc hh
    exact deletePointBoxesLoop_count env hnth bs _ _ i1 i2


/-! ## Counters in reachable states -/

/-- Every reachable state has exact counters and range boxes inside the hull of the stored
points. -/
theorem reachable_inv (env : Env K) (hnth : NthPermutes env)
    (t : KD_TREE_NODE K) (hr : Reachable env t) : CountInv t ∧ HullInv t := by
  induction hr with
  | ofBuild m_rootNode pointCloud =>
    exact ⟨countInv_fresh _ (build_fresh env hnth _ _).1, build_hull env hnth _ _⟩
  | afterAddPoints pointToAdd downsampleOn res _ hres ih =>
    obtain ⟨a1, a2⟩ := addPointsLoop_count (H := True) env hnth downsampleOn pointToAdd _ 0
      res ih.1 (fun _ => ih.2) hres
    exact ⟨a1, a2 trivial⟩
  | afterDeletePoints pointToDel _ ih =>
    obtain ⟨a1, a2, _⟩ := deletePoints_count (H := True) (R := False) (Q := False) env hnth
      pointToDel _ ih.1 (fun _ => ih.2) (fun hF => hF.elim) (fun hF => hF.elim)
    exact ⟨a1, a2 trivial⟩
  | afterAddPointBoxes boxPoints _ ih =>
    obtain ⟨a1, a2, _⟩ := addPointBoxes_count (H := True) env hnth boxPoints _ ih.1
      (fun _ => ih.2)
    exact ⟨a1, a2 trivial⟩
  | afterDeletePointBoxes boxPoints _ ih =>
    obtain ⟨a1, a2⟩ := deletePointBoxesLoop_count (H := True) env hnth boxPoints _ 0 ih.1
      (fun _ => ih.2)
    exact ⟨a1, a2 trivial⟩

/-- On a pushed tree with exact counters, `invalid_point_num` counts the deleted nodes. -/
theorem invalidNum_eq_deletedNodes : ∀ u : KD_TREE_NODE K, AllNodes Agg u →
    invalidNum u = (deletedNodes u : Int)
  | nil, _ => rfl
  | node d l r, h => by
    obtain ⟨⟨_, h2, _⟩, hl, hr⟩ := h
    have el := invalidNum_eq_deletedNodes l hl
    have er := invalidNum_eq_deletedNodes r hr
    show d.invalid_point_num = _
    simp only [deletedNodes]
    push_cast
    cases hpd : d.point_deleted <;> simp [hpd] at h2 ⊢ <;> omega

theorem size_sub_validnum (t : KD_TREE_NODE K) : size t - validnum t = invalidNum t := by
  cases t with
  | nil => rfl
  | node d l r => simp [size, validnum, invalidNum]

/-- When the range boxes lie inside the hull of the stored points, a box search with a box
that holds every stored point returns the live points. -/
theorem boxSearch_enclosing (t : KD_TREE_NODE K) (hh : HullInv t) (b : BoxPointType K)
    (hb : ∀ p ∈ points t, pointInBox b p = true) : (boxSearch t b).2 = livePoints t := by
  cases t with
  | nil => rfl
  | node d l r =>
    obtain ⟨⟨x1, x2, x3, x4⟩, ⟨y1, y2, y3, y4⟩, ⟨z1, z2, z3, z4⟩⟩ := hullInv_root hh b hb
    have hmiss : boxMisses b (pushDownNode d l r).1 = false := by
      simp only [boxMisses, pushDownNode_node_range_x, pushDownNode_node_range_y,
        pushDownNode_node_range_z, Bool.or_eq_false_iff, decide_eq_false_iff_not, not_le,
        gt_iff_lt, not_lt]
      exact ⟨⟨⟨x2, x3⟩, ⟨y2, y3⟩⟩, ⟨z2, z3⟩⟩
    have hcov : boxCovers b (pushDownNode d l r).1 = true := by
      simp only [boxCovers, pushDownNode_node_range_x, pushDownNode_node_range_y,
        pushDownNode_node_range_z, Bool.and_eq_true, decide_eq_true_eq, gt_iff_lt]
      exact ⟨⟨⟨⟨⟨x1, x4⟩, y1⟩, y4⟩, z1⟩, z4⟩
    have hh' : (node (pushDownNode d l r).1 (pushDownNode d l r).2.1
        (pushDownNode d l r).2.2).height ≤ max l.height r.height + 1 := by
      simp only [height, height_pushDownNode_left, height_pushDownNode_right]
      exact le_rfl
    show (searchByRange (max l.height r.height + 1) (node d l r) b []).2 = _
    simp only [searchByRange, hmiss, hcov, Bool.false_eq_true, if_false, if_true]
    rw [flatten_snd _ _ _ hh', livePoints_congr (pushAll_pushDownNode d l r), List.nil_append]

theorem downsampledTree_reachable : Reachable defaultEnv downsampledTree := by
  have h : addPoints defaultEnv twoPointTree [pt (1 / 20) (1 / 20) (1 / 20)] true =
      some (downsampledTree, 1) := by decide!
  exact Reachable.afterAddPoints _ _ (downsampledTree, 1) (Reachable.ofBuild nil _) h

/-- Claim C12: in every state reachable from `build` by `addPoints`, `deletePoints`,
`addPointBoxes` and `deletePointBoxes`, `valid_count()` is the number of live points, a box
search with a box that holds every stored point returns exactly the live points, and
`size() - valid_count()` is the number of deleted nodes (pending push-downs applied). -/
theorem reachable_valid_count_is_live_count (env : Env K)
    (hnth : NthPermutes env) (t : KD_TREE_NODE K) (hr : Reachable env t) :
    validnum t = ((livePoints t).length : Int) ∧
    (∀ b : BoxPointType K, (∀ p ∈ points t, pointInBox b p = true) →
      (boxSearch t b).2 = livePoints t ∧
        validnum t = (((boxSearch t b).2).length : Int)) ∧
    size t - validnum t = (deletedNodes (pushAll t) : Int) := by
  obtain ⟨hc, hh⟩ := reachable_inv env hnth t hr
  have hv := validnum_eq_length_livePoints t hc
  refine ⟨hv, ?_, ?_⟩
  · intro b hb
    have he := boxSearch_enclosing t hh b hb
    exact ⟨he, by rw [he]; exact hv⟩
  · rw [size_sub_validnum, ← invalidNum_pushAll]
    exact invalidNum_eq_deletedNodes _ hc

/-- Witness for C12: the state after `build([(0,0,0),(1,0,0)])` and a downsampling
`add_points([(0.05,0.05,0.05)])` is reachable; it has three nodes, one of them deleted, and
`valid_count()` is `2`, the number of points a box search around all three returns. -/
theorem reachable_valid_count_is_live_count_witness :
    NthPermutes defaultEnv ∧ Reachable defaultEnv downsampledTree ∧
      (size downsampledTree = 3 ∧ validnum downsampledTree = 2 ∧
        (∀ p ∈ points downsampledTree, pointInBox wideBox p = true)) ∧
      validnum downsampledTree = ((livePoints downsampledTree).length : Int) ∧
      validnum downsampledTree = (((boxSearch downsampledTree wideBox).2).length : Int) ∧
      size downsampledTree - validnum downsampledTree =
        (deletedNodes (pushAll downsampledTree) : Int) :=
  ⟨nthPermutes_defaultEnv, downsampledTree_reachable, by decide!,
    (reachable_valid_count_is_live_count defaultEnv nthPermutes_defaultEnv downsampledTree
      downsampledTree_reachable).1,
    ((reachable_valid_count_is_live_count defaultEnv nthPermutes_defaultEnv downsampledTree
      downsampledTree_reachable).2.1 wideBox (by decide!)).2,
    (reachable_valid_count_is_live_count defaultEnv nthPermutes_defaultEnv downsampledTree
      downsampledTree_reachable).2.2⟩


/-! ## `nearestSearch` with `k = 0` -/

theorem nearestSearch_zero (t : KD_TREE_NODE K) (q : PointType K) (maxDist : Option K) :
    (nearestSearch t q 0 maxDist).2 = ([], []) := by
  show drainHeap (min 0 _) _ ([], []) = ([], [])
  rw [Nat.zero_min]
  rfl



/-! ## The invariants in reachable states -/

theorem restoredTree_reachable : Reachable defaultEnv restoredTree :=
  Reachable.afterAddPointBoxes [nearBox]
    (Reachable.afterDeletePoints [pt 1 0 0] (Reachable.ofBuild nil [pt 0 0 0, pt 1 0 0]))

/-- Claim C25, failing input: after `build([(0,0,0),(1,0,0)])`, `delete_points([(1,0,0)])`
and `add_boxes` with a box around `(0,0,0)` only, the point `(1,0,0)` is live again, yet
the range box of the root is still the single point `(0,0,0)`: the bounding-box invariant
does not hold in this reachable state, and a box search around `(1,0,0)` returns nothing. -/
theorem reachable_range_box_misses_live_point :
    Reachable defaultEnv restoredTree ∧ pt 1 0 0 ∈ livePoints restoredTree ∧
      ¬ RangeInv restoredTree ∧
      pointInBox farBox (pt 1 0 0) = true ∧ (boxSearch restoredTree farBox).2 = [] :=
  ⟨restoredTree_reachable, by decide!, by unfold RangeInv; decide!, by decide!, by decide!⟩


/-- The size equation of the stored fields follows from the one after push-down: no
push-down writes `TreeSize`. -/
theorem allNodes_size_of_pushAllFrom : ∀ (t : KD_TREE_NODE K) (f : NodeFields K → NodeFields K),
    (∀ x, (f x).TreeSize = x.TreeSize) →
    AllNodes (fun d l r => d.TreeSize = 1 + size l + size r) (pushAllFrom f t) →
    AllNodes (fun d l r => d.TreeSize = 1 + size l + size r) t
  | nil, _, _, _ => trivial
  | node s l r, f, hf, h => by
    obtain ⟨h0, hl, hr⟩ := h
    have sl : ∀ (g : NodeFields K → NodeFields K), (∀ x, (g x).TreeSize = x.TreeSize) →
        ∀ u : KD_TREE_NODE K, size (pushAllFrom g u) = size u := by
      intro g hg u
      cases u with
      | nil => rfl
      | node x a b => exact hg x
    have hg1 : ∀ x, ((if (f s).need_push_down_to_left = true then pushFields (f s) else id)
        x).TreeSize = x.TreeSize := by
      intro x; split <;> rfl
    have hg2 : ∀ x, ((if (f s).need_push_down_to_right = true then pushFields (f s) else id)
        x).TreeSize = x.TreeSize := by
      intro x; split <;> rfl
    refine ⟨?_, allNodes_size_of_pushAllFrom l _ hg1 hl,
      allNodes_size_of_pushAllFrom r _ hg2 hr⟩
    have h1 : (clearPush (f s)).TreeSize = 1 + size (pushAllFrom _ l) + size (pushAllFrom _ r) :=
      h0
    rw [sl _ hg1 l, sl _ hg2 r] at h1
    show s.TreeSize = 1 + size l + size r
    rw [← hf s]
    exact h1

theorem allNodes_imp {P Q : NodeFields K → KD_TREE_NODE K → KD_TREE_NODE K → Prop}
    (h : ∀ d l r, P d l r → Q d l r) : ∀ u : KD_TREE_NODE K, AllNodes P u → AllNodes Q u
  | nil, _ => trivial
  | node d l r, hu => ⟨h d l r hu.1, allNodes_imp h l hu.2.1, allNodes_imp h r hu.2.2⟩

theorem allNodes_counted_of_agg : ∀ u : KD_TREE_NODE K, AllNodes Agg u → AllNodes Counted u
  | nil, _ => trivial
  | node d l r, h => by
    obtain ⟨⟨h1, h2, h3, _⟩, hl, hr⟩ := h
    refine ⟨⟨?_, ?_, ?_⟩, allNodes_counted_of_agg l hl, allNodes_counted_of_agg r hr⟩
    · rw [h1]; ring
    · rw [h2]; ring
    · rw [h3]; ring

theorem boxDeletedTree_reachable : Reachable defaultEnv boxDeletedTree :=
  Reachable.afterDeletePointBoxes [wideBox] (Reachable.ofBuild nil [pt 0 0 0, pt 1 0 0])

/-- Claim C26 (amended): in every state reachable from `build` by the public operations,
once the pending push-downs are applied every node has `TreeSize`, `invalid_point_num` and
`down_del_num` equal to the contribution of the node plus the counters of its sons (a null
son counts `0`); the equation for `TreeSize` holds on the stored fields as well. -/
theorem reachable_counters_add_up_after_push (env : Env K)
    (hnth : NthPermutes env) (t : KD_TREE_NODE K) (hr : Reachable env t) :
    AllNodes Counted (pushAll t) ∧
      AllNodes (fun d l r => d.TreeSize = 1 + size l + size r) t := by
  obtain ⟨hc, _⟩ := reachable_inv env hnth t hr
  have h1 := allNodes_counted_of_agg _ hc
  refine ⟨h1, allNodes_size_of_pushAllFrom t id (fun _ => rfl) ?_⟩
  exact allNodes_imp (fun d l r h => h.1) _ h1

/-- Witness for C26: the state after `build([(0,0,0),(1,0,0)])` and `delete_boxes` around
both points is reachable, and its counters add up once the pending push-down is applied. -/
theorem reachable_counters_add_up_after_push_witness :
    NthPermutes defaultEnv ∧ Reachable defaultEnv boxDeletedTree ∧
      AllNodes Counted (pushAll boxDeletedTree) ∧
      AllNodes (fun d l r => d.TreeSize = 1 + size l + size r) boxDeletedTree :=
  ⟨nthPermutes_defaultEnv, boxDeletedTree_reachable,
    reachable_counters_add_up_after_push defaultEnv nthPermutes_defaultEnv boxDeletedTree
      boxDeletedTree_reachable⟩

/-- Counterexample to C26 as stated: after `build([(0,0,0),(1,0,0)])` and `delete_boxes`
around both points the root stores `invalid_point_num = 2` while its only son still stores
`0`, so the stored counters of the root do not add up until the push-down is carried out. -/
theorem reachable_stored_counters_lag :
    Reachable defaultEnv boxDeletedTree ∧ size boxDeletedTree = 2 ∧
      invalidNum boxDeletedTree = 2 ∧ ¬ AllNodes Counted boxDeletedTree ∧
      AllNodes Counted (pushAll boxDeletedTree) :=
  ⟨boxDeletedTree_reachable, by decide!, by decide!, by decide!, by decide!⟩


/-! ## Scenario S2 -/

/-- Among the five points of S1, two distinct points `a`, `b` with `a` no farther from the
query `(0.9,0.9,0.9)` than `b`, and every other point no nearer than both, are `(1,1,1)` and
one of the unit points. -/
theorem s2_two_nearest :
    ∀ a ∈ s1Points, ∀ b ∈ s1Points, calcDist s2Query a ≤ calcDist s2Query b → a ≠ b →
      (∀ p ∈ s1Points, p ≠ a → p ≠ b →
        calcDist s2Query a ≤ calcDist s2Query p ∧ calcDist s2Query b ≤ calcDist s2Query p) →
      a = pt 1 1 1 ∧ b ∈ [pt 1 0 0, pt 0 1 0, pt 0 0 1] := by
  decide!

theorem s2_distances :
    calcDist s2Query (pt 1 1 1) = 3 / 100 ∧
      ∀ b ∈ [pt 1 0 0, pt 0 1 0, pt 0 0 1], calcDist s2Query b = 163 / 100 := by
  decide!

/-- Claim C23 (amended): after `build` of the five points of S1, whatever the old tree and
for every `nth_element` that rearranges its slice, `nearestSearch((0.9,0.9,0.9), 2)` returns
`(1,1,1)` and then one of the three unit points, with the squared distances `0.03` and
`1.63`. -/
theorem nearestSearch_s2 (env : Env ℚ) (hnth : NthPermutes env) (m_rootNode : KD_TREE_NODE ℚ) :
    ∃ u ∈ [pt 1 0 0, pt 0 1 0, pt 0 0 1],
      (nearestSearch (build env m_rootNode s1Points) s2Query 2 none).2 =
        ([pt 1 1 1, u], [3 / 100, 163 / 100]) := by
  obtain ⟨hf, hp⟩ := build_fresh env hnth m_rootNode s1Points
  have hc := countInv_fresh _ hf
  have hr := rangeInv_fresh _ hf
  have hlive : (livePoints (build env m_rootNode s1Points)).Perm s1Points := by
    rw [livePoints_fresh _ hf]; exact hp
  have hsep0 : Separated s2Query s1Points := by unfold Separated; decide!
  have hsep : Separated s2Query (livePoints (build env m_rootNode s1Points)) :=
    fun p hp1 p' hp2 => hsep0 p (hlive.subset hp1) p' (hlive.subset hp2)
  have hnp := noPendingPush_fresh _ hf
  obtain ⟨es, _, e2, e3, e4⟩ := nearestSearch_spec (Nat.succ_pos 1) (by decide)
    (ordered_sepLe s2Query (livePoints (build env m_rootNode s1Points))) none
    (build env m_rootNode s1Points)
    (fun p hp => by rw [visible_eq_livePoints _ hnp hc] at hp; exact hp)
  obtain ⟨k1, k2, rest, k3, k4⟩ := nearestSearch_k_nearest (build env m_rootNode s1Points)
    s2Query 2 (by decide) (by decide) hnp hc hr
  have hR : (nearestSearch (build env m_rootNode s1Points) s2Query 2 none).2.1 =
      es.map (fun e => e.point) := by rw [e4]
  rw [hR] at k1 k2 k3 k4
  have hlen : es.length = 2 := by
    rw [List.length_map, hlive.length_eq] at k1
    exact k1
  obtain ⟨ea, eb, rfl⟩ : ∃ ea eb, es = [ea, eb] := by
    match es, hlen with
    | [ea, eb], _ => exact ⟨ea, eb, rfl⟩
  simp only [List.map_cons, List.map_nil] at k2 k3 k4
  have hda := (e3 ea (List.mem_cons_self _ _)).1
  have hdb := (e3 eb (List.mem_cons_of_mem _ (List.mem_cons_self _ _))).1
  have hle : ea.dist ≤ eb.dist := by
    have := (List.pairwise_cons.1 e2).1 eb (List.mem_cons_self _ _)
    exact keyLe_dist (this hsep)
  have hnd : ([ea.point, eb.point] ++ rest).Nodup :=
    (k3.symm.trans hlive).nodup_iff.2 (by decide)
  have hne : ea.point ≠ eb.point := by
    intro he
    have h1 := (List.nodup_append.1 hnd).1
    rw [he] at h1
    simp at h1
  have hbest : ∀ p ∈ s1Points, p ≠ ea.point → p ≠ eb.point →
      calcDist s2Query ea.point ≤ calcDist s2Query p ∧
        calcDist s2Query eb.point ≤ calcDist s2Query p := by
    intro p hp1 h1 h2
    have hin : p ∈ [ea.point, eb.point] ++ rest := (hlive.symm.trans k3).subset hp1
    have hrest : p ∈ rest := by
      rcases List.mem_append.1 hin with h | h
      · simp only [List.mem_cons, List.mem_singleton, List.not_mem_nil, or_false] at h
        rcases h with h | h
        · exact absurd h h1
        · exact absurd h h2
      · exact h
    exact ⟨k4 hsep p hrest _ (List.mem_cons_self _ _),
      k4 hsep p hrest _ (List.mem_cons_of_mem _ (List.mem_cons_self _ _))⟩
  obtain ⟨r1, r2⟩ := s2_two_nearest ea.point
    (hlive.subset (k2 _ (List.mem_cons_self _ _))) eb.point
    (hlive.subset (k2 _ (List.mem_cons_of_mem _ (List.mem_cons_self _ _))))
    (by rw [← hda, ← hdb]; exact hle) hne hbest
  refine ⟨eb.point, r2, ?_⟩
  rw [e4]
  simp only [List.map_cons, List.map_nil]
  rw [hda, hdb, r1, s2_distances.1, s2_distances.2 _ r2]

/-- Witness for C23: the sorting `nth_element` rearranges its slice, so the two nearest
neighbours of scenario S2 are `(1,1,1)` and a unit point at `0.03` and `1.63`. -/
theorem nearestSearch_s2_witness :
    NthPermutes defaultEnv ∧ ∃ u ∈ [pt 1 0 0, pt 0 1 0, pt 0 0 1],
      (nearestSearch (build defaultEnv nil s1Points) s2Query 2 none).2 =
        ([pt 1 1 1, u], [3 / 100, 163 / 100]) :=
  ⟨nthPermutes_defaultEnv, nearestSearch_s2 defaultEnv nthPermutes_defaultEnv nil⟩

/-- Counterexample to C23 as stated: with the sorting `nth_element` the second squared
distance returned for scenario S2 is `1.63`, that is `0.01 + 0.81 + 0.81`, not `1.62`. -/
theorem nearestSearch_s2_second_distance :
    (nearestSearch (build defaultEnv nil s1Points) s2Query 2 none).2.2 = [3 / 100, 163 / 100] ∧
      calcDist s2Query (pt 1 0 0) = 163 / 100 ∧ calcDist s2Query (pt 0 1 0) = 163 / 100 ∧
      calcDist s2Query (pt 0 0 1) = 163 / 100 ∧
      (nearestSearch (build defaultEnv nil s1Points) s2Query 2 none).2.2 ≠
        [3 / 100, 162 / 100] := by
  decide!


/-! ## Deleting and restoring the whole extent -/

/-- A box that holds the range box of a node is not missed by it and covers it. -/
theorem cover_of_within (b : BoxPointType K) (d e : NodeFields K) (hw : WithinBox b d)
    (hx : e.node_range_x = d.node_range_x) (hy : e.node_range_y = d.node_range_y)
    (hz : e.node_range_z = d.node_range_z) :
    boxMisses b e = false ∧ boxCovers b e = true := by
  obtain ⟨⟨x1, x2, x3, x4⟩, ⟨y1, y2, y3, y4⟩, ⟨z1, z2, z3, z4⟩⟩ := hw
  constructor
  · simp only [boxMisses, hx, hy, hz, Bool.or_eq_false_iff, decide_eq_false_iff_not, not_le,
      gt_iff_lt, not_lt]
    exact ⟨⟨⟨x2, x3⟩, ⟨y2, y3⟩⟩, ⟨z2, z3⟩⟩
  · simp only [boxCovers, hx, hy, hz, Bool.and_eq_true, decide_eq_true_eq, gt_iff_lt]
    exact ⟨⟨⟨⟨⟨x1, x4⟩, y1⟩, y4⟩, z1⟩, z4⟩

theorem kept_markDeleted_false : ∀ u : KD_TREE_NODE K, kept (markDeleted false u) = kept u
  | nil => rfl
  | node d l r => by
    show (if (d.point_downsample_deleted || false) = true then [] else [d.point]) ++
      kept (markDeleted false l) ++ kept (markDeleted false r) = _
    rw [kept_markDeleted_false l, kept_markDeleted_false r, Bool.or_false]
    rfl

/-- `addByRange` with a box that holds the range box of the root restores every node that
is not downsample-deleted. -/
theorem addByRange_whole (env : Env K) (b : BoxPointType K) (allowRebuild : Bool)
    (d : NodeFields K) (l r : KD_TREE_NODE K) (hc : CountInv (node d l r))
    (hw : WithinBox b d) :
    pushAll (addByRange env (node d l r).height (node d l r) b allowRebuild) =
      restoreAll (pushAll (node d l r)) := by
  obtain ⟨hm, hcov⟩ := cover_of_within b d (pushDownNode d l r).1 hw
    (pushDownNode_node_range_x d l r) (pushDownNode_node_range_y d l r)
    (pushDownNode_node_range_z d l r)
  show pushAll (addByRange env (max l.height r.height + 1) (node d l r) b allowRebuild) = _
  simp only [addByRange, hm, hcov, Bool.false_eq_true, if_false, if_true]
  apply pushAll_restore_cover d _ l r hc
  · apply fields_ext <;> simp [clearPush, restoreFields]
  · rfl
  · rfl

/-- `deleteByRange` with a box that holds the range box of the root marks every node
deleted and leaves the range box of the root as it was. -/
theorem deleteByRange_whole (env : Env K) (b : BoxPointType K) (allowRebuild : Bool)
    (d : NodeFields K) (l r : KD_TREE_NODE K) (hc : CountInv (node d l r))
    (hw : WithinBox b d) (htd : d.tree_deleted = false) :
    ∃ d2 l2 r2,
      (deleteByRange env (node d l r).height (node d l r) b allowRebuild false).1 =
        node d2 l2 r2 ∧ WithinBox b d2 ∧
      pushAll (node d2 l2 r2) = markDeleted false (pushAll (node d l r)) := by
  obtain ⟨hm, hcov⟩ := cover_of_within b d (pushDownNode d l r).1 hw
    (pushDownNode_node_range_x d l r) (pushDownNode_node_range_y d l r)
    (pushDownNode_node_range_z d l r)
  refine ⟨{ (pushDownNode d l r).1 with
      tree_deleted := true, point_deleted := true,
      need_push_down_to_left := true, need_push_down_to_right := true,
      invalid_point_num := (pushDownNode d l r).1.TreeSize },
    (pushDownNode d l r).2.1, (pushDownNode d l r).2.2, ?_, ?_, ?_⟩
  · show (deleteByRange env (max l.height r.height + 1) (node d l r) b allowRebuild false).1 = _
    simp only [deleteByRange, htd, hm, hcov, Bool.false_eq_true, if_false, if_true]
  · have hx : (pushDownNode d l r).1.node_range_x = d.node_range_x :=
      pushDownNode_node_range_x d l r
    have hy : (pushDownNode d l r).1.node_range_y = d.node_range_y :=
      pushDownNode_node_range_y d l r
    have hz : (pushDownNode d l r).1.node_range_z = d.node_range_z :=
      pushDownNode_node_range_z d l r
    unfold WithinBox at hw ⊢
    simp only [hx, hy, hz]
    exact hw
  · apply pushAll_cover d _ l r false hc htd
    · apply fields_ext <;> simp [clearPush, markFields]
    · rfl
    · rfl

/-- Claim C22: for a tree freshly built from `n ≥ 1` points and a box that holds all of
them, `delete_boxes([B])` returns `n` and leaves `valid_count() = 0` and no live point; a
following `add_boxes([B])` brings `valid_count()` back to `n`, the initial count (no node is
downsample-deleted), and the live points back to the built ones. -/
theorem deleteBoxes_addBoxes_whole_extent (env : Env K) (hnth : NthPermutes env)
    (m_rootNode : KD_TREE_NODE K) (pointCloud : List (PointType K)) (hn : pointCloud ≠ [])
    (B : BoxPointType K) (hB : ∀ p ∈ pointCloud, pointInBox B p = true) :
    validnum (build env m_rootNode pointCloud) = (pointCloud.length : Int) ∧
    validnum (deletePointBoxes env (build env m_rootNode pointCloud) [B]).1 = 0 ∧
    livePoints (deletePointBoxes env (build env m_rootNode pointCloud) [B]).1 = [] ∧
    (deletePointBoxes env (build env m_rootNode pointCloud) [B]).2 = (pointCloud.length : Int) ∧
    validnum (addPointBoxes env
      (deletePointBoxes env (build env m_rootNode pointCloud) [B]).1 [B]) =
        (pointCloud.length : Int) ∧
    (livePoints (addPointBoxes env
      (deletePointBoxes env (build env m_rootNode pointCloud) [B]).1 [B])).Perm pointCloud := by
  obtain ⟨hf, hp⟩ := build_fresh env hnth m_rootNode pointCloud
  have hh := build_hull env hnth m_rootNode pointCloud
  generalize build env m_rootNode pointCloud = t at hf hp hh ⊢
  have hc := countInv_fresh _ hf
  have hv : validnum t = (pointCloud.length : Int) := by
    rw [validnum_fresh _ hf, size_fresh _ hf, hp.length_eq]
  cases t with
  | nil => exact absurd (List.Perm.nil_eq hp).symm hn
  | node d l r =>
    have hw := hullInv_root hh B (fun p hp1 => hB p (hp.subset hp1))
    obtain ⟨d2, l2, r2, e1, hw2, e2⟩ := deleteByRange_whole env B true d l r hc hw hf.1.2.1
    obtain ⟨s1, _, _, s4⟩ := deleteByRange_spec env hnth B true false (node d l r).height
      (node d l r) le_rfl hc (rangeInv_fresh _ hf)
    have hdel : (deletePointBoxes env (node d l r) [B]) =
        (node d2 l2 r2, 0 + (deleteByRange env (node d l r).height (node d l r) B true false).2) := by
      show ((deleteByRange env (node d l r).height (node d l r) B true false).1, _) = _
      rw [e1]
    have hc2 : CountInv (node d2 l2 r2) := e1 ▸ s1
    have hlive2 : livePoints (node d2 l2 r2) = [] := by
      unfold livePoints
      rw [e2, undeleted_markDeleted]
    have hadd : pushAll (addPointBoxes env (node d2 l2 r2) [B]) =
        restoreAll (markDeleted false (pushAll (node d l r))) := by
      show pushAll (addByRange env (node d2 l2 r2).height (node d2 l2 r2) B true) = _
      rw [addByRange_whole env B true d2 l2 r2 hc2 hw2, e2]
    have hc3 : CountInv (addPointBoxes env (node d2 l2 r2) [B]) := by
      unfold CountInv
      rw [hadd]
      exact allNodes_agg_restoreAll _ (allNodes_agg_markDeleted false _ hc)
    have hlive3 : livePoints (addPointBoxes env (node d2 l2 r2) [B]) = points (node d l r) := by
      unfold livePoints
      rw [hadd, undeleted_restoreAll, kept_markDeleted_false]
      exact keptPoints_fresh _ hf
    rw [hdel]
    refine ⟨hv, ?_, hlive2, ?_, ?_, ?_⟩
    · rw [validnum_eq_length_livePoints _ hc2, hlive2]; rfl
    · show 0 + (deleteByRange env (node d l r).height (node d l r) B true false).2 = _
      rw [s4, zero_add, livePoints_fresh _ hf, List.filter_eq_self.2
        (fun p hp1 => hB p (hp.subset hp1)), hp.length_eq]
    · show validnum (addPointBoxes env (node d2 l2 r2) [B]) = _
      rw [validnum_eq_length_livePoints _ hc3, hlive3, hp.length_eq]
    · show (livePoints (addPointBoxes env (node d2 l2 r2) [B])).Perm _
      rw [hlive3]
      exact hp

/-- Witness for C22: the two points `(0,0,0)`, `(1,0,0)` and the box `[(-1,-1,-1), (2,2,2)]`
around them. -/
theorem deleteBoxes_addBoxes_whole_extent_witness :
    NthPermutes defaultEnv ∧ [pt 0 0 0, pt 1 0 0] ≠ [] ∧
      (∀ p ∈ [pt 0 0 0, pt 1 0 0], pointInBox wideBox p = true) ∧
      validnum (deletePointBoxes defaultEnv twoPointTree [wideBox]).1 = 0 ∧
      validnum (addPointBoxes defaultEnv
        (deletePointBoxes defaultEnv twoPointTree [wideBox]).1 [wideBox]) = 2 :=
  ⟨nthPermutes_defaultEnv, by decide, by decide!,
    (deleteBoxes_addBoxes_whole_extent defaultEnv nthPermutes_defaultEnv nil
      [pt 0 0 0, pt 1 0 0] (by decide) wideBox (by decide!)).2.1,
    (deleteBoxes_addBoxes_whole_extent defaultEnv nthPermutes_defaultEnv nil
      [pt 0 0 0, pt 1 0 0] (by decide) wideBox (by decide!)).2.2.2.2.1⟩


/-! ## Overflow of the operation log -/

/-- The state of the log after `n ≤ Q_LEN` pushes onto a new queue. -/
theorem pushRange_init : ∀ n : Nat, n ≤ Q_LEN →
    (pushRange (MANUAL_Q.init 0) n).m_head = 0 ∧
    (pushRange (MANUAL_Q.init 0) n).m_tail = n % Q_LEN ∧
    (pushRange (MANUAL_Q.init 0) n).m_counter = n ∧
    (∀ i, i < n → (pushRange (MANUAL_Q.init 0) n).m_queue i = i) ∧
    ((pushRange (MANUAL_Q.init 0) n).m_isEmpty = decide (n = 0))
  | 0, _ => ⟨rfl, rfl, rfl, fun i hi => absurd hi (Nat.not_lt_zero i), rfl⟩
  | n + 1, h => by
    obtain ⟨h1, h2, h3, h4, _⟩ := pushRange_init n (Nat.le_of_succ_le h)
    have hn : n < Q_LEN := h
    have ht : (pushRange (MANUAL_Q.init 0) n).m_tail = n := by
      rw [h2, Nat.mod_eq_of_lt hn]
    refine ⟨h1, ?_, ?_, ?_, ?_⟩
    · show ((pushRange (MANUAL_Q.init 0) n).m_tail + 1) % Q_LEN = _
      rw [ht]
    · show (pushRange (MANUAL_Q.init 0) n).m_counter + 1 = _
      rw [h3]
    · intro i hi
      show (if i = (pushRange (MANUAL_Q.init 0) n).m_tail then n
        else (pushRange (MANUAL_Q.init 0) n).m_queue i) = i
      rw [ht]
      by_cases hin : i = n
      · rw [if_pos hin, hin]
      · rw [if_neg hin]
        exact h4 i (by omega)
    · show false = decide (n + 1 = 0)
      simp

/-- The log after `Q_LEN` pushes: full, with the oldest entry in slot `0`. -/
theorem fullLog_state :
    fullLog.m_head = 0 ∧ fullLog.m_tail = 0 ∧ fullLog.m_counter = Q_LEN ∧
      (∀ i, i < Q_LEN → fullLog.m_queue i = i) := by
  obtain ⟨h1, h2, h3, h4, _⟩ := pushRange_init Q_LEN le_rfl
  rw [Nat.mod_self] at h2
  exact ⟨h1, h2, h3, h4⟩

/-- One more `push` on a queue in the state of the full log. -/
theorem push_on_full (q : MANUAL_Q Nat) (e1 : q.m_head = 0) (e2 : q.m_tail = 0)
    (e3 : q.m_counter = Q_LEN) (e4 : ∀ i, i < Q_LEN → q.m_queue i = i) :
    q.size = Q_LEN ∧ q.front = 0 ∧
      (q.push 7).front = 7 ∧ (q.push 7).m_head = 0 ∧
      (q.push 7).m_tail = 1 ∧ (q.push 7).size = Q_LEN + 1 ∧
      (∀ i, i < Q_LEN → (q.push 7).m_queue i ≠ 0) := by
  have hq : 0 < Q_LEN := by unfold Q_LEN; norm_num
  refine ⟨e3, ?_, ?_, e1, ?_, ?_, ?_⟩
  · show q.m_queue q.m_head = 0
    rw [e1]
    exact e4 0 hq
  · show (if q.m_head = q.m_tail then 7 else q.m_queue q.m_head) = 7
    rw [e1, e2, if_pos rfl]
  · show (q.m_tail + 1) % Q_LEN = 1
    rw [e2]
    unfold Q_LEN
    norm_num
  · show q.m_counter + 1 = Q_LEN + 1
    rw [e3]
  · intro i hi
    show (if i = q.m_tail then 7 else q.m_queue i) ≠ 0
    rw [e2]
    by_cases h0 : i = 0
    · rw [if_pos h0]; decide
    · rw [if_neg h0, e4 i hi]
      exact h0

/-- Claim C29, failing input: after `Q_LEN = 1000000` pushes and no pop the log holds
`Q_LEN` unread entries, the oldest one, `0`, in slot `m_head = 0`, and `m_tail` is back at
`0`. One more `push` returns like any other: it stores the new entry in slot `0`, so that
`front()` is now the new entry and entry `0` is lost, and `size()` becomes `Q_LEN + 1`,
more than the buffer holds. -/
theorem log_push_overwrites_oldest_entry :
    (fullLog.m_head = 0 ∧ fullLog.m_tail = 0 ∧ fullLog.m_counter = Q_LEN ∧
      (∀ i, i < Q_LEN → fullLog.m_queue i = i)) ∧
      fullLog.size = Q_LEN ∧ fullLog.front = 0 ∧
      (fullLog.push 7).front = 7 ∧ (fullLog.push 7).m_head = 0 ∧
      (fullLog.push 7).m_tail = 1 ∧ (fullLog.push 7).size = Q_LEN + 1 ∧
      (∀ i, i < Q_LEN → (fullLog.push 7).m_queue i ≠ 0) :=
  ⟨fullLog_state, push_on_full fullLog fullLog_state.1 fullLog_state.2.1 fullLog_state.2.2.1
    fullLog_state.2.2.2⟩


/-! ## The split invariant -/

/-- Three distinct points among `(0,0,0)`, `(0,1,0)`, `(1,0,0)` cannot have `x` coordinates
`x₀ < x₁ ≤ x₂`: two of the three have the same `x`, the smallest. -/
theorem tie_points_not_strict :
    ∀ x ∈ [pt 0 0 0, pt 0 1 0, pt 1 0 0], ∀ y ∈ [pt 0 0 0, pt 0 1 0, pt 1 0 0],
      ∀ z ∈ [pt 0 0 0, pt 0 1 0, pt 1 0 0], x ≠ y → y ≠ z → x ≠ z →
        ¬ (axisCoord 0 x < axisCoord 0 y ∧ axisCoord 0 y ≤ axisCoord 0 z) := by
  decide!

/-- Whatever `nth_element` does beyond rearranging its slice, the tree built from
`(0,0,0)`, `(0,1,0)`, `(1,0,0)` does not satisfy the split invariant: the root splits on
`x`, has one point on each side, and two of the three points share the smallest `x`. -/
theorem build_tie_points_not_split (env : Env ℚ) (hnth : NthPermutes env)
    (m_rootNode : KD_TREE_NODE ℚ) :
    ¬ SplitInv (build env m_rootNode [pt 0 0 0, pt 0 1 0, pt 1 0 0]) := by
  intro hsplit
  have hfresh := (build_fresh env hnth m_rootNode [pt 0 0 0, pt 0 1 0, pt 1 0 0]).1
  unfold SplitInv at hsplit
  rw [pushAll_fresh _ hfresh, build_eq] at hsplit
  have hax : divAxis (pt 0 0 0) [pt 0 1 0, pt 1 0 0] = 0 := by decide!
  have hperm := hnth pointCmpX 1 [pt 0 0 0, pt 0 1 0, pt 1 0 0]
  have hcons := buildTree_cons env 2 (pt 0 0 0) [pt 0 1 0, pt 1 0 0]
  simp only [hax, if_true, List.length_cons, List.length_nil] at hcons
  have hlen : (env.nth_element pointCmpX 1 [pt 0 0 0, pt 0 1 0, pt 1 0 0]).length = 3 :=
    hperm.length_eq
  generalize env.nth_element pointCmpX 1 [pt 0 0 0, pt 0 1 0, pt 1 0 0] = s at hperm hcons hlen
  obtain ⟨x, y, z, rfl⟩ : ∃ x y z, s = [x, y, z] := by
    match s, hlen with
    | [x, y, z], _ => exact ⟨x, y, z, rfl⟩
  have hnd : [x, y, z].Nodup := hperm.nodup_iff.2 (by decide)
  simp only [List.nodup_cons, List.mem_cons, List.mem_singleton, List.not_mem_nil, or_false,
    not_or, not_false_eq_true, List.nodup_nil, and_true] at hnd
  have hl := buildTree_fresh env hnth 2 [x] (by simp)
  have hr := buildTree_fresh env hnth 2 [z] (by simp)
  have hsp : AllNodes (fun d l r =>
      (∀ p ∈ undeleted l, axisCoord d.division_axis p < axisCoord d.division_axis d.point) ∧
      (∀ p ∈ undeleted r, axisCoord d.division_axis d.point ≤ axisCoord d.division_axis p))
      (update (node { (initTreeNode : NodeFields ℚ) with division_axis := 0, point := y }
        (buildTree env 2 [x]) (buildTree env 2 [z]))) := by
    have e : buildTree env ([pt 0 0 0, pt 0 1 0, pt 1 0 0] : List (PointType ℚ)).length
        [pt 0 0 0, pt 0 1 0, pt 1 0 0] =
        update (node { (initTreeNode : NodeFields ℚ) with division_axis := 0, point := y }
          (buildTree env 2 [x]) (buildTree env 2 [z])) := by
      show buildTree env (2 + 1) (pt 0 0 0 :: [pt 0 1 0, pt 1 0 0]) = _
      rw [hcons]
      rfl
    rw [e] at hsplit
    exact hsplit
  obtain ⟨⟨h1, h2⟩, _, _⟩ := hsp
  have hx : x ∈ undeleted (buildTree env 2 [x]) := by
    rw [undeleted_fresh _ hl.1]
    exact hl.2.symm.subset (List.mem_singleton_self x)
  have hz : z ∈ undeleted (buildTree env 2 [z]) := by
    rw [undeleted_fresh _ hr.1]
    exact hr.2.symm.subset (List.mem_singleton_self z)
  exact tie_points_not_strict x (hperm.subset (List.mem_cons_self _ _))
    y (hperm.subset (List.mem_cons_of_mem _ (List.mem_cons_self _ _)))
    z (hperm.subset (List.mem_cons_of_mem _ (List.mem_cons_of_mem _ (List.mem_cons_self _ _))))
    hnd.1.1 hnd.2 hnd.1.2 ⟨h1 x hx, h2 z hz⟩

/-- Claim C24, failing input: in the tree of `build([(0,0,0),(0,1,0),(1,0,0)])` the root is
`(0,1,0)` with split axis `x`, and its left subtree holds `(0,0,0)`, whose `x` is not
strictly smaller than that of the root: the split invariant does not hold right after
`build` (it holds with `≤` on the left). The descent by strict `<` then goes right for
`(0,0,0)`: `delete_points([(0,0,0)])` leaves it live. -/
theorem build_breaks_split_invariant :
    tieTree = build defaultEnv nil [pt 0 0 0, pt 0 1 0, pt 1 0 0] ∧
      points tieTree = [pt 0 1 0, pt 0 0 0, pt 1 0 0] ∧ ¬ SplitInv tieTree ∧
      AllNodes (fun d l r =>
        (∀ p ∈ undeleted l, axisCoord d.division_axis p ≤ axisCoord d.division_axis d.point) ∧
        (∀ p ∈ undeleted r, axisCoord d.division_axis d.point ≤ axisCoord d.division_axis p))
        (pushAll tieTree) ∧
      pt 0 0 0 ∈ livePoints (deletePoints defaultEnv tieTree [pt 0 0 0]) :=
  ⟨rfl, by decide!, by unfold SplitInv; decide!, by decide!, by decide!⟩


/-! ## The root metrics -/

/-- The value `update` stores in `alpha_bal` from the size `c` of the son it reads, the
sizes `a`, `b` of the sons being non-negative with `a + b ≥ 3`. -/
theorem alpha_bal_bounds (a b c : Int) (ha : 0 ≤ a) (hb : 0 ≤ b) (hab : 3 ≤ a + b)
    (hc : c = a ∨ (a = 0 ∧ c = b)) :
    (1 / 2 - EPSS : K) ≤
        (if (c : K) / ((a + b : Int) : K) ≥ 1 / 2 - EPSS then (c : K) / ((a + b : Int) : K)
          else 1 - (c : K) / ((a + b : Int) : K)) ∧
      (if (c : K) / ((a + b : Int) : K) ≥ 1 / 2 - EPSS then (c : K) / ((a + b : Int) : K)
          else 1 - (c : K) / ((a + b : Int) : K)) ≤ 1 ∧
      (a + b + 1 ≤ 500000 →
        (1 / 2 : K) ≤
          (if (c : K) / ((a + b : Int) : K) ≥ 1 / 2 - EPSS then (c : K) / ((a + b : Int) : K)
            else 1 - (c : K) / ((a + b : Int) : K)) ∧
        (if (c : K) / ((a + b : Int) : K) ≥ 1 / 2 - EPSS then (c : K) / ((a + b : Int) : K)
            else 1 - (c : K) / ((a + b : Int) : K)) =
          ((max a b : Int) : K) / ((a + b : Int) : K)) := by
  have hN : (0 : K) < ((a + b : Int) : K) := by exact_mod_cast (by omega : (0 : Int) < a + b)
  have hc0 : 0 ≤ c := by rcases hc with h | ⟨_, h⟩ <;> omega
  have hcN : c ≤ a + b := by rcases hc with h | ⟨_, h⟩ <;> omega
  have hc0K : (0 : K) ≤ (c : K) := by exact_mod_cast hc0
  have hcNK : (c : K) ≤ ((a + b : Int) : K) := by exact_mod_cast hcN
  have ht0 : (0 : K) ≤ (c : K) / ((a + b : Int) : K) := div_nonneg hc0K hN.le
  have ht1 : (c : K) / ((a + b : Int) : K) ≤ 1 := (div_le_one hN).2 hcNK
  have he : (0 : K) < EPSS := by unfold EPSS; norm_num
  by_cases ht : (c : K) / ((a + b : Int) : K) ≥ 1 / 2 - EPSS
  · rw [if_pos ht]
    refine ⟨ht, ht1, ?_⟩
    intro hsz
    have h2 : a + b ≤ 2 * c := by
      by_contra hlt
      have h3 : 2 * c + 1 ≤ a + b := by omega
      have h3K : 2 * (c : K) + 1 ≤ ((a + b : Int) : K) := by exact_mod_cast h3
      have hNle : ((a + b : Int) : K) ≤ 499999 := by
        exact_mod_cast (by omega : a + b ≤ 499999)
      have h4 : (1 / 2 - EPSS) * ((a + b : Int) : K) ≤ (c : K) := (le_div_iff₀ hN).1 ht
      unfold EPSS at h4
      linarith
    have h2K : ((a + b : Int) : K) ≤ 2 * (c : K) := by exact_mod_cast h2
    constructor
    · rw [le_div_iff₀ hN]
      linarith
    · have hm : max a b = c := by
        rcases hc with h | ⟨h0, h⟩
        · subst h; exact max_eq_left (by omega)
        · subst h; rw [h0]; exact max_eq_right hb
      rw [hm]
  · rw [if_neg ht]
    have ht' : (c : K) / ((a + b : Int) : K) < 1 / 2 - EPSS := not_le.1 ht
    refine ⟨by linarith, by linarith, ?_⟩
    intro _
    refine ⟨by linarith, ?_⟩
    have h4 : (c : K) < (1 / 2 - EPSS) * ((a + b : Int) : K) := (div_lt_iff₀ hN).1 ht'
    have h5 : 2 * c < a + b := by
      have : 2 * (c : K) < ((a + b : Int) : K) := by nlinarith
      exact_mod_cast this
    have hm : max a b = a + b - c := by
      rcases hc with h | ⟨h0, h⟩
      · subst h
        rw [max_eq_right (by omega)]
        ring
      · omega
    rw [hm]
    have hcast : ((a + b - c : Int) : K) = ((a + b : Int) : K) - (c : K) := by push_cast; ring
    rw [hcast, sub_div, div_self hN.ne']

/-- The pair that the last block of `update` stores at a root with more than three nodes,
in terms of the size `c` of the son it reads. -/
theorem updateRootAlpha_eq (d : NodeFields K) (l r : KD_TREE_NODE K) (alpha : K × K)
    (hl : 0 ≤ size l) (hs : 3 < size (update (node d l r))) :
    ∃ c : Int, (c = size l ∨ (size l = 0 ∧ c = size r)) ∧
      updateRootAlpha (update (node d l r)) alpha =
        (((invalidNum (update (node d l r)) : Int) : K) /
            ((size (update (node d l r)) : Int) : K),
          if (c : K) / ((size l + size r : Int) : K) ≥ 1 / 2 - EPSS
            then (c : K) / ((size l + size r : Int) : K)
            else 1 - (c : K) / ((size l + size r : Int) : K)) := by
  have hT : (updateFields d l.fields? r.fields?).TreeSize = size l + size r + 1 :=
    updateFields_TreeSize d l r
  have hgt : (updateFields d l.fields? r.fields?).TreeSize > 3 := hs
  have hsub : (updateFields d l.fields? r.fields?).TreeSize - 1 = size l + size r := by
    rw [hT]; ring
  cases l with
  | nil =>
    cases r with
    | nil =>
      rw [hT] at hgt
      simp [size] at hgt
    | node rd rl rr =>
      refine ⟨rd.TreeSize, Or.inr ⟨rfl, rfl⟩, ?_⟩
      show (if (updateFields d (nil : KD_TREE_NODE K).fields?
          (node rd rl rr).fields?).TreeSize > 3 then _ else _) = _
      rw [if_pos hgt]
      show (_, if (rd.TreeSize : K) / (((updateFields d (nil : KD_TREE_NODE K).fields?
        (node rd rl rr).fields?).TreeSize - 1 : Int) : K) ≥ 1 / 2 - EPSS then _ else _) = _
      rw [hsub]
      rfl
  | node ld ll lr =>
    refine ⟨ld.TreeSize, Or.inl rfl, ?_⟩
    show (if (updateFields d (node ld ll lr).fields? r.fields?).TreeSize > 3
      then _ else _) = _
    rw [if_pos hgt]
    show (_, if (ld.TreeSize : K) / (((updateFields d (node ld ll lr).fields?
      r.fields?).TreeSize - 1 : Int) : K) ≥ 1 / 2 - EPSS then _ else _) = _
    rw [hsub]
    rfl

/-- Claim C28 (amended): when `update` runs on the real root and leaves `TreeSize > 3` (the
sizes stored in the sons being non-negative), the stored `alpha_del` is
`invalid_point_num / TreeSize` and the stored `alpha_bal` lies in `[0.5 - EPSS, 1]`; for
`TreeSize ≤ 500000` it lies in `[0.5, 1]` and equals
`max(size(left), size(right)) / (TreeSize - 1)`, a null son having size `0`. -/
theorem update_root_alpha (d : NodeFields K) (l r : KD_TREE_NODE K) (alpha : K × K)
    (hl : 0 ≤ size l) (hr : 0 ≤ size r) (hs : 3 < size (update (node d l r))) :
    (updateRootAlpha (update (node d l r)) alpha).1 =
        ((invalidNum (update (node d l r)) : Int) : K) /
          ((size (update (node d l r)) : Int) : K) ∧
      1 / 2 - EPSS ≤ (updateRootAlpha (update (node d l r)) alpha).2 ∧
      (updateRootAlpha (update (node d l r)) alpha).2 ≤ 1 ∧
      (size (update (node d l r)) ≤ 500000 →
        1 / 2 ≤ (updateRootAlpha (update (node d l r)) alpha).2 ∧
        (updateRootAlpha (update (node d l r)) alpha).2 =
          ((max (size l) (size r) : Int) : K) /
            ((size (update (node d l r)) - 1 : Int) : K)) := by
  obtain ⟨c, hc, he⟩ := updateRootAlpha_eq d l r alpha hl hs
  have hT : size (update (node d l r)) = size l + size r + 1 := updateFields_TreeSize d l r
  have hab : 3 ≤ size l + size r := by rw [hT] at hs; omega
  obtain ⟨b1, b2, b3⟩ := alpha_bal_bounds (K := K) (size l) (size r) c hl hr hab hc
  rw [he]
  refine ⟨rfl, b1, b2, ?_⟩
  intro hsz
  have hsub : size (update (node d l r)) - 1 = size l + size r := by rw [hT]; ring
  rw [hsub]
  exact b3 (by rw [hT] at hsz; exact hsz)

theorem chainTree_reachable : Reachable defaultEnv chainTree := by
  have h : addPoints defaultEnv (build defaultEnv nil [pt 0 0 0])
      [pt 1 0 0, pt 2 0 0, pt 3 0 0] false = some (chainTree, 0) := by decide!
  exact Reachable.afterAddPoints _ _ (chainTree, 0) (Reachable.ofBuild nil _) h

/-- Witness for C28: the root of the tree left by `build([(0,0,0)])` and
`add_points([(1,0,0),(2,0,0),(3,0,0)])` has no left son and a right son of size `3`;
`update` on it stores `alpha_del = 0` and `alpha_bal = 1 = max(0, 3) / (4 - 1)`. -/
theorem update_root_alpha_witness :
    node chainRoot chainLeft chainRight = chainTree ∧
      0 ≤ size chainLeft ∧ 0 ≤ size chainRight ∧
      3 < size (update (node chainRoot chainLeft chainRight)) ∧
      (updateRootAlpha (update (node chainRoot chainLeft chainRight)) (0, 1 / 2)).1 =
        ((invalidNum (update (node chainRoot chainLeft chainRight)) : Int) : ℚ) /
          ((size (update (node chainRoot chainLeft chainRight)) : Int) : ℚ) ∧
      (updateRootAlpha (update (node chainRoot chainLeft chainRight)) (0, 1 / 2)).2 ≤ 1 :=
  ⟨by decide!, by decide!, by decide!, by decide!,
    (update_root_alpha chainRoot chainLeft chainRight (0, 1 / 2) (by decide!) (by decide!)
      (by decide!)).1,
    (update_root_alpha chainRoot chainLeft chainRight (0, 1 / 2) (by decide!) (by decide!)
      (by decide!)).2.2.1⟩

/-- Counterexample to C28 as stated: the tree left by `build([(0,0,0)])` and
`add_points([(1,0,0),(2,0,0),(3,0,0)])` is a chain to the right with `size() = 4 > 3`, as
`update` left it; the `alpha_bal` stored at its root is `3 / 3 = 1`, which is not in
`[0.5, 1)`. -/
theorem update_root_alpha_reaches_one :
    Reachable defaultEnv chainTree ∧ update chainTree = chainTree ∧ size chainTree = 4 ∧
      chainLeft = nil ∧ size chainRight = 3 ∧
      updateRootAlpha (update chainTree) (0, 1 / 2) = (0, 1) ∧
      ¬ ((updateRootAlpha (update chainTree) (0, 1 / 2)).2 < 1) :=
  ⟨chainTree_reachable, by decide!, by decide!, by decide!, by decide!, by decide!, by decide!⟩


/-! ## The flag implications on the stored fields -/

theorem flagP_pushFields (e s : NodeFields K) : FlagP (pushFields e s) := by
  constructor
  · intro h
    show ((e.tree_deleted || (s.tree_downsample_deleted || e.tree_downsample_deleted)) ||
      (s.point_downsample_deleted || e.tree_downsample_deleted)) = true
    have h1 : (s.point_downsample_deleted || e.tree_downsample_deleted) = true := h
    rw [h1, Bool.or_true]
  · intro h
    show (e.tree_deleted || (s.tree_downsample_deleted || e.tree_downsample_deleted)) = true
    have h1 : (s.tree_downsample_deleted || e.tree_downsample_deleted) = true := h
    rw [h1, Bool.or_true]

theorem flagP_pushLogged (operation : Operation_Logger_Type K) (s : NodeFields K) :
    FlagP (pushLogged operation s) := by
  constructor
  · intro h
    show ((operation.tree_deleted ||
      (s.tree_downsample_deleted || operation.tree_downsample_deleted)) ||
      (s.point_downsample_deleted || operation.tree_downsample_deleted)) = true
    have h1 : (s.point_downsample_deleted || operation.tree_downsample_deleted) = true := h
    rw [h1, Bool.or_true]
  · intro h
    show (operation.tree_deleted ||
      (s.tree_downsample_deleted || operation.tree_downsample_deleted)) = true
    have h1 : (s.tree_downsample_deleted || operation.tree_downsample_deleted) = true := h
    rw [h1, Bool.or_true]

theorem flagInv_nil : FlagInv (nil : KD_TREE_NODE K) := trivial

theorem flagInv_pushSon (flag : Bool) (e : NodeFields K) (t : KD_TREE_NODE K)
    (h : FlagInv t) : FlagInv (pushSon flag e t) := by
  cases t with
  | nil => exact h
  | node s l r =>
    cases flag with
    | false => exact h
    | true => exact ⟨flagP_pushFields e s, h.2.1, h.2.2⟩

theorem flagP_pushDownNode (d : NodeFields K) (l r : KD_TREE_NODE K) (h : FlagP d) :
    FlagP (pushDownNode d l r).1 := by
  unfold FlagP at h ⊢
  rw [pushDownNode_point_downsample_deleted, pushDownNode_point_deleted,
    pushDownNode_tree_downsample_deleted, pushDownNode_tree_deleted]
  exact h

/-- The sons and the fields of a node after `pushDown` satisfy the flag implications. -/
theorem flagInv_pushDownNode (d : NodeFields K) (l r : KD_TREE_NODE K)
    (h : FlagInv (node d l r)) :
    FlagP (pushDownNode d l r).1 ∧ FlagInv (pushDownNode d l r).2.1 ∧
      FlagInv (pushDownNode d l r).2.2 := by
  refine ⟨flagP_pushDownNode d l r h.1, ?_, ?_⟩
  · rw [pushDownNode_snd_fst]
    exact flagInv_pushSon _ _ _ h.2.1
  · rw [pushDownNode_snd_snd]
    exact flagInv_pushSon _ _ _ h.2.2

theorem flagInv_pushDown (t : KD_TREE_NODE K) (h : FlagInv t) : FlagInv (pushDown t) := by
  cases t with
  | nil => exact h
  | node d l r => exact flagInv_pushDownNode d l r h

theorem treeDeleted_of_flagInv (t : KD_TREE_NODE K) (h : FlagInv t)
    (ht : treeDownDeleted t = true) : treeDeleted t = true := by
  cases t with
  | nil => rfl
  | node d l r => exact h.1.2 ht

theorem flagP_updateFields (d : NodeFields K) (l r : KD_TREE_NODE K) (h : FlagP d)
    (hl : FlagInv l) (hr : FlagInv r) : FlagP (updateFields d l.fields? r.fields?) := by
  constructor
  · intro hp
    exact h.1 hp
  · intro ht
    rw [updateFields_tree_downsample_deleted] at ht
    rw [updateFields_tree_deleted]
    simp only [Bool.and_eq_true] at ht ⊢
    exact ⟨⟨treeDeleted_of_flagInv l hl ht.1.1, treeDeleted_of_flagInv r hr ht.1.2⟩,
      h.1 ht.2⟩

theorem flagInv_update_node (d : NodeFields K) (l r : KD_TREE_NODE K) (h : FlagP d)
    (hl : FlagInv l) (hr : FlagInv r) : FlagInv (update (node d l r)) :=
  ⟨flagP_updateFields d l r h hl hr, hl, hr⟩

theorem flagInv_update (t : KD_TREE_NODE K) (h : FlagInv t) : FlagInv (update t) := by
  cases t with
  | nil => exact h
  | node d l r => exact flagInv_update_node d l r h.1 h.2.1 h.2.2

theorem flagInv_flatten : ∀ (fuel : Nat) (t : KD_TREE_NODE K) (storage : List (PointType K)),
    FlagInv t → FlagInv (flatten fuel t storage).1
  | _, nil, _, _ => by cases ‹Nat› <;> exact flagInv_nil
  | 0, node d l r, _, h => h
  | fuel + 1, node d l r, storage, h => by
    obtain ⟨h0, h1, h2⟩ := flagInv_pushDownNode d l r h
    simp only [flatten]
    exact ⟨h0, flagInv_flatten fuel _ _ h1, flagInv_flatten fuel _ _ h2⟩

theorem flagP_init (p : PointType K) (axis : Nat) :
    FlagP ({ (initTreeNode : NodeFields K) with division_axis := axis, point := p }) :=
  ⟨fun h => (by cases h), fun h => (by cases h)⟩

theorem flagInv_buildTree (env : Env K) : ∀ (fuel : Nat) (pts : List (PointType K)),
    FlagInv (buildTree env fuel pts)
  | _, [] => by cases ‹Nat› <;> exact flagInv_nil
  | 0, _ :: _ => flagInv_nil
  | fuel + 1, p0 :: ps => by
    rw [buildTree_cons]
    exact flagInv_update_node _ _ _ (flagP_init _ _) (flagInv_buildTree env fuel _)
      (flagInv_buildTree env fuel _)

theorem flagInv_rebuild (env : Env K) (t : KD_TREE_NODE K) (h : FlagInv t) :
    FlagInv (rebuild env t) := by
  cases t with
  | nil => exact h
  | node d l r =>
    simp only [rebuild]
    split
    · exact h
    · split
      · exact flagInv_nil
      · exact flagInv_update _ (flagInv_buildTree env _ _)

theorem flagInv_updateAndRebuild (env : Env K) (allowRebuild : Bool) (d : NodeFields K)
    (l r : KD_TREE_NODE K) (h : FlagP d) (hl : FlagInv l) (hr : FlagInv r) :
    FlagInv (updateAndRebuild env allowRebuild (node d l r)) := by
  unfold updateAndRebuild
  simp only
  split
  · exact flagInv_rebuild env _ (flagInv_update_node d l r h hl hr)
  · exact flagInv_update_node d l r h hl hr


theorem flagInv_addByPoint (env : Env K) (p : PointType K) (allowRebuild : Bool) :
    ∀ (fuel : Nat) (t : KD_TREE_NODE K) (fatherAxis : Nat), FlagInv t →
    FlagInv (addByPoint env fuel t p allowRebuild fatherAxis)
  | fuel, nil, fa, _ => by
    have h : FlagInv (update (node { (initTreeNode : NodeFields K) with
        point := p, division_axis := (fa + 1) % 3 } nil nil)) :=
      flagInv_update_node _ nil nil ⟨fun h => (by cases h), fun h => (by cases h)⟩
        flagInv_nil flagInv_nil
    cases fuel <;> exact h
  | 0, node d l r, _, h => h
  | fuel + 1, node d l r, fa, h => by
    obtain ⟨h0, h1, h2⟩ := flagInv_pushDownNode d l r h
    simp only [addByPoint]
    split
    · exact flagInv_updateAndRebuild env allowRebuild _ _ _ h0
        (flagInv_addByPoint env p allowRebuild fuel _ _ h1) h2
    · exact flagInv_updateAndRebuild env allowRebuild _ _ _ h0 h1
        (flagInv_addByPoint env p allowRebuild fuel _ _ h2)

theorem flagInv_deleteByPoint (env : Env K) (p : PointType K) (allowRebuild : Bool) :
    ∀ (fuel : Nat) (t : KD_TREE_NODE K), FlagInv t →
    FlagInv (deleteByPoint env fuel t p allowRebuild)
  | _, nil, _ => by cases ‹Nat› <;> exact flagInv_nil
  | 0, node d l r, h => h
  | fuel + 1, node d l r, h => by
    obtain ⟨h0, h1, h2⟩ := flagInv_pushDownNode d l r h
    simp only [deleteByPoint]
    split
    · exact h
    · split
      · refine ⟨⟨fun _ => rfl, ?_⟩, h1, h2⟩
        intro ht
        show (if (pushDownNode d l r).1.invalid_point_num + 1 = (pushDownNode d l r).1.TreeSize
          then true else (pushDownNode d l r).1.tree_deleted) = true
        split
        · rfl
        · exact h0.2 ht
      · split
        · exact flagInv_updateAndRebuild env allowRebuild _ _ _ h0
            (flagInv_deleteByPoint env p allowRebuild fuel _ h1) h2
        · exact flagInv_updateAndRebuild env allowRebuild _ _ _ h0 h1
            (flagInv_deleteByPoint env p allowRebuild fuel _ h2)

theorem flagInv_deleteByRange (env : Env K) (b : BoxPointType K)
    (allowRebuild isDownsample : Bool) : ∀ (fuel : Nat) (t : KD_TREE_NODE K), FlagInv t →
    FlagInv (deleteByRange env fuel t b allowRebuild isDownsample).1
  | _, nil, _ => by cases ‹Nat› <;> exact flagInv_nil
  | 0, node d l r, h => h
  | fuel + 1, node d l r, h => by
    obtain ⟨h0, h1, h2⟩ := flagInv_pushDownNode d l r h
    simp only [deleteByRange]
    split
    · exact h
    · split
      · exact ⟨h0, h1, h2⟩
      · split
        · refine ⟨?_, h1, h2⟩
          cases isDownsample <;> exact ⟨fun _ => rfl, fun _ => rfl⟩
        · refine flagInv_updateAndRebuild env allowRebuild _ _ _ ?_
            (flagInv_deleteByRange env b allowRebuild isDownsample fuel _ h1)
            (flagInv_deleteByRange env b allowRebuild isDownsample fuel _ h2)
          split
          · exact ⟨fun _ => rfl, h0.2⟩
          · exact h0

theorem flagInv_addByRange (env : Env K) (b : BoxPointType K) (allowRebuild : Bool) :
    ∀ (fuel : Nat) (t : KD_TREE_NODE K), FlagInv t →
    FlagInv (addByRange env fuel t b allowRebuild)
  | _, nil, _ => by cases ‹Nat› <;> exact flagInv_nil
  | 0, node d l r, h => h
  | fuel + 1, node d l r, h => by
    obtain ⟨h0, h1, h2⟩ := flagInv_pushDownNode d l r h
    simp only [addByRange]
    split
    · exact ⟨h0, h1, h2⟩
    · split
      · refine ⟨⟨fun hp => ?_, fun ht => ?_⟩, h1, h2⟩
        · show (false || (pushDownNode d l r).1.point_downsample_deleted) = true
          rw [Bool.false_or]; exact hp
        · show (false || (pushDownNode d l r).1.tree_downsample_deleted) = true
          rw [Bool.false_or]; exact ht
      · refine flagInv_updateAndRebuild env allowRebuild _ _ _ ?_
          (flagInv_addByRange env b allowRebuild fuel _ h1)
          (flagInv_addByRange env b allowRebuild fuel _ h2)
        split
        · exact ⟨fun hp => hp, h0.2⟩
        · exact h0

theorem flagInv_runOperation (env : Env K) (root : KD_TREE_NODE K)
    (operation : Operation_Logger_Type K) (res : KD_TREE_NODE K) (h : FlagInv root)
    (hres : runOperation env root operation = some res) : FlagInv res := by
  unfold runOperation at hres
  split at hres
  · cases hres
    exact flagInv_addByPoint env _ false _ _ _ h
  · cases hres
    exact flagInv_addByRange env _ false _ _ h
  · cases hres
    exact flagInv_deleteByPoint env _ false _ _ h
  · cases hres
    exact flagInv_deleteByRange env _ false false _ _ h
  · cases hres
    exact flagInv_deleteByRange env _ false true _ _ h
  · split at hres
    · cases hres
    · cases hres
      exact ⟨flagP_pushLogged operation _, h.2.1, h.2.2⟩

/-- Claim C27: `update`, `pushDown`, `addByPoint`, `deleteByPoint`, `deleteByRange`,
`addByRange`, `rebuild` and `runOperation` keep the flag implications of the stored fields:
if at every node `point_downsample_deleted` implies `point_deleted` and
`tree_downsample_deleted` implies `tree_deleted` before the operation, the same holds at
every node of the tree it leaves, for every argument, with or without rebuilds. -/
theorem operations_keep_flag_implications (env : Env K) (t : KD_TREE_NODE K)
    (h : FlagInv t) :
    FlagInv (update t) ∧ FlagInv (pushDown t) ∧
    (∀ (fuel : Nat) (p : PointType K) (allowRebuild : Bool) (fatherAxis : Nat),
      FlagInv (addByPoint env fuel t p allowRebuild fatherAxis)) ∧
    (∀ (fuel : Nat) (p : PointType K) (allowRebuild : Bool),
      FlagInv (deleteByPoint env fuel t p allowRebuild)) ∧
    (∀ (fuel : Nat) (b : BoxPointType K) (allowRebuild isDownsample : Bool),
      FlagInv (deleteByRange env fuel t b allowRebuild isDownsample).1) ∧
    (∀ (fuel : Nat) (b : BoxPointType K) (allowRebuild : Bool),
      FlagInv (addByRange env fuel t b allowRebuild)) ∧
    FlagInv (rebuild env t) ∧
    (∀ (operation : Operation_Logger_Type K) (res : KD_TREE_NODE K),
      runOperation env t operation = some res → FlagInv res) :=
  ⟨flagInv_update t h, flagInv_pushDown t h,
    fun fuel p ar fa => flagInv_addByPoint env p ar fuel t fa h,
    fun fuel p ar => flagInv_deleteByPoint env p ar fuel t h,
    fun fuel b ar ds => flagInv_deleteByRange env b ar ds fuel t h,
    fun fuel b ar => flagInv_addByRange env b ar fuel t h,
    flagInv_rebuild env t h,
    fun operation res hres => flagInv_runOperation env t operation res h hres⟩

/-- Witness for C27: the stored fields of the tree left by `build([(0,0,0),(1,0,0)])` and a
downsampling `add_points([(0.05,0.05,0.05)])`, which has a downsample-deleted node, satisfy
the flag implications, and so do the trees that `update` and a restoring `addByRange` around
all points leave. -/
theorem operations_keep_flag_implications_witness :
    FlagInv downsampledTree ∧ pt 0 0 0 ∉ keptPoints downsampledTree ∧
      FlagInv (update downsampledTree) ∧
      FlagInv (addByRange defaultEnv downsampledTree.height downsampledTree wideBox true) :=
  ⟨by unfold FlagInv; decide!, by decide!,
    (operations_keep_flag_implications defaultEnv downsampledTree
      (by unfold FlagInv; decide!)).1,
    (operations_keep_flag_implications defaultEnv downsampledTree
      (by unfold FlagInv; decide!)).2.2.2.2.2.1 downsampledTree.height wideBox true⟩


/-! ## The reads of `top()` in the k-nearest-neighbour search -/

theorem ltTopChecked_eq (a : Option K) (q : MANUAL_HEAP K) (h : q.m_heap ≠ []) :
    ltTopChecked a q = some (ltTop a q) := by
  unfold ltTopChecked ltTop MANUAL_HEAP.top
  cases hm : q.m_heap with
  | nil => exact absurd hm h
  | cons t rest => cases a <;> rfl

theorem ltTopChecked_nil (a : Option K) (q : MANUAL_HEAP K) (h : q.m_heap = []) :
    ltTopChecked a q = none := by
  unfold ltTopChecked MANUAL_HEAP.top
  rw [h]
  rfl

theorem heap_ne_nil_of_size {k : Nat} (hk0 : 0 < k) (heap : MANUAL_HEAP K)
    (h : ¬ heap.size < k) : heap.m_heap ≠ [] := by
  obtain ⟨t, rest, hm⟩ := heap_cons_of_size hk0 heap (not_lt.1 h)
  rw [hm]
  exact List.cons_ne_nil _ _

theorem sizeOrLtTop_eq {k : Nat} (hk0 : 0 < k) (a : Option K) (q : MANUAL_HEAP K) :
    sizeOrLtTop k a q = some (decide (q.size < k) || ltTop a q) := by
  unfold sizeOrLtTop
  by_cases hs : q.size < k
  · rw [if_pos hs, decide_eq_true hs, Bool.true_or]
  · rw [if_neg hs, decide_eq_false hs, Bool.false_or,
      ltTopChecked_eq a q (heap_ne_nil_of_size hk0 q hs)]

/-- With `kNearest ≥ 1` the point step never reads `top()` on an empty heap. -/
theorem visitPointChecked_eq {k : Nat} (hk0 : 0 < k) (q : PointType K) (maxDist : Option K)
    (heap : MANUAL_HEAP K) (d : NodeFields K) :
    visitPointChecked k q maxDist heap d = some (visitPoint k q maxDist heap d) := by
  unfold visitPointChecked visitPoint
  rw [sizeOrLtTop_eq hk0]
  cases hpd : d.point_deleted <;>
    cases hgt : gtOpt (calcDist q d.point) (maxDist.map fun m => m * m) <;>
    cases hx : (decide (heap.size < k) || ltTop (some (calcDist q d.point)) heap) <;>
    simp

/-- With `kNearest ≥ 1` the descent into the sons never reads `top()` on an empty heap, if
the two recursive calls do not and never shrink the heap. -/
theorem searchSonsChecked_eq {q : PointType K} {L : List (PointType K)} {k : Nat}
    (hk0 : 0 < k) {le : PointType_CMP K → PointType_CMP K → Prop}
    (sLc sRc : MANUAL_HEAP K → Option (KD_TREE_NODE K × MANUAL_HEAP K))
    (sL sR : MANUAL_HEAP K → KD_TREE_NODE K × MANUAL_HEAP K) (dl dr : Option K)
    (d : NodeFields K) (l r : KD_TREE_NODE K) (q1 : MANUAL_HEAP K)
    (hL : ∀ h, KnnOK le q L k h →
      sLc h = some (sL h) ∧ KnnOK le q L k (sL h).2 ∧ h.size ≤ (sL h).2.size)
    (hR : ∀ h, KnnOK le q L k h →
      sRc h = some (sR h) ∧ KnnOK le q L k (sR h).2 ∧ h.size ≤ (sR h).2.size)
    (hk : KnnOK le q L k q1) :
    searchSonsChecked sLc sRc dl dr k d l r q1 = some (searchSons sL sR dl dr k d l r q1) := by
  obtain ⟨l1, l2, l3⟩ := hL q1 hk
  obtain ⟨r1, r2, r3⟩ := hR q1 hk
  obtain ⟨lr1, _, _⟩ := hR _ l2
  obtain ⟨rl1, _, _⟩ := hL _ r2
  unfold searchSonsChecked searchSons
  by_cases hs : q1.size < k
  · rw [if_pos hs]
    simp only [Option.some_bind, if_true, decide_eq_true hs, Bool.true_or]
    by_cases ho : optLe dl dr = true
    · rw [if_pos ho, if_pos ho, l1]
      simp only [Option.some_bind, sizeOrLtTop_eq hk0]
      by_cases c : (decide ((sL q1).2.size < k) || ltTop dr (sL q1).2) = true
      · rw [if_pos c, if_pos c, lr1]; rfl
      · rw [if_neg c, if_neg c]
    · rw [if_neg ho, if_neg ho, r1]
      simp only [Option.some_bind, sizeOrLtTop_eq hk0]
      by_cases c : (decide ((sR q1).2.size < k) || ltTop dl (sR q1).2) = true
      · rw [if_pos c, if_pos c, rl1]; rfl
      · rw [if_neg c, if_neg c]
  · have hne := heap_ne_nil_of_size hk0 q1 hs
    rw [if_neg hs, ltTopChecked_eq dl q1 hne, ltTopChecked_eq dr q1 hne]
    simp only [Option.some_bind, decide_eq_false hs, Bool.false_or]
    by_cases c1 : ltTop dl q1 = true
    · rw [c1]
      simp only [if_true, Bool.true_and]
      by_cases c2 : ltTop dr q1 = true
      · rw [c2]
        simp only [Option.some_bind, if_true]
        by_cases ho : optLe dl dr = true
        · rw [if_pos ho, if_pos ho, l1]
          simp only [Option.some_bind, sizeOrLtTop_eq hk0]
          by_cases c : (decide ((sL q1).2.size < k) || ltTop dr (sL q1).2) = true
          · rw [if_pos c, if_pos c, lr1]; rfl
          · rw [if_neg c, if_neg c]
        · rw [if_neg ho, if_neg ho, r1]
          simp only [Option.some_bind, sizeOrLtTop_eq hk0]
          by_cases c : (decide ((sR q1).2.size < k) || ltTop dl (sR q1).2) = true
          · rw [if_pos c, if_pos c, rl1]; rfl
          · rw [if_neg c, if_neg c]
      · rw [Bool.not_eq_true] at c2
        rw [c2]
        simp only [Option.some_bind, Bool.false_eq_true, if_false, l1]
        have hne2 : (sL q1).2.m_heap ≠ [] :=
          heap_ne_nil_of_size hk0 _ (by omega)
        rw [ltTopChecked_eq dr _ hne2]
        simp only [Option.some_bind]
        by_cases c3 : ltTop dr (sL q1).2 = true
        · rw [c3]
          simp only [if_true, lr1]
          rfl
        · rw [Bool.not_eq_true] at c3
          rw [c3]
          simp only [Bool.false_eq_true, if_false]
          rfl
    · rw [Bool.not_eq_true] at c1
      rw [c1]
      simp only [Option.some_bind, Bool.false_and, Bool.false_eq_true, if_false]
      rw [ltTopChecked_eq dr q1 hne]
      simp only [Option.some_bind]
      by_cases c3 : ltTop dr q1 = true
      · rw [c3]
        simp only [if_true, r1]
        rfl
      · rw [Bool.not_eq_true] at c3
        rw [c3]
        simp only [Bool.false_eq_true, if_false]
        rfl

/-- One level of `searchChecked` on a node, in terms of `visitPointChecked` and
`searchSonsChecked`. -/
theorem searchChecked_succ (fuel : Nat) (d : NodeFields K) (l r : KD_TREE_NODE K) (k : Nat)
    (q : PointType K) (heap : MANUAL_HEAP K) (maxDist : Option K) :
    searchChecked (fuel + 1) (node d l r) k q heap maxDist =
      if d.tree_deleted then some (node d l r, heap)
      else if (calcBoxDist (node d l r) q).elim false
          (fun c => gtOpt c (maxDist.map fun m => m * m)) then some (node d l r, heap)
      else (visitPointChecked k q maxDist heap d).bind fun q1 =>
        searchSonsChecked (fun h => searchChecked fuel l k q h maxDist)
          (fun h => searchChecked fuel r k q h maxDist)
          (calcBoxDist l q) (calcBoxDist r q) k d l r q1 := rfl

/-- With `kNearest ≥ 1` the search never reads `top()` on an empty heap: the checked run
returns what `search` returns. -/
theorem searchChecked_eq {q : PointType K} {L : List (PointType K)} {k : Nat} (hk0 : 0 < k)
    {le : PointType_CMP K → PointType_CMP K → Prop}
    (hlex : Ordered le (EntryOf q L)) (maxDist : Option K) :
    ∀ (fuel : Nat) (t : KD_TREE_NODE K) (heap : MANUAL_HEAP K),
      (∀ p ∈ visible t, p ∈ L) → KnnOK le q L k heap →
      searchChecked fuel t k q heap maxDist = some (search fuel t k q heap maxDist) := by
  intro fuel
  induction fuel with
  | zero =>
    intro t heap _ _
    cases t <;> rfl
  | succ n ih =>
    intro t heap hL hk
    cases t with
    | nil => rfl
    | node d l r =>
      rw [search_succ, searchChecked_succ]
      split
      · rfl
      · rename_i htd
        rw [visible_node d l r htd] at hL
        split
        · rfl
        · have hv := visitPoint_basic hk0 hlex maxDist heap d
            (by
              intro hpd
              apply hL
              rw [hpd]
              simp) hk
          rw [visitPointChecked_eq hk0, Option.some_bind]
          exact searchSonsChecked_eq hk0 _ _
            (fun h => search n l k q h maxDist) (fun h => search n r k q h maxDist) _ _ _ _ _ _
            (fun h hh => ⟨ih _ h (fun p hp => hL p (by simp [hp])) hh,
              search_basic hk0 hlex maxDist n _ h (fun p hp => hL p (by simp [hp])) hh⟩)
            (fun h hh => ⟨ih _ h (fun p hp => hL p (by simp [hp])) hh,
              search_basic hk0 hlex maxDist n _ h (fun p hp => hL p (by simp [hp])) hh⟩)
            hv.1

/-! ### A heap whose capacity is below `kNearest` -/

theorem push_small {k : Nat} (heap : MANUAL_HEAP K) (e : PointType_CMP K)
    (h : heap.size ≤ heap.m_cap ∧ heap.m_cap < k) :
    (heap.push e).size ≤ (heap.push e).m_cap ∧ (heap.push e).m_cap < k := by
  by_cases hcap : heap.size < heap.m_cap
  · obtain ⟨_, p2, p3⟩ := push_spec (ordered_true (fun _ => True)) heap e
      (fun _ _ _ _ _ _ => trivial) (fun _ _ => trivial) trivial hcap
    have hl := p2.length_eq
    rw [List.length_cons] at hl
    have hs : (heap.push e).size = heap.size + 1 := hl
    rw [p3, hs]
    exact ⟨hcap, h.2⟩
  · have : heap.push e = heap := by
      unfold MANUAL_HEAP.push
      rw [if_pos (not_lt.1 hcap)]
    rw [this]
    exact h

theorem visitPoint_small {k : Nat} (q : PointType K) (maxDist : Option K)
    (heap : MANUAL_HEAP K) (d : NodeFields K)
    (h : heap.size ≤ heap.m_cap ∧ heap.m_cap < k) :
    (visitPoint k q maxDist heap d).size ≤ (visitPoint k q maxDist heap d).m_cap ∧
      (visitPoint k q maxDist heap d).m_cap < k := by
  unfold visitPoint
  split
  · rw [if_neg (by omega)]
    exact push_small heap _ h
  · exact h

/-- With a capacity below `kNearest` the heap never holds `kNearest` entries, so the descent
into the sons never reads `top()`, if the two recursive calls do not. -/
theorem searchSonsChecked_eq_small {k : Nat}
    (sLc sRc : MANUAL_HEAP K → Option (KD_TREE_NODE K × MANUAL_HEAP K))
    (sL sR : MANUAL_HEAP K → KD_TREE_NODE K × MANUAL_HEAP K) (dl dr : Option K)
    (d : NodeFields K) (l r : KD_TREE_NODE K) (q1 : MANUAL_HEAP K)
    (hL : ∀ h, (h.size ≤ h.m_cap ∧ h.m_cap < k) →
      sLc h = some (sL h) ∧ ((sL h).2.size ≤ (sL h).2.m_cap ∧ (sL h).2.m_cap < k))
    (hR : ∀ h, (h.size ≤ h.m_cap ∧ h.m_cap < k) →
      sRc h = some (sR h) ∧ ((sR h).2.size ≤ (sR h).2.m_cap ∧ (sR h).2.m_cap < k))
    (hk : q1.size ≤ q1.m_cap ∧ q1.m_cap < k) :
    searchSonsChecked sLc sRc dl dr k d l r q1 = some (searchSons sL sR dl dr k d l r q1) ∧
      ((searchSons sL sR dl dr k d l r q1).2.size ≤ (searchSons sL sR dl dr k d l r q1).2.m_cap ∧
        (searchSons sL sR dl dr k d l r q1).2.m_cap < k) := by
  obtain ⟨l1, l2⟩ := hL q1 hk
  obtain ⟨r1, r2⟩ := hR q1 hk
  obtain ⟨lr1, lr2⟩ := hR _ l2
  obtain ⟨rl1, rl2⟩ := hL _ r2
  have hs : q1.size < k := by omega
  have hsl : (sL q1).2.size < k := by omega
  have hsr : (sR q1).2.size < k := by omega
  unfold searchSonsChecked searchSons sizeOrLtTop
  rw [if_pos hs]
  simp only [Option.some_bind, if_true, decide_eq_true hs, Bool.true_or]
  by_cases ho : optLe dl dr = true
  · rw [if_pos ho, if_pos ho, l1]
    simp only [Option.some_bind, if_pos hsl, decide_eq_true hsl, Bool.true_or, if_true, lr1,
      Option.map_some']
    exact ⟨trivial, lr2⟩
  · rw [if_neg ho, if_neg ho, r1]
    simp only [Option.some_bind, if_pos hsr, decide_eq_true hsr, Bool.true_or, if_true, rl1,
      Option.map_some']
    exact ⟨trivial, rl2⟩

/-- With `kNearest ≥ 1` and a heap whose capacity is below `kNearest`, the search never
reads `top()`. -/
theorem searchChecked_eq_small {k : Nat} (hk0 : 0 < k) (q : PointType K) (maxDist : Option K) :
    ∀ (fuel : Nat) (t : KD_TREE_NODE K) (heap : MANUAL_HEAP K),
      (heap.size ≤ heap.m_cap ∧ heap.m_cap < k) →
      searchChecked fuel t k q heap maxDist = some (search fuel t k q heap maxDist) ∧
        ((search fuel t k q heap maxDist).2.size ≤ (search fuel t k q heap maxDist).2.m_cap ∧
          (search fuel t k q heap maxDist).2.m_cap < k) := by
  intro fuel
  induction fuel with
  | zero =>
    intro t heap h
    cases t <;> exact ⟨rfl, h⟩
  | succ n ih =>
    intro t heap h
    cases t with
    | nil => exact ⟨rfl, h⟩
    | node d l r =>
      rw [search_succ, searchChecked_succ]
      split
      · exact ⟨rfl, h⟩
      · split
        · exact ⟨rfl, h⟩
        · rw [visitPointChecked_eq hk0, Option.some_bind]
          exact searchSonsChecked_eq_small _ _
            (fun h => search n l k q h maxDist) (fun h => search n r k q h maxDist) _ _ _ _ _ _
            (fun h hh => ih l h hh) (fun h hh => ih r h hh)
            (visitPoint_small q maxDist heap d h)

theorem heapCapacity_lt (k : Nat) (hk30 : 1073741824 ≤ k) : heapCapacity k < k := by
  unfold heapCapacity
  split <;> omega

/-- With `kNearest ≥ 1`, `nearestSearch` never reads `top()` on an empty heap. -/
theorem nearestSearchChecked_eq (t : KD_TREE_NODE K) (q : PointType K) (k : Nat)
    (maxDist : Option K) (hk0 : 0 < k) :
    nearestSearchChecked t q k maxDist = some (nearestSearch t q k maxDist) := by
  unfold nearestSearchChecked
  by_cases hk30 : k < 1073741824
  · rw [searchChecked_eq hk0 (ordered_true (EntryOf q (visible t))) maxDist t.height t _
      (fun p hp => hp) (knnOK_empty _ q _ k hk30)]
    rfl
  · rw [(searchChecked_eq_small hk0 q maxDist t.height t (MANUAL_HEAP.empty (heapCapacity k))
      ⟨Nat.zero_le _, heapCapacity_lt k (not_lt.1 hk30)⟩).1]
    rfl

/-- With `kNearest = 0` every visit of a node that is not `tree_deleted` and not pruned
reads `top()` on the empty heap. -/
theorem searchChecked_zero (fuel : Nat) (d : NodeFields K) (l r : KD_TREE_NODE K)
    (q : PointType K) (heap : MANUAL_HEAP K) (hd : d.tree_deleted = false)
    (hh : heap.m_heap = []) :
    searchChecked (fuel + 1) (node d l r) 0 q heap none = none := by
  rw [searchChecked_succ, hd]
  have hprune : (calcBoxDist (node d l r) q).elim false
      (fun c => gtOpt c ((none : Option K).map fun m => m * m)) = false := by
    cases calcBoxDist (node d l r) q <;> rfl
  rw [hprune]
  simp only [Bool.false_eq_true, if_false]
  have hs : ¬ heap.size < 0 := Nat.not_lt_zero _
  unfold visitPointChecked sizeOrLtTop
  rw [if_neg hs, ltTopChecked_nil _ heap hh]
  split
  · rfl
  · rw [Option.some_bind]
    unfold searchSonsChecked
    rw [if_neg hs, ltTopChecked_nil _ heap hh]
    rfl

/-- Claim C21, failing inputs: on every tree with exact counters that has a live point,
`nearestSearch` with `kNearest = 0` and no distance bound evaluates `q.top()` on the heap of
capacity `0`, which holds no entry (with `kNearest ≥ 1` no run does). -/
theorem nearestSearch_zero_reads_empty_top (t : KD_TREE_NODE K) (q : PointType K)
    (hc : CountInv t) (hl : livePoints t ≠ []) :
    nearestSearchChecked t q 0 none = none ∧
      ∀ k : Nat, 0 < k → nearestSearchChecked t q k none = some (nearestSearch t q k none) := by
  refine ⟨?_, fun k hk => nearestSearchChecked_eq t q k none hk⟩
  cases t with
  | nil => exact absurd rfl hl
  | node d l r =>
    have hd : d.tree_deleted = false := by
      cases h : d.tree_deleted
      · rfl
      · exact absurd (livePoints_of_treeDeleted _ hc h) hl
    unfold nearestSearchChecked
    have h0 : searchChecked (node d l r).height (node d l r) 0 q
        (MANUAL_HEAP.empty (heapCapacity 0)) none = none :=
      searchChecked_zero (max l.height r.height) d l r q _ hd rfl
    rw [h0]
    rfl

/-- Witness for C21: the tree of `build([(0,0,0),(1,0,0)])` has exact counters and two live
points, and `nearestSearch((0,0,0), 0)` reads the top of the empty heap on it. -/
theorem nearestSearch_zero_reads_empty_top_witness :
    CountInv twoPointTree ∧ livePoints twoPointTree ≠ [] ∧
      nearestSearchChecked twoPointTree (pt 0 0 0) 0 none = none :=
  ⟨countInv_fresh _ (build_fresh _ nthPermutes_defaultEnv _ _).1, by decide!,
    (nearestSearch_zero_reads_empty_top twoPointTree (pt 0 0 0)
      (countInv_fresh _ (build_fresh _ nthPermutes_defaultEnv _ _).1) (by decide!)).1⟩

/-! ## The distance to the range box -/

/-- Claim C31: on a node `n` that has a son, `criterionCheck` returns false when
`n.TreeSize ≤ 10`; otherwise, with `child` the left son if there is one and else the right
son, `bal = child.TreeSize / (n.TreeSize - 1)` and `del = n.invalid_point_num / n.TreeSize`,
the two quotients being the `double` divisions of the source (`Env.fdiv`), it returns true
exactly when `del > m_deleteCriterionParam` or `bal > m_balanceCriterionParam` or
`bal < 1 - m_balanceCriterionParam`. -/
theorem criterionCheck_spec (env : Env K) (d : NodeFields K) (l r : KD_TREE_NODE K)
    (hson : l.isNull = false ∨ r.isNull = false) :
    (d.TreeSize ≤ 10 → criterionCheck env (node d l r) = false) ∧
    (10 < d.TreeSize →
      (criterionCheck env (node d l r) = true ↔
        env.fdiv (d.invalid_point_num : K) (d.TreeSize : K) > env.m_deleteCriterionParam ∨
        env.fdiv ((size (if l.isNull then r else l) : Int) : K) ((d.TreeSize - 1 : Int) : K) >
          env.m_balanceCriterionParam ∨
        env.fdiv ((size (if l.isNull then r else l) : Int) : K) ((d.TreeSize - 1 : Int) : K) <
          1 - env.m_balanceCriterionParam)) := by
  have key : ∀ (sz : Int), (10 < d.TreeSize →
      ((if d.TreeSize ≤ Minimal_Unbalanced_Tree_Size then false
        else if env.fdiv (d.invalid_point_num : K) (d.TreeSize : K) >
            env.m_deleteCriterionParam then true
        else if (env.fdiv (sz : K) ((d.TreeSize - 1 : Int) : K) > env.m_balanceCriterionParam ||
          env.fdiv (sz : K) ((d.TreeSize - 1 : Int) : K) < 1 - env.m_balanceCriterionParam)
          then true
        else false) = true ↔
        env.fdiv (d.invalid_point_num : K) (d.TreeSize : K) > env.m_deleteCriterionParam ∨
        env.fdiv (sz : K) ((d.TreeSize - 1 : Int) : K) > env.m_balanceCriterionParam ∨
        env.fdiv (sz : K) ((d.TreeSize - 1 : Int) : K) < 1 - env.m_balanceCriterionParam)) := by
    intro sz h
    have h10 : ¬ d.TreeSize ≤ Minimal_Unbalanced_Tree_Size := not_le.2 h
    rw [if_neg h10]
    generalize env.fdiv (sz : K) ((d.TreeSize - 1 : Int) : K) = bal
    generalize env.fdiv (d.invalid_point_num : K) (d.TreeSize : K) = del
    by_cases h1 : del > env.m_deleteCriterionParam
    · simp [h1]
    · by_cases h2 : bal > env.m_balanceCriterionParam
      · simp [h1, h2]
      · by_cases h3 : bal < 1 - env.m_balanceCriterionParam
        · simp [h1, h3]
        · simp [h1, h2, h3]
  constructor
  · intro h
    unfold criterionCheck
    simp only [Minimal_Unbalanced_Tree_Size]
    rw [if_pos h]
  · cases l with
    | node ld a b => exact key ld.TreeSize
    | nil =>
      cases r with
      | node rd a b => exact key rd.TreeSize
      | nil => simp [isNull] at hson

/-- Witness for C31, in double precision with `KD_TREE(0.5, 0.7, 0.2)`: on a node of size
`11` with no deleted point whose left son has size `3`, `bal` is the `double` nearest to
`3/10`, which lies below `1 - 0.7` as `double` arithmetic computes it, and `criterionCheck`
returns true; with a left son of size `7`, `bal` is the `double` nearest to `7/10`, which is
the parameter itself, and `criterionCheck` returns false. -/
theorem criterionCheck_spec_witness :
    ((sizedNode 3 nil nil).isNull = false ∨ (sizedNode 7 nil nil).isNull = false) ∧
    (10 : Int) < (sizedFields 11).TreeSize ∧
    doubleDiv 3 10 < 1 - roundDouble (7 / 10) ∧
    criterionCheck (doubleEnv (1 / 2) (7 / 10) (1 / 5))
      (node (sizedFields 11) (sizedNode 3 nil nil) (sizedNode 7 nil nil)) = true ∧
    criterionCheck (doubleEnv (1 / 2) (7 / 10) (1 / 5))
      (node (sizedFields 11) (sizedNode 7 nil nil) (sizedNode 3 nil nil)) = false :=
  ⟨Or.inl rfl, by decide, by decide!,
    ((criterionCheck_spec (doubleEnv (1 / 2) (7 / 10) (1 / 5)) (sizedFields 11)
      (sizedNode 3 nil nil) (sizedNode 7 nil nil) (Or.inl rfl)).2 (by decide)).2
      (Or.inr (Or.inr (by decide!))),
    by decide!⟩

/-! ## The specification of `pushDown` and `update` -/

theorem pushedSon_pushSon (flag : Bool) (n : NodeFields K) (c : KD_TREE_NODE K) :
    PushedSon n flag c (pushSon flag n c) := by
  cases c with
  | nil => exact rfl
  | node s cl cr =>
    cases flag with
    | false =>
      unfold PushedSon
      simp only [Bool.false_eq_true, if_false]
      rfl
    | true =>
      unfold PushedSon
      simp only [if_true]
      exact ⟨pushFields n s, rfl, rfl, rfl, rfl, rfl, rfl, rfl, rfl, rfl,
        sameStatic_pushFields n s⟩

/-- Claim C33: `pushDown` on a node `n` with sons `l` and `r` leaves every field of `n`
other than the two push flags as it is and clears the push flag of each side that has a
son (a raised flag over a null son stays raised).  A son `c` whose flag is raised gets
`tree_downsample_deleted` and `point_downsample_deleted` set to their old value or
`n.tree_downsample_deleted`, `tree_deleted = n.tree_deleted || c.tree_downsample_deleted`
and `point_deleted = c.tree_deleted || c.point_downsample_deleted` with the new values on
the right, `down_del_num = c.TreeSize` if `n.tree_downsample_deleted`,
`invalid_point_num = c.TreeSize` if `n.tree_deleted` and else the new `down_del_num`, and
both its push flags raised; its sons and its other fields are unchanged.  A son whose flag
is not raised is unchanged. -/
theorem pushDown_spec (d : NodeFields K) (l r : KD_TREE_NODE K) :
    ∃ d' l' r', pushDown (node d l r) = node d' l' r' ∧
      d' = { d with
        need_push_down_to_left := d.need_push_down_to_left && l.isNull
        need_push_down_to_right := d.need_push_down_to_right && r.isNull } ∧
      PushedSon d d.need_push_down_to_left l l' ∧
      PushedSon d d.need_push_down_to_right r r' := by
  refine ⟨(pushDownNode d l r).1, (pushDownNode d l r).2.1, (pushDownNode d l r).2.2, rfl,
    pushDownNode_fst d l r, ?_, ?_⟩
  · rw [pushDownNode_snd_fst]
    exact pushedSon_pushSon _ _ _
  · rw [pushDownNode_snd_snd]
    exact pushedSon_pushSon _ _ _

/-- The intervals a son given as `(tree_deleted, range)` contributes to the range of its
father. -/
theorem hullOf_updateRange (ls rs : Option (Bool × (K × K))) (pd : Bool) (c : K) :
    hullOf
      ((match ls with
        | none => []
        | some s => if ((ls.elim true fun s => s.1) && (rs.elim true fun s => s.1) && pd) ||
            !s.1 then [s.2] else []) ++
      (match rs with
        | none => []
        | some s => if ((ls.elim true fun s => s.1) && (rs.elim true fun s => s.1) && pd) ||
            !s.1 then [s.2] else []) ++
      (if ((ls.elim true fun s => s.1) && (rs.elim true fun s => s.1) && pd) || !pd
        then [(c, c)] else [])) =
    some (updateRange
      (((ls.elim true fun s => s.1) && (rs.elim true fun s => s.1) && pd) ||
        ((ls.elim true fun s => !s.1) && (rs.elim true fun s => !s.1) && !pd))
      ls rs pd c) := by
  rcases ls with _ | ⟨ltd, lr⟩ <;> rcases rs with _ | ⟨rtd, rr⟩
  · cases pd <;> simp [hullOf, updateRange]
  · cases pd <;> cases rtd <;> simp [hullOf, updateRange, accRange, accGet]
  · cases pd <;> cases ltd <;> simp [hullOf, updateRange, accRange, accGet]
  · cases pd <;> cases ltd <;> cases rtd <;> simp [hullOf, updateRange, accRange, accGet]

theorem update_aabb_x (d : NodeFields K) (l r : KD_TREE_NODE K) :
    hullOf (aabbParts 0 (updateFields d l.fields? r.fields?).tree_deleted d l r) =
      some (updateFields d l.fields? r.fields?).node_range_x := by
  have h := hullOf_updateRange (l.fields?.map fun s => (s.tree_deleted, s.node_range_x))
    (r.fields?.map fun s => (s.tree_deleted, s.node_range_x)) d.point_deleted d.point.x
  rw [updateFields_range_x, updateFields_tree_deleted]
  cases l <;> cases r <;> exact h

theorem update_aabb_y (d : NodeFields K) (l r : KD_TREE_NODE K) :
    hullOf (aabbParts 1 (updateFields d l.fields? r.fields?).tree_deleted d l r) =
      some (updateFields d l.fields? r.fields?).node_range_y := by
  have h := hullOf_updateRange (l.fields?.map fun s => (s.tree_deleted, s.node_range_y))
    (r.fields?.map fun s => (s.tree_deleted, s.node_range_y)) d.point_deleted d.point.y
  rw [updateFields_range_y, updateFields_tree_deleted]
  cases l <;> cases r <;> exact h

theorem update_aabb_z (d : NodeFields K) (l r : KD_TREE_NODE K) :
    hullOf (aabbParts 2 (updateFields d l.fields? r.fields?).tree_deleted d l r) =
      some (updateFields d l.fields? r.fields?).node_range_z := by
  have h := hullOf_updateRange (l.fields?.map fun s => (s.tree_deleted, s.node_range_z))
    (r.fields?.map fun s => (s.tree_deleted, s.node_range_z)) d.point_deleted d.point.z
  rw [updateFields_range_z, updateFields_tree_deleted]
  cases l <;> cases r <;> exact h

theorem updateFields_radius_sq (d : NodeFields K) (ls rs : Option (NodeFields K)) :
    (updateFields d ls rs).radius_sq =
      (((updateFields d ls rs).node_range_x.2 - (updateFields d ls rs).node_range_x.1) / 2) ^ 2 +
      (((updateFields d ls rs).node_range_y.2 - (updateFields d ls rs).node_range_y.1) / 2) ^ 2 +
      (((updateFields d ls rs).node_range_z.2 - (updateFields d ls rs).node_range_z.1) / 2) ^ 2 := by
  have key : ∀ a b c : K, a * (1 / 2) * (a * (1 / 2)) + b * (1 / 2) * (b * (1 / 2)) +
      c * (1 / 2) * (c * (1 / 2)) = (a / 2) ^ 2 + (b / 2) ^ 2 + (c / 2) ^ 2 := by
    intro a b c
    ring
  exact key _ _ _

/-- Claim C32: `update` on a node `n` with sons `l` and `r` keeps the sons, the point, the
split axis, the two point flags and the two push flags of `n`, and stores
`TreeSize = 1 + size(l) + size(r)`,
`invalid_point_num = (point_deleted ? 1 : 0) + invalid(l) + invalid(r)`,
`down_del_num = (point_downsample_deleted ? 1 : 0) + down(l) + down(r)`,
`tree_downsample_deleted = point_downsample_deleted ∧ tdd(l) ∧ tdd(r)` and
`tree_deleted = point_deleted ∧ td(l) ∧ td(r)`, a null son counting `0` and `true`.  On
each axis the range box stored is the union of the range boxes of the sons and of the point
of `n`, all of them when the new `tree_deleted` is true, and otherwise only the sons that
are not `tree_deleted` and the point if it is not `point_deleted`; `radius_sq` is the sum
over the axes of `((max - min) / 2)²` of the new range box. -/
theorem update_spec (d : NodeFields K) (l r : KD_TREE_NODE K) :
    ∃ d', update (node d l r) = node d' l r ∧
      d'.TreeSize = 1 + size l + size r ∧
      d'.invalid_point_num = (if d.point_deleted then 1 else 0) + invalidNum l + invalidNum r ∧
      d'.down_del_num =
        (if d.point_downsample_deleted then 1 else 0) + downDelNum l + downDelNum r ∧
      d'.tree_downsample_deleted =
        (d.point_downsample_deleted && treeDownDeleted l && treeDownDeleted r) ∧
      d'.tree_deleted = (d.point_deleted && treeDeleted l && treeDeleted r) ∧
      (∀ axis, axis < 3 →
        hullOf (aabbParts axis d'.tree_deleted d l r) = some (nodeRange axis d')) ∧
      d'.radius_sq =
        ((d'.node_range_x.2 - d'.node_range_x.1) / 2) ^ 2 +
        ((d'.node_range_y.2 - d'.node_range_y.1) / 2) ^ 2 +
        ((d'.node_range_z.2 - d'.node_range_z.1) / 2) ^ 2 ∧
      d'.point = d.point ∧ d'.division_axis = d.division_axis ∧
      d'.point_deleted = d.point_deleted ∧
      d'.point_downsample_deleted = d.point_downsample_deleted ∧
      d'.need_push_down_to_left = d.need_push_down_to_left ∧
      d'.need_push_down_to_right = d.need_push_down_to_right := by
  refine ⟨updateFields d l.fields? r.fields?, rfl, ?_, ?_, ?_, ?_, ?_, ?_,
    updateFields_radius_sq d _ _, rfl, rfl, rfl, rfl, rfl, rfl⟩
  · rw [updateFields_TreeSize]; ring
  · rw [updateFields_invalid]; ring
  · rw [updateFields_downDel]; ring
  · rw [updateFields_tree_downsample_deleted]
    cases d.point_downsample_deleted <;> cases treeDownDeleted l <;>
      cases treeDownDeleted r <;> rfl
  · rw [updateFields_tree_deleted]
    cases d.point_deleted <;> cases treeDeleted l <;> cases treeDeleted r <;> rfl
  · intro axis h
    interval_cases axis
    · exact update_aabb_x d l r
    · exact update_aabb_y d l r
    · exact update_aabb_z d l r

/-! ## The queue of the operation log is first-in first-out -/

theorem Q_LEN_pos : 0 < Q_LEN := by
  unfold Q_LEN
  norm_num

theorem holds_init {T : Type} (dflt : T) : (MANUAL_Q.init dflt).Holds [] := by
  refine ⟨Q_LEN_pos, ?_, rfl, rfl, Nat.zero_le _, ?_⟩
  · show 0 = (0 + 0) % Q_LEN
    rw [Nat.add_zero, Nat.zero_mod]
  · intro i x h
    simp at h

theorem mod_add_injective {a i j n : Nat} (hi : i < n) (hj : j < n)
    (h : (a + i) % n = (a + j) % n) : i = j := by
  have h1 : i ≡ j [MOD n] := Nat.ModEq.add_left_cancel' a h
  exact Nat.ModEq.eq_of_lt_of_lt h1 hi hj

theorem holds_push {T : Type} (q : MANUAL_Q T) (xs : List T) (x : T) (h : q.Holds xs)
    (hlen : xs.length < Q_LEN) : (q.push x).Holds (xs ++ [x]) := by
  obtain ⟨h1, h2, h3, h4, h5, h6⟩ := h
  refine ⟨h1, ?_, ?_, ?_, ?_, ?_⟩
  · show (q.m_tail + 1) % Q_LEN = (q.m_head + (xs ++ [x]).length) % Q_LEN
    rw [h2, List.length_append, List.length_singleton, ← Nat.add_assoc, Nat.mod_add_mod]
  · show q.m_counter + 1 = (xs ++ [x]).length
    rw [h3, List.length_append, List.length_singleton]
  · show false = (xs ++ [x]).isEmpty
    cases xs <;> rfl
  · rw [List.length_append, List.length_singleton]
    exact hlen
  · intro i y hy
    show (if (q.m_head + i) % Q_LEN = q.m_tail then x else q.m_queue ((q.m_head + i) % Q_LEN)) = y
    by_cases hi : i < xs.length
    · rw [List.getElem?_append_left hi] at hy
      have hne : (q.m_head + i) % Q_LEN ≠ q.m_tail := by
        rw [h2]
        intro he
        have := mod_add_injective (lt_trans hi hlen) hlen he
        omega
      rw [if_neg hne]
      exact h6 i y hy
    · have hi2 : i = xs.length := by
        have hlt : i < (xs ++ [x]).length := by
          by_contra hc
          rw [List.getElem?_eq_none (not_lt.1 hc)] at hy
          cases hy
        rw [List.length_append, List.length_singleton] at hlt
        omega
      subst hi2
      rw [List.getElem?_append_right (le_refl _), Nat.sub_self] at hy
      have hxy : x = y := by simpa using hy
      rw [if_pos h2.symm]
      exact hxy

theorem holds_pop {T : Type} (q : MANUAL_Q T) (x : T) (xs : List T) (h : q.Holds (x :: xs)) :
    q.front = x ∧ q.pop.Holds xs := by
  obtain ⟨h1, h2, h3, h4, h5, h6⟩ := h
  have hc : ¬ q.m_counter = 0 := by rw [h3]; simp
  constructor
  · have := h6 0 x (by simp)
    rw [Nat.add_zero, Nat.mod_eq_of_lt h1] at this
    exact this
  · unfold MANUAL_Q.pop
    rw [if_neg hc]
    refine ⟨Nat.mod_lt _ Q_LEN_pos, ?_, ?_, ?_, ?_, ?_⟩
    · show q.m_tail = ((q.m_head + 1) % Q_LEN + xs.length) % Q_LEN
      rw [h2, Nat.mod_add_mod, List.length_cons]
      congr 1
      omega
    · show q.m_counter - 1 = xs.length
      rw [h3, List.length_cons, Nat.add_sub_cancel]
    · show (if q.m_counter - 1 = 0 then true else q.m_isEmpty) = xs.isEmpty
      rw [h3, List.length_cons, Nat.add_sub_cancel, h4]
      cases xs <;> rfl
    · rw [List.length_cons] at h5
      omega
    · intro i y hy
      show q.m_queue (((q.m_head + 1) % Q_LEN + i) % Q_LEN) = y
      rw [Nat.mod_add_mod, Nat.add_assoc, Nat.add_comm 1 i]
      exact h6 (i + 1) y (by rw [List.getElem?_cons_succ]; exact hy)

theorem pop_of_size_zero {T : Type} (q : MANUAL_Q T) (h : q.size = 0) : q.pop = q := by
  have h0 : q.m_counter = 0 := h
  unfold MANUAL_Q.pop
  rw [if_pos h0]

theorem holds_pushEach {T : Type} : ∀ (xs ys : List T) (q : MANUAL_Q T), q.Holds ys →
    ys.length + xs.length ≤ Q_LEN → (q.pushEach xs).Holds (ys ++ xs)
  | [], ys, q, h, _ => by
    rw [List.append_nil]
    exact h
  | x :: xs, ys, q, h, hlen => by
    rw [List.length_cons] at hlen
    have h1 := holds_push q ys x h (by omega)
    have h2 := holds_pushEach xs (ys ++ [x]) (q.push x) h1
      (by rw [List.length_append, List.length_singleton]; omega)
    rw [List.append_assoc, List.singleton_append] at h2
    exact h2

theorem holds_popTimes {T : Type} : ∀ (j : Nat) (xs : List T) (q : MANUAL_Q T), q.Holds xs →
    (q.popTimes j).Holds (xs.drop j)
  | 0, xs, q, h => h
  | j + 1, [], q, h => by
    have hq : q.pop = q := pop_of_size_zero q h.2.2.1
    show (q.pop.popTimes j).Holds _
    rw [hq]
    have := holds_popTimes j [] q h
    rw [List.drop_nil] at this ⊢
    exact this
  | j + 1, x :: xs, q, h => holds_popTimes j xs q.pop (holds_pop q x xs h).2

/-- Claim C36: the operation log is first-in first-out.  Let at most `Q_LEN` entries `xs`
be pushed onto an empty `MANUAL_Q`.  Then `front()` after `i` calls of `pop()` is the
entry pushed as number `i`, so reading `front()` and calling `pop()` in turn yields the
entries in insertion order; after `j` calls of `pop()`, `size()` is the number of pushes
minus the number of pops that found an entry, `|xs| - j` and `0` from `j = |xs|` on;
`empty()` holds exactly when `size() = 0`; and `pop()` on a queue of size `0`, the new queue
included, changes nothing. -/
theorem log_is_fifo {T : Type} (dflt : T) (xs : List T) (hlen : xs.length ≤ Q_LEN) :
    (∀ (i : Nat) (x : T), xs[i]? = some x →
      (((MANUAL_Q.init dflt).pushEach xs).popTimes i).front = x) ∧
    (∀ j : Nat, (((MANUAL_Q.init dflt).pushEach xs).popTimes j).size = xs.length - j) ∧
    (∀ j : Nat, (((MANUAL_Q.init dflt).pushEach xs).popTimes j).empty = true ↔
      (((MANUAL_Q.init dflt).pushEach xs).popTimes j).size = 0) ∧
    (∀ q : MANUAL_Q T, q.size = 0 → q.pop = q) ∧
    (MANUAL_Q.init dflt).pop = MANUAL_Q.init dflt := by
  have h0 := holds_pushEach xs [] (MANUAL_Q.init dflt) (holds_init dflt)
    (by rw [List.length_nil, Nat.zero_add]; exact hlen)
  rw [List.nil_append] at h0
  have hj := fun j => holds_popTimes j xs _ h0
  refine ⟨?_, ?_, ?_, pop_of_size_zero, rfl⟩
  · intro i x hx
    have hi : i < xs.length := by
      by_contra hc
      rw [List.getElem?_eq_none (not_lt.1 hc)] at hx
      cases hx
    have hd : xs.drop i = x :: xs.drop (i + 1) := by
      rw [List.drop_eq_getElem_cons hi]
      congr 1
      rw [List.getElem?_eq_getElem hi] at hx
      exact Option.some.inj hx
    have := hj i
    rw [hd] at this
    exact (holds_pop _ x _ this).1
  · intro j
    have := (hj j).2.2.1
    rw [List.length_drop] at this
    exact this
  · intro j
    obtain ⟨_, _, h3, h4, _, _⟩ := hj j
    show (MANUAL_Q.popTimes _ j).m_isEmpty = true ↔ (MANUAL_Q.popTimes _ j).m_counter = 0
    rw [h3, h4]
    cases xs.drop j <;> simp

/-- Witness for C36: after the pushes of `10`, `20`, `30` onto a new queue, `front()` after
one `pop()` is `20`, and `size()` after two is `1`. -/
theorem log_is_fifo_witness :
    ([10, 20, 30] : List Nat).length ≤ Q_LEN ∧
    (((MANUAL_Q.init 0).pushEach ([10, 20, 30] : List Nat)).popTimes 1).front = 20 ∧
    (((MANUAL_Q.init 0).pushEach ([10, 20, 30] : List Nat)).popTimes 2).size = 3 - 2 :=
  ⟨by unfold Q_LEN; norm_num,
    (log_is_fifo 0 ([10, 20, 30] : List Nat) (by unfold Q_LEN; norm_num)).1 1 20 rfl,
    (log_is_fifo 0 ([10, 20, 30] : List Nat) (by unfold Q_LEN; norm_num)).2.1 2⟩

/-! ## The builder leaves a balanced tree -/

theorem numNodes_eq_length_points : ∀ t : KD_TREE_NODE K, numNodes t = (points t).length
  | nil => rfl
  | node d l r => by
    simp only [numNodes, points, List.length_cons, List.length_append,
      numNodes_eq_length_points l, numNodes_eq_length_points r]

theorem numNodes_buildTree (env : Env K) (hnth : NthPermutes env) (fuel : Nat)
    (pts : List (PointType K)) (h : pts.length ≤ fuel) :
    numNodes (buildTree env fuel pts) = pts.length ∧
      size (buildTree env fuel pts) = (pts.length : Int) := by
  obtain ⟨hf, hp⟩ := buildTree_fresh env hnth fuel pts h
  rw [numNodes_eq_length_points, size_fresh _ hf, hp.length_eq]
  exact ⟨rfl, rfl⟩

theorem balanced_buildTree (env : Env K) (hnth : NthPermutes env) :
    ∀ (fuel : Nat) (pts : List (PointType K)), pts.length ≤ fuel →
      Balanced (buildTree env fuel pts)
  | _, [], _ => by cases ‹Nat› <;> exact trivial
  | 0, _ :: _, h => by simp at h
  | fuel + 1, p0 :: ps, h => by
    have hperm := hnth (if divAxis p0 ps = 0 then pointCmpX else
      if divAxis p0 ps = 1 then pointCmpY else pointCmpZ) (((p0 :: ps).length - 1) / 2) (p0 :: ps)
    rw [buildTree_cons]
    generalize env.nth_element _ (((p0 :: ps).length - 1) / 2) (p0 :: ps) = storage at hperm ⊢
    have hlen : storage.length = ps.length + 1 := by
      rw [hperm.length_eq]; rfl
    have hmid : ((p0 :: ps).length - 1) / 2 = ps.length / 2 := by
      simp only [List.length_cons, Nat.add_sub_cancel]
    rw [hmid]
    rw [List.length_cons] at h
    have h1 : (storage.take (ps.length / 2)).length = ps.length / 2 := by
      rw [List.length_take, hlen]; omega
    have h2 : (storage.drop (ps.length / 2 + 1)).length = ps.length - ps.length / 2 := by
      rw [List.length_drop, hlen]; omega
    have hl : (storage.take (ps.length / 2)).length ≤ fuel := by omega
    have hr : (storage.drop (ps.length / 2 + 1)).length ≤ fuel := by omega
    obtain ⟨a1, a2⟩ := numNodes_buildTree env hnth fuel _ hl
    obtain ⟨b1, b2⟩ := numNodes_buildTree env hnth fuel _ hr
    refine ⟨⟨?_, ?_, ?_, ?_⟩, balanced_buildTree env hnth fuel _ hl,
      balanced_buildTree env hnth fuel _ hr⟩
    · rw [a1, b1, h1, h2]; omega
    · rw [a1, b1, h1, h2]; omega
    · rw [a1, a2]
    · rw [b1, b2]

/-- In a tree whose sons hold numbers of nodes that differ by at most one at every node,
a subtree of height `h` has at least `2 ^ (h - 1)` nodes. -/
theorem pow_height_le_of_balanced : ∀ t : KD_TREE_NODE K, Balanced t → t.isNull = false →
    2 ^ t.height ≤ 2 * numNodes t
  | nil, _, h => by cases h
  | node d l r, hb, _ => by
    obtain ⟨⟨c1, c2, _, _⟩, hl, hr⟩ := hb
    have el : 2 ^ l.height ≤ numNodes l + numNodes r + 1 := by
      cases l with
      | nil => simp [height]
      | node ld la lb =>
        have := pow_height_le_of_balanced (node ld la lb) hl rfl
        omega
    have er : 2 ^ r.height ≤ numNodes l + numNodes r + 1 := by
      cases r with
      | nil => simp [height]
      | node rd ra rb =>
        have := pow_height_le_of_balanced (node rd ra rb) hr rfl
        omega
    show 2 ^ (max l.height r.height + 1) ≤ 2 * (numNodes l + numNodes r + 1)
    rw [pow_succ]
    rcases max_cases l.height r.height with ⟨hm, _⟩ | ⟨hm, _⟩ <;> rw [hm] <;> omega

theorem height_le_log_of_balanced (t : KD_TREE_NODE K) (hb : Balanced t)
    (hn : t.isNull = false) : t.height ≤ Nat.log 2 (numNodes t) + 1 := by
  have h := pow_height_le_of_balanced t hb hn
  cases ht : t.height with
  | zero => exact Nat.zero_le _
  | succ n =>
    rw [ht, pow_succ] at h
    have h2 : 2 ^ n ≤ numNodes t := by omega
    have := Nat.le_log_of_pow_le (by norm_num : 1 < 2) h2
    omega

theorem isNull_buildTree (env : Env K) (fuel : Nat) (p : PointType K)
    (ps : List (PointType K)) : (buildTree env (fuel + 1) (p :: ps)).isNull = false := by
  rw [buildTree_cons]
  rfl

/-- Claim C37: for every non-empty list `pts` of points, the tree that the builder makes
of it is balanced: at every node the numbers of nodes of the two subtrees, which are the
sizes stored in the sons, differ by at most one, the left one not the larger; the tree has
`|pts|` nodes and its height is at most `⌊log₂ |pts|⌋ + 1`.  This holds for `build(pts)`,
whatever tree was there before, and for `rebuild` of a subtree that stores at least `10`
nodes and has the live points `pts`.  The library routine `std::nth_element` is taken to
rearrange its slice. -/
theorem builder_leaves_balanced_tree (env : Env K) (hnth : NthPermutes env)
    (pts : List (PointType K)) (hne : pts ≠ []) :
    (∀ m_rootNode : KD_TREE_NODE K,
      Balanced (build env m_rootNode pts) ∧ numNodes (build env m_rootNode pts) = pts.length ∧
      (build env m_rootNode pts).height ≤ Nat.log 2 pts.length + 1) ∧
    (∀ t : KD_TREE_NODE K, livePoints t = pts → Minimal_Unbalanced_Tree_Size ≤ size t →
      Balanced (rebuild env t) ∧ numNodes (rebuild env t) = pts.length ∧
      (rebuild env t).height ≤ Nat.log 2 pts.length + 1) := by
  have key : Balanced (buildTree env pts.length pts) ∧
      numNodes (buildTree env pts.length pts) = pts.length ∧
      (buildTree env pts.length pts).height ≤ Nat.log 2 pts.length + 1 := by
    have hb := balanced_buildTree env hnth pts.length pts le_rfl
    have hn := (numNodes_buildTree env hnth pts.length pts le_rfl).1
    refine ⟨hb, hn, ?_⟩
    have hnull : (buildTree env pts.length pts).isNull = false := by
      cases pts with
      | nil => exact absurd rfl hne
      | cons p ps => exact isNull_buildTree env _ p ps
    have := height_le_log_of_balanced _ hb hnull
    rw [hn] at this
    exact this
  constructor
  · intro m_rootNode
    rw [build_eq]
    exact key
  · intro t hlive hsize
    cases t with
    | nil => simp [size, Minimal_Unbalanced_Tree_Size] at hsize
    | node d l r =>
      have hd : ¬ d.TreeSize < Minimal_Unbalanced_Tree_Size := not_lt.2 hsize
      have hst : (flatten (node d l r).height (node d l r) []).2 = pts := by
        rw [flatten_snd _ _ _ le_rfl, List.nil_append, hlive]
      have hemp : pts.isEmpty = false := by
        cases pts with
        | nil => exact absurd rfl hne
        | cons p ps => rfl
      have hreb : rebuild env (node d l r) = buildTree env pts.length pts := by
        simp only [rebuild]
        rw [if_neg hd, hst, hemp]
        exact update_buildTree env _ _
      rw [hreb]
      exact key

/-- Witness for C37: the tree `build(clusterPoints)` of twelve points is balanced, has
twelve nodes and height at most `⌊log₂ 12⌋ + 1 = 4`. -/
theorem builder_leaves_balanced_tree_witness :
    clusterPoints ≠ [] ∧ NthPermutes defaultEnv ∧
    Balanced (build defaultEnv nil clusterPoints) ∧
    numNodes (build defaultEnv nil clusterPoints) = 12 ∧
    (build defaultEnv nil clusterPoints).height ≤ Nat.log 2 12 + 1 :=
  ⟨by decide!, nthPermutes_defaultEnv,
    (builder_leaves_balanced_tree defaultEnv nthPermutes_defaultEnv clusterPoints
      (by decide!)).1 nil⟩

/-! ## The node made by the builder -/

/-- The width of a slice on an axis is unique. -/
theorem isWidth_unique {axis : Nat} {slice : List (PointType K)} {w w' : K}
    (h : IsWidth axis slice w) (h' : IsWidth axis slice w') : w = w' := by
  obtain ⟨⟨p, hp, q, hq, e⟩, hb⟩ := h
  obtain ⟨⟨p', hp', q', hq', e'⟩, hb'⟩ := h'
  have h1 := hb p' hp' q' hq'
  have h2 := hb' p hp q hq
  linarith

theorem treeFlagP_of_tallyP {d : NodeFields K} (h : TallyP d) : TreeFlagP d := h.1

theorem flagP_of_tallyP {d : NodeFields K} (h : TallyP d) : FlagP d :=
  ⟨h.2.2.2.2.2.1, h.2.2.2.2.2.2⟩

/-- The assignments of a push-down keep `TallyV` when the downsample flag of the father
implies its deletion flag. -/
theorem tallyV_push (etd etdd : Bool) (he : etdd = true → etd = true)
    {td tdd pd pdd : Bool} {size inv ddn : Int} (hs : TallyV td tdd pd pdd size inv ddn) :
    TallyV (etd || (tdd || etdd)) (tdd || etdd) ((etd || (tdd || etdd)) || (pdd || etdd))
      (pdd || etdd) size (if etd then size else (if etdd then size else ddn))
      (if etdd then size else ddn) := by
  unfold TallyV at hs ⊢
  obtain ⟨⟨a1, a2⟩, ⟨b1, b2⟩, ⟨c1, c2⟩, e1, e2, e3, e4⟩ := hs
  have hsz : 0 ≤ size := le_trans b1 b2
  cases etd <;> cases etdd
  · simp only [Bool.false_or, Bool.or_false, Bool.false_eq_true, if_false]
    refine ⟨⟨a2, a2⟩, ⟨c1, c2⟩, ⟨c1, c2⟩, ?_, e2, ?_, fun h => h⟩
    · intro h
      simp [e2 h]
    · intro h
      simp [h]
  · exact absurd (he rfl) Bool.false_ne_true
  · simp only [Bool.true_or, Bool.or_false, Bool.false_eq_true, if_false, if_true]
    refine ⟨⟨?_, a2⟩, ⟨hsz, le_refl _⟩, ⟨c1, c2⟩, ?_, e2, ?_, ?_⟩ <;> simp
  · simp only [Bool.true_or, Bool.or_true, if_true]
    refine ⟨⟨?_, ?_⟩, ⟨hsz, le_refl _⟩, ⟨hsz, le_refl _⟩, ?_, ?_, ?_, ?_⟩ <;> simp

theorem tallyP_pushFields (e s : NodeFields K) (he : FlagP e) (hs : TallyP s) :
    TallyP (pushFields e s) :=
  tallyV_push e.tree_deleted e.tree_downsample_deleted he.2 hs

theorem tallyInv_nil : TallyInv (nil : KD_TREE_NODE K) := trivial

theorem tallyInv_pushSon (flag : Bool) (e : NodeFields K) (he : FlagP e) (t : KD_TREE_NODE K)
    (h : TallyInv t) : TallyInv (pushSon flag e t) := by
  cases t with
  | nil => exact h
  | node s l r =>
    cases flag with
    | false => exact h
    | true => exact ⟨tallyP_pushFields e s he h.1, h.2.1, h.2.2⟩

theorem tallyP_pushDownNode (d : NodeFields K) (l r : KD_TREE_NODE K) (h : TallyP d) :
    TallyP (pushDownNode d l r).1 := by
  unfold TallyP at h ⊢
  rw [pushDownNode_point_downsample_deleted, pushDownNode_point_deleted,
    pushDownNode_tree_downsample_deleted, pushDownNode_tree_deleted, pushDownNode_TreeSize,
    pushDownNode_invalid_point_num, pushDownNode_down_del_num]
  exact h

/-- The sons and the fields of a node after `pushDown` satisfy `TallyP`. -/
theorem tallyInv_pushDownNode (d : NodeFields K) (l r : KD_TREE_NODE K)
    (h : TallyInv (node d l r)) :
    TallyP (pushDownNode d l r).1 ∧ TallyInv (pushDownNode d l r).2.1 ∧
      TallyInv (pushDownNode d l r).2.2 := by
  refine ⟨tallyP_pushDownNode d l r h.1, ?_, ?_⟩
  · rw [pushDownNode_snd_fst]
    exact tallyInv_pushSon _ _ (flagP_of_tallyP h.1) _ h.2.1
  · rw [pushDownNode_snd_snd]
    exact tallyInv_pushSon _ _ (flagP_of_tallyP h.1) _ h.2.2

/-- What `update` reads of a son whose nodes satisfy `TallyP`. -/
theorem tally_son (t : KD_TREE_NODE K) (h : TallyInv t) :
    (treeDeleted t = true ↔ invalidNum t = size t) ∧
    (treeDownDeleted t = true ↔ downDelNum t = size t) ∧
    (0 ≤ invalidNum t ∧ invalidNum t ≤ size t) ∧ (0 ≤ downDelNum t ∧ downDelNum t ≤ size t) ∧
    (treeDownDeleted t = true → treeDeleted t = true) := by
  cases t with
  | nil => exact ⟨by simp [treeDeleted, invalidNum, size], by simp [treeDownDeleted, downDelNum, size],
      ⟨le_refl _, le_refl _⟩, ⟨le_refl _, le_refl _⟩, fun _ => rfl⟩
  | node d l r =>
    obtain ⟨⟨a1, a2⟩, b, c, _, _, _, e4⟩ := h.1
    exact ⟨a1, a2, b, c, e4⟩

theorem tallyP_updateFields (d : NodeFields K) (l r : KD_TREE_NODE K)
    (hd : d.point_downsample_deleted = true → d.point_deleted = true)
    (hl : TallyInv l) (hr : TallyInv r) : TallyP (updateFields d l.fields? r.fields?) := by
  obtain ⟨l1, l2, ⟨l3, l4⟩, ⟨l5, l6⟩, l7⟩ := tally_son l hl
  obtain ⟨r1, r2, ⟨r3, r4⟩, ⟨r5, r6⟩, r7⟩ := tally_son r hr
  unfold TallyP TallyV
  rw [updateFields_tree_deleted, updateFields_tree_downsample_deleted,
    updateFields_point_deleted, updateFields_point_downsample_deleted, updateFields_TreeSize,
    updateFields_invalid, updateFields_downDel]
  simp only [Bool.and_eq_true]
  have hb1 : (if d.point_deleted = true then (1 : Int) else 0) ≤ 1 := by split <;> norm_num
  have hb2 : (0 : Int) ≤ (if d.point_deleted = true then (1 : Int) else 0) := by
    split <;> norm_num
  have hb3 : (if d.point_downsample_deleted = true then (1 : Int) else 0) ≤ 1 := by
    split <;> norm_num
  have hb4 : (0 : Int) ≤ (if d.point_downsample_deleted = true then (1 : Int) else 0) := by
    split <;> norm_num
  refine ⟨⟨⟨?_, ?_⟩, ⟨?_, ?_⟩⟩, ⟨by omega, by omega⟩, ⟨by omega, by omega⟩, fun h => h.2,
    fun h => h.2, hd, fun h => ⟨⟨l7 h.1.1, r7 h.1.2⟩, hd h.2⟩⟩
  · intro ⟨⟨h1, h2⟩, h3⟩
    rw [l1.1 h1, r1.1 h2, if_pos h3]
  · intro h
    have e1 : invalidNum l = size l := by omega
    have e2 : invalidNum r = size r := by omega
    have e3 : (if d.point_deleted = true then (1 : Int) else 0) = 1 := by omega
    refine ⟨⟨l1.2 e1, r1.2 e2⟩, ?_⟩
    by_contra hc
    rw [if_neg hc] at e3
    norm_num at e3
  · intro ⟨⟨h1, h2⟩, h3⟩
    rw [l2.1 h1, r2.1 h2, if_pos h3]
  · intro h
    have e1 : downDelNum l = size l := by omega
    have e2 : downDelNum r = size r := by omega
    have e3 : (if d.point_downsample_deleted = true then (1 : Int) else 0) = 1 := by omega
    refine ⟨⟨l2.2 e1, r2.2 e2⟩, ?_⟩
    by_contra hc
    rw [if_neg hc] at e3
    norm_num at e3

theorem tallyInv_update_node (d : NodeFields K) (l r : KD_TREE_NODE K)
    (hd : d.point_downsample_deleted = true → d.point_deleted = true)
    (hl : TallyInv l) (hr : TallyInv r) : TallyInv (update (node d l r)) :=
  ⟨tallyP_updateFields d l r hd hl hr, hl, hr⟩

theorem tallyInv_update (t : KD_TREE_NODE K) (h : TallyInv t) : TallyInv (update t) := by
  cases t with
  | nil => exact h
  | node d l r => exact tallyInv_update_node d l r (flagP_of_tallyP h.1).1 h.2.1 h.2.2

theorem tallyInv_flatten : ∀ (fuel : Nat) (t : KD_TREE_NODE K) (storage : List (PointType K)),
    TallyInv t → TallyInv (flatten fuel t storage).1
  | _, nil, _, _ => by cases ‹Nat› <;> exact tallyInv_nil
  | 0, node d l r, _, h => h
  | fuel + 1, node d l r, storage, h => by
    obtain ⟨h0, h1, h2⟩ := tallyInv_pushDownNode d l r h
    simp only [flatten]
    exact ⟨h0, tallyInv_flatten fuel _ _ h1, tallyInv_flatten fuel _ _ h2⟩

theorem tallyInv_searchByRange (b : BoxPointType K) : ∀ (fuel : Nat) (t : KD_TREE_NODE K)
    (storage : List (PointType K)), TallyInv t → TallyInv (searchByRange fuel t b storage).1
  | _, nil, _, _ => by cases ‹Nat› <;> exact tallyInv_nil
  | 0, node d l r, _, h => h
  | fuel + 1, node d l r, storage, h => by
    obtain ⟨h0, h1, h2⟩ := tallyInv_pushDownNode d l r h
    simp only [searchByRange]
    split
    · exact ⟨h0, h1, h2⟩
    · split
      · exact tallyInv_flatten _ _ _ ⟨h0, h1, h2⟩
      · exact ⟨h0, tallyInv_searchByRange b fuel _ _ h1, tallyInv_searchByRange b fuel _ _ h2⟩

theorem tallyInv_buildTree (env : Env K) : ∀ (fuel : Nat) (pts : List (PointType K)),
    TallyInv (buildTree env fuel pts)
  | _, [] => by cases ‹Nat› <;> exact tallyInv_nil
  | 0, _ :: _ => tallyInv_nil
  | fuel + 1, p0 :: ps => by
    rw [buildTree_cons]
    exact tallyInv_update_node _ _ _ (fun h => (by cases h)) (tallyInv_buildTree env fuel _)
      (tallyInv_buildTree env fuel _)

theorem tallyInv_rebuild (env : Env K) (t : KD_TREE_NODE K) (h : TallyInv t) :
    TallyInv (rebuild env t) := by
  cases t with
  | nil => exact h
  | node d l r =>
    simp only [rebuild]
    split
    · exact h
    · split
      · exact tallyInv_nil
      · exact tallyInv_update _ (tallyInv_buildTree env _ _)

theorem tallyInv_updateAndRebuild (env : Env K) (allowRebuild : Bool) (d : NodeFields K)
    (l r : KD_TREE_NODE K) (hd : d.point_downsample_deleted = true → d.point_deleted = true)
    (hl : TallyInv l) (hr : TallyInv r) :
    TallyInv (updateAndRebuild env allowRebuild (node d l r)) := by
  unfold updateAndRebuild
  simp only
  split
  · exact tallyInv_rebuild env _ (tallyInv_update_node d l r hd hl hr)
  · exact tallyInv_update_node d l r hd hl hr

/-! ## The mutators keep the relation between subtree flags and counters -/

theorem tallyV_deletePoint {td tdd pdd : Bool} {size inv ddn : Int}
    (h : TallyV td tdd false pdd size inv ddn) :
    TallyV (if inv + 1 = size then true else td) tdd true pdd size (inv + 1) ddn := by
  unfold TallyV at h ⊢
  obtain ⟨⟨a1, a2⟩, ⟨b1, b2⟩, c, e1, e2, e3, e4⟩ := h
  have htd : td = false := by
    cases td
    · rfl
    · exact absurd (e1 rfl) Bool.false_ne_true
  have hne : inv ≠ size := fun he => by
    rw [a1.2 he] at htd
    exact absurd htd (by decide)
  subst htd
  refine ⟨⟨?_, a2⟩, ⟨by omega, by omega⟩, c, fun _ => rfl, e2, fun _ => rfl, ?_⟩
  · by_cases hc : inv + 1 = size
    · rw [if_pos hc]
      exact ⟨fun _ => hc, fun _ => rfl⟩
    · rw [if_neg hc]
      exact ⟨fun hf => absurd hf Bool.false_ne_true, fun he => absurd he hc⟩
  · intro ht
    exact absurd (e4 ht) Bool.false_ne_true

theorem tallyV_deleteCover {td tdd pd pdd : Bool} {size inv ddn : Int}
    (h : TallyV td tdd pd pdd size inv ddn) :
    TallyV true tdd true pdd size size ddn ∧ TallyV true true true true size size size := by
  unfold TallyV at h ⊢
  obtain ⟨⟨a1, a2⟩, ⟨b1, b2⟩, c, e1, e2, e3, e4⟩ := h
  have hsz : 0 ≤ size := le_trans b1 b2
  exact ⟨⟨⟨⟨fun _ => rfl, fun _ => rfl⟩, a2⟩, ⟨hsz, le_refl _⟩, c, fun _ => rfl, e2,
      fun _ => rfl, fun _ => rfl⟩,
    ⟨⟨fun _ => rfl, fun _ => rfl⟩, ⟨fun _ => rfl, fun _ => rfl⟩⟩, ⟨hsz, le_refl _⟩,
      ⟨hsz, le_refl _⟩, fun _ => rfl, fun _ => rfl, fun _ => rfl, fun _ => rfl⟩

theorem tallyV_addCover {td tdd pd pdd : Bool} {size inv ddn : Int}
    (h : TallyV td tdd pd pdd size inv ddn) :
    TallyV (false || tdd) tdd (false || pdd) pdd size ddn ddn := by
  unfold TallyV at h ⊢
  obtain ⟨⟨a1, a2⟩, b, c, e1, e2, e3, e4⟩ := h
  simp only [Bool.false_or]
  exact ⟨⟨a2, a2⟩, c, c, e2, e2, fun h => h, fun h => h⟩

theorem tallyInv_addByPoint (env : Env K) (p : PointType K) (allowRebuild : Bool) :
    ∀ (fuel : Nat) (t : KD_TREE_NODE K) (fatherAxis : Nat), TallyInv t →
    TallyInv (addByPoint env fuel t p allowRebuild fatherAxis)
  | fuel, nil, fa, _ => by
    have h : TallyInv (update (node { (initTreeNode : NodeFields K) with
        point := p, division_axis := (fa + 1) % 3 } nil nil)) :=
      tallyInv_update_node _ nil nil (fun h => (by cases h)) tallyInv_nil tallyInv_nil
    cases fuel <;> exact h
  | 0, node d l r, _, h => h
  | fuel + 1, node d l r, fa, h => by
    obtain ⟨h0, h1, h2⟩ := tallyInv_pushDownNode d l r h
    simp only [addByPoint]
    split
    · exact tallyInv_updateAndRebuild env allowRebuild _ _ _ (flagP_of_tallyP h0).1
        (tallyInv_addByPoint env p allowRebuild fuel _ _ h1) h2
    · exact tallyInv_updateAndRebuild env allowRebuild _ _ _ (flagP_of_tallyP h0).1 h1
        (tallyInv_addByPoint env p allowRebuild fuel _ _ h2)

theorem tallyInv_deleteByPoint (env : Env K) (p : PointType K) (allowRebuild : Bool) :
    ∀ (fuel : Nat) (t : KD_TREE_NODE K), TallyInv t →
    TallyInv (deleteByPoint env fuel t p allowRebuild)
  | _, nil, _ => by cases ‹Nat› <;> exact tallyInv_nil
  | 0, node d l r, h => h
  | fuel + 1, node d l r, h => by
    obtain ⟨h0, h1, h2⟩ := tallyInv_pushDownNode d l r h
    simp only [deleteByPoint]
    split
    · exact h
    · split
      · rename_i hm
        have hpd : (pushDownNode d l r).1.point_deleted = false := by
          simp only [Bool.and_eq_true, Bool.not_eq_true'] at hm
          exact hm.2
        refine ⟨?_, h1, h2⟩
        unfold TallyP at h0
        rw [hpd] at h0
        exact tallyV_deletePoint h0
      · split
        · exact tallyInv_updateAndRebuild env allowRebuild _ _ _ (flagP_of_tallyP h0).1
            (tallyInv_deleteByPoint env p allowRebuild fuel _ h1) h2
        · exact tallyInv_updateAndRebuild env allowRebuild _ _ _ (flagP_of_tallyP h0).1 h1
            (tallyInv_deleteByPoint env p allowRebuild fuel _ h2)

theorem tallyInv_deleteByRange (env : Env K) (b : BoxPointType K)
    (allowRebuild isDownsample : Bool) : ∀ (fuel : Nat) (t : KD_TREE_NODE K), TallyInv t →
    TallyInv (deleteByRange env fuel t b allowRebuild isDownsample).1
  | _, nil, _ => by cases ‹Nat› <;> exact tallyInv_nil
  | 0, node d l r, h => h
  | fuel + 1, node d l r, h => by
    obtain ⟨h0, h1, h2⟩ := tallyInv_pushDownNode d l r h
    simp only [deleteByRange]
    split
    · exact h
    · split
      · exact ⟨h0, h1, h2⟩
      · split
        · refine ⟨?_, h1, h2⟩
          cases isDownsample
          · exact (tallyV_deleteCover h0).1
          · exact (tallyV_deleteCover h0).2
        · refine tallyInv_updateAndRebuild env allowRebuild _ _ _ ?_
            (tallyInv_deleteByRange env b allowRebuild isDownsample fuel _ h1)
            (tallyInv_deleteByRange env b allowRebuild isDownsample fuel _ h2)
          split
          · exact fun _ => rfl
          · exact (flagP_of_tallyP h0).1

theorem tallyInv_addByRange (env : Env K) (b : BoxPointType K) (allowRebuild : Bool) :
    ∀ (fuel : Nat) (t : KD_TREE_NODE K), TallyInv t →
    TallyInv (addByRange env fuel t b allowRebuild)
  | _, nil, _ => by cases ‹Nat› <;> exact tallyInv_nil
  | 0, node d l r, h => h
  | fuel + 1, node d l r, h => by
    obtain ⟨h0, h1, h2⟩ := tallyInv_pushDownNode d l r h
    simp only [addByRange]
    split
    · exact ⟨h0, h1, h2⟩
    · split
      · exact ⟨tallyV_addCover h0, h1, h2⟩
      · refine tallyInv_updateAndRebuild env allowRebuild _ _ _ ?_
          (tallyInv_addByRange env b allowRebuild fuel _ h1)
          (tallyInv_addByRange env b allowRebuild fuel _ h2)
        split
        · exact fun hp => hp
        · exact (flagP_of_tallyP h0).1

theorem tallyInv_deletePoints (env : Env K) : ∀ (ps : List (PointType K))
    (t : KD_TREE_NODE K), TallyInv t → TallyInv (deletePoints env t ps)
  | [], _, h => h
  | p :: ps, t, h =>
    tallyInv_deletePoints env ps _ (tallyInv_deleteByPoint env p true _ t h)

theorem tallyInv_addPointBoxes (env : Env K) : ∀ (bs : List (BoxPointType K))
    (t : KD_TREE_NODE K), TallyInv t → TallyInv (addPointBoxes env t bs)
  | [], _, h => h
  | b :: bs, t, h =>
    tallyInv_addPointBoxes env bs _ (tallyInv_addByRange env b true _ t h)

theorem tallyInv_deletePointBoxesLoop (env : Env K) : ∀ (bs : List (BoxPointType K))
    (t : KD_TREE_NODE K) (c : Int), TallyInv t →
    TallyInv (deletePointBoxesLoop env t c bs).1
  | [], _, _, h => h
  | b :: bs, t, _, h =>
    tallyInv_deletePointBoxesLoop env bs _ _ (tallyInv_deleteByRange env b true false _ t h)

theorem tallyInv_addPointsStep (env : Env K) (t : KD_TREE_NODE K)
    (p : PointType K) (downsampleOn : Bool) (res : KD_TREE_NODE K × Int) (h : TallyInv t)
    (hres : addPointsStep env t p downsampleOn = some res) : TallyInv res.1 := by
  unfold addPointsStep at hres
  cases downsampleOn with
  | true =>
    simp only [if_true] at hres
    have hf : TallyInv (searchByRange t.height t (voxelOf env p) []).1 :=
      tallyInv_searchByRange _ _ _ _ h
    split at hres
    · have h1 : TallyInv (if (searchByRange t.height t (voxelOf env p) []).2.length > 0 then
          (deleteByRange env (searchByRange t.height t (voxelOf env p) []).1.height
            (searchByRange t.height t (voxelOf env p) []).1 (voxelOf env p) true true).1
          else (searchByRange t.height t (voxelOf env p) []).1) := by
        split
        · exact tallyInv_deleteByRange env _ true true _ _ hf
        · exact hf
      split at hres
      · cases hres
      · rename_i d l r heq
        rw [heq] at h1
        cases hres
        exact tallyInv_addByPoint env _ true _ _ _ h1
    · cases hres
      exact hf
  | false =>
    simp only [Bool.false_eq_true, if_false] at hres
    cases t with
    | nil => cases hres
    | node d l r =>
      cases hres
      exact tallyInv_addByPoint env p true _ _ _ h

theorem tallyInv_addPointsLoop (env : Env K) (downsampleOn : Bool) :
    ∀ (pts : List (PointType K)) (t : KD_TREE_NODE K) (c : Int) (res : KD_TREE_NODE K × Int),
    TallyInv t → addPointsLoop env downsampleOn pts t c = some res → TallyInv res.1
  | [], t, c, res, h, hres => by
    cases hres
    exact h
  | p :: ps, t, c, res, h, hres => by
    simp only [addPointsLoop] at hres
    split at hres
    · cases hres
    · rename_i r1 heq
      exact tallyInv_addPointsLoop env downsampleOn ps _ _ res
        (tallyInv_addPointsStep env t p downsampleOn r1 h heq) hres

/-- Every reachable state satisfies `TallyP` at every node. -/
theorem reachable_tally (env : Env K) (t : KD_TREE_NODE K)
    (hr : Reachable env t) : TallyInv t := by
  induction hr with
  | ofBuild m_rootNode pointCloud =>
    rw [build_eq]
    exact tallyInv_buildTree env _ _
  | afterAddPoints pointToAdd downsampleOn res _ hres ih =>
    exact tallyInv_addPointsLoop env downsampleOn pointToAdd _ 0 res ih hres
  | afterDeletePoints pointToDel _ ih => exact tallyInv_deletePoints env pointToDel _ ih
  | afterAddPointBoxes boxPoints _ ih => exact tallyInv_addPointBoxes env boxPoints _ ih
  | afterDeletePointBoxes boxPoints _ ih =>
    exact tallyInv_deletePointBoxesLoop env boxPoints _ 0 ih

/-- Claim C38: in every state reachable from `build` by `addPoints`, `deletePoints`,
`addPointBoxes` and `deletePointBoxes`, at every node `n`, on the fields as they are stored
in `n`: `n.tree_deleted` holds exactly when `n.invalid_point_num = n.TreeSize`, and
`n.tree_downsample_deleted` holds exactly when `n.down_del_num = n.TreeSize`.  No
assumption on `std::nth_element` is needed. -/
theorem reachable_subtree_flags_match_counters (env : Env K)
    (t : KD_TREE_NODE K) (hr : Reachable env t) :
    AllNodes (fun d _ _ => TreeFlagP d) t :=
  allNodes_imp (fun _ _ _ h => treeFlagP_of_tallyP h) t (reachable_tally env t hr)

/-- Witness for C38: the state after `build([(0,0,0),(1,0,0)])` and `delete_boxes` with a
box around both points is reachable; its root is `tree_deleted` and stores
`invalid_point_num = TreeSize = 2`. -/
theorem reachable_subtree_flags_match_counters_witness :
    Reachable defaultEnv boxDeletedTree ∧ treeDeleted boxDeletedTree = true ∧
    invalidNum boxDeletedTree = 2 ∧ size boxDeletedTree = 2 ∧
    AllNodes (fun d _ _ => TreeFlagP d) boxDeletedTree :=
  ⟨boxDeletedTree_reachable, by decide!, by decide!, by decide!,
    reachable_subtree_flags_match_counters defaultEnv boxDeletedTree boxDeletedTree_reachable⟩

/-! ## Replaying the log on a rebuilt subtree -/

theorem logEffect_perm {a b : List (PointType K)} (h : a.Perm b)
    (e : Operation_Logger_Type K) : (logEffect a e).Perm (logEffect b e) := by
  unfold logEffect
  split
  · exact h.cons _
  · exact h.filter _
  · exact h.filter _
  · exact h

theorem foldl_logEffect_perm : ∀ (L : List (Operation_Logger_Type K))
    {a b : List (PointType K)}, a.Perm b → (L.foldl logEffect a).Perm (L.foldl logEffect b)
  | [], _, _, h => h
  | e :: L, _, _, h => foldl_logEffect_perm L (logEffect_perm h e)

/-- On a tree with exact counters and range boxes, an `ADD_POINT`, `DELETE_BOX` or
`DOWNSAMPLE_DELETE` entry is carried out by `runOperation` with the effect `logEffect` on
the live points, and the counters and range boxes stay exact. -/
theorem runOperation_live (env : Env K) (hnth : NthPermutes env) (t : KD_TREE_NODE K)
    (e : Operation_Logger_Type K) (hc : CountInv t) (hr : RangeInv t)
    (he : e.op = .ADD_POINT ∨ e.op = .DELETE_BOX ∨ e.op = .DOWNSAMPLE_DELETE) :
    ∃ t', runOperation env t e = some t' ∧ CountInv t' ∧ RangeInv t' ∧
      (livePoints t').Perm (logEffect (livePoints t) e) := by
  unfold runOperation logEffect
  rcases he with he | he | he <;> rw [he] <;> simp only
  · exact ⟨_, rfl, (addByPoint_spec env hnth e.point false t.height t _ le_rfl hc hr).1,
      (addByPoint_spec env hnth e.point false t.height t _ le_rfl hc hr).2.1,
      (addByPoint_spec env hnth e.point false t.height t _ le_rfl hc hr).2.2.1⟩
  · obtain ⟨a1, a2, a3, _⟩ := deleteByRange_spec env hnth e.boxpoint false false t.height t
      le_rfl hc hr
    exact ⟨_, rfl, a1, a2, a3⟩
  · obtain ⟨a1, a2, a3, _⟩ := deleteByRange_spec env hnth e.boxpoint false true t.height t
      le_rfl hc hr
    exact ⟨_, rfl, a1, a2, a3⟩

theorem replay_live (env : Env K) (hnth : NthPermutes env) :
    ∀ (L : List (Operation_Logger_Type K)) (t : KD_TREE_NODE K), CountInv t → RangeInv t →
    (∀ e ∈ L, e.op = .ADD_POINT ∨ e.op = .DELETE_BOX ∨ e.op = .DOWNSAMPLE_DELETE) →
    ∃ t', replay env t L = some t' ∧ (livePoints t').Perm (L.foldl logEffect (livePoints t))
  | [], t, _, _, _ => ⟨t, rfl, List.Perm.refl _⟩
  | e :: L, t, hc, hr, hL => by
    obtain ⟨t1, h1, c1, r1, p1⟩ := runOperation_live env hnth t e hc hr
      (hL e (List.mem_cons_self _ _))
    obtain ⟨t2, h2, p2⟩ := replay_live env hnth L t1 c1 r1
      (fun x hx => hL x (List.mem_cons_of_mem _ hx))
    refine ⟨t2, ?_, p2.trans (foldl_logEffect_perm L p1)⟩
    show (runOperation env t e).bind _ = _
    rw [h1]
    exact h2

/-- The subtree built from the flattened live points of a tree has exact counters and range
boxes, and its live points are those of the tree. -/
theorem rebuiltSubtree_inv (env : Env K) (hnth : NthPermutes env) (t : KD_TREE_NODE K) :
    CountInv (rebuiltSubtree env t) ∧ RangeInv (rebuiltSubtree env t) ∧
      (livePoints (rebuiltSubtree env t)).Perm (livePoints t) := by
  unfold rebuiltSubtree
  simp only
  rw [flatten_snd _ _ _ le_rfl, List.nil_append]
  split
  · obtain ⟨hf, hp⟩ := buildTree_fresh env hnth (livePoints t).length (livePoints t) le_rfl
    refine ⟨countInv_fresh _ hf, rangeInv_fresh _ hf, ?_⟩
    rw [livePoints_fresh _ hf]
    exact hp
  · rename_i h
    have : livePoints t = [] := by
      cases hl : livePoints t with
      | nil => rfl
      | cons a b => rw [hl] at h; simp at h
    rw [this]
    exact ⟨countInv_nil, rangeInv_nil, List.Perm.refl _⟩

/-- Claim C39, amended: let `T` be a subtree with exact counters and range boxes once the
pending push-downs are applied (invariants 2 and 3 of the data model), and `L` a sequence
of `ADD_POINT`, `DELETE_BOX` and `DOWNSAMPLE_DELETE` log entries.  Then `runOperation` for
each entry of `L` in order returns both on `T` and on the tree built from the flattened
live points of `T`, the two results have the same live points with the same multiplicities,
and these are the live points of `T` after the effects of the entries.  The library routine
`std::nth_element` is taken to rearrange its slice. -/
theorem replay_on_rebuilt_subtree (env : Env K) (hnth : NthPermutes env) (T : KD_TREE_NODE K)
    (hc : CountInv T) (hr : RangeInv T) (L : List (Operation_Logger_Type K))
    (hL : ∀ e ∈ L, e.op = .ADD_POINT ∨ e.op = .DELETE_BOX ∨ e.op = .DOWNSAMPLE_DELETE) :
    ∃ t1 t2, replay env T L = some t1 ∧ replay env (rebuiltSubtree env T) L = some t2 ∧
      (livePoints t1).Perm (livePoints t2) ∧
      (livePoints t1).Perm (L.foldl logEffect (livePoints T)) := by
  obtain ⟨t1, h1, p1⟩ := replay_live env hnth L T hc hr hL
  obtain ⟨c2, r2, q2⟩ := rebuiltSubtree_inv env hnth T
  obtain ⟨t2, h2, p2⟩ := replay_live env hnth L _ c2 r2 hL
  exact ⟨t1, t2, h1, h2, p1.trans ((p2.trans (foldl_logEffect_perm L q2)).symm), p1⟩

/-- Witness for C39: on the state with twelve nodes of which seven are deleted, with the
log of an `ADD_POINT` of `(5,5,5)` and a `DELETE_BOX` around the origin. -/
theorem replay_on_rebuilt_subtree_witness :
    NthPermutes defaultEnv ∧ CountInv clusterFiveLive ∧ RangeInv clusterFiveLive ∧
    (∀ e ∈ [logEntry .ADD_POINT (pt 5 5 5) wideBox, logEntry .DELETE_BOX (pt 0 0 0) nearBox],
      e.op = .ADD_POINT ∨ e.op = .DELETE_BOX ∨ e.op = .DOWNSAMPLE_DELETE) ∧
    ∃ t1 t2,
      replay defaultEnv clusterFiveLive
        [logEntry .ADD_POINT (pt 5 5 5) wideBox, logEntry .DELETE_BOX (pt 0 0 0) nearBox] =
        some t1 ∧
      replay defaultEnv (rebuiltSubtree defaultEnv clusterFiveLive)
        [logEntry .ADD_POINT (pt 5 5 5) wideBox, logEntry .DELETE_BOX (pt 0 0 0) nearBox] =
        some t2 ∧
      (livePoints t1).Perm (livePoints t2) ∧
      (livePoints t1).Perm
        ([logEntry .ADD_POINT (pt 5 5 5) wideBox,
          logEntry .DELETE_BOX (pt 0 0 0) nearBox].foldl logEffect (livePoints clusterFiveLive)) :=
  ⟨nthPermutes_defaultEnv, clusterFiveLive_inv.1, clusterFiveLive_inv.2, by decide!,
    replay_on_rebuilt_subtree defaultEnv nthPermutes_defaultEnv clusterFiveLive
      clusterFiveLive_inv.1 clusterFiveLive_inv.2 _ (by decide!)⟩

theorem smallDeletedTree_inv : CountInv smallDeletedTree ∧ RangeInv smallDeletedTree := by
  obtain ⟨a1, _, a3, _⟩ := deletePoints_count (H := False) (R := True) (Q := False)
    defaultEnv nthPermutes_defaultEnv [pt 1 0 0] twoPointTree twoPointTree_inv.1
    (fun hF => hF.elim) (fun _ => twoPointTree_inv.2) (fun hF => hF.elim)
  exact ⟨a1, a3 trivial⟩

/-- Counterexample to C39 as stated: let `T` be the state after
`build([(0,0,0),(1,0,0)])` and `delete_points([(1,0,0)])`, which has exact counters and
range boxes, and `L` the single entry `ADD_BOX [(-1,-1,-1), (2,2,2)]`.  On `T` the entry
restores `(1,0,0)`, so the live points are `(0,0,0)` and `(1,0,0)`; the tree built from the
flattened live points of `T` holds `(0,0,0)` only, and the entry restores nothing there. -/
theorem replay_add_box_not_equivalent :
    CountInv smallDeletedTree ∧ RangeInv smallDeletedTree ∧
    (replay defaultEnv smallDeletedTree [logEntry .ADD_BOX (pt 0 0 0) wideBox]).map livePoints =
      some [pt 0 0 0, pt 1 0 0] ∧
    (replay defaultEnv (rebuiltSubtree defaultEnv smallDeletedTree)
      [logEntry .ADD_BOX (pt 0 0 0) wideBox]).map livePoints = some [pt 0 0 0] :=
  ⟨smallDeletedTree_inv.1, smallDeletedTree_inv.2, by decide!, by decide!⟩

/-- A `DELETE_POINT` entry need not have the same effect on a tree and on the tree built
from its flattened live points either: in the state after `build([(0,0,0)])` and
`add_points([(0,1,0),(1,0,0)])` the point `(0,0,0)` is at the root and the entry deletes it;
the rebuilt tree has `(0,1,0)` at the root and `(0,0,0)`, with the same `x`, in its left
subtree, where the descent by strict `<` does not look. -/
theorem replay_delete_point_differs :
    (replay defaultEnv cornerTree [logEntry .DELETE_POINT (pt 0 0 0) wideBox]).map livePoints =
      some [pt 0 1 0, pt 1 0 0] ∧
    (replay defaultEnv (rebuiltSubtree defaultEnv cornerTree)
      [logEntry .DELETE_POINT (pt 0 0 0) wideBox]).map livePoints =
      some [pt 0 1 0, pt 0 0 0, pt 1 0 0] :=
  ⟨by decide!, by decide!⟩

/-! ## The rebuild is always made inline -/

theorem size_gt_of_criterionCheck (env : Env K) (d : NodeFields K) (l r : KD_TREE_NODE K)
    (h : criterionCheck env (node d l r) = true) : Minimal_Unbalanced_Tree_Size < d.TreeSize := by
  by_contra hc
  simp only [criterionCheck] at h
  rw [if_pos (not_lt.1 hc)] at h
  exact absurd h Bool.false_ne_true

/-- On a subtree that stores at least `Minimal_Unbalanced_Tree_Size` nodes, `rebuild`
returns the tree built anew from the live points. -/
theorem rebuild_of_size (env : Env K) (hnth : NthPermutes env) (d : NodeFields K)
    (l r : KD_TREE_NODE K) (h : Minimal_Unbalanced_Tree_Size ≤ d.TreeSize) :
    Fresh (rebuild env (node d l r)) ∧
      (points (rebuild env (node d l r))).Perm (livePoints (node d l r)) := by
  simp only [rebuild]
  rw [if_neg (not_lt.2 h), flatten_snd _ _ _ le_rfl, List.nil_append]
  split
  · rename_i he
    have : livePoints (node d l r) = [] := by simpa using he
    rw [this]
    exact ⟨trivial, List.Perm.refl _⟩
  · rw [update_buildTree]
    exact buildTree_fresh env hnth _ _ le_rfl

/-- Claim C35, the behaviour of the code: when the tail of a mutator runs with
`allowRebuild = true` and `criterionCheck` holds on the updated subtree, the subtree is
rebuilt inline, whatever its size, `TreeSize ≥ 1500` included; `rebuild` has no branch on
`MULTI_THREAD_REBUILD_POINT_NUM` and never assigns `m_rebuildPtr`.  The subtree that the
mutator leaves is the tree built anew from the live points: no node of it is deleted, its
points are the live points of the old subtree, and the size it stores is their number.
The library routine `std::nth_element` is taken to rearrange its slice. -/
theorem mutator_rebuilds_inline_at_any_size (env : Env K) (hnth : NthPermutes env)
    (root : KD_TREE_NODE K) (hcrit : criterionCheck env (update root) = true) :
    updateAndRebuild env true root = rebuild env (update root) ∧
    Fresh (updateAndRebuild env true root) ∧
    (points (updateAndRebuild env true root)).Perm (livePoints (update root)) ∧
    size (updateAndRebuild env true root) = ((livePoints (update root)).length : Int) := by
  have h1 : updateAndRebuild env true root = rebuild env (update root) := by
    unfold updateAndRebuild
    simp only [Bool.true_and]
    rw [if_pos hcrit]
  rw [h1]
  cases root with
  | nil => exact absurd hcrit Bool.false_ne_true
  | node d l r =>
    have hs := size_gt_of_criterionCheck env _ l r hcrit
    obtain ⟨hf, hp⟩ := rebuild_of_size env hnth (updateFields d l.fields? r.fields?) l r
      (le_of_lt hs)
    refine ⟨rfl, hf, hp, ?_⟩
    show size (rebuild env (node (updateFields d l.fields? r.fields?) l r)) = _
    rw [size_fresh _ hf, hp.length_eq]
    rfl

/-- Witness for C35: in the state with twelve nodes of which seven are deleted,
`criterionCheck` holds on the root, and the tail of a mutator leaves a tree of the five
live points. -/
theorem mutator_rebuilds_inline_at_any_size_witness :
    NthPermutes defaultEnv ∧ criterionCheck defaultEnv (update clusterFiveLive) = true ∧
    size clusterFiveLive = 12 ∧
    size (updateAndRebuild defaultEnv true clusterFiveLive) =
      ((livePoints (update clusterFiveLive)).length : Int) ∧
    (livePoints (update clusterFiveLive)).length = 5 :=
  ⟨nthPermutes_defaultEnv, by decide!, by decide!,
    (mutator_rebuilds_inline_at_any_size defaultEnv nthPermutes_defaultEnv clusterFiveLive
      (by decide!)).2.2.2, by decide!⟩

/-! ## `add_boxes` and downsample-deleted points -/

theorem flagInv_addPointBoxes (env : Env K) : ∀ (bs : List (BoxPointType K))
    (t : KD_TREE_NODE K), FlagInv t → FlagInv (addPointBoxes env t bs)
  | [], _, h => h
  | b :: bs, t, h =>
    flagInv_addPointBoxes env bs _ (flagInv_addByRange env b true t.height t h)

/-- On stored fields that satisfy the flag implications, a point that the stored flags leave
visible is the point of a node that no pending push-down makes downsample-deleted: on the
way to it no node is `tree_deleted`, hence none is `tree_downsample_deleted`, and the node
itself is not `point_deleted`, hence not `point_downsample_deleted`. -/
theorem visible_subset_kept : ∀ (t : KD_TREE_NODE K) (f : NodeFields K → NodeFields K),
    (∀ x, (f x).tree_downsample_deleted = x.tree_downsample_deleted ∧
      (f x).point_downsample_deleted = x.point_downsample_deleted ∧ (f x).point = x.point) →
    FlagInv t → ∀ p ∈ visible t, p ∈ kept (pushAllFrom f t)
  | nil, _, _, _, _, h => by cases h
  | node s l r, f, hf, hinv, p, h => by
    by_cases htd : s.tree_deleted = true
    · rw [visible_of_treeDeleted s l r htd] at h
      cases h
    · obtain ⟨⟨hpdd, htdd⟩, hl, hr⟩ := hinv
      have htdd0 : (f s).tree_downsample_deleted = false := by
        rw [(hf s).1]
        cases hx : s.tree_downsample_deleted
        · rfl
        · exact absurd (htdd hx) htd
      have hg : ∀ (flag : Bool) (x : NodeFields K),
          ((if flag then pushFields (f s) else id) x).tree_downsample_deleted =
              x.tree_downsample_deleted ∧
            ((if flag then pushFields (f s) else id) x).point_downsample_deleted =
              x.point_downsample_deleted ∧
            ((if flag then pushFields (f s) else id) x).point = x.point := by
        intro flag x
        cases flag
        · exact ⟨rfl, rfl, rfl⟩
        · simp only [if_true, pushFields, htdd0, Bool.or_false, and_self]
      rw [visible_node s l r htd] at h
      show p ∈ (if (clearPush (f s)).point_downsample_deleted then []
        else [(clearPush (f s)).point]) ++ kept (pushAllFrom _ l) ++ kept (pushAllFrom _ r)
      rcases List.mem_append.1 h with h | h
      · rcases List.mem_append.1 h with h | h
        · apply List.mem_append_left
          apply List.mem_append_left
          by_cases hpd : s.point_deleted = true
          · rw [if_pos hpd] at h
            cases h
          · rw [if_neg hpd] at h
            have h1 : (clearPush (f s)).point_downsample_deleted = false := by
              show (f s).point_downsample_deleted = false
              rw [(hf s).2.1]
              cases hx : s.point_downsample_deleted
              · rfl
              · exact absurd (hpdd hx) hpd
            have h2 : (clearPush (f s)).point = s.point := (hf s).2.2
            rw [h1, h2]
            exact h
        · apply List.mem_append_left
          apply List.mem_append_right
          exact visible_subset_kept l _ (hg _) hl p h
      · apply List.mem_append_right
        exact visible_subset_kept r _ (hg _) hr p h

theorem visible_subset_keptPoints (t : KD_TREE_NODE K) (h : FlagInv t) :
    ∀ p ∈ visible t, p ∈ keptPoints t :=
  visible_subset_kept t id (fun _ => ⟨rfl, rfl, rfl⟩) h

/-- Claim C16: on a tree with exact counters whose stored fields satisfy the flag
implications (`point_downsample_deleted` implies `point_deleted`, `tree_downsample_deleted`
implies `tree_deleted`; every state reached from a `build` has both properties), `add_boxes`
restores no downsample-deleted point.  The points of the nodes that are not
`point_downsample_deleted` afterwards are among those before (pending push-downs applied,
as multisets), every live point afterwards is the point of a node that is not
`point_downsample_deleted`, and a point held only by downsample-deleted nodes before the
call is in no search result after it: not in a box search, not in a radius search, and not
in a `nearestSearch`, which reads the stored flags without pushing down. -/
theorem addPointBoxes_keeps_downsample_deleted (env : Env K) (hnth : NthPermutes env)
    (t : KD_TREE_NODE K) (boxPoints : List (BoxPointType K)) (hc : CountInv t)
    (hf : FlagInv t) :
    (keptPoints (addPointBoxes env t boxPoints)).Subperm (keptPoints t) ∧
    (livePoints (addPointBoxes env t boxPoints)).Sublist
      (keptPoints (addPointBoxes env t boxPoints)) ∧
    (∀ p : PointType K, p ∉ keptPoints t →
      p ∉ livePoints (addPointBoxes env t boxPoints) ∧
      (∀ b : BoxPointType K, p ∉ (boxSearch (addPointBoxes env t boxPoints) b).2) ∧
      (∀ (sqrt : K → K) (c : PointType K) (radius : K),
        p ∉ (radiusSearch sqrt (addPointBoxes env t boxPoints) c radius).2) ∧
      (∀ (q : PointType K) (k : Nat) (maxDist : Option K),
        p ∉ (nearestSearch (addPointBoxes env t boxPoints) q k maxDist).2.1)) := by
  obtain ⟨h1, _, h3⟩ := addPointBoxes_count (H := False) env hnth boxPoints t hc
    (fun hF => hF.elim)
  have h2 := livePoints_sublist_keptPoints _ h1
  refine ⟨h3, h2, ?_⟩
  intro p hp
  have hlive : p ∉ livePoints (addPointBoxes env t boxPoints) :=
    fun hl => hp (h3.subset (h2.subset hl))
  obtain ⟨s1, s2⟩ := search_results_live (addPointBoxes env t boxPoints) p
  refine ⟨hlive, fun b hb => hlive (s1 b hb), fun sqrt c radius hb => hlive (s2 sqrt c radius hb),
    ?_⟩
  intro q k maxDist hb
  exact hp (h3.subset (visible_subset_keptPoints _ (flagInv_addPointBoxes env boxPoints t hf) p
    (nearestSearch_results_visible _ q k maxDist p hb)))

/-- Witness for C16: in the state after `build([(0,0,0),(1,0,0)])` and a downsampling
`add_points([(0.05,0.05,0.05)])` the point `(0,0,0)` is held by a downsample-deleted node
only; `add_boxes` with a box around all three points leaves it out of the live points, of
the box search with that box and of the two nearest neighbours of the origin. -/
theorem addPointBoxes_keeps_downsample_deleted_witness :
    NthPermutes defaultEnv ∧ CountInv downsampledTree ∧ FlagInv downsampledTree ∧
      (pt 0 0 0 ∈ points downsampledTree ∧ pointInBox wideBox (pt 0 0 0) = true ∧
        pt 0 0 0 ∉ keptPoints downsampledTree) ∧
      pt 0 0 0 ∉ livePoints (addPointBoxes defaultEnv downsampledTree [wideBox]) ∧
      pt 0 0 0 ∉ (boxSearch (addPointBoxes defaultEnv downsampledTree [wideBox]) wideBox).2 ∧
      pt 0 0 0 ∉ (nearestSearch (addPointBoxes defaultEnv downsampledTree [wideBox])
        (pt 0 0 0) 2 none).2.1 :=
  ⟨nthPermutes_defaultEnv,
    (reachable_inv defaultEnv nthPermutes_defaultEnv _ downsampledTree_reachable).1,
    by unfold FlagInv; decide!,
    by decide!,
    ((addPointBoxes_keeps_downsample_deleted defaultEnv nthPermutes_defaultEnv
      downsampledTree [wideBox]
      (reachable_inv defaultEnv nthPermutes_defaultEnv _ downsampledTree_reachable).1
      (by unfold FlagInv; decide!)).2.2 (pt 0 0 0) (by decide!)).1,
    ((addPointBoxes_keeps_downsample_deleted defaultEnv nthPermutes_defaultEnv
      downsampledTree [wideBox]
      (reachable_inv defaultEnv nthPermutes_defaultEnv _ downsampledTree_reachable).1
      (by unfold FlagInv; decide!)).2.2 (pt 0 0 0) (by decide!)).2.1 wideBox,
    ((addPointBoxes_keeps_downsample_deleted defaultEnv nthPermutes_defaultEnv
      downsampledTree [wideBox]
      (reachable_inv defaultEnv nthPermutes_defaultEnv _ downsampledTree_reachable).1
      (by unfold FlagInv; decide!)).2.2 (pt 0 0 0) (by decide!)).2.2.2 (pt 0 0 0) 2 none⟩

/-! ## `add_points` without downsampling, whatever the range boxes -/

theorem covered_mem_undeleted (p : PointType K) : ∀ u : KD_TREE_NODE K, Covered p u →
    p ∈ undeleted u
  | nil, h => h.elim
  | node d l r, h => by
    obtain ⟨_, h | h | h⟩ := h
    · simp only [undeleted, List.mem_append]
      left; left
      rw [h.2, ← h.1]
      simp
    · simp only [undeleted, List.mem_append]
      exact Or.inl (Or.inr (covered_mem_undeleted p l h))
    · simp only [undeleted, List.mem_append]
      exact Or.inr (covered_mem_undeleted p r h)

theorem covered_mem_livePoints (p : PointType K) (t : KD_TREE_NODE K)
    (h : Covered p (pushAll t)) : p ∈ livePoints t :=
  covered_mem_undeleted p _ h

theorem covered_node (p : PointType K) (d : NodeFields K) (l r : KD_TREE_NODE K) :
    Covered p (pushAll (node d l r)) ↔
      inRange d p ∧ ((d.point = p ∧ d.point_deleted = false) ∨
        Covered p (pushAll (pushDownNode d l r).2.1) ∨
        Covered p (pushAll (pushDownNode d l r).2.2)) := by
  rw [pushAll_node]
  exact Iff.rfl

theorem covered_of_fresh (p : PointType K) : ∀ t : KD_TREE_NODE K, Fresh t → p ∈ points t →
    Covered p t
  | nil, _, h => by cases h
  | node d l r, hf, h => by
    obtain ⟨⟨h1, _, _, _, _, _, _, _, _, h10⟩, hl, hr⟩ := hf
    refine ⟨h10 p h, ?_⟩
    simp only [points, List.mem_cons, List.mem_append] at h
    rcases h with h | h | h
    · exact Or.inl ⟨h.symm, h1⟩
    · exact Or.inr (Or.inl (covered_of_fresh p l hl h))
    · exact Or.inr (Or.inr (covered_of_fresh p r hr h))

theorem covered_fresh (p : PointType K) (t : KD_TREE_NODE K) (hf : Fresh t)
    (h : p ∈ points t) : Covered p (pushAll t) := by
  rw [pushAll_fresh t hf]
  exact covered_of_fresh p t hf h

theorem treeDeleted_false_of_covered (p : PointType K) (d : NodeFields K)
    (l r : KD_TREE_NODE K) (hc : CountInv (node d l r))
    (h : Covered p (pushAll (node d l r))) : d.tree_deleted = false := by
  cases htd : d.tree_deleted
  · rfl
  · have := covered_mem_livePoints p _ h
    rw [livePoints_of_treeDeleted _ hc htd] at this
    cases this

/-- The node that a mutator hands to `update` comes out with a range box that contains its
own point, unless deleted, and every point covered in a son. -/
theorem covered_update (d : NodeFields K) (l r : KD_TREE_NODE K)
    (hl : SonOK d.need_push_down_to_left l) (hr : SonOK d.need_push_down_to_right r)
    (hcl : CountInv l) (hcr : CountInv r) (p : PointType K)
    (h : (d.point = p ∧ d.point_deleted = false) ∨ Covered p (pushAll l) ∨
      Covered p (pushAll r)) :
    Covered p (pushAll (update (node d l r))) := by
  rw [pushAll_update d l r hl hr]
  refine ⟨?_, ?_⟩
  · show inRange (updateFields d l.fields? r.fields?) p
    rcases h with h | h | h
    · rw [← h.1]
      exact update_inRange_point d l r (Or.inr h.2)
    · cases l with
      | nil => exact h.elim
      | node ld a b =>
        exact update_inRange_left d ld a b r p
          (Or.inr (treeDeleted_false_of_covered p ld a b hcl h)) ((covered_node p ld a b).1 h).1
    · cases r with
      | nil => exact h.elim
      | node rd a b =>
        exact update_inRange_right d rd l a b p
          (Or.inr (treeDeleted_false_of_covered p rd a b hcr h)) ((covered_node p rd a b).1 h).1
  · rcases h with h | h | h
    · exact Or.inl ⟨h.1, h.2⟩
    · exact Or.inr (Or.inl h)
    · exact Or.inr (Or.inr h)

theorem covered_rebuild (env : Env K) (hnth : NthPermutes env) (t : KD_TREE_NODE K)
    (p : PointType K) (h : Covered p (pushAll t)) : Covered p (pushAll (rebuild env t)) := by
  rcases rebuild_spec env hnth t with e | ⟨hf, hp⟩
  · rw [e]; exact h
  · exact covered_fresh p _ hf (hp.symm.subset (covered_mem_livePoints p t h))

theorem covered_updateAndRebuild (env : Env K) (hnth : NthPermutes env) (allowRebuild : Bool)
    (d : NodeFields K) (l r : KD_TREE_NODE K)
    (hl : SonOK d.need_push_down_to_left l) (hr : SonOK d.need_push_down_to_right r)
    (hcl : CountInv l) (hcr : CountInv r) (p : PointType K)
    (h : (d.point = p ∧ d.point_deleted = false) ∨ Covered p (pushAll l) ∨
      Covered p (pushAll r)) :
    Covered p (pushAll (updateAndRebuild env allowRebuild (node d l r))) := by
  have hu := covered_update d l r hl hr hcl hcr p h
  unfold updateAndRebuild
  simp only
  split
  · exact covered_rebuild env hnth _ p hu
  · exact hu

/-- With enough fuel and on a tree with exact counters, whatever its range boxes,
`addByPoint` keeps the counters exact, adds exactly the new point to the live points, and
leaves the new point, and every point that was covered, covered. -/
theorem addByPoint_covered (env : Env K) (hnth : NthPermutes env) (p : PointType K)
    (allowRebuild : Bool) : ∀ (fuel : Nat) (t : KD_TREE_NODE K) (fatherAxis : Nat),
    t.height ≤ fuel → CountInv t →
    CountInv (addByPoint env fuel t p allowRebuild fatherAxis) ∧
    (livePoints (addByPoint env fuel t p allowRebuild fatherAxis)).Perm (p :: livePoints t) ∧
    (∀ p', p' = p ∨ Covered p' (pushAll t) →
      Covered p' (pushAll (addByPoint env fuel t p allowRebuild fatherAxis))) ∧
    (t.isNull = true → Fresh (addByPoint env fuel t p allowRebuild fatherAxis))
  | fuel, nil, fa, _, _ => by
    have hf : Fresh (addByPoint env fuel nil p allowRebuild fa) := by
      cases fuel <;> exact fresh_update_init p ((fa + 1) % 3) nil nil trivial trivial
    have hp : points (addByPoint env fuel nil p allowRebuild fa) = [p] := by
      cases fuel <;> rfl
    refine ⟨countInv_fresh _ hf, ?_, ?_, fun _ => hf⟩
    · rw [livePoints_fresh _ hf, hp]
      exact List.Perm.refl _
    · intro p' h
      rcases h with h | h
      · exact covered_fresh p' _ hf (by rw [hp, h]; exact List.mem_singleton_self _)
      · exact h.elim
  | 0, node d l r, _, h, _ => by simp [height] at h
  | fuel + 1, node d l r, fa, h, hc => by
    obtain ⟨hagg, hcl, hcr⟩ := (countInv_node d l r).1 hc
    have hflag : (pushDownNode d l r).1.point_downsample_deleted = true →
        (pushDownNode d l r).1.point_deleted = true := by simpa using hagg.2.2.2.2.2
    simp only [addByPoint]
    split
    · obtain ⟨i1, i2, i3, i4⟩ := addByPoint_covered env hnth p allowRebuild fuel
        (pushDownNode d l r).2.1 (pushDownNode d l r).1.division_axis (height_left_le h) hcl
      have sl : SonOK (pushDownNode d l r).1.need_push_down_to_left
          (addByPoint env fuel (pushDownNode d l r).2.1 p allowRebuild
            (pushDownNode d l r).1.division_axis) := by
        cases hn : (pushDownNode d l r).2.1.isNull
        · left
          intro _
          rw [pushDownNode_need_left]
          rw [pushDownNode_snd_fst, isNull_pushSon] at hn
          rw [hn, Bool.and_false]
        · right; exact i4 hn
      obtain ⟨u1, _, _, _, u3, _⟩ := updateAndRebuild_count (H := False) (R := False)
        (Q := False) env hnth allowRebuild _ _ _ sl
        (sonOK_pushed_right d l r) i1 hcr (fun hF => hF.elim) (fun hF => hF.elim)
        (fun hF => hF.elim) (fun hF => hF.elim) (fun hF => hF.elim) (fun hF => hF.elim) hflag
      refine ⟨u1, ?_, ?_, fun hn => by simp [isNull] at hn⟩
      · refine u3.trans ?_
        rw [livePoints_node d l r, pushDownNode_point_deleted, pushDownNode_point]
        refine (List.Perm.append_right _ (List.Perm.append_left _ i2)).trans ?_
        rw [List.append_assoc, List.append_assoc]
        exact List.perm_middle
      · intro p' hp'
        apply covered_updateAndRebuild env hnth allowRebuild _ _ _ sl
          (sonOK_pushed_right d l r) i1 hcr
        rcases hp' with hp' | hp'
        · exact Or.inr (Or.inl (i3 p' (Or.inl hp')))
        · rcases ((covered_node p' d l r).1 hp').2 with h1 | h1 | h1
          · left
            rw [pushDownNode_point, pushDownNode_point_deleted]
            exact h1
          · exact Or.inr (Or.inl (i3 p' (Or.inr h1)))
          · exact Or.inr (Or.inr h1)
    · obtain ⟨i1, i2, i3, i4⟩ := addByPoint_covered env hnth p allowRebuild fuel
        (pushDownNode d l r).2.2 (pushDownNode d l r).1.division_axis (height_right_le h) hcr
      have sr : SonOK (pushDownNode d l r).1.need_push_down_to_right
          (addByPoint env fuel (pushDownNode d l r).2.2 p allowRebuild
            (pushDownNode d l r).1.division_axis) := by
        cases hn : (pushDownNode d l r).2.2.isNull
        · left
          intro _
          rw [pushDownNode_need_right]
          rw [pushDownNode_snd_snd, isNull_pushSon] at hn
          rw [hn, Bool.and_false]
        · right; exact i4 hn
      obtain ⟨u1, _, _, _, u3, _⟩ := updateAndRebuild_count (H := False) (R := False)
        (Q := False) env hnth allowRebuild _ _ _
        (sonOK_pushed_left d l r) sr hcl i1 (fun hF => hF.elim) (fun hF => hF.elim)
        (fun hF => hF.elim) (fun hF => hF.elim) (fun hF => hF.elim) (fun hF => hF.elim) hflag
      refine ⟨u1, ?_, ?_, fun hn => by simp [isNull] at hn⟩
      · refine u3.trans ?_
        rw [livePoints_node d l r, pushDownNode_point_deleted, pushDownNode_point]
        refine (List.Perm.append_left _ i2).trans ?_
        exact List.perm_middle
      · intro p' hp'
        apply covered_updateAndRebuild env hnth allowRebuild _ _ _
          (sonOK_pushed_left d l r) sr hcl i1
        rcases hp' with hp' | hp'
        · exact Or.inr (Or.inr (i3 p' (Or.inl hp')))
        · rcases ((covered_node p' d l r).1 hp').2 with h1 | h1 | h1
          · left
            rw [pushDownNode_point, pushDownNode_point_deleted]
            exact h1
          · exact Or.inr (Or.inl h1)
          · exact Or.inr (Or.inr (i3 p' (Or.inr h1)))

theorem mem_searchByRange_of_mem (p : PointType K) (fuel : Nat) (t : KD_TREE_NODE K)
    (b : BoxPointType K) (storage : List (PointType K)) (h : t.height ≤ fuel)
    (hp : p ∈ storage) : p ∈ (searchByRange fuel t b storage).2 := by
  obtain ⟨s, e, _⟩ := searchByRange_sublist fuel t b storage h
  rw [e]
  exact List.mem_append_left _ hp

/-- With enough fuel, a box search for a box that holds a covered point returns the point,
whatever the range boxes elsewhere. -/
theorem searchByRange_covered (p : PointType K) (b : BoxPointType K)
    (hb : pointInBox b p = true) : ∀ (fuel : Nat) (t : KD_TREE_NODE K)
    (storage : List (PointType K)), t.height ≤ fuel → Covered p (pushAll t) →
    p ∈ (searchByRange fuel t b storage).2
  | _, nil, _, _, h => h.elim
  | 0, node d l r, _, h, _ => by simp [height] at h
  | fuel + 1, node d l r, storage, h, hc => by
    obtain ⟨hin, hcase⟩ := (covered_node p d l r).1 hc
    simp only [searchByRange]
    split
    · rename_i hm
      have := not_pointInBox_of_boxMisses b _ p hm ((inRange_pushDownNode d l r p).2 hin)
      rw [hb] at this
      cases this
    · split
      · have hh : (node (pushDownNode d l r).1 (pushDownNode d l r).2.1
            (pushDownNode d l r).2.2).height ≤ fuel + 1 := by
          simp only [height, height_pushDownNode_left, height_pushDownNode_right]
          simpa [height] using h
        rw [flatten_snd _ _ _ hh, livePoints_congr (pushAll_pushDownNode d l r)]
        exact List.mem_append_right _ (covered_mem_livePoints p _ hc)
      · rcases hcase with h1 | h1 | h1
        · apply mem_searchByRange_of_mem p fuel _ b _ (height_right_le h)
          apply mem_searchByRange_of_mem p fuel _ b _ (height_left_le h)
          rw [pushDownNode_point, pushDownNode_point_deleted, h1.1, h1.2, hb]
          simp
        · apply mem_searchByRange_of_mem p fuel _ b _ (height_right_le h)
          exact searchByRange_covered p b hb fuel _ _ (height_left_le h) h1
        · exact searchByRange_covered p b hb fuel _ _ (height_right_le h) h1

/-- The loop of `addPoints` without downsampling, started on a non-null root with exact
counters: it never meets a null root, returns the counter as it was, inserts every point,
and leaves the new points and the points of `S`, covered before, covered. -/
theorem addPointsLoop_covered (env : Env K) (hnth : NthPermutes env) :
    ∀ (pts : List (PointType K)) (t : KD_TREE_NODE K) (c : Int) (S : List (PointType K)),
    t.isNull = false → CountInv t → (∀ p ∈ S, Covered p (pushAll t)) →
    ∃ t1, addPointsLoop env false pts t c = some (t1, c) ∧ t1.isNull = false ∧
      CountInv t1 ∧ (livePoints t1).Perm (pts ++ livePoints t) ∧
      ∀ p ∈ S ++ pts, Covered p (pushAll t1)
  | [], t, c, S, hn, hc, hS =>
    ⟨t, rfl, hn, hc, List.Perm.refl _, by rw [List.append_nil]; exact hS⟩
  | p :: ps, t, c, S, hn, hc, hS => by
    cases t with
    | nil => simp [isNull] at hn
    | node d l r =>
      obtain ⟨a1, a2, a3, _⟩ := addByPoint_covered env hnth p true (node d l r).height
        (node d l r) d.division_axis le_rfl hc
      have hne : (addByPoint env (node d l r).height (node d l r) p true d.division_axis).isNull
          = false := by
        apply isNull_false_of_livePoints_ne_nil
        intro he
        rw [he] at a2
        exact absurd a2.symm.eq_nil (List.cons_ne_nil _ _)
      obtain ⟨t1, e1, e2, e3, e4, e5⟩ := addPointsLoop_covered env hnth ps _ (c + 0)
        (S ++ [p]) hne a1 (by
          intro p' hp'
          rcases List.mem_append.1 hp' with h | h
          · exact a3 p' (Or.inr (hS p' h))
          · exact a3 p' (Or.inl (List.mem_singleton.1 h)))
      refine ⟨t1, ?_, e2, e3, ?_, ?_⟩
      · simp only [addPointsLoop, addPointsStep, Bool.false_eq_true, if_false]
        rw [e1, add_zero]
      · refine e4.trans ?_
        refine (List.Perm.append_left _ a2).trans ?_
        exact List.perm_middle
      · intro p' hp'
        apply e5
        simpa [List.append_assoc] using hp'

/-- Claim C9: on a non-empty tree with exact counters (every state reached from a `build`
has them), whatever its range boxes, `add_points(P, downsample = false)` completes,
`validnum()` grows by `|P|`, every point of `P` is returned by every box search whose box
contains it, every point that was live is still live, the live points are those of before
and `P`, and the counters stay exact. -/
theorem addPoints_inserts_every_point (env : Env K) (hnth : NthPermutes env)
    (t : KD_TREE_NODE K) (hn : t.isNull = false) (hc : CountInv t)
    (pointToAdd : List (PointType K)) :
    ∃ t1, addPoints env t pointToAdd false = some (t1, 0) ∧
      validnum t1 = validnum t + (pointToAdd.length : Int) ∧
      (∀ p ∈ pointToAdd, ∀ b : BoxPointType K, pointInBox b p = true →
        p ∈ (boxSearch t1 b).2) ∧
      (∀ q ∈ livePoints t, q ∈ livePoints t1) ∧
      (livePoints t1).Perm (pointToAdd ++ livePoints t) ∧ CountInv t1 := by
  obtain ⟨t1, e1, _, e3, e4, e5⟩ := addPointsLoop_covered env hnth pointToAdd t 0 [] hn hc
    (fun p hp => by cases hp)
  refine ⟨t1, e1, ?_, ?_, ?_, e4, e3⟩
  · rw [validnum_eq_length_livePoints _ e3, validnum_eq_length_livePoints _ hc, e4.length_eq,
      List.length_append]
    push_cast
    ring
  · intro p hp b hb
    exact searchByRange_covered p b hb t1.height t1 [] le_rfl (e5 p (by simpa using hp))
  · intro q hq
    exact e4.mem_iff.2 (List.mem_append_right _ hq)

theorem restoredTree_countInv : CountInv restoredTree :=
  (reachable_inv defaultEnv nthPermutes_defaultEnv _ restoredTree_reachable).1

/-- Witness for C9: the state after `build([(0,0,0),(1,0,0)])`, `delete_points([(1,0,0)])`
and `add_boxes` around `(0,0,0)` has exact counters but a range box at the root that leaves
out the live point `(1,0,0)`; adding `(0,1,0)` without downsampling gives a tree with
`validnum() = 3` whose box searches return the new point. -/
theorem addPoints_inserts_every_point_witness :
    NthPermutes defaultEnv ∧ restoredTree.isNull = false ∧ CountInv restoredTree ∧
      ¬ RangeInv restoredTree ∧
      (∃ t1, addPoints defaultEnv restoredTree [pt 0 1 0] false = some (t1, 0) ∧
        validnum t1 = validnum restoredTree + 1 ∧
        (∀ p ∈ [pt 0 1 0], ∀ b : BoxPointType ℚ, pointInBox b p = true →
          p ∈ (boxSearch t1 b).2) ∧
        (∀ q ∈ livePoints restoredTree, q ∈ livePoints t1) ∧
        (livePoints t1).Perm ([pt 0 1 0] ++ livePoints restoredTree) ∧
        CountInv t1) :=
  ⟨nthPermutes_defaultEnv, by decide!, restoredTree_countInv, by unfold RangeInv; decide!,
    addPoints_inserts_every_point defaultEnv nthPermutes_defaultEnv restoredTree (by decide!)
      restoredTree_countInv [pt 0 1 0]⟩

/-! ## A pending push-down in the k-nearest-neighbour search -/

theorem rewokenTree_reachable :
    Reachable defaultEnv (addPointBoxes defaultEnv boxDeletedTree [wideBox]) :=
  Reachable.afterAddPointBoxes [wideBox]
    (Reachable.afterDeletePointBoxes [wideBox]
      (Reachable.ofBuild nil [pt 0 0 0, pt 1 0 0]))

/-- A pending push-down that `search` does not carry out: after `build([(0,0,0),(1,0,0)])`,
`delete_boxes` and `add_boxes` with a box around both points, both points are live, the
counters are exact and the range boxes contain the live points; the restoring mark has
reached the root only, the son still stores its deletion, and `nearestSearch` with `k = 2`
returns the point of the root alone.  The box search, which pushes down, returns both. -/
theorem nearestSearch_skips_pending_push :
    livePoints (addPointBoxes defaultEnv boxDeletedTree [wideBox]) = [pt 0 0 0, pt 1 0 0] ∧
      CountInv (addPointBoxes defaultEnv boxDeletedTree [wideBox]) ∧
      RangeInv (addPointBoxes defaultEnv boxDeletedTree [wideBox]) ∧
      noPendingPush (addPointBoxes defaultEnv boxDeletedTree [wideBox]) = false ∧
      (nearestSearch (addPointBoxes defaultEnv boxDeletedTree [wideBox]) (pt 0 0 0) 2 none).2.1 =
        [pt 0 0 0] ∧
      (boxSearch (addPointBoxes defaultEnv boxDeletedTree [wideBox]) wideBox).2 =
        [pt 0 0 0, pt 1 0 0] :=
  ⟨by decide!, (reachable_inv defaultEnv nthPermutes_defaultEnv _ rewokenTree_reachable).1,
    by unfold RangeInv; decide!, by decide!, by decide!, by decide!⟩

end IkdTree
